import Mathlib

/-!
# go-kelips: tuple store, contact directories, affinity groups and the node

A shallow embedding of the Go sources (`tuples.go`, `contacts.go`,
`gossip_contacts.go`, `group.go`, `kelips.go`, `utils.go`, `config.go`,
`gossip_delegate.go`, `gossip_tuples.go`).

Modelling conventions.

* `*Tuple` pointers are addresses into an explicit `Heap`; the store's
  `map[string]*Tuple` maps key bytes to addresses, so aliasing between a
  pointer handed out by the store and the stored object is visible.
* A `[]byte` is kept by value inside the object that holds it.
* `int64` / `int` values are integers; every arithmetic operation of the source
  on them goes through `wrapInt64` (Go wraps on overflow). The counters of the
  store operations, bounded by the length of a slice or map, are naturals.
* `time.Now().UnixNano()` is the parameter `now` of an operation, which runs
  under the store's lock: one clock reading per operation.
* A `range` over a Go map visits the entries in an unspecified order; where the
  result depends on that order it is taken from a `RangeOrder`.
* The calls into package `net` are the fields of a `Net`; a panic of the source
  is the result `none`. Of `strconv` and `strings` the functions used are
  written out (`Itoa`, `Atoi`, `lastIndexOf`).
* The transport of a group is an oracle for what the remote side answers. A
  network of nodes whose transport delivers is `netTransport`: it answers from
  the state the nodes are in when the call is made. Home groups that forward
  lookups to one another are reached through `homeTransport`.
* The address `remote.String()` handed to the delegate of a state exchange is
  the parameter `remote`.
-/

namespace GoKelips

/-! ## Machine integers, bytes -/

/-- Two's complement wrap-around of a 64 bit signed integer. -/
def wrapInt64 (x : Int) : Int := (x + 2 ^ 63) % 2 ^ 64 - 2 ^ 63

/-- Largest value of an `int64`. -/
def maxInt64 : Int := 2 ^ 63 - 1

/-- Smallest value of an `int64`. -/
def minInt64 : Int := -(2 ^ 63)

/-- Membership in the range of `int64`. -/
def isInt64 (x : Int) : Prop := minInt64 ≤ x ∧ x ≤ maxInt64

instance (x : Int) : Decidable (isInt64 x) := by
  unfold isInt64; exact inferInstance

abbrev Byte := Fin 256

abbrev Bytes := List Byte

/-- Builtin `copy(dst, src)`: the first `min(len(dst), len(src))` bytes of `dst`
are overwritten with those of `src`. -/
def copy (dst src : Bytes) : Bytes := src.take dst.length ++ dst.drop src.length

/-- Conversion `[]byte(s)`: the UTF-8 encoding of the string. -/
def bytesOf (s : String) : Bytes :=
  (s.toList.flatMap String.utf8EncodeChar).map (fun u => Fin.ofNat u.toNat)

/-! ## tuples.go -/

/-- Address of a `Tuple` object (`*Tuple`). -/
abbrev Ref := Nat

/-- Tuple holds a key to host mapping along with the heartbeat count. -/
structure Tuple where
  Key : Bytes
  Host : String
  heartbeats : Int
  lastseen : Int
deriving DecidableEq, Inhabited

/-- Object memory: the `Tuple` objects allocated so far, by address. -/
structure Heap where
  objs : List Tuple
deriving DecidableEq

/-- Read through a pointer. Every pointer the program holds addresses an
allocated object; the default is only returned for an address that was never
allocated. -/
def Heap.deref (h : Heap) (r : Ref) : Tuple := h.objs.getD r default

/-- Write through a pointer. -/
def Heap.store (h : Heap) (r : Ref) (t : Tuple) : Heap := ⟨h.objs.set r t⟩

/-- Allocation `&Tuple{...}`: the new object and its address. -/
def Heap.alloc (h : Heap) (t : Tuple) : Heap × Ref := (⟨h.objs ++ [t]⟩, h.objs.length)

/-- Whether the address holds an allocated object. -/
def Heap.valid (h : Heap) (r : Ref) : Prop := r < h.objs.length

instance (h : Heap) (r : Ref) : Decidable (h.valid r) := by
  unfold Heap.valid; exact inferInstance

/-- Method `Clone` of `*Tuple`, `tuples.go` lines 21-30. The copy `tuple` is
built (fresh key array, same host and counters) and then the receiver `t` is
returned; the unreferenced copy is not kept in the heap. -/
def Tuple.Clone (heap : Heap) (t : Ref) : Ref :=
  let old := heap.deref t
  let tuple : Tuple :=
    { Key := copy (List.replicate old.Key.length 0) old.Key
      Host := old.Host
      heartbeats := old.heartbeats
      lastseen := old.lastseen }
  let _ := tuple
  t

/-- Method `ping` of `*Tuple`: `t.heartbeats++; t.lastseen = now`. -/
def Tuple.ping (heap : Heap) (t : Ref) (now : Int) : Heap :=
  let old := heap.deref t
  heap.store t { old with heartbeats := wrapInt64 (old.heartbeats + 1), lastseen := now }

/-- InmemTuples is the in-memory tuple store: `m map[string]*Tuple`. -/
structure InmemTuples where
  m : AList (fun _ : Bytes => Ref)
deriving DecidableEq

/-- An entry of the map: key bytes and the pointer stored under them. -/
abbrev Entry := Sigma (fun _ : Bytes => Ref)

/-- NewInmemTuples returns an empty store. -/
def NewInmemTuples : InmemTuples := ⟨∅⟩

/-- Body of the loop of `ExpireHost`. -/
def InmemTuples.expireHostStep (heap : Heap) (host : String)
    (acc : InmemTuples × Nat) (e : Entry) : InmemTuples × Nat :=
  if (heap.deref e.2).Host = host then (⟨acc.1.m.erase e.1⟩, acc.2 + 1) else acc

/-- ExpireHost, `tuples.go` lines 68-79: ranges over the map, deleting the
visited entry when its host matches. -/
def InmemTuples.ExpireHost (tuples : InmemTuples) (heap : Heap) (host : String) :
    InmemTuples × Nat :=
  tuples.m.entries.foldl (InmemTuples.expireHostStep heap host) (tuples, 0)

/-- Body of the loop of `Expire`. -/
def InmemTuples.expireStep (heap : Heap) (marker : Int)
    (acc : InmemTuples × Nat) (e : Entry) : InmemTuples × Nat :=
  if (heap.deref e.2).lastseen < marker then (⟨acc.1.m.erase e.1⟩, acc.2 + 1) else acc

/-- Expire, `tuples.go` lines 82-94: `marker := now - d` in `int64`, then every
visited entry with `lastseen < marker` is deleted. -/
def InmemTuples.Expire (tuples : InmemTuples) (heap : Heap) (now : Int) (d : Int) :
    InmemTuples × Nat :=
  let marker := wrapInt64 (now - d)
  tuples.m.entries.foldl (InmemTuples.expireStep heap marker) (tuples, 0)

/-- Body of the loop of `Delete`. -/
def InmemTuples.deleteStep (acc : InmemTuples × Nat) (k : Bytes) : InmemTuples × Nat :=
  match acc.1.m.lookup k with
  | some _ => (⟨acc.1.m.erase k⟩, acc.2 + 1)
  | none => acc

/-- Delete, `tuples.go` lines 97-109. -/
def InmemTuples.Delete (tuples : InmemTuples) (keys : List Bytes) : InmemTuples × Nat :=
  keys.foldl InmemTuples.deleteStep (tuples, 0)

/-- Body of the loop of `Ping`. -/
def InmemTuples.pingStep (tuples : InmemTuples) (now : Int)
    (acc : Heap × Nat) (key : Bytes) : Heap × Nat :=
  match tuples.m.lookup key with
  | some val => (Tuple.ping acc.1 val now, acc.2 + 1)
  | none => acc

/-- Ping, `tuples.go` lines 112-124: the map is not changed, the objects it
points to are. -/
def InmemTuples.Ping (tuples : InmemTuples) (heap : Heap) (now : Int) (keys : List Bytes) :
    Heap × Nat :=
  keys.foldl (InmemTuples.pingStep tuples now) (heap, 0)

/-- Body of the loop of `Insert`: the pointer `tpl` itself is stored. -/
def InmemTuples.insertStep (now : Int)
    (acc : Heap × InmemTuples × Nat) (tpl : Ref) : Heap × InmemTuples × Nat :=
  let k := (acc.1.deref tpl).Key
  match acc.2.1.m.lookup k with
  | some _ => acc
  | none =>
    (acc.1.store tpl { acc.1.deref tpl with lastseen := now },
      ⟨acc.2.1.m.insert k tpl⟩, acc.2.2 + 1)

/-- Insert, `tuples.go` lines 127-143. -/
def InmemTuples.Insert (tuples : InmemTuples) (heap : Heap) (now : Int) (tpls : List Ref) :
    Heap × InmemTuples × Nat :=
  tpls.foldl (InmemTuples.insertStep now) (heap, tuples, 0)

/-- Lookup, `tuples.go` lines 146-154: `nil` (here `none`) when the key is
absent, otherwise what `Clone` returns for the stored pointer. -/
def InmemTuples.Lookup (tuples : InmemTuples) (heap : Heap) (key : Bytes) : Option Ref :=
  match tuples.m.lookup key with
  | some val => some (Tuple.Clone heap val)
  | none => none

/-- List, `tuples.go` lines 157-166, in the order of the entries. -/
def InmemTuples.List (tuples : InmemTuples) (heap : Heap) : List Ref :=
  tuples.m.entries.map (fun e => Tuple.Clone heap e.2)

/-- The stored tuple a key maps to, read through the stored pointer. -/
def InmemTuples.get (tuples : InmemTuples) (heap : Heap) (key : Bytes) : Option Tuple :=
  (tuples.m.lookup key).map heap.deref

/-- Store invariant: every stored pointer addresses an allocated tuple whose
`Key` is the key it is stored under. `Insert` establishes it (`k :=
string(tpl.Key)`, `m[k] = tpl`) and no store operation writes a `Key`. -/
def InmemTuples.WF (tuples : InmemTuples) (heap : Heap) : Prop :=
  ∀ e ∈ tuples.m.entries, heap.valid e.2 ∧ (heap.deref e.2).Key = e.1

instance (tuples : InmemTuples) (heap : Heap) : Decidable (tuples.WF heap) := by
  unfold InmemTuples.WF; exact inferInstance

/-! ## utils.go: the hash partitioner -/

/-- A `hash.Hash` object: the digest function it computes and the bytes written
to it so far. -/
structure Hash where
  digest : Bytes → Bytes
  written : Bytes

/-- Method `Write` of `hash.Hash`: adds more data to the running hash. -/
def Hash.Write (h : Hash) (p : Bytes) : Hash := { h with written := h.written ++ p }

/-- Method `Sum` of `hash.Hash`: appends the current hash to `b`. -/
def Hash.Sum (h : Hash) (b : Bytes) : Bytes := b ++ h.digest h.written

/-- A hash constructor `func() hash.Hash` (such as `sha256.New`), given by the
digest function of the objects it returns. -/
abbrev HashFunc := Bytes → Bytes

/-- Calling the constructor: a hash object with nothing written to it. -/
def HashFunc.new (H : HashFunc) : Hash := ⟨H, []⟩

/-- Method `SetBytes` of `big.Int`: the bytes as a big-endian unsigned integer,
accumulated from the most significant byte on. -/
def SetBytes (buf : Bytes) : Nat := buf.foldl (fun acc b => acc * 256 + b.val) 0

/-- The value of a byte string read as an unsigned big-endian integer: each
byte weighs 256 to the power of the number of bytes after it. -/
def bigEndianValue : Bytes → Nat
  | [] => 0
  | b :: bs => b.val * 256 ^ bs.length + bigEndianValue bs

/-- lookupGroup, `utils.go` lines 20-26. `big.Int.Mod` is the Euclidean modulus
and panics (here `none`) for a zero modulus; `Int64()` keeps the low 64 bits. -/
def lookupGroup (key : Bytes) (k : Int) (h : Hash) : Option Int :=
  let h := h.Write key
  let sh := h.Sum []
  let bi : Int := SetBytes sh
  if k = 0 then none
  else
    let m := bi % k
    some (wrapInt64 m)

/-! ## Errors, peers and requests -/

/-- The error values of the package (`errors.New` in `contacts.go` and
`group.go`), an error produced by the transport, and `errors.Wrap`. -/
inductive Error where
  | errContactNotFound
  | errContactExists
  | errNoContacts
  | errReqTTLReached
  | transport (msg : String)
  | wrap (cause : Error) (message : String)
deriving DecidableEq

export Error (errContactNotFound errContactExists errNoContacts errReqTTLReached)

/-- Method `Error()`: the message of an error. -/
def Error.message : Error → String
  | .errContactNotFound => "contact not found"
  | .errContactExists => "contact exists"
  | .errNoContacts => "no contacts"
  | .errReqTTLReached => "request TTL reached"
  | .transport msg => msg
  | .wrap cause message => message ++ ": " ++ cause.message

/-- Go's `(string, error)` result pair; `none` is the nil error. -/
abbrev Result := String × Option Error

/-- Peer node, `peer.go`. -/
structure Peer where
  Host : String
  rtt : Int
  heartbeats : Int
deriving DecidableEq

/-- Address satisfies the PeerContact interface. -/
def Peer.Address (p : Peer) : String := p.Host

/-- PeerContact: a non-nil value of the interface, which only offers
`Address()`; a peer of the gossip library is represented by the `Peer` with its
address. -/
abbrev PeerContact := Peer

/-- GroupContact is a contact within a group. -/
structure GroupContact where
  ID : Int
  Host : String
deriving DecidableEq

/-- Request is a lookup or insert request. -/
structure Request where
  Key : Bytes
  TTL : Int
  Originator : GroupContact
deriving DecidableEq

/-- The calls of the Transport interface the groups make; each returns what the
remote side answers. -/
structure Transport where
  Insert : GroupContact → Bytes → Result
  Lookup : GroupContact → Request → Result

/-- A call made on the transport, with its arguments. -/
inductive TransportCall where
  | Insert (contact : GroupContact) (key : Bytes)
  | Lookup (contact : GroupContact) (req : Request)
deriving DecidableEq

/-- An order in which a `range` visits the entries of a map: some permutation
of them. -/
structure RangeOrder where
  visit : {α : Type} → List α → List α
  perm : ∀ {α : Type} (l : List α), (visit l).Perm l

/-- Visiting the entries in the order they are kept in. -/
def RangeOrder.stored : RangeOrder := ⟨fun l => l, fun l => List.Perm.refl l⟩

/-- Visiting the entries in the opposite order. -/
def RangeOrder.reversed : RangeOrder := ⟨fun l => l.reverse, fun l => List.reverse_perm l⟩

/-- What the runtime chooses during one call: the order of map iteration and
the value of `rand.Int()`. -/
structure Runtime where
  order : RangeOrder
  rnd : Nat

/-! ## contacts.go -/

/-- The in-memory contact directory: `peers map[string]*Peer`. -/
structure inmemContacts where
  id : Int
  host : String
  peers : AList (fun _ : String => Peer)

/-- Remove, `contacts.go` lines 57-64. -/
def inmemContacts.Remove (c : inmemContacts) (p : PeerContact) : inmemContacts × Option Error :=
  let host := p.Address
  match c.peers.lookup host with
  | none => ({ c with peers := c.peers.erase host }, none)
  | some _ => (c, some errContactNotFound)

/-- Add, `contacts.go` lines 65-72. -/
def inmemContacts.Add (c : inmemContacts) (p : PeerContact) : inmemContacts × Option Error :=
  let host := p.Address
  match c.peers.lookup host with
  | none => ({ c with peers := c.peers.insert host ⟨host, 0, 0⟩ }, none)
  | some _ => (c, some errContactExists)

/-- List, `contacts.go` lines 74-81. -/
def inmemContacts.List (c : inmemContacts) (order : RangeOrder) : List PeerContact :=
  (order.visit c.peers.entries).map (fun e => e.2)

/-- GetClosest, `contacts.go` lines 84-92: the first visited peer whose address
is not the local host. -/
def inmemContacts.GetClosest (c : inmemContacts) (order : RangeOrder) :
    Option PeerContact × Bool :=
  match (order.visit c.peers.entries).find? (fun e => decide (e.2.Address ≠ c.host)) with
  | some e => (some e.2, true)
  | none => (none, false)

/-- GetRandom, `contacts.go` lines 94-99: the first visited peer. -/
def inmemContacts.GetRandom (c : inmemContacts) (order : RangeOrder) :
    Option PeerContact × Bool :=
  match order.visit c.peers.entries with
  | e :: _ => (some e.2, true)
  | [] => (none, false)

/-! ## gossip_contacts.go -/

/-- The peer library of the gossip package, used through `GetByAddress` (one
slot per requested address, nil when it does not resolve) and through the order
`sort.Sort(peers.ClosestPeers(..))` puts a slice in. -/
structure Library where
  GetByAddress : List String → List (Option Peer)
  sortClosest : List (Option Peer) → List (Option Peer)

/-- peersToPeerContacts, `utils.go` lines 51-60: the nil entries are skipped. -/
def peersToPeerContacts (libPeers : List (Option Peer)) : List PeerContact :=
  libPeers.filterMap (fun peer => peer)

/-- The gossip-backed contact directory: addresses resolved through the library. -/
structure gossipContactStorage where
  id : Int
  peers : Library
  contacts : List String

/-- Add, `gossip_contacts.go` lines 27-41. -/
def gossipContactStorage.Add (g : gossipContactStorage) (p : PeerContact) :
    gossipContactStorage × Option Error :=
  let addr := p.Address
  if addr ∈ g.contacts then (g, some errContactExists)
  else ({ g with contacts := g.contacts ++ [addr] }, none)

/-- Remove, `gossip_contacts.go` lines 44-55. -/
def gossipContactStorage.Remove (g : gossipContactStorage) (p : PeerContact) :
    gossipContactStorage × Option Error :=
  match g.contacts.indexOf? p.Address with
  | some i => ({ g with contacts := g.contacts.take i ++ g.contacts.drop (i + 1) }, none)
  | none => (g, some errContactNotFound)

/-- List, `gossip_contacts.go` lines 58-63. -/
def gossipContactStorage.List (g : gossipContactStorage) : List PeerContact :=
  peersToPeerContacts (g.peers.GetByAddress g.contacts)

/-- GetClosest, `gossip_contacts.go` lines 66-82. -/
def gossipContactStorage.GetClosest (g : gossipContactStorage) : Option PeerContact × Bool :=
  let lpeers := g.peers.sortClosest (g.peers.GetByAddress g.contacts)
  match lpeers with
  | [] => (none, false)
  | [p] => (p, true)
  | _ :: p :: _ => (p, true)

/-- GetRandom, `gossip_contacts.go` lines 85-93, `rnd` being `rand.Int()`. -/
def gossipContactStorage.GetRandom (g : gossipContactStorage) (rnd : Nat) :
    Option PeerContact × Bool :=
  let p := g.List
  if p.length = 0 then (none, false)
  else (p[rnd % p.length]?, true)

/-- ContactStorage: the two implementations of the interface. -/
inductive ContactStorage where
  | inmem (c : inmemContacts)
  | gossip (g : gossipContactStorage)

def ContactStorage.Add : ContactStorage → PeerContact → ContactStorage × Option Error
  | .inmem c, p => ((c.Add p).1 |> .inmem, (c.Add p).2)
  | .gossip g, p => ((g.Add p).1 |> .gossip, (g.Add p).2)

def ContactStorage.Remove : ContactStorage → PeerContact → ContactStorage × Option Error
  | .inmem c, p => ((c.Remove p).1 |> .inmem, (c.Remove p).2)
  | .gossip g, p => ((g.Remove p).1 |> .gossip, (g.Remove p).2)

def ContactStorage.List : ContactStorage → RangeOrder → List PeerContact
  | .inmem c, order => c.List order
  | .gossip g, _ => g.List

def ContactStorage.GetClosest : ContactStorage → Runtime → Option PeerContact × Bool
  | .inmem c, rt => c.GetClosest rt.order
  | .gossip g, _ => g.GetClosest

def ContactStorage.GetRandom : ContactStorage → Runtime → Option PeerContact × Bool
  | .inmem c, rt => c.GetRandom rt.order
  | .gossip g, rt => g.GetRandom rt.rnd

/-- ContactStorageFactory: `inmemContactsFac` with the local host, or the
`Gossip` instance with the peer libraries of the cluster-wide pool and of the
home group's pool. -/
inductive ContactStorageFactory where
  | inmemContactsFac (host : String)
  | Gossip (inter : Library) (home : Library)

/-- Method `New` of the factories, `contacts.go` lines 44-49 and `gossip.go`
lines 113-141 (the pool registration is outside the model). -/
def ContactStorageFactory.New : ContactStorageFactory → Int → Bool → ContactStorage
  | .inmemContactsFac host, id, _ => .inmem ⟨id, host, ∅⟩
  | .Gossip inter home, id, homeNode =>
    .gossip ⟨id, if homeNode then home else inter, []⟩

/-! ## group.go -/

/-- affinityGroup is the home affinity group. Of its fields the logger and the
gossip pool are outside the model; `tuples` is the in-memory store, which is
what `Config.Validate` installs. -/
structure affinityGroup extends GroupContact where
  contacts : ContactStorage
  tuples : InmemTuples
  tupleTTL : Int
  tupleExpMin : Int
  tupleExpMax : Int
  trans : Transport

def affinityGroup.Contact (group : affinityGroup) : GroupContact := group.toGroupContact

def affinityGroup.IsLocal (_group : affinityGroup) : Bool := true

/-- Lookup of the home group, `group.go` lines 100-131. The result comes with
the list of transport calls made; `none` is the panic of calling `Address()` on
a nil peer. -/
def affinityGroup.Lookup (group : affinityGroup) (heap : Heap) (rt : Runtime) (req : Request) :
    Option (Result × List TransportCall) :=
  match group.tuples.Lookup heap req.Key with
  | some tuple => some (((heap.deref tuple).Host, none), [])
  | none =>
    if req.TTL = 0 then some (("", some errReqTTLReached), [])
    else
      match group.contacts.GetClosest rt with
      | (_, false) => some (("", some errNoContacts), [])
      | (none, true) => none
      | (some p, true) =>
        let c : GroupContact := { ID := group.ID, Host := p.Address }
        let nreq : Request :=
          { Key := copy (List.replicate req.Key.length 0) req.Key
            TTL := wrapInt64 (req.TTL - 1)
            Originator := group.toGroupContact }
        some (group.trans.Lookup c nreq, [TransportCall.Lookup c nreq])

def affinityGroup.AddPeer (group : affinityGroup) (host : PeerContact) :
    affinityGroup × Option Error :=
  ({ group with contacts := (group.contacts.Add host).1 }, (group.contacts.Add host).2)

def affinityGroup.RemovePeer (group : affinityGroup) (host : PeerContact) :
    affinityGroup × Option Error :=
  ({ group with contacts := (group.contacts.Remove host).1 }, (group.contacts.Remove host).2)

/-- Insert of the home group, `group.go` lines 141-151: the tuple is allocated
and handed to the store's `Insert`, whose count is dropped. -/
def affinityGroup.Insert (group : affinityGroup) (heap : Heap) (rt : Runtime) (now : Int)
    (key : Bytes) : Option (Heap × affinityGroup × Result × List TransportCall) :=
  match group.contacts.GetRandom rt with
  | (_, false) => some (heap, group, ("", some errNoContacts), [])
  | (none, true) => none
  | (some p, true) =>
    let (heap1, tuple) := heap.alloc { Key := key, Host := p.Address, heartbeats := 0, lastseen := 0 }
    let res := group.tuples.Insert heap1 now [tuple]
    some (res.1, { group with tuples := res.2.1 }, (p.Address, none), [])

/-- remoteAffinityGroup is an affinity group this node is not a member of. -/
structure remoteAffinityGroup extends GroupContact where
  heartbeats : Int
  contacts : ContactStorage
  trans : Transport

def remoteAffinityGroup.Contact (group : remoteAffinityGroup) : GroupContact :=
  group.toGroupContact

def remoteAffinityGroup.IsLocal (_group : remoteAffinityGroup) : Bool := false

def remoteAffinityGroup.beat (group : remoteAffinityGroup) : remoteAffinityGroup :=
  { group with heartbeats := wrapInt64 (group.heartbeats + 1) }

def remoteAffinityGroup.RemovePeer (group : remoteAffinityGroup) (host : PeerContact) :
    remoteAffinityGroup × Option Error :=
  ({ group with contacts := (group.contacts.Remove host).1 }, (group.contacts.Remove host).2)

def remoteAffinityGroup.AddPeer (group : remoteAffinityGroup) (host : PeerContact) :
    remoteAffinityGroup × Option Error :=
  ({ group with contacts := (group.contacts.Add host).1 }, (group.contacts.Add host).2)

/-- Lookup of a remote group, `group.go` lines 199-216; the request object of
the caller is written (`req.Originator`), so it is returned as well. -/
def remoteAffinityGroup.Lookup (group : remoteAffinityGroup) (rt : Runtime) (req : Request) :
    Option (remoteAffinityGroup × Request × Result × List TransportCall) :=
  match group.contacts.GetClosest rt with
  | (_, false) => some (group, req, ("", some errNoContacts), [])
  | (none, true) => none
  | (some peer, true) =>
    let req1 : Request := { req with Originator := group.toGroupContact }
    let c : GroupContact := { ID := group.ID, Host := peer.Address }
    let res := group.trans.Lookup c req1
    let group1 := if res.2 = none then group.beat else group
    some (group1, req1, res, [TransportCall.Lookup c req1])

/-- Insert of a remote group, `group.go` lines 218-230. -/
def remoteAffinityGroup.Insert (group : remoteAffinityGroup) (rt : Runtime) (key : Bytes) :
    Option (remoteAffinityGroup × Result × List TransportCall) :=
  match group.contacts.GetClosest rt with
  | (_, false) => some (group, ("", some errNoContacts), [])
  | (none, true) => none
  | (some peer, true) =>
    let c : GroupContact := { ID := group.ID, Host := peer.Address }
    let res := group.trans.Insert c key
    let group1 := if res.2 = none then group.beat else group
    some (group1, res, [TransportCall.Insert c key])

/-! ## kelips.go, config.go -/

/-- AffinityGroup: the two implementations of the interface. -/
inductive AffinityGroup where
  | home (g : affinityGroup)
  | remote (g : remoteAffinityGroup)

def AffinityGroup.IsLocal : AffinityGroup → Bool
  | .home g => g.IsLocal
  | .remote g => g.IsLocal

def AffinityGroup.Contact : AffinityGroup → GroupContact
  | .home g => g.Contact
  | .remote g => g.Contact

def AffinityGroup.Insert (group : AffinityGroup) (heap : Heap) (rt : Runtime) (now : Int)
    (key : Bytes) : Option (Heap × AffinityGroup × Result × List TransportCall) :=
  match group with
  | .home g => (g.Insert heap rt now key).map (fun r => (r.1, .home r.2.1, r.2.2))
  | .remote g => (g.Insert rt key).map (fun r => (heap, .remote r.1, r.2))

def AffinityGroup.Lookup (group : AffinityGroup) (heap : Heap) (rt : Runtime) (req : Request) :
    Option (AffinityGroup × Request × Result × List TransportCall) :=
  match group with
  | .home g => (g.Lookup heap rt req).map (fun r => (.home g, req, r))
  | .remote g => (g.Lookup rt req).map (fun r => (.remote r.1, r.2))

def AffinityGroup.AddPeer : AffinityGroup → PeerContact → AffinityGroup × Option Error
  | .home g, p => ((g.AddPeer p).1 |> .home, (g.AddPeer p).2)
  | .remote g, p => ((g.AddPeer p).1 |> .remote, (g.AddPeer p).2)

def AffinityGroup.RemovePeer : AffinityGroup → PeerContact → AffinityGroup × Option Error
  | .home g, p => ((g.RemovePeer p).1 |> .home, (g.RemovePeer p).2)
  | .remote g, p => ((g.RemovePeer p).1 |> .remote, (g.RemovePeer p).2)

/-- Config holds the kelips config; nil fields are `none`. The logger is
outside the model. -/
structure Config where
  K : Int
  HashFunc : Option HashFunc
  TupleTTL : Int
  TupleExpireMinInt : Int
  TupleExpireMaxInt : Int
  Transport : Option Transport
  Tuples : Option InmemTuples
  Contacts : Option ContactStorageFactory

/-- One second as a `time.Duration`, in nanoseconds. -/
def Second : Int := 1000000000

/-- Validate, `config.go` lines 35-56; `sha256` stands for `sha256.New`. -/
def Config.Validate (sha256 : GoKelips.HashFunc) (conf : Config) : Config :=
  let conf := if conf.Tuples.isNone then { conf with Tuples := some NewInmemTuples } else conf
  let conf := if conf.HashFunc.isNone then { conf with HashFunc := some sha256 } else conf
  let conf := if conf.TupleTTL = 0 then { conf with TupleTTL := 30 * Second } else conf
  if conf.TupleExpireMaxInt = 0 then
    { conf with TupleExpireMaxInt := 30 * Second, TupleExpireMinInt := 20 * Second }
  else if conf.TupleExpireMinInt = 0 then
    { conf with TupleExpireMinInt := 20 * Second, TupleExpireMaxInt := 30 * Second }
  else conf

/-- newAffinityGroup, `group.go` lines 56-71 (`Register` acts on the transport
only). -/
def newAffinityGroup (g : GroupContact) (trans : Transport) (fac : ContactStorageFactory)
    (tuples : InmemTuples) (conf : Config) : affinityGroup :=
  { toGroupContact := g
    trans := trans
    contacts := fac.New g.ID true
    tuples := tuples
    tupleTTL := conf.TupleTTL
    tupleExpMin := conf.TupleExpireMinInt
    tupleExpMax := conf.TupleExpireMaxInt }

/-- newRemoteAffinityGroup, `group.go` lines 169-177. -/
def newRemoteAffinityGroup (gc : GroupContact) (trans : Transport)
    (fac : ContactStorageFactory) : remoteAffinityGroup :=
  { toGroupContact := gc
    heartbeats := 0
    trans := trans
    contacts := fac.New gc.ID false }

/-- Kelips is the node. -/
structure Kelips where
  id : Int
  k : Int
  hasher : HashFunc
  groups : List AffinityGroup
  trans : Transport

/-- Indexing `groups[idx]`, which panics outside the bounds. -/
def Kelips.group (klp : Kelips) (idx : Int) : Option AffinityGroup :=
  if idx < 0 then none else klp.groups[idx.toNat]?

/-- Assignment `groups[idx] = g`. -/
def Kelips.setGroup (klp : Kelips) (idx : Int) (g : AffinityGroup) : Kelips :=
  { klp with groups := klp.groups.set idx.toNat g }

/-- New, `kelips.go` lines 69-99. It panics (`none`) on a nil transport, on
`make` with a negative length and in `lookupGroup` for `K = 0`. -/
def New (sha256 : HashFunc) (host : String) (conf : Config) : Option Kelips := do
  let conf := conf.Validate sha256
  let fac := conf.Contacts.getD (.inmemContactsFac host)
  let hasher ← conf.HashFunc
  let tuples ← conf.Tuples
  let trans ← conf.Transport
  if conf.K < 0 then none
  let id ← lookupGroup (bytesOf host) conf.K hasher.new
  let groups : List AffinityGroup := (List.range conf.K.toNat).map (fun i =>
    let gc : GroupContact := { ID := i, Host := host }
    if id = i then .home (newAffinityGroup gc trans fac tuples conf)
    else .remote (newRemoteAffinityGroup gc trans fac))
  let k : Kelips := { id := id, k := conf.K, hasher := hasher, groups := groups, trans := trans }
  let home ← k.group k.id
  some (k.setGroup k.id (home.AddPeer ⟨host, 0, 0⟩).1)

/-- RemovePeer, `kelips.go` lines 102-109. -/
def Kelips.RemovePeer (klp : Kelips) (host : PeerContact) :
    Option (Kelips × Int × Option Error) := do
  let key := bytesOf host.Address
  let idx ← lookupGroup key klp.k klp.hasher.new
  let group ← klp.group idx
  some (klp.setGroup idx (group.RemovePeer host).1, idx, (group.RemovePeer host).2)

/-- AddPeer, `kelips.go` lines 112-119. -/
def Kelips.AddPeer (klp : Kelips) (host : PeerContact) :
    Option (Kelips × Int × Option Error) := do
  let key := bytesOf host.Address
  let idx ← lookupGroup key klp.k klp.hasher.new
  let group ← klp.group idx
  some (klp.setGroup idx (group.AddPeer host).1, idx, (group.AddPeer host).2)

/-- Insert, `kelips.go` lines 122-132; `errors.Wrap(err, fmt.Sprintf("group %d",
idx))`. -/
def Kelips.Insert (klp : Kelips) (heap : Heap) (rt : Runtime) (now : Int) (key : Bytes) :
    Option (Heap × Kelips × Result × List TransportCall) := do
  let idx ← lookupGroup key klp.k klp.hasher.new
  let group ← klp.group idx
  let r ← group.Insert heap rt now key
  match r.2.2.1.2 with
  | none => some (r.1, klp.setGroup idx r.2.1, (r.2.2.1.1, none), r.2.2.2)
  | some err =>
    some (r.1, klp.setGroup idx r.2.1, ("", some (.wrap err ("group " ++ toString idx))),
      r.2.2.2)

/-- Lookup, `kelips.go` lines 135-140. -/
def Kelips.Lookup (klp : Kelips) (heap : Heap) (rt : Runtime) (req : Request) :
    Option (Kelips × Request × Result × List TransportCall) := do
  let idx ← lookupGroup req.Key klp.k klp.hasher.new
  let group ← klp.group idx
  let r ← group.Lookup heap rt req
  some (klp.setGroup idx r.1, r.2)

/-! ## Directories: what they hold -/

/-- Invariant of the in-memory directory: every peer is stored under its own
address (`Add` stores `&Peer{Host: host}` under `host`). -/
def inmemContacts.Keyed (c : inmemContacts) : Prop :=
  ∀ e ∈ c.peers.entries, e.2.Address = e.1

instance (c : inmemContacts) : Decidable c.Keyed := by
  unfold inmemContacts.Keyed; exact inferInstance

/-- A list of peer addresses. -/
abbrev Addresses := List String

/-- The addresses a directory holds: the keys of the in-memory map, the
`contacts` slice of the gossip-backed one. -/
def ContactStorage.addresses : ContactStorage → Addresses
  | .inmem c => c.peers.keys
  | .gossip g => g.contacts

/-- Invariant of a directory: peers under their own address (in-memory), no
address twice in the slice (gossip-backed). The directories the factories
create are empty and satisfy it. -/
def ContactStorage.Sound : ContactStorage → Prop
  | .inmem c => c.Keyed
  | .gossip g => g.contacts.Nodup

/-- A directory whose members are known under the addresses it holds: in the
in-memory directory every peer is stored under its own address; for the
gossip-backed one the library resolves each address of the slice, in order, to
a peer at that address. -/
def ContactStorage.Resolved : ContactStorage → Prop
  | .inmem c => c.Keyed
  | .gossip g =>
    (g.peers.GetByAddress g.contacts).map (Option.map Peer.Address) = g.contacts.map some

instance (cs : ContactStorage) : Decidable cs.Resolved := by
  cases cs with
  | inmem c => exact inferInstanceAs (Decidable c.Keyed)
  | gossip g => exact inferInstanceAs (Decidable (_ = _))

/-! ## utils.go: the tuple frame codec -/

/-- The calls into the `net` package: `ResolveTCPAddr("tcp", host)` gives the IP
bytes and the port of the address, or fails (`none`, the address returned is
nil); `IPString` is method `String` of `net.IP`. -/
structure Net where
  ResolveTCPAddr : String → Option (Bytes × Nat)
  IPString : Bytes → String

/-- hostStringToBytes, `utils.go` lines 62-67. The error of the resolution is
dropped, so a host that does not resolve makes `addr.Port` panic (`none`).
The port goes through `uint16` and is put big-endian after the IP. -/
def hostStringToBytes (net : Net) (host : String) : Option Bytes :=
  match net.ResolveTCPAddr host with
  | none => none
  | some (ip, port) =>
    let pb : Bytes := [Fin.ofNat (port % 65536 / 256), Fin.ofNat (port % 65536 % 256)]
    some (ip ++ pb)

/-- hostBytesToString, `utils.go` lines 69-73: `host[:16]` and `host[16:18]`
panic (`none`) on a slice shorter than 18 bytes. -/
def hostBytesToString (net : Net) (host : Bytes) : Option String :=
  if host.length < 18 then none
  else
    let ip := host.take 16
    let port := (host.getD 16 0).val * 256 + (host.getD 17 0).val
    some (net.IPString ip ++ ":" ++ toString port)

/-- The errors of package `io` that reading from a buffer produces. -/
inductive IOError where
  | EOF
  | ErrUnexpectedEOF
deriving DecidableEq

/-- The loop of `readTuples`, `utils.go` lines 79-98, on the bytes left in the
reader. One length byte is read (`io.EOF` ends the loop with a nil error), then
`io.ReadFull` fills a line of that length or fails; `line[18:]` panics (`none`)
on a line shorter than 18 bytes. Each tuple is allocated. The first argument
bounds the number of iterations; `readTuples` passes more than the loop can
use, every iteration consuming at least one byte. -/
def readTuplesLoop (net : Net) : Nat → Bytes → Heap → List Ref →
    Option (Heap × List Ref × Option IOError)
  | 0, _, heap, out => some (heap, out, none)
  | _ + 1, [], heap, out => some (heap, out, none)
  | fuel + 1, n :: rest, heap, out =>
    if rest.length < n.val then
      some (heap, out, some (if rest.length = 0 then .EOF else .ErrUnexpectedEOF))
    else
      let line := rest.take n.val
      if line.length < 18 then none
      else
        match hostBytesToString net (line.take 18) with
        | none => none
        | some host =>
          let a := heap.alloc { Key := line.drop 18, Host := host, heartbeats := 0, lastseen := 0 }
          readTuplesLoop net fuel (rest.drop n.val) a.1 (out ++ [a.2])

/-- readTuples, `utils.go` lines 75-99, reading from a buffer holding `r`. -/
def readTuples (net : Net) (heap : Heap) (r : Bytes) :
    Option (Heap × List Ref × Option IOError) :=
  readTuplesLoop net (r.length + 1) r heap []

/-- The loop of `writeTuples`, appending to the bytes `w` written so far: one
record per tuple, its length through `uint8`. -/
def writeTuplesLoop (net : Net) (heap : Heap) : List Ref → Bytes → Option Bytes
  | [], w => some w
  | t :: ts, w =>
    match hostStringToBytes net (heap.deref t).Host with
    | none => none
    | some hb =>
      let line := hb ++ (heap.deref t).Key
      writeTuplesLoop net heap ts (w ++ (Fin.ofNat line.length :: line))

/-- writeTuples, `utils.go` lines 103-117, writing to an empty buffer (whose
`Write` does not fail); the result is the content of the buffer. -/
def writeTuples (net : Net) (heap : Heap) (tuples : List Ref) : Option Bytes :=
  if tuples.length = 0 then some []
  else writeTuplesLoop net heap tuples []

/-- The tuples a frame parses to and the error of the parse, as values: the
loop of `readTuples` without the allocation. -/
def parseTuplesLoop (net : Net) : Nat → Bytes → Option (List Tuple × Option IOError)
  | 0, _ => some ([], none)
  | _ + 1, [] => some ([], none)
  | fuel + 1, n :: rest =>
    if rest.length < n.val then
      some ([], some (if rest.length = 0 then .EOF else .ErrUnexpectedEOF))
    else
      let line := rest.take n.val
      if line.length < 18 then none
      else
        match hostBytesToString net (line.take 18) with
        | none => none
        | some host =>
          (parseTuplesLoop net fuel (rest.drop n.val)).map (fun r =>
            ({ Key := line.drop 18, Host := host, heartbeats := 0, lastseen := 0 } :: r.1, r.2))

/-- A host the codec carries unchanged: it resolves to a 16-byte IP and a port
below 65536 which print, as `ip.String() + ":" + strconv.Itoa(port)`, to the
host itself. An IPv4 literal `a.b.c.d:port` is such a host. -/
def Net.isIPPort (net : Net) (host : String) : Prop :=
  match net.ResolveTCPAddr host with
  | none => False
  | some (ip, port) =>
    ip.length = 16 ∧ port < 65536 ∧ net.IPString ip ++ ":" ++ toString port = host

instance (net : Net) (host : String) : Decidable (net.isIPPort host) := by
  unfold Net.isIPPort
  cases net.ResolveTCPAddr host with
  | none => exact inferInstanceAs (Decidable False)
  | some r => exact inferInstanceAs (Decidable (_ ∧ _ ∧ _))

/-! ## gossip_delegate.go -/

/-- tuplesGossipDelegate is the delegate of the home group's gossip pool; its
store is the node's tuple store. The logger is outside the model. -/
structure tuplesGossipDelegate where
  host : String
  tuples : InmemTuples

/-- NotifyMsg, `gossip_delegate.go` lines 60-70. A parse error is logged and
the message dropped; `msg[:18]` with `msg[18:]` panics (`none`) on a message
shorter than 18 bytes. -/
def tuplesGossipDelegate.NotifyMsg (g : tuplesGossipDelegate) (net : Net) (heap : Heap)
    (now : Int) (msg : Bytes) : Option (Heap × tuplesGossipDelegate) :=
  if msg.length < 18 then none
  else
    match hostBytesToString net (msg.take 18) with
    | none => none
    | some _ =>
      match readTuples net heap (msg.drop 18) with
      | none => none
      | some (heap1, _, some _) => some (heap1, g)
      | some (heap1, tuples, none) =>
        let res := g.tuples.Insert heap1 now tuples
        some (res.1, { g with tuples := res.2.1 })

/-- pingRemoteTuples, `gossip_delegate.go` lines 92-105: the keys of the tuples
whose host is `remote` (what `remote.String()` returns), in order, are pinged. -/
def tuplesGossipDelegate.pingRemoteTuples (g : tuplesGossipDelegate) (heap : Heap) (now : Int)
    (remote : String) (tuples : List Ref) : Heap × Nat :=
  let keys : List Bytes := tuples.foldl
    (fun keys tuple =>
      if (heap.deref tuple).Host ≠ remote then keys else keys ++ [(heap.deref tuple).Key]) []
  g.tuples.Ping heap now keys

/-- MergeRemoteState, `gossip_delegate.go` lines 72-90, `remote` being what
`remote.String()` returns. An empty buffer is ignored and a parse error is
logged and the buffer dropped; `none` is the panic of `readTuples`. -/
def tuplesGossipDelegate.MergeRemoteState (g : tuplesGossipDelegate) (net : Net) (heap : Heap)
    (now : Int) (remote : String) (buf : Bytes) (join : Bool) :
    Option (Heap × tuplesGossipDelegate) :=
  if buf.length = 0 then some (heap, g)
  else
    match readTuples net heap buf with
    | none => none
    | some (heap1, _, some _) => some (heap1, g)
    | some (heap1, tuples, none) =>
      if join then
        let res := g.tuples.Insert heap1 now tuples
        some (res.1, { g with tuples := res.2.1 })
      else
        some ((g.pingRemoteTuples heap1 now remote tuples).1, g)

/-- pingLocalTuples, `gossip_delegate.go` lines 107-126: the listed tuples
whose host is the local host are collected with their keys, the keys are
pinged and the collected tuples returned. -/
def tuplesGossipDelegate.pingLocalTuples (g : tuplesGossipDelegate) (heap : Heap) (now : Int) :
    Heap × List Ref :=
  let all := g.tuples.List heap
  let collected : List Ref × List Bytes := all.foldl
    (fun acc a =>
      if (heap.deref a).Host = g.host then (acc.1 ++ [a], acc.2 ++ [(heap.deref a).Key])
      else acc) ([], [])
  ((g.tuples.Ping heap now collected.2).1, collected.1)

/-- LocalState, `gossip_delegate.go` lines 128-142: the bytes `writeTuples`
puts in an empty buffer for the tuples `pingLocalTuples` returns (writing to a
buffer does not fail); `none` is the panic of `hostStringToBytes`. -/
def tuplesGossipDelegate.LocalState (g : tuplesGossipDelegate) (net : Net) (heap : Heap)
    (now : Int) (_join : Bool) : Option (Heap × Bytes) :=
  let r := g.pingLocalTuples heap now
  match writeTuples net r.1 r.2 with
  | none => none
  | some buf => some (r.1, buf)

/-- Field `contacts` of either implementation: the contact directory of the
group. -/
def AffinityGroup.contacts : AffinityGroup → ContactStorage
  | .home g => g.contacts
  | .remote g => g.contacts

/-- The groups as the loop of `New` leaves them, before the local host is
added to the home group. -/
def newGroups (host : String) (conf : Config) (id : Int) (trans : Transport)
    (fac : ContactStorageFactory) (tuples : InmemTuples) : List AffinityGroup :=
  (List.range conf.K.toNat).map (fun i =>
    let gc : GroupContact := { ID := i, Host := host }
    if id = i then .home (newAffinityGroup gc trans fac tuples conf)
    else .remote (newRemoteAffinityGroup gc trans fac))

/-- DefaultConfig, `config.go` lines 24-32: `K` is zero and `Transport`,
`Tuples` and `Contacts` are nil. -/
def DefaultConfig (sha256 : HashFunc) : Config :=
  { K := 0, HashFunc := some sha256, TupleTTL := 45 * Second, TupleExpireMinInt := 30 * Second,
    TupleExpireMaxInt := 40 * Second, Transport := none, Tuples := none, Contacts := none }

/-- A group with its contact directory replaced, everything else kept: what
`AddPeer` and `RemovePeer` of either implementation do to the group. -/
def AffinityGroup.withContacts : AffinityGroup → ContactStorage → AffinityGroup
  | .home g, cs => .home { g with contacts := cs }
  | .remote g, cs => .remote { g with contacts := cs }

/-- A call of `Kelips.AddPeer` or of `Kelips.RemovePeer`. -/
inductive PeerOp where
  | AddPeer (host : PeerContact)
  | RemovePeer (host : PeerContact)

/-- The peer a call is made on. -/
def PeerOp.host : PeerOp → PeerContact
  | .AddPeer p => p
  | .RemovePeer p => p

/-- Making one call on the node. -/
def Kelips.applyPeerOp (klp : Kelips) : PeerOp → Option (Kelips × Int × Option Error)
  | .AddPeer p => klp.AddPeer p
  | .RemovePeer p => klp.RemovePeer p

/-- Making a sequence of calls on the node, whatever they return; `none` when
one of them panics. -/
def applyPeerOps : Kelips → List PeerOp → Option Kelips
  | klp, [] => some klp
  | klp, op :: ops =>
    match klp.applyPeerOp op with
    | none => none
    | some r => applyPeerOps r.1 ops

/-- Shape of a node: a positive number of groups that fits `int64`, and as many
group objects. -/
def Kelips.Shaped (klp : Kelips) : Prop :=
  0 < klp.k ∧ klp.k ≤ maxInt64 ∧ klp.groups.length = klp.k.toNat

/-- Placement of the contacts of a node: every address held in the directory of
`groups[i]` has `lookupGroup(address, k) = i`. -/
def Kelips.Placed (klp : Kelips) : Prop :=
  ∀ (i : Int) (g : AffinityGroup) (a : String), klp.group i = some g →
    a ∈ g.contacts.addresses → lookupGroup (bytesOf a) klp.k klp.hasher.new = some i

/-- What is assumed of the peer library where a claim needs it: `GetByAddress`
returns one slot per requested address and the sort only reorders. -/
def Library.Lawful (lib : Library) : Prop :=
  (∀ addrs, (lib.GetByAddress addrs).length = addrs.length) ∧
  ∀ l, (lib.sortClosest l).Perm l

/-- The library of a gossip-backed directory is lawful; nothing is asked of an
in-memory directory. -/
def ContactStorage.Lawful : ContactStorage → Prop
  | .inmem _ => True
  | .gossip g => g.peers.Lawful

/-! ## gossip_tuples.go -/

/-- gossipTupleStorage wraps a tuple store and broadcasts what is inserted; of
the gossip pool the model keeps the address of the local node. -/
structure gossipTupleStorage where
  localAddress : String
  TupleStorage : InmemTuples

/-- Insert, `gossip_tuples.go` lines 16-37: the tuples go to the wrapped store,
then the address of the local node and one record per tuple are written to a
buffer, which is broadcast. `Write` on a `bytes.Buffer` returns no error, so
the early return is not taken; an error of `Broadcast` is logged only. The last
component of the result is the buffer handed to `Broadcast`. -/
def gossipTupleStorage.Insert (g : gossipTupleStorage) (net : Net) (heap : Heap) (now : Int)
    (tuples : List Ref) : Option (Heap × gossipTupleStorage × Nat × Bytes) :=
  let res := g.TupleStorage.Insert heap now tuples
  match hostStringToBytes net g.localAddress with
  | none => none
  | some hb =>
    match writeTuplesLoop net res.1 tuples hb with
    | none => none
    | some buf => some (res.1, { g with TupleStorage := res.2.1 }, res.2.2, buf)

/-! ## GroupContact as a string -/

/-- The errors of package `strconv`. -/
inductive NumError where
  | ErrSyntax
  | ErrRange
deriving DecidableEq

/-- Function `strconv.Itoa`: the decimal digits, after a minus sign for a
negative number. -/
def Itoa (i : Int) : String := toString i

/-- The loop of `strconv.ParseUint` in base 10 with 64 bits: a character that
is not a decimal digit is a syntax error, a value that leaves `uint64` a range
error, whichever comes first. -/
def atoiLoop : List Char → Nat → Except NumError Nat
  | [], n => .ok n
  | c :: cs, n =>
    if c.isDigit then
      if n * 10 + (c.toNat - 48) < 2 ^ 64 then atoiLoop cs (n * 10 + (c.toNat - 48))
      else .error .ErrRange
    else .error .ErrSyntax

/-- Function `strconv.Atoi` with a 64 bit `int`: an optional sign, then at
least one digit; the value has to fit `int64`. -/
def Atoi (s : String) : Except NumError Int :=
  let cs := s.toList
  let neg := cs.head? = some '-'
  let ds := if cs.head? = some '-' ∨ cs.head? = some '+' then cs.drop 1 else cs
  if ds = [] then .error .ErrSyntax
  else
    match atoiLoop ds 0 with
    | .error e => .error e
    | .ok un =>
      if neg then (if un ≤ 2 ^ 63 then .ok (-(un : Int)) else .error .ErrRange)
      else (if un < 2 ^ 63 then .ok (un : Int) else .error .ErrRange)

/-- Function `strings.LastIndex(s, "/")` on the characters of `s`; `none` is
the result -1. The byte `/` occurs in the UTF-8 encoding of a string only as
the character `/`, so cutting at the character is cutting at the byte. -/
def lastIndexOf (c : Char) : List Char → Option Nat
  | [] => none
  | x :: xs =>
    match lastIndexOf c xs with
    | some i => some (i + 1)
    | none => if x = c then some 0 else none

/-- String, `group.go` lines 23-25; `int(gc.ID)` keeps the value, `int` having
64 bits. -/
def GroupContact.String (gc : GroupContact) := gc.Host ++ "/" ++ Itoa gc.ID

/-- parseGroupContact, `utils.go` lines 33-49. -/
def parseGroupContact (s : String) : GroupContact × Option NumError :=
  match lastIndexOf '/' s.toList with
  | none => ({ ID := 0, Host := s }, none)
  | some i =>
    let host := String.mk (s.toList.take i)
    match Atoi (String.mk (s.toList.drop (i + 1))) with
    | .error err => ({ ID := 0, Host := host }, some err)
    | .ok id => ({ ID := id, Host := host }, none)

/-! ## Chains of forwarded lookups -/

/-- A receiver of a lookup: a group of some node, with the memory of that
node's process and the choices its runtime makes during the call. -/
structure Receiver where
  group : AffinityGroup
  heap : Heap
  rt : Runtime

/-- Field `trans` of either implementation: the transport the group forwards
over. -/
def AffinityGroup.trans : AffinityGroup → Transport
  | .home g => g.trans
  | .remote g => g.trans

/-- A request forwarded `n` times over a transport that delivers: `LookupChain
n r req rT reqT` says that the `Lookup` of `req` at the receiver `r` leads,
through `n` transport calls, to the `Lookup` of `reqT` at the receiver `rT`.
At each forward the sender's `Lookup` makes one transport call `Lookup(c,
nreq)`; the call is delivered to the group with contact `c`, whose `Lookup` of
`nreq` returns, and the sender's transport answers the call `Lookup(c, nreq)`
with what that group returned. What the sender's own `Lookup` returns is not
part of the relation. -/
inductive LookupChain : Nat → Receiver → Request → Receiver → Request → Prop where
  | stop (r : Receiver) (req : Request) : LookupChain 0 r req r req
  | forward (n : Nat) (r r2 rT : Receiver) (req nreq reqT : Request) (c : GroupContact)
      (x2 : AffinityGroup × Request × Result × List TransportCall)
      (hcall : (r.group.Lookup r.heap r.rt req).map (fun x => x.2.2.2) =
        some [TransportCall.Lookup c nreq])
      (haddressed : r2.group.Contact = c)
      (hserved : r2.group.Lookup r2.heap r2.rt nreq = some x2)
      (hverbatim : r.group.trans.Lookup c nreq = x2.2.2.1)
      (hrest : LookupChain n r2 nreq rT reqT) :
      LookupChain (n + 1) r req rT reqT

/-! ## A network of nodes -/

/-- A node of a network: the node and the memory of its process. -/
structure NetNode where
  klp : Kelips
  heap : Heap

/-- The home group of a node: the one group the node registers with its
transport (`Register` in `newAffinityGroup`), under its contact. -/
def NetNode.home (n : NetNode) : Option affinityGroup :=
  match n.klp.group n.klp.id with
  | some (.home g) => some g
  | _ => none

/-- Whether a call addressed to the contact `c` arrives at the node: the node
listens at `c.Host` and has a group registered under `c.ID`. -/
def NetNode.serves (n : NetNode) (c : GroupContact) : Bool :=
  match n.home with
  | some g => decide (g.Host = c.Host ∧ g.ID = c.ID)
  | none => false

/-- A group with its transport replaced. -/
def AffinityGroup.withTrans : AffinityGroup → Transport → AffinityGroup
  | .home g, t => .home { g with trans := t }
  | .remote g, t => .remote { g with trans := t }

/-- A node all of whose groups use the transport `t`. -/
def Kelips.withTrans (klp : Kelips) (t : Transport) : Kelips :=
  { klp with trans := t, groups := klp.groups.map (fun g => g.withTrans t) }

/-- The transport of a network that delivers: a call addressed to `c` is
handled by the `Insert` or `Lookup` of the home group of the node that serves
`c`, in the state the network is in, and its result comes back verbatim. The
handling node's runtime choices and clock are `rt` and `now`; its own forwards
go over the same network, up to the given depth of nested calls, beyond which a
call times out. A call nobody serves and a call on which the handler panics
fail. -/
def netTransport (nodes : List NetNode) (rt : Runtime) (now : Int) : Nat → Transport
  | 0 =>
    ⟨fun _ _ => ("", some (.transport "timeout")), fun _ _ => ("", some (.transport "timeout"))⟩
  | d + 1 =>
    ⟨fun c key =>
      match nodes.find? (fun n => n.serves c) with
      | none => ("", some (.transport "not found"))
      | some n =>
        match n.home with
        | none => ("", some (.transport "not found"))
        | some g =>
          match g.Insert n.heap rt now key with
          | none => ("", some (.transport "EOF"))
          | some r => r.2.2.1,
     fun c req =>
      match nodes.find? (fun n => n.serves c) with
      | none => ("", some (.transport "not found"))
      | some n =>
        match n.home with
        | none => ("", some (.transport "not found"))
        | some g =>
          match ({ g with trans := netTransport nodes rt now d } : affinityGroup).Lookup
              n.heap rt req with
          | none => ("", some (.transport "EOF"))
          | some r => r.1⟩

/-- What handling a delivered `Insert` leaves of the node that handled it. -/
def NetNode.handleInsert (n : NetNode) (rt : Runtime) (now : Int) (key : Bytes) : NetNode :=
  match n.home with
  | none => n
  | some g =>
    match g.Insert n.heap rt now key with
    | none => n
    | some r => ⟨n.klp.setGroup n.klp.id (.home r.2.1), r.1⟩

/-- The network after the delivery of `Insert(c, key)`: the first node that
serves `c` has handled it. -/
def deliverInsert (rt : Runtime) (now : Int) (c : GroupContact) (key : Bytes) :
    List NetNode → List NetNode
  | [] => []
  | n :: ns =>
    if n.serves c then n.handleInsert rt now key :: ns
    else n :: deliverInsert rt now c key ns

/-- The network after the delivery of a transport call; handling a `Lookup`
changes nothing in the node that handles it. -/
def deliverCall (rt : Runtime) (now : Int) (nodes : List NetNode) : TransportCall → List NetNode
  | .Insert c key => deliverInsert rt now c key nodes
  | .Lookup _ _ => nodes

/-- The call `Insert(key)` on node `i` of a network whose transport delivers:
the result of the call and the network it leaves. The caller's runtime choices
are `rt`, those of a node handling a delivered call `rtS`, its clock `nowS`. -/
def networkInsert (nodes : List NetNode) (i : Nat) (rt rtS : Runtime) (now nowS : Int)
    (d : Nat) (key : Bytes) : Option (List NetNode × Result) :=
  match nodes[i]? with
  | none => none
  | some n =>
    match (n.klp.withTrans (netTransport nodes rtS nowS d)).Insert n.heap rt now key with
    | none => none
    | some r =>
      some (r.2.2.2.foldl (deliverCall rtS nowS) (nodes.set i ⟨r.2.1, r.1⟩), r.2.2.1)

/-- The call `Lookup(req)` on node `i` of a network whose transport delivers:
the network it leaves, the caller's request as the call leaves it, and the
result. -/
def networkLookup (nodes : List NetNode) (i : Nat) (rt rtS : Runtime) (nowS : Int)
    (d : Nat) (req : Request) : Option (List NetNode × Request × Result) :=
  match nodes[i]? with
  | none => none
  | some n =>
    match (n.klp.withTrans (netTransport nodes rtS nowS d)).Lookup n.heap rt req with
    | none => none
    | some r => some (nodes.set i ⟨r.1, n.heap⟩, r.2.1, r.2.2.1)

/-- Node `i` of the network `makeTestNetwork` builds for the addresses `hosts`:
`New`, then `AddPeer` of every other address; its process memory holds no
tuple yet. -/
def buildNode (sha256 : HashFunc) (conf : Config) (hosts : List String) (i : Nat) :
    Option NetNode :=
  match hosts[i]? with
  | none => none
  | some host =>
    match New sha256 host conf with
    | none => none
    | some klp =>
      match applyPeerOps klp ((hosts.eraseIdx i).map (fun h => PeerOp.AddPeer ⟨h, 0, 0⟩)) with
      | none => none
      | some klp1 => some ⟨klp1, ⟨[]⟩⟩

/-- All of a list of optional nodes, when none is missing. -/
def allNodes : List (Option NetNode) → Option (List NetNode)
  | [] => some []
  | none :: _ => none
  | some n :: ns =>
    match allNodes ns with
    | none => none
    | some l => some (n :: l)

/-- The network of the nodes at the addresses `hosts`, `kelips_test.go` lines
201-237 (one config value per node, all alike). -/
def makeNetwork (sha256 : HashFunc) (conf : Config) (hosts : List String) :
    Option (List NetNode) :=
  allNodes ((List.range hosts.length).map (buildNode sha256 conf hosts))

/-- What the network claims use of the group `grp` at index `g` of a node at
`host` with home group `id`: its contact, that it is the home group exactly for
`g = id`, that its directory is the in-memory one of this host, well keyed,
and holds exactly the addresses of `S` that belong to group `g`; and `T` of the
tuple store of a home group. -/
def GroupInv (H : HashFunc) (K : Int) (host : String) (S : List String)
    (T : InmemTuples → Prop) (id g : Int) (grp : AffinityGroup) : Prop :=
  grp.Contact = ⟨g, host⟩ ∧ (grp.IsLocal = true ↔ g = id) ∧
  (∃ c, grp.contacts = .inmem c ∧ c.host = host ∧ c.Keyed ∧
    ∀ a, a ∈ c.peers.keys ↔ (a ∈ S ∧ lookupGroup (bytesOf a) K H.new = some g)) ∧
  (∀ h, grp = .home h → T h.tuples)

/-- A node at `host` of a network with `K` groups under the hash `H`, knowing
the addresses `S`: shape, home group index and every group as `GroupInv` says. -/
def NodeInv (H : HashFunc) (K : Int) (host : String) (S : List String)
    (T : InmemTuples → Prop) (klp : Kelips) : Prop :=
  klp.k = K ∧ klp.hasher = H ∧ klp.Shaped ∧
  lookupGroup (bytesOf host) K H.new = some klp.id ∧
  ∀ g grp, klp.group g = some grp → GroupInv H K host S T klp.id g grp

/-- A network at the addresses `hosts` in which every node knows every
address and every home store satisfies the store invariant in the memory of
its node. -/
def NetInv (H : HashFunc) (K : Int) (hosts : List String) (nodes : List NetNode) : Prop :=
  nodes.length = hosts.length ∧
  ∀ (i : Nat) (n : NetNode) (host : String), nodes[i]? = some n → hosts[i]? = some host →
    NodeInv H K host hosts (fun s => s.WF n.heap) n.klp

/-! ## Forwarding among home groups -/

/-- A home group that receives lookups, with the memory of its node's process
and the choices its runtime makes during a call. -/
structure HomeReceiver where
  group : affinityGroup
  heap : Heap
  rt : Runtime

/-- A transport that delivers each forwarded `Lookup` to a home group: the
call addressed to `c` is handled by `affinityGroup.Lookup` of the home group
`serve c`, whose own forwards go over the same transport, and its result comes
back verbatim (a handler that panics makes the call fail). The number is the
depth of nested calls the transport allows, beyond which a call times out.
`Insert` is not served. -/
def homeTransport (serve : GroupContact → HomeReceiver) : Nat → Transport
  | 0 =>
    ⟨fun _ _ => ("", some (.transport "not served")),
     fun _ _ => ("", some (.transport "timeout"))⟩
  | d + 1 =>
    ⟨fun _ _ => ("", some (.transport "not served")),
     fun c req =>
      match ({ (serve c).group with trans := homeTransport serve d } : affinityGroup).Lookup
          (serve c).heap (serve c).rt req with
      | none => ("", some (.transport "EOF"))
      | some r => r.1⟩

/-- Lookup of the home group of the receiver `r` over the delivering transport
of depth `d`. -/
def homeLookup (serve : GroupContact → HomeReceiver) (d : Nat) (r : HomeReceiver)
    (req : Request) : Option (Result × List TransportCall) :=
  ({ r.group with trans := homeTransport serve d } : affinityGroup).Lookup r.heap r.rt req

/-- The requests forwarded, in order, while the receiver `r` looks up `req`
over the delivering transport of depth `d`: the request of the transport call
`r` makes, if it makes one, followed by those forwarded by the home group the
call is delivered to (none when the call times out). -/
def forwardedRequests (serve : GroupContact → HomeReceiver) :
    Nat → HomeReceiver → Request → List Request
  | 0, r, req =>
    match homeLookup serve 0 r req with
    | some (_, [TransportCall.Lookup _ nreq]) => [nreq]
    | _ => []
  | d + 1, r, req =>
    match homeLookup serve (d + 1) r req with
    | some (_, [TransportCall.Lookup c nreq]) => nreq :: forwardedRequests serve d (serve c) nreq
    | _ => []

/-! ## Sample data, after `tuples_test.go` and `kelips_test.go` -/

/-- Heap holding the objects of the first four `testTuples` of `tuples_test.go`;
hosts `127.0.0.1:3741` appears once, the others are distinct. -/
def testHeap : Heap :=
  ⟨[ ⟨bytesOf "foo", "127.0.0.1:8902", 0, 0⟩,
     ⟨bytesOf "parent/child/grandchild", "127.0.0.1:65432", 0, 0⟩,
     ⟨bytesOf "parent/grandparent/greatgrandparent", "127.0.0.1:3741", 0, 0⟩,
     ⟨bytesOf "database/table/key", "127.0.0.1:12345", 0, 0⟩ ]⟩

/-- A clock reading: 2023-11-14T22:13:20Z in nanoseconds. -/
def testNow : Int := 1700000000000000000

/-- The store and heap after `Insert` of the first three test tuples at `testNow`. -/
def testInserted : Heap × InmemTuples × Nat :=
  NewInmemTuples.Insert testHeap testNow [0, 1, 2]

/-- A toy digest for examples: the sum of the bytes, as one byte. -/
def sumHash : HashFunc := fun b => [b.foldl (fun acc x => acc + x) 0]

/-- A transport on which every call fails. -/
def testTransport : Transport :=
  ⟨fun _ _ => ("", some (.transport "no route")), fun _ _ => ("", some (.transport "no route"))⟩

/-- The default durations with `k` groups, the byte-sum digest, the failing
transport and the default (nil) tuple store and contact factory. -/
def testConf (k : Int) : Config :=
  { K := k, HashFunc := some sumHash, TupleTTL := 45 * Second, TupleExpireMinInt := 30 * Second,
    TupleExpireMaxInt := 40 * Second, Transport := some testTransport, Tuples := none,
    Contacts := none }

/-- The node `New("127.0.0.1:9000", conf)` with one group. -/
def testNode : Option Kelips := New sumHash "127.0.0.1:9000" (testConf 1)

/-- The node after `AddPeer` of `127.0.0.1:9001`, which joins the home group. -/
def testNodePeered : Option Kelips :=
  testNode.bind (fun n => (n.AddPeer ⟨"127.0.0.1:9001", 0, 0⟩).map (fun r => r.1))

/-- A first `Insert("foo")` on the peered node, on an empty heap, the map range
starting at the newest contact. -/
def testFirstInsert : Option (Heap × Kelips × Result × List TransportCall) :=
  testNodePeered.bind (fun n => n.Insert ⟨[]⟩ ⟨RangeOrder.stored, 0⟩ testNow (bytesOf "foo"))

/-- A second `Insert("foo")` one second later, the map range starting at the
oldest contact. -/
def testSecondInsert : Option (Heap × Kelips × Result × List TransportCall) :=
  testFirstInsert.bind (fun r =>
    r.2.1.Insert r.1 ⟨RangeOrder.reversed, 0⟩ (testNow + Second) (bytesOf "foo"))

/-- The call `Lookup({Key: "foo", TTL: 0})` after the second insert. -/
def testLookupAfter : Option (Kelips × Request × Result × List TransportCall) :=
  testSecondInsert.bind (fun r =>
    r.2.1.Lookup r.1 ⟨RangeOrder.stored, 0⟩ ⟨bytesOf "foo", 0, ⟨0, ""⟩⟩)

/-- The home group of the peered sample node: built by `newAffinityGroup`, then
`AddPeer` of the local host (in `New`) and of `127.0.0.1:9001`. -/
def testHome : affinityGroup :=
  (((newAffinityGroup ⟨0, "127.0.0.1:9000"⟩ testTransport
      (.inmemContactsFac "127.0.0.1:9000") NewInmemTuples
      ((testConf 1).Validate sumHash)).AddPeer ⟨"127.0.0.1:9000", 0, 0⟩).1.AddPeer
    ⟨"127.0.0.1:9001", 0, 0⟩).1

/-- The peered sample node as a value. -/
def testKlp : Kelips :=
  { id := 0, k := 1, hasher := sumHash, groups := [.home testHome], trans := testTransport }

/-- Heap and node after `Insert("foo")` on the peered sample node. -/
def testKlpInserted : Heap × Kelips :=
  match testKlp.Insert ⟨[]⟩ ⟨RangeOrder.stored, 0⟩ testNow (bytesOf "foo") with
  | some r => (r.1, r.2.1)
  | none => (⟨[]⟩, testKlp)

/-- The request `{Key: "foo", TTL: 0}`. -/
def testRequest : Request := ⟨bytesOf "foo", 0, ⟨0, ""⟩⟩

/-- The in-memory directory of the peered sample node: the local host
`127.0.0.1:9000` and `127.0.0.1:9001`. -/
def testContacts : inmemContacts :=
  (((⟨0, "127.0.0.1:9000", ∅⟩ : inmemContacts).Add ⟨"127.0.0.1:9000", 0, 0⟩).1.Add
    ⟨"127.0.0.1:9001", 0, 0⟩).1

/-- A peer library that resolves nothing and leaves slices as they are. -/
def testLibrary : Library := ⟨fun addrs => addrs.map (fun _ => none), fun l => l⟩

/-- A gossip-backed directory holding `127.0.0.1:9000` and `127.0.0.1:9001`. -/
def testGossipContacts : gossipContactStorage :=
  ⟨0, testLibrary, ["127.0.0.1:9000", "127.0.0.1:9001"]⟩

/-- The node `New("127.0.0.1:9000", conf)` with two groups: group 0 is home. -/
def testNode2 : Option Kelips := New sumHash "127.0.0.1:9000" (testConf 2)

/-- The remote group (group 1) of the sample node with two groups; it has no
contacts. -/
def testRemote : remoteAffinityGroup :=
  newRemoteAffinityGroup ⟨1, "127.0.0.1:9000"⟩ testTransport
    (.inmemContactsFac "127.0.0.1:9000")

/-- The sample node with two groups as a value. -/
def testKlp2 : Kelips :=
  { id := 0, k := 2, hasher := sumHash,
    groups := [.home ((newAffinityGroup ⟨0, "127.0.0.1:9000"⟩ testTransport
        (.inmemContactsFac "127.0.0.1:9000") NewInmemTuples
        ((testConf 2).Validate sumHash)).AddPeer ⟨"127.0.0.1:9000", 0, 0⟩).1,
      .remote testRemote],
    trans := testTransport }

/-- Splitting a list of characters at every occurrence of `c`. -/
def splitAt (c : Char) : List Char → List (List Char)
  | [] => [[]]
  | x :: xs =>
    if x = c then [] :: splitAt c xs
    else
      match splitAt c xs with
      | [] => [[x]]
      | p :: ps => (x :: p) :: ps

/-- Reading a non-empty string of decimal digits. -/
def parseDec (cs : List Char) : Option Nat :=
  if cs = [] then none
  else cs.foldl (fun acc c =>
    acc.bind (fun n => if c.isDigit then some (n * 10 + (c.toNat - 48)) else none)) (some 0)

/-- The `net` package on IPv4 literals `a.b.c.d:port`, for the examples: they
resolve to the 16-byte IPv4-in-IPv6 form, which prints as the dotted quad. -/
def testNet : Net where
  ResolveTCPAddr := fun s =>
    match splitAt ':' s.toList with
    | [h, p] =>
      match (splitAt '.' h).map parseDec, parseDec p with
      | [some a, some b, some c, some d], some port =>
        if a < 256 ∧ b < 256 ∧ c < 256 ∧ d < 256 ∧ port < 65536 then
          some ([0, 0, 0, 0, 0, 0, 0, 0, 0, 0, 255, 255,
            Fin.ofNat a, Fin.ofNat b, Fin.ofNat c, Fin.ofNat d], port)
        else none
      | _, _ => none
    | _ => none
  IPString := fun ip =>
    match ip with
    | [0, 0, 0, 0, 0, 0, 0, 0, 0, 0, 255, 255, a, b, c, d] =>
      toString a.val ++ "." ++ toString b.val ++ "." ++ toString c.val ++ "." ++ toString d.val
    | _ => "?"

/-- A delegate of node `127.0.0.1:9001` with an empty store. -/
def testDelegate : tuplesGossipDelegate := ⟨"127.0.0.1:9001", NewInmemTuples⟩

/-- A gossip message as `tuplesGossipDelegate` receives it: the 18 bytes of the
sender `127.0.0.1:9000`, then the frame of the first two test tuples. -/
def testFrame : Bytes :=
  (hostStringToBytes testNet "127.0.0.1:9000").getD [] ++
    (writeTuples testNet testHeap [0, 1]).getD []

/-- The three stored test tuples after `Ping("foo")`, a `Lookup("foo")` whose
returned pointer is kept, `Delete("foo")`, and `Insert` of the kept pointer. -/
def testReinserted : Heap × InmemTuples × Nat :=
  let heap1 := (testInserted.2.1.Ping testInserted.1 (testNow + 1) [bytesOf "foo"]).1
  match testInserted.2.1.Lookup heap1 (bytesOf "foo") with
  | none => (heap1, testInserted.2.1, 0)
  | some tpl =>
    ((testInserted.2.1.Delete [bytesOf "foo"]).1).Insert heap1 (testNow + 2) [tpl]

/-- A sequence of calls: three peers are added, one that was never added is
removed, and the first is added again. -/
def testPeerOps : List PeerOp :=
  [.AddPeer ⟨"127.0.0.1:9001", 0, 0⟩, .AddPeer ⟨"127.0.0.1:9002", 0, 0⟩,
    .AddPeer ⟨"127.0.0.1:9003", 0, 0⟩, .RemovePeer ⟨"127.0.0.1:9004", 0, 0⟩,
    .AddPeer ⟨"127.0.0.1:9001", 0, 0⟩]

/-- A transport whose remote side answers every call with the host it was
addressed to. -/
def testEchoTransport : Transport := ⟨fun c _ => (c.Host, none), fun c _ => (c.Host, none)⟩

/-- Group 1 of the sample node with two groups, as a remote group knowing the
peer `127.0.0.1:9001`, over the answering transport. -/
def testRemotePeered : remoteAffinityGroup :=
  { (testRemote.AddPeer ⟨"127.0.0.1:9001", 0, 0⟩).1 with trans := testEchoTransport }

/-- The home group of the peered sample node over the answering transport. -/
def testHomeEcho : affinityGroup := { testHome with trans := testEchoTransport }

/-- The request `{Key: "foo", TTL: 1}`. -/
def testRequest1 : Request := ⟨bytesOf "foo", 1, ⟨0, ""⟩⟩

/-- A config with three groups whose durations are inconsistent: the expire
minimum (5 s) is above the maximum (2 s), which is above the TTL (1 s). -/
def testConfInconsistent : Config :=
  { testConf 3 with TupleTTL := 1 * Second, TupleExpireMinInt := 5 * Second,
                    TupleExpireMaxInt := 2 * Second }

/-- A config with three groups in which no duration is set. -/
def testConfUnset : Config :=
  { testConf 3 with TupleTTL := 0, TupleExpireMinInt := 0, TupleExpireMaxInt := 0 }

/-- A heap holding one tuple whose key has 238 bytes. -/
def testHeapLongKey : Heap := ⟨[⟨List.replicate 238 97, "127.0.0.1:8902", 0, 0⟩]⟩

/-- A broadcasting store at node `127.0.0.1:9000`, empty. -/
def testGossipTuples : gossipTupleStorage := ⟨"127.0.0.1:9000", NewInmemTuples⟩

/-- A transport whose `Lookup` is answered by the receiver `r`, whatever the
address; its `Insert` is not served. -/
def deliverTo (r : Receiver) : Transport :=
  ⟨fun _ _ => ("", some (.transport "not served")),
   fun _ req =>
    match r.group.Lookup r.heap r.rt req with
    | some x => x.2.2.1
    | none => ("", some (.transport "EOF"))⟩

/-- The home group of node `127.0.0.1:9001`, whose store holds the three test
tuples. -/
def testTerminal : Receiver :=
  ⟨.home { testHome with Host := "127.0.0.1:9001", tuples := testInserted.2.1 },
    testInserted.1, ⟨RangeOrder.stored, 0⟩⟩

/-- The home group of node `127.0.0.1:9000`, with an empty store, whose
transport reaches the home group of `127.0.0.1:9001`. -/
def testMiddle : Receiver :=
  ⟨.home { testHome with trans := deliverTo testTerminal }, ⟨[]⟩, ⟨RangeOrder.stored, 0⟩⟩

/-- Group 0 as a remote group of node `127.0.0.1:9002`, knowing the peer
`127.0.0.1:9000`, whose transport reaches the home group of that peer. -/
def testFirst : Receiver :=
  ⟨.remote { (newRemoteAffinityGroup ⟨0, "127.0.0.1:9002"⟩ (deliverTo testMiddle)
      (.inmemContactsFac "127.0.0.1:9002")).AddPeer ⟨"127.0.0.1:9000", 0, 0⟩ |>.1 with
      trans := deliverTo testMiddle },
    ⟨[]⟩, ⟨RangeOrder.stored, 0⟩⟩

/-- The addresses of a network of three nodes; under the byte-sum digest with
three groups they belong to groups 1, 2 and 0. -/
def testHosts : List String := ["127.0.0.1:9000", "127.0.0.1:9001", "127.0.0.1:9002"]

/-- The network of three nodes after `Insert("foo")` on its first node. -/
def testNetworkInserted : Option (List NetNode × Result) :=
  (makeNetwork sumHash (testConf 3) testHosts).bind (fun nodes =>
    networkInsert nodes 0 ⟨RangeOrder.stored, 0⟩ ⟨RangeOrder.stored, 0⟩ testNow testNow 1
      (bytesOf "foo"))

/-- A config with three groups in which the caller set only the expire maximum,
to 50 s. -/
def testConfOnlyMax : Config :=
  { testConf 3 with TupleTTL := 0, TupleExpireMinInt := 0, TupleExpireMaxInt := 50 * Second }

/-- A config with three groups in which the caller set only the expire minimum,
to 5 s. -/
def testConfOnlyMin : Config :=
  { testConf 3 with TupleTTL := 0, TupleExpireMinInt := 5 * Second, TupleExpireMaxInt := 0 }

/-- A peer library that resolves every address to the peer at that address and
leaves slices as they are. -/
def testLibraryAll : Library := ⟨fun addrs => addrs.map (fun a => some ⟨a, 0, 0⟩), fun l => l⟩

/-- The gossip-backed directory of the home group (group 0) of node
`127.0.0.1:9000`, made by the factory, after the node itself was added: the
home group has no other member. -/
def testHomeGossipContacts : ContactStorage :=
  (((ContactStorageFactory.Gossip testLibrary testLibraryAll).New 0 true).Add
    ⟨"127.0.0.1:9000", 0, 0⟩).1

/-- The home group of node `127.0.0.1:9000` over the gossip-backed directory
that holds the node itself only. -/
def testHomeGossip : affinityGroup :=
  { testHome with contacts := testHomeGossipContacts, trans := testEchoTransport }

/-- The delegate of the home group of node `127.0.0.1:9001` over the store of
the three test tuples. -/
def testDelegateStored : tuplesGossipDelegate := ⟨"127.0.0.1:9001", testInserted.2.1⟩

/-- A state-exchange buffer: the records of the first two test tuples (`foo` at
`127.0.0.1:8902`, `parent/child/grandchild` at `127.0.0.1:65432`), without a
host header. -/
def testStateFrame : Bytes := (writeTuples testNet testHeap [0, 1]).getD []

/-- The delegate of the home group of node `127.0.0.1:8902` over the store of
the three test tuples, of which `foo` is owned by that node. -/
def testDelegateLocal : tuplesGossipDelegate := ⟨"127.0.0.1:8902", testInserted.2.1⟩

/-- Two home groups of group 0 with empty stores that know each other: a call
addressed to `127.0.0.1:9001` is served by the home group of that node, whose
directory holds `127.0.0.1:9000`; any other call by the home group of
`127.0.0.1:9000`, whose directory holds itself and `127.0.0.1:9001`. -/
def testServe (c : GroupContact) : HomeReceiver :=
  if c.Host = "127.0.0.1:9001" then
    ⟨((newAffinityGroup ⟨0, "127.0.0.1:9001"⟩ testTransport
        (.inmemContactsFac "127.0.0.1:9001") NewInmemTuples
        ((testConf 1).Validate sumHash)).AddPeer ⟨"127.0.0.1:9000", 0, 0⟩).1,
      ⟨[]⟩, ⟨RangeOrder.stored, 0⟩⟩
  else ⟨testHome, ⟨[]⟩, ⟨RangeOrder.stored, 0⟩⟩

/-- The request `{Key: "foo", TTL: 3}`. -/
def testRequest3 : Request := ⟨bytesOf "foo", 3, ⟨0, ""⟩⟩

/-- The home group of node `127.0.0.1:9000` over a gossip-backed directory
holding the node itself and `127.0.0.1:9001`, both known to the library. -/
def testHomeGossipPeered : affinityGroup :=
  { testHome with
    contacts := ((testHomeGossipContacts.Add ⟨"127.0.0.1:9001", 0, 0⟩).1) }

/-- The home group of node `127.0.0.1:9000` over the gossip-backed directory
the factory makes for a home group, holding no address yet. -/
def testHomeGossipEmpty : affinityGroup :=
  { testHome with
    contacts := (ContactStorageFactory.Gossip testLibrary testLibraryAll).New 0 true }

/-! # Theorems -/

/-! ## Ranging over the map while deleting -/

theorem foldl_erase_count (P : Entry → Prop) [DecidablePred P]
    (f : InmemTuples × Nat → Entry → InmemTuples × Nat)
    (hf : ∀ acc e, f acc e = if P e then (⟨acc.1.m.erase e.1⟩, acc.2 + 1) else acc)
    (l : List Entry) (acc : InmemTuples × Nat) :
    (l.foldl f acc).2 = acc.2 + l.countP (fun e => decide (P e)) := by
  induction l generalizing acc with
  | nil => simp
  | cons e l ih =>
    rw [List.foldl_cons, ih, hf]
    by_cases h : P e
    · simp [h, List.countP_cons_of_pos]; omega
    · simp [h]

theorem foldl_erase_lookup (P : Entry → Prop) [DecidablePred P]
    (f : InmemTuples × Nat → Entry → InmemTuples × Nat)
    (hf : ∀ acc e, f acc e = if P e then (⟨acc.1.m.erase e.1⟩, acc.2 + 1) else acc)
    (k : Bytes) (l : List Entry) (acc : InmemTuples × Nat) :
    (l.foldl f acc).1.m.lookup k =
      if (∃ e ∈ l, e.1 = k ∧ P e) then none else acc.1.m.lookup k := by
  induction l generalizing acc with
  | nil => simp
  | cons e l ih =>
    rw [List.foldl_cons, ih, hf]
    by_cases hl : ∃ e ∈ l, e.1 = k ∧ P e
    · have : ∃ e' ∈ e :: l, e'.1 = k ∧ P e' := by
        obtain ⟨e', he', h⟩ := hl
        exact ⟨e', List.mem_cons_of_mem _ he', h⟩
      rw [if_pos hl, if_pos this]
    · rw [if_neg hl]
      by_cases hP : P e
      · rw [if_pos hP]
        by_cases hk : e.1 = k
        · have : ∃ e' ∈ e :: l, e'.1 = k ∧ P e' := ⟨e, List.mem_cons_self _ _, hk, hP⟩
          rw [if_pos this, ← hk]
          exact AList.lookup_erase _ _
        · have : ¬ ∃ e' ∈ e :: l, e'.1 = k ∧ P e' := by
            rintro ⟨e', he', h1, h2⟩
            rcases List.mem_cons.1 he' with rfl | he'
            · exact hk h1
            · exact hl ⟨e', he', h1, h2⟩
          rw [if_neg this]
          exact AList.lookup_erase_ne (fun h => hk h.symm)
      · rw [if_neg hP]
        have : ¬ ∃ e' ∈ e :: l, e'.1 = k ∧ P e' := by
          rintro ⟨e', he', h1, h2⟩
          rcases List.mem_cons.1 he' with rfl | he'
          · exact hP h2
          · exact hl ⟨e', he', h1, h2⟩
        rw [if_neg this]

theorem entries_exists_iff (P : Entry → Prop) (s : AList (fun _ : Bytes => Ref)) (k : Bytes) :
    (∃ e ∈ s.entries, e.1 = k ∧ P e) ↔ ∃ r, s.lookup k = some r ∧ P ⟨k, r⟩ := by
  constructor
  · rintro ⟨⟨k', r⟩, he, hk, hP⟩
    simp only at hk
    subst hk
    exact ⟨r, AList.mem_lookup_iff.2 he, hP⟩
  · rintro ⟨r, hr, hP⟩
    exact ⟨⟨k, r⟩, AList.mem_lookup_iff.1 hr, rfl, hP⟩

/-- Ranging over all entries of a map and deleting those satisfying `P` leaves
exactly the entries that do not satisfy `P`. -/
theorem range_erase_lookup (P : Entry → Prop) [DecidablePred P]
    (f : InmemTuples × Nat → Entry → InmemTuples × Nat)
    (hf : ∀ acc e, f acc e = if P e then (⟨acc.1.m.erase e.1⟩, acc.2 + 1) else acc)
    (tuples : InmemTuples) (k : Bytes) :
    (tuples.m.entries.foldl f (tuples, 0)).1.m.lookup k =
      (tuples.m.lookup k).filter (fun r => decide (¬ P ⟨k, r⟩)) := by
  rw [foldl_erase_lookup P f hf]
  cases hr : tuples.m.lookup k with
  | none =>
    have : ¬ ∃ e ∈ tuples.m.entries, e.1 = k ∧ P e := by
      rw [entries_exists_iff]; simp [hr]
    simp [this, hr]
  | some r =>
    by_cases hP : P ⟨k, r⟩
    · have : ∃ e ∈ tuples.m.entries, e.1 = k ∧ P e := by
        rw [entries_exists_iff]; exact ⟨r, hr, hP⟩
      simp [this, hP, Option.filter]
    · have : ¬ ∃ e ∈ tuples.m.entries, e.1 = k ∧ P e := by
        rw [entries_exists_iff]; simp [hr, hP]
      simp [this, hP, hr, Option.filter]

/-! ## ExpireHost -/

theorem Clone_eq (heap : Heap) (t : Ref) : Tuple.Clone heap t = t := rfl

theorem Lookup_eq_lookup (tuples : InmemTuples) (heap : Heap) (key : Bytes) :
    tuples.Lookup heap key = tuples.m.lookup key := by
  unfold InmemTuples.Lookup
  cases tuples.m.lookup key <;> rfl

theorem expireHostStep_eq (heap : Heap) (host : String) (acc : InmemTuples × Nat) (e : Entry) :
    InmemTuples.expireHostStep heap host acc e =
      if (heap.deref e.2).Host = host then (⟨acc.1.m.erase e.1⟩, acc.2 + 1) else acc := rfl

/-- C9: after `ExpireHost(h)` no stored tuple has `Host == h` (and a `Lookup` of
a key that mapped to host `h` returns nil); every tuple with another host is
still stored under its key, through the same pointer to the same unchanged
object; no key is added; the returned count is the number of tuples listed by
`List()` before the call whose host is `h`. -/
theorem ExpireHost_removes_exactly_host (tuples : InmemTuples) (heap : Heap) (host : String) :
    (∀ k t, (tuples.ExpireHost heap host).1.get heap k = some t → t.Host ≠ host) ∧
    (∀ k r, tuples.m.lookup k = some r → (heap.deref r).Host = host →
      (tuples.ExpireHost heap host).1.Lookup heap k = none) ∧
    (∀ k r, tuples.m.lookup k = some r → (heap.deref r).Host ≠ host →
      (tuples.ExpireHost heap host).1.m.lookup k = some r ∧
      (tuples.ExpireHost heap host).1.get heap k = tuples.get heap k) ∧
    (∀ k, tuples.m.lookup k = none → (tuples.ExpireHost heap host).1.m.lookup k = none) ∧
    (tuples.ExpireHost heap host).2 =
      (tuples.List heap).countP (fun r => decide ((heap.deref r).Host = host)) := by
  have key : ∀ k, (tuples.ExpireHost heap host).1.m.lookup k =
      (tuples.m.lookup k).filter (fun r => decide (¬ (heap.deref r).Host = host)) := fun k =>
    range_erase_lookup (fun e => (heap.deref e.2).Host = host) _
      (expireHostStep_eq heap host) tuples k
  refine ⟨?_, ?_, ?_, ?_, ?_⟩
  · intro k t h
    unfold InmemTuples.get at h
    rw [key] at h
    cases hr : tuples.m.lookup k with
    | none => simp [hr, Option.filter] at h
    | some r =>
      by_cases hh : (heap.deref r).Host = host
      · simp [hr, Option.filter, hh] at h
      · simp [hr, Option.filter, hh] at h
        rw [← h]; exact hh
  · intro k r hr hh
    rw [Lookup_eq_lookup, key, hr]
    simp [Option.filter, hh]
  · intro k r hr hh
    have : (tuples.ExpireHost heap host).1.m.lookup k = some r := by
      rw [key, hr]; simp [Option.filter, hh]
    refine ⟨this, ?_⟩
    unfold InmemTuples.get
    rw [this, hr]
  · intro k hk
    rw [key, hk]; rfl
  · have := foldl_erase_count (fun e => (heap.deref e.2).Host = host) _
      (expireHostStep_eq heap host) tuples.m.entries (tuples, 0)
    unfold InmemTuples.ExpireHost
    rw [this]
    unfold InmemTuples.List
    rw [List.countP_map]
    simp only [Nat.zero_add]
    rfl

/-! ## Delete -/

theorem deleteStep_lookup (acc : InmemTuples × Nat) (k' k : Bytes) :
    (InmemTuples.deleteStep acc k').1.m.lookup k =
      if k = k' then none else acc.1.m.lookup k := by
  unfold InmemTuples.deleteStep
  by_cases hk : k = k'
  · subst hk
    cases h : acc.1.m.lookup k with
    | none => simp [h]
    | some r => simp [AList.lookup_erase]
  · rw [if_neg hk]
    cases h : acc.1.m.lookup k' with
    | none => rfl
    | some r => exact AList.lookup_erase_ne hk

theorem deleteFold_lookup (keys : List Bytes) (acc : InmemTuples × Nat) (k : Bytes) :
    (keys.foldl InmemTuples.deleteStep acc).1.m.lookup k =
      if k ∈ keys then none else acc.1.m.lookup k := by
  induction keys generalizing acc with
  | nil => simp
  | cons k' ks ih =>
    rw [List.foldl_cons, ih, deleteStep_lookup]
    by_cases h1 : k ∈ ks
    · simp [h1]
    · by_cases h2 : k = k'
      · simp [h2]
      · simp [h1, h2]

theorem keys_erase_length {α : Type} [DecidableEq α] {β : α → Type} (s : AList β) (k : α)
    (h : k ∈ s.keys) : (s.erase k).keys.length + 1 = s.keys.length := by
  rw [AList.keys_erase, List.length_erase_of_mem h]
  have := List.length_pos_of_mem h
  omega

/-- In a map that holds `k`, the keys that are `k` or in `ks` are one more than
the keys of the map without `k` that are in `ks`. -/
theorem keys_erase_filter_length {α : Type} [DecidableEq α] {β : α → Type} (s : AList β) (k : α)
    (ks : List α) (hk : k ∈ s.keys) :
    ((s.erase k).keys.filter (fun x => decide (x ∈ ks))).length + 1 =
      (s.keys.filter (fun x => decide (x ∈ k :: ks))).length := by
  rw [AList.keys_erase]
  have hperm : s.keys.Perm (k :: s.keys.erase k) := List.perm_cons_erase hk
  rw [(hperm.filter _).length_eq]
  have hnot : k ∉ s.keys.erase k := fun h => (List.Nodup.mem_erase_iff s.keys_nodup).1 h |>.1 rfl
  rw [List.filter_cons_of_pos (by simp), List.length_cons]
  congr 2
  apply List.filter_congr
  intro x hx
  have : x ≠ k := fun h => hnot (h ▸ hx)
  simp [this]

theorem keys_insert_length {α : Type} [DecidableEq α] {β : α → Type} (s : AList β) (k : α)
    (b : β k) (h : k ∉ s) : (s.insert k b).keys.length = s.keys.length + 1 := by
  rw [AList.keys_insert, List.length_cons, List.erase_of_not_mem (AList.mem_keys.not.1 h)]

theorem filter_mem_cons_absent {α : Type} [DecidableEq α] (L : List α) (k : α) (ks : List α)
    (hk : k ∉ L) :
    (L.filter (fun x => decide (x ∈ k :: ks))) = (L.filter (fun x => decide (x ∈ ks))) := by
  apply List.filter_congr
  intro x hx
  have : x ≠ k := fun h => hk (h ▸ hx)
  simp [this]

theorem deleteStep_size (acc : InmemTuples × Nat) (k : Bytes) :
    (InmemTuples.deleteStep acc k).1.m.keys.length + (InmemTuples.deleteStep acc k).2 =
      acc.1.m.keys.length + acc.2 := by
  unfold InmemTuples.deleteStep
  cases h : acc.1.m.lookup k with
  | none => rfl
  | some r =>
    have hmem : k ∈ acc.1.m.keys := by
      rw [← AList.mem_keys, ← AList.lookup_isSome, h]; rfl
    have h1 := keys_erase_length acc.1.m k hmem
    simp only []
    omega

theorem deleteFold_size (keys : List Bytes) (acc : InmemTuples × Nat) :
    (keys.foldl InmemTuples.deleteStep acc).1.m.keys.length +
      (keys.foldl InmemTuples.deleteStep acc).2 = acc.1.m.keys.length + acc.2 := by
  induction keys generalizing acc with
  | nil => rfl
  | cons k ks ih => rw [List.foldl_cons, ih, deleteStep_size]

theorem deleteFold_count (keys : List Bytes) (acc : InmemTuples × Nat) :
    (keys.foldl InmemTuples.deleteStep acc).2 =
      acc.2 + (acc.1.m.keys.filter (fun x => decide (x ∈ keys))).length := by
  induction keys generalizing acc with
  | nil => simp
  | cons k ks ih =>
    rw [List.foldl_cons, ih]
    unfold InmemTuples.deleteStep
    cases h : acc.1.m.lookup k with
    | none =>
      have hk : k ∉ acc.1.m.keys := by
        rw [← AList.mem_keys, ← AList.lookup_eq_none]; exact h
      have h1 : (acc.1.m.keys.filter (fun x => decide (x ∈ k :: ks))) =
          (acc.1.m.keys.filter (fun x => decide (x ∈ ks))) := by
        convert filter_mem_cons_absent acc.1.m.keys k ks hk
      simp only []
      rw [h1]
    | some r =>
      have hk : k ∈ acc.1.m.keys := by
        rw [← AList.mem_keys, ← AList.lookup_isSome, h]; rfl
      have h1 : ((acc.1.m.erase k).keys.filter (fun x => decide (x ∈ ks))).length + 1 =
          (acc.1.m.keys.filter (fun x => decide (x ∈ k :: ks))).length := by
        convert keys_erase_filter_length acc.1.m k ks hk
      simp only []
      omega

/-- C10: `Delete(keys...)` removes every listed key (a later `Lookup` of it
returns nil), leaves the entry of every key that is not listed as it was (same
pointer; the heap is not touched), and returns the number of entries removed:
the number of stored keys that are listed, which is also the amount by which
the map shrinks, so that a key listed twice counts once. -/
theorem Delete_removes_exactly_listed (tuples : InmemTuples) (heap : Heap) (keys : List Bytes) :
    (∀ k ∈ keys, (tuples.Delete keys).1.Lookup heap k = none) ∧
    (∀ k, k ∉ keys → (tuples.Delete keys).1.m.lookup k = tuples.m.lookup k ∧
      (tuples.Delete keys).1.get heap k = tuples.get heap k) ∧
    (tuples.Delete keys).2 = (tuples.m.keys.filter (fun k => decide (k ∈ keys))).length ∧
    (tuples.Delete keys).1.m.keys.length + (tuples.Delete keys).2 = tuples.m.keys.length := by
  refine ⟨?_, ?_, ?_, ?_⟩
  · intro k hk
    rw [Lookup_eq_lookup]
    unfold InmemTuples.Delete
    rw [deleteFold_lookup, if_pos hk]
  · intro k hk
    have : (tuples.Delete keys).1.m.lookup k = tuples.m.lookup k := by
      unfold InmemTuples.Delete
      rw [deleteFold_lookup, if_neg hk]
    refine ⟨this, ?_⟩
    unfold InmemTuples.get
    rw [this]
  · unfold InmemTuples.Delete
    rw [deleteFold_count]
    simp
  · unfold InmemTuples.Delete
    rw [deleteFold_size]
    rfl

/-! ## Expire -/

theorem wrapInt64_of_isInt64 (x : Int) (h : isInt64 x) : wrapInt64 x = x := by
  unfold isInt64 minInt64 maxInt64 at h
  unfold wrapInt64
  rw [Int.emod_eq_of_lt (by omega) (by omega)]
  omega

theorem expireStep_eq (heap : Heap) (marker : Int) (acc : InmemTuples × Nat) (e : Entry) :
    InmemTuples.expireStep heap marker acc e =
      if (heap.deref e.2).lastseen < marker then (⟨acc.1.m.erase e.1⟩, acc.2 + 1) else acc := rfl

/-- C8, as stated, fails when `now - d` leaves the range of `int64`: with the
duration `d = math.MinInt64` the marker wraps around to a negative number, so a
tuple last seen one second before `now` (for which `now - lastSeen > d`) is
kept, `Lookup` still finds it and the count is 0. -/
theorem Expire_overflow_counterexample :
    isInt64 testNow ∧ isInt64 minInt64 ∧
    testInserted.2.1.m.lookup (bytesOf "foo") = some 0 ∧
    (testInserted.1.deref 0).lastseen = testNow ∧
    (testNow + 1000000000) - (testInserted.1.deref 0).lastseen > minInt64 ∧
    (testInserted.2.1.Expire testInserted.1 (testNow + 1000000000) minInt64).1.Lookup
      testInserted.1 (bytesOf "foo") = some 0 ∧
    (testInserted.2.1.Expire testInserted.1 (testNow + 1000000000) minInt64).2 = 0 := by
  decide

/-- C8 (amended): when `now - d` is representable as an `int64`, `Expire(d)`
removes exactly the entries with `now - lastSeen > d` (a later `Lookup` of such
a key returns nil), keeps every entry with `now - lastSeen <= d` under the same
pointer to the same object, adds no key, and returns the number of tuples listed
by `List()` before the call with `now - lastSeen > d`. -/
theorem Expire_removes_exactly_stale (tuples : InmemTuples) (heap : Heap) (now d : Int)
    (hrange : isInt64 (now - d)) :
    (∀ k r, tuples.m.lookup k = some r → now - (heap.deref r).lastseen > d →
      (tuples.Expire heap now d).1.Lookup heap k = none) ∧
    (∀ k r, tuples.m.lookup k = some r → now - (heap.deref r).lastseen ≤ d →
      (tuples.Expire heap now d).1.m.lookup k = some r ∧
      (tuples.Expire heap now d).1.get heap k = tuples.get heap k) ∧
    (∀ k, tuples.m.lookup k = none → (tuples.Expire heap now d).1.m.lookup k = none) ∧
    (tuples.Expire heap now d).2 =
      (tuples.List heap).countP (fun r => decide (now - (heap.deref r).lastseen > d)) := by
  have hw : wrapInt64 (now - d) = now - d := wrapInt64_of_isInt64 _ hrange
  have key : ∀ k, (tuples.Expire heap now d).1.m.lookup k =
      (tuples.m.lookup k).filter (fun r => decide (¬ (heap.deref r).lastseen < now - d)) := by
    intro k
    have := range_erase_lookup (fun e => (heap.deref e.2).lastseen < now - d) _
      (expireStep_eq heap (now - d)) tuples k
    unfold InmemTuples.Expire
    rw [hw]
    exact this
  refine ⟨?_, ?_, ?_, ?_⟩
  · intro k r hr hh
    have hlt : (heap.deref r).lastseen < now - d := by omega
    rw [Lookup_eq_lookup, key, hr]
    simp [Option.filter, hlt]
  · intro k r hr hh
    have hlt : ¬ (heap.deref r).lastseen < now - d := by omega
    have : (tuples.Expire heap now d).1.m.lookup k = some r := by
      rw [key, hr]; simp [Option.filter, hlt]
    refine ⟨this, ?_⟩
    unfold InmemTuples.get
    rw [this, hr]
  · intro k hk
    rw [key, hk]; rfl
  · have := foldl_erase_count (fun e => (heap.deref e.2).lastseen < now - d) _
      (expireStep_eq heap (now - d)) tuples.m.entries (tuples, 0)
    unfold InmemTuples.Expire
    rw [hw, this]
    unfold InmemTuples.List
    rw [List.countP_map]
    simp only [Nat.zero_add]
    apply List.countP_congr
    intro e _
    simp only [Function.comp, Clone_eq, decide_eq_true_eq]
    constructor <;> intro h <;> omega

/-- C8 (amended), at the store of three test tuples inserted at `testNow`,
thirty-one seconds later and with `d` = 30 s. -/
theorem Expire_removes_exactly_stale_witness :
    isInt64 (testNow + 31000000000 - 30000000000) ∧
    (∀ k r, testInserted.2.1.m.lookup k = some r →
      testNow + 31000000000 - (testInserted.1.deref r).lastseen > 30000000000 →
      (testInserted.2.1.Expire testInserted.1 (testNow + 31000000000) 30000000000).1.Lookup
        testInserted.1 k = none) :=
  ⟨by decide,
    (Expire_removes_exactly_stale testInserted.2.1 testInserted.1 (testNow + 31000000000)
      30000000000 (by decide)).1⟩

/-! ## Heap and invariant lemmas -/

theorem deref_store_same (heap : Heap) (r : Ref) (t : Tuple) (h : heap.valid r) :
    (heap.store r t).deref r = t := by
  unfold Heap.valid at h
  simp [Heap.deref, Heap.store, List.getD_eq_getElem?_getD, List.getElem?_set, h]

theorem deref_store_ne (heap : Heap) (r r' : Ref) (t : Tuple) (h : r ≠ r') :
    (heap.store r t).deref r' = heap.deref r' := by
  simp [Heap.deref, Heap.store, List.getD_eq_getElem?_getD, List.getElem?_set, h]

theorem valid_store (heap : Heap) (r r' : Ref) (t : Tuple) :
    (heap.store r t).valid r' ↔ heap.valid r' := by
  simp [Heap.valid, Heap.store]

theorem WF_lookup {tuples : InmemTuples} {heap : Heap} (hwf : tuples.WF heap) {k : Bytes}
    {r : Ref} (h : tuples.m.lookup k = some r) : heap.valid r ∧ (heap.deref r).Key = k :=
  hwf ⟨k, r⟩ (AList.mem_lookup_iff.1 h)

theorem WF_of_lookup {tuples : InmemTuples} {heap : Heap}
    (h : ∀ k r, tuples.m.lookup k = some r → heap.valid r ∧ (heap.deref r).Key = k) :
    tuples.WF heap := by
  rintro ⟨k, r⟩ he
  exact h k r (AList.mem_lookup_iff.2 he)

/-- Under the invariant two keys never share a tuple object. -/
theorem WF_injective {tuples : InmemTuples} {heap : Heap} (hwf : tuples.WF heap) {k k' : Bytes}
    {r : Ref} (h : tuples.m.lookup k = some r) (h' : tuples.m.lookup k' = some r) : k = k' := by
  rw [← (WF_lookup hwf h).2, ← (WF_lookup hwf h').2]

theorem wrapInt64_wrap_add (a b : Int) : wrapInt64 (wrapInt64 a + b) = wrapInt64 (a + b) := by
  unfold wrapInt64
  have : (a + 2 ^ 63) % 2 ^ 64 - 2 ^ 63 + b + 2 ^ 63 = (a + 2 ^ 63) % 2 ^ 64 + b := by ring
  rw [this, Int.emod_add_emod]
  congr 2
  ring

/-! ## The store invariant is kept by every operation -/

theorem WF_empty (heap : Heap) : NewInmemTuples.WF heap := by
  intro e he
  simp [NewInmemTuples] at he

/-- A store whose entries all come, pointer included, from a store satisfying
the invariant satisfies it too. -/
theorem WF_of_sub {tuples tuples1 : InmemTuples} {heap : Heap} (hwf : tuples.WF heap)
    (h : ∀ k r, tuples1.m.lookup k = some r → tuples.m.lookup k = some r) : tuples1.WF heap :=
  WF_of_lookup (fun k r hr => WF_lookup hwf (h k r hr))

theorem WF_Delete {tuples : InmemTuples} {heap : Heap} (hwf : tuples.WF heap)
    (keys : List Bytes) : (tuples.Delete keys).1.WF heap := by
  apply WF_of_sub hwf
  intro k r hr
  unfold InmemTuples.Delete at hr
  rw [deleteFold_lookup] at hr
  by_cases hk : k ∈ keys
  · rw [if_pos hk] at hr; cases hr
  · rw [if_neg hk] at hr; exact hr

theorem WF_ExpireHost {tuples : InmemTuples} {heap : Heap} (hwf : tuples.WF heap)
    (host : String) : (tuples.ExpireHost heap host).1.WF heap := by
  apply WF_of_sub hwf
  intro k r hr
  have key := range_erase_lookup (fun e => (heap.deref e.2).Host = host) _
    (expireHostStep_eq heap host) tuples k
  unfold InmemTuples.ExpireHost at hr
  rw [key] at hr
  cases hl : tuples.m.lookup k with
  | none => rw [hl] at hr; cases hr
  | some r' =>
    rw [hl] at hr
    by_cases hh : (heap.deref r').Host = host
    · simp [Option.filter, hh] at hr
    · simp [Option.filter, hh] at hr
      rw [hr]

theorem WF_Expire {tuples : InmemTuples} {heap : Heap} (hwf : tuples.WF heap)
    (now d : Int) : (tuples.Expire heap now d).1.WF heap := by
  apply WF_of_sub hwf
  intro k r hr
  have key := range_erase_lookup (fun e => (heap.deref e.2).lastseen < wrapInt64 (now - d)) _
    (expireStep_eq heap (wrapInt64 (now - d))) tuples k
  unfold InmemTuples.Expire at hr
  rw [key] at hr
  cases hl : tuples.m.lookup k with
  | none => rw [hl] at hr; cases hr
  | some r' =>
    rw [hl] at hr
    by_cases hh : (heap.deref r').lastseen < wrapInt64 (now - d)
    · simp [Option.filter, hh] at hr
    · simp [Option.filter, hh] at hr
      rw [hr]

/-! ## Ping -/

theorem ping_deref_same (heap : Heap) (r : Ref) (now : Int) (h : heap.valid r) :
    (Tuple.ping heap r now).deref r =
      { heap.deref r with heartbeats := wrapInt64 ((heap.deref r).heartbeats + 1),
                          lastseen := now } := by
  unfold Tuple.ping
  exact deref_store_same _ _ _ h

theorem ping_deref_ne (heap : Heap) (r r' : Ref) (now : Int) (h : r ≠ r') :
    (Tuple.ping heap r now).deref r' = heap.deref r' := by
  unfold Tuple.ping
  exact deref_store_ne _ _ _ _ h

theorem ping_valid (heap : Heap) (r r' : Ref) (now : Int) :
    (Tuple.ping heap r now).valid r' ↔ heap.valid r' := by
  unfold Tuple.ping
  exact valid_store _ _ _ _

theorem pingStep_valid (tuples : InmemTuples) (now : Int) (acc : Heap × Nat) (k : Bytes)
    (r : Ref) : (InmemTuples.pingStep tuples now acc k).1.valid r ↔ acc.1.valid r := by
  unfold InmemTuples.pingStep
  cases tuples.m.lookup k with
  | none => rfl
  | some val => exact ping_valid _ _ _ _

theorem pingFold_valid (tuples : InmemTuples) (now : Int) (keys : List Bytes) (acc : Heap × Nat)
    (r : Ref) : (keys.foldl (InmemTuples.pingStep tuples now) acc).1.valid r ↔ acc.1.valid r := by
  induction keys generalizing acc with
  | nil => rfl
  | cons k ks ih => rw [List.foldl_cons, ih, pingStep_valid]

theorem pingFold_count (tuples : InmemTuples) (now : Int) (keys : List Bytes) (acc : Heap × Nat) :
    (keys.foldl (InmemTuples.pingStep tuples now) acc).2 =
      acc.2 + keys.countP (fun k => (tuples.m.lookup k).isSome) := by
  induction keys generalizing acc with
  | nil => simp
  | cons k ks ih =>
    rw [List.foldl_cons, ih]
    unfold InmemTuples.pingStep
    cases h : tuples.m.lookup k with
    | none => simp [h]
    | some val => simp [h]; omega

/-- A tuple object that no listed key maps to is not written by `Ping`. -/
theorem pingFold_deref_other (tuples : InmemTuples) (now : Int) (keys : List Bytes)
    (acc : Heap × Nat) (r : Ref) (h : ∀ k ∈ keys, tuples.m.lookup k ≠ some r) :
    (keys.foldl (InmemTuples.pingStep tuples now) acc).1.deref r = acc.1.deref r := by
  induction keys generalizing acc with
  | nil => rfl
  | cons k ks ih =>
    rw [List.foldl_cons, ih _ (fun k' hk' => h k' (List.mem_cons_of_mem _ hk'))]
    unfold InmemTuples.pingStep
    cases hk : tuples.m.lookup k with
    | none => rfl
    | some val =>
      have : val ≠ r := fun e => h k (List.mem_cons_self _ _) (e ▸ hk)
      exact ping_deref_ne _ _ _ _ this

/-- The object a listed key maps to ends up pinged once per listed key that maps
to it. -/
theorem pingFold_deref (tuples : InmemTuples) (now : Int) (keys : List Bytes)
    (acc : Heap × Nat) (r : Ref) (hv : acc.1.valid r)
    (hpos : 0 < keys.countP (fun k => decide (tuples.m.lookup k = some r))) :
    (keys.foldl (InmemTuples.pingStep tuples now) acc).1.deref r =
      { acc.1.deref r with
        heartbeats := wrapInt64 ((acc.1.deref r).heartbeats +
          keys.countP (fun k => decide (tuples.m.lookup k = some r)))
        lastseen := now } := by
  induction keys generalizing acc with
  | nil => simp at hpos
  | cons k ks ih =>
    rw [List.foldl_cons]
    have hv' : (InmemTuples.pingStep tuples now acc k).1.valid r :=
      (pingStep_valid _ _ _ _ _).2 hv
    by_cases hk : tuples.m.lookup k = some r
    · have hstep : (InmemTuples.pingStep tuples now acc k).1.deref r =
          { acc.1.deref r with heartbeats := wrapInt64 ((acc.1.deref r).heartbeats + 1),
                               lastseen := now } := by
        unfold InmemTuples.pingStep
        rw [hk]
        exact ping_deref_same _ _ _ hv
      rw [List.countP_cons_of_pos _ _ (by simpa using hk)]
      by_cases hrest : 0 < ks.countP (fun k => decide (tuples.m.lookup k = some r))
      · rw [ih _ hv' hrest, hstep]
        simp only [wrapInt64_wrap_add]
        congr 2
        push_cast
        ring
      · have h0 : ks.countP (fun k => decide (tuples.m.lookup k = some r)) = 0 := by omega
        have hnone : ∀ k' ∈ ks, tuples.m.lookup k' ≠ some r := by
          intro k' hk' e
          have : 0 < ks.countP (fun k => decide (tuples.m.lookup k = some r)) :=
            List.countP_pos_iff.2 ⟨k', hk', by simpa using e⟩
          omega
        rw [pingFold_deref_other _ _ _ _ _ hnone, hstep, h0]
        simp
    · have hstep : (InmemTuples.pingStep tuples now acc k).1.deref r = acc.1.deref r := by
        unfold InmemTuples.pingStep
        cases hk' : tuples.m.lookup k with
        | none => rfl
        | some val =>
          have : val ≠ r := fun e => hk (e ▸ hk')
          exact ping_deref_ne _ _ _ _ this
      rw [List.countP_cons_of_neg _ _ (by simpa using hk)] at hpos ⊢
      rw [ih _ hv' hpos, hstep]

theorem WF_count_eq {tuples : InmemTuples} {heap : Heap} (hwf : tuples.WF heap) {k : Bytes}
    {r : Ref} (h : tuples.m.lookup k = some r) (keys : List Bytes) :
    keys.countP (fun k' => decide (tuples.m.lookup k' = some r)) = keys.count k := by
  rw [List.count_eq_countP]
  apply List.countP_congr
  intro k' _
  simp only [decide_eq_true_eq, beq_iff_eq]
  constructor
  · intro h'; exact WF_injective hwf h' h
  · intro e; rw [e]; exact h

/-- C7: `Ping(keys...)` on a store satisfying the invariant. The map is not
touched (absent keys stay absent). The tuple of a present key that is listed
has its heartbeats incremented (in `int64`) once per occurrence of the key in
the list and its lastseen set to `now`, Key and Host unchanged; when the sum
fits an `int64` the new count is the old count plus the number of occurrences.
The tuple of a present key that is not listed, and every object no listed key
maps to, is unchanged. The returned count is the number of listed keys (with
repetitions) that are present. -/
theorem Ping_increments_listed (tuples : InmemTuples) (heap : Heap) (now : Int)
    (keys : List Bytes) (hwf : tuples.WF heap) :
    (∀ k r, tuples.m.lookup k = some r → k ∈ keys →
      (tuples.Ping heap now keys).1.deref r =
        { heap.deref r with
          heartbeats := wrapInt64 ((heap.deref r).heartbeats + keys.count k)
          lastseen := now }) ∧
    (∀ k r, tuples.m.lookup k = some r → k ∈ keys →
      isInt64 ((heap.deref r).heartbeats + keys.count k) →
      ((tuples.Ping heap now keys).1.deref r).heartbeats =
        (heap.deref r).heartbeats + keys.count k) ∧
    (∀ k r, tuples.m.lookup k = some r → k ∉ keys →
      (tuples.Ping heap now keys).1.deref r = heap.deref r) ∧
    (∀ r, (∀ k ∈ keys, tuples.m.lookup k ≠ some r) →
      (tuples.Ping heap now keys).1.deref r = heap.deref r) ∧
    (tuples.Ping heap now keys).2 = keys.countP (fun k => (tuples.m.lookup k).isSome) ∧
    tuples.WF (tuples.Ping heap now keys).1 := by
  have hlisted : ∀ k r, tuples.m.lookup k = some r → k ∈ keys →
      (tuples.Ping heap now keys).1.deref r =
        { heap.deref r with
          heartbeats := wrapInt64 ((heap.deref r).heartbeats + keys.count k)
          lastseen := now } := by
    intro k r hr hk
    have hc := WF_count_eq hwf hr keys
    have hpos : 0 < keys.countP (fun k' => decide (tuples.m.lookup k' = some r)) := by
      rw [hc]; exact List.count_pos_iff.2 hk
    have := pingFold_deref tuples now keys (heap, 0) r (WF_lookup hwf hr).1 hpos
    rw [hc] at this
    exact this
  have hother : ∀ r, (∀ k ∈ keys, tuples.m.lookup k ≠ some r) →
      (tuples.Ping heap now keys).1.deref r = heap.deref r := fun r h =>
    pingFold_deref_other tuples now keys (heap, 0) r h
  have hunlisted : ∀ k r, tuples.m.lookup k = some r → k ∉ keys →
      (tuples.Ping heap now keys).1.deref r = heap.deref r := by
    intro k r hr hk
    apply hother
    intro k' hk' e
    exact hk (WF_injective hwf hr e ▸ hk')
  refine ⟨hlisted, ?_, hunlisted, hother, ?_, ?_⟩
  · intro k r hr hk hrange
    rw [hlisted k r hr hk]
    exact wrapInt64_of_isInt64 _ hrange
  · unfold InmemTuples.Ping
    rw [pingFold_count]
    simp
  · apply WF_of_lookup
    intro k r hr
    refine ⟨(pingFold_valid tuples now keys (heap, 0) r).2 (WF_lookup hwf hr).1, ?_⟩
    by_cases hk : k ∈ keys
    · rw [hlisted k r hr hk]
      exact (WF_lookup hwf hr).2
    · rw [hunlisted k r hr hk]
      exact (WF_lookup hwf hr).2

/-- C7 at the store of three test tuples: `Ping("foo")` returns 1 and raises the
heartbeats of that tuple from 0 to 1. -/
theorem Ping_increments_listed_witness :
    testInserted.2.1.WF testInserted.1 ∧
    testInserted.2.1.m.lookup (bytesOf "foo") = some 0 ∧
    (testInserted.1.deref 0).heartbeats = 0 ∧
    ((testInserted.2.1.Ping testInserted.1 (testNow + 5) [bytesOf "foo"]).1.deref 0).heartbeats
      = 0 + ([bytesOf "foo"].count (bytesOf "foo") : Nat) ∧
    (testInserted.2.1.Ping testInserted.1 (testNow + 5) [bytesOf "foo"]).2 = 1 :=
  ⟨by decide, by decide, by decide,
    (Ping_increments_listed testInserted.2.1 testInserted.1 (testNow + 5) [bytesOf "foo"]
      (by decide)).2.1 (bytesOf "foo") 0 (by decide) (by decide) (by decide),
    by decide⟩

/-! ## Insert -/

theorem insertStep_of_some (now : Int) (acc : Heap × InmemTuples × Nat) (tpl : Ref) (v : Ref)
    (h : acc.2.1.m.lookup (acc.1.deref tpl).Key = some v) :
    InmemTuples.insertStep now acc tpl = acc := by
  simp only [InmemTuples.insertStep, h]

theorem insertStep_of_none (now : Int) (acc : Heap × InmemTuples × Nat) (tpl : Ref)
    (h : acc.2.1.m.lookup (acc.1.deref tpl).Key = none) :
    InmemTuples.insertStep now acc tpl =
      (acc.1.store tpl { acc.1.deref tpl with lastseen := now },
        ⟨acc.2.1.m.insert (acc.1.deref tpl).Key tpl⟩, acc.2.2 + 1) := by
  simp only [InmemTuples.insertStep, h]

theorem deref_store_invalid (heap : Heap) (r : Ref) (t : Tuple) (h : ¬ heap.valid r) :
    (heap.store r t).deref r = heap.deref r := by
  unfold Heap.valid at h
  have h1 : heap.objs.length ≤ r := Nat.le_of_not_lt h
  simp [Heap.deref, Heap.store, List.getD_eq_getElem?_getD, List.getElem?_set, h,
    List.getElem?_eq_none h1]

/-- The only field `Insert` writes in an object is `lastseen`. -/
theorem insertStep_frame (now : Int) (acc : Heap × InmemTuples × Nat) (tpl r : Ref) :
    ((InmemTuples.insertStep now acc tpl).1.deref r).Key = (acc.1.deref r).Key ∧
    ((InmemTuples.insertStep now acc tpl).1.deref r).Host = (acc.1.deref r).Host ∧
    ((InmemTuples.insertStep now acc tpl).1.deref r).heartbeats = (acc.1.deref r).heartbeats ∧
    ((InmemTuples.insertStep now acc tpl).1.valid r ↔ acc.1.valid r) := by
  cases h : acc.2.1.m.lookup (acc.1.deref tpl).Key with
  | some v => rw [insertStep_of_some now acc tpl v h]; simp
  | none =>
    rw [insertStep_of_none now acc tpl h]
    simp only []
    by_cases hr : tpl = r
    · subst hr
      by_cases hv : acc.1.valid tpl
      · rw [deref_store_same _ _ _ hv]
        exact ⟨rfl, rfl, rfl, valid_store _ _ _ _⟩
      · rw [deref_store_invalid _ _ _ hv]
        exact ⟨rfl, rfl, rfl, valid_store _ _ _ _⟩
    · rw [deref_store_ne _ _ _ _ hr]
      exact ⟨rfl, rfl, rfl, valid_store _ _ _ _⟩

/-- A key that is present keeps its pointer. -/
theorem insertStep_present (now : Int) (acc : Heap × InmemTuples × Nat) (tpl : Ref)
    (k : Bytes) (r : Ref) (h : acc.2.1.m.lookup k = some r) :
    (InmemTuples.insertStep now acc tpl).2.1.m.lookup k = some r := by
  cases hk : acc.2.1.m.lookup (acc.1.deref tpl).Key with
  | some v => rw [insertStep_of_some now acc tpl v hk]; exact h
  | none =>
    rw [insertStep_of_none now acc tpl hk]
    simp only []
    have hne : k ≠ (acc.1.deref tpl).Key := fun e => by rw [e, hk] at h; cases h
    rw [AList.lookup_insert_ne hne]
    exact h

/-- An object whose own key is present in the map is not written. -/
theorem insertStep_deref_keyed (now : Int) (acc : Heap × InmemTuples × Nat) (tpl r : Ref)
    (h : acc.2.1.m.lookup (acc.1.deref r).Key ≠ none) :
    (InmemTuples.insertStep now acc tpl).1.deref r = acc.1.deref r := by
  cases hk : acc.2.1.m.lookup (acc.1.deref tpl).Key with
  | some v => rw [insertStep_of_some now acc tpl v hk]
  | none =>
    rw [insertStep_of_none now acc tpl hk]
    simp only []
    have hr : tpl ≠ r := fun e => h (e ▸ hk)
    exact deref_store_ne _ _ _ _ hr

theorem insertStep_absent (now : Int) (acc : Heap × InmemTuples × Nat) (tpl : Ref)
    (hv : acc.1.valid tpl) (k : Bytes) (h : acc.2.1.m.lookup k = none) :
    ((acc.1.deref tpl).Key = k →
      (InmemTuples.insertStep now acc tpl).2.1.m.lookup k = some tpl ∧
      (InmemTuples.insertStep now acc tpl).1.deref tpl =
        { acc.1.deref tpl with lastseen := now }) ∧
    ((acc.1.deref tpl).Key ≠ k →
      (InmemTuples.insertStep now acc tpl).2.1.m.lookup k = none) := by
  constructor
  · intro e
    have hk : acc.2.1.m.lookup (acc.1.deref tpl).Key = none := by rw [e]; exact h
    rw [insertStep_of_none now acc tpl hk]
    simp only []
    refine ⟨?_, deref_store_same _ _ _ hv⟩
    rw [e]
    exact AList.lookup_insert _
  · intro hne
    cases hk : acc.2.1.m.lookup (acc.1.deref tpl).Key with
    | some v => rw [insertStep_of_some now acc tpl v hk]; exact h
    | none =>
      rw [insertStep_of_none now acc tpl hk]
      simp only []
      rw [AList.lookup_insert_ne (fun e => hne e.symm)]
      exact h

theorem insertStep_WF (now : Int) (acc : Heap × InmemTuples × Nat) (tpl : Ref)
    (hwf : acc.2.1.WF acc.1) (hv : acc.1.valid tpl) :
    (InmemTuples.insertStep now acc tpl).2.1.WF (InmemTuples.insertStep now acc tpl).1 := by
  apply WF_of_lookup
  intro k r hr
  have hfr := insertStep_frame now acc tpl r
  cases hk : acc.2.1.m.lookup k with
  | some r' =>
    rw [insertStep_present now acc tpl k r' hk] at hr
    cases hr
    exact ⟨hfr.2.2.2.2 (WF_lookup hwf hk).1, by rw [hfr.1]; exact (WF_lookup hwf hk).2⟩
  | none =>
    have := insertStep_absent now acc tpl hv k hk
    by_cases e : (acc.1.deref tpl).Key = k
    · rw [(this.1 e).1] at hr
      cases hr
      exact ⟨hfr.2.2.2.2 hv, by rw [hfr.1]; exact e⟩
    · rw [this.2 e] at hr
      cases hr

theorem insertStep_size (now : Int) (acc : Heap × InmemTuples × Nat) (tpl : Ref) :
    acc.2.1.m.keys.length + (InmemTuples.insertStep now acc tpl).2.2 =
      (InmemTuples.insertStep now acc tpl).2.1.m.keys.length + acc.2.2 := by
  cases hk : acc.2.1.m.lookup (acc.1.deref tpl).Key with
  | some v => rw [insertStep_of_some now acc tpl v hk]
  | none =>
    rw [insertStep_of_none now acc tpl hk]
    simp only []
    have hnot : (acc.1.deref tpl).Key ∉ acc.2.1.m := AList.lookup_eq_none.1 hk
    have h1 := keys_insert_length acc.2.1.m (acc.1.deref tpl).Key tpl hnot
    omega

theorem insertFold_frame (now : Int) (tpls : List Ref) (acc : Heap × InmemTuples × Nat)
    (r : Ref) :
    ((tpls.foldl (InmemTuples.insertStep now) acc).1.deref r).Key = (acc.1.deref r).Key ∧
    ((tpls.foldl (InmemTuples.insertStep now) acc).1.deref r).Host = (acc.1.deref r).Host ∧
    ((tpls.foldl (InmemTuples.insertStep now) acc).1.deref r).heartbeats =
      (acc.1.deref r).heartbeats ∧
    ((tpls.foldl (InmemTuples.insertStep now) acc).1.valid r ↔ acc.1.valid r) := by
  induction tpls generalizing acc with
  | nil => exact ⟨rfl, rfl, rfl, Iff.rfl⟩
  | cons t ts ih =>
    obtain ⟨h1, h2, h3, h4⟩ := ih (InmemTuples.insertStep now acc t)
    obtain ⟨s1, s2, s3, s4⟩ := insertStep_frame now acc t r
    simp only [List.foldl_cons]
    exact ⟨h1.trans s1, h2.trans s2, h3.trans s3, h4.trans s4⟩

theorem insertFold_WF (now : Int) (tpls : List Ref) (acc : Heap × InmemTuples × Nat)
    (hwf : acc.2.1.WF acc.1) (hv : ∀ r ∈ tpls, acc.1.valid r) :
    (tpls.foldl (InmemTuples.insertStep now) acc).2.1.WF
      (tpls.foldl (InmemTuples.insertStep now) acc).1 := by
  induction tpls generalizing acc with
  | nil => exact hwf
  | cons t ts ih =>
    simp only [List.foldl_cons]
    apply ih _ (insertStep_WF now acc t hwf (hv t (List.mem_cons_self _ _)))
    intro r hr
    exact (insertStep_frame now acc t r).2.2.2.2 (hv r (List.mem_cons_of_mem _ hr))

/-- What the loop of `Insert` does, for pointers to allocated tuples: a present
key keeps its pointer; an object whose own key is present is not written; an
absent key ends up mapped to the first tuple carrying it, stamped with `now`;
the count grows with the map. -/
theorem insertFold_spec (now : Int) (tpls : List Ref) (acc : Heap × InmemTuples × Nat)
    (hv : ∀ r ∈ tpls, acc.1.valid r) :
    (∀ k r, acc.2.1.m.lookup k = some r →
      (tpls.foldl (InmemTuples.insertStep now) acc).2.1.m.lookup k = some r) ∧
    (∀ r, acc.2.1.m.lookup (acc.1.deref r).Key ≠ none →
      (tpls.foldl (InmemTuples.insertStep now) acc).1.deref r = acc.1.deref r) ∧
    (∀ k, acc.2.1.m.lookup k = none →
      (tpls.foldl (InmemTuples.insertStep now) acc).2.1.m.lookup k =
        tpls.find? (fun r => decide ((acc.1.deref r).Key = k)) ∧
      ∀ r, tpls.find? (fun r => decide ((acc.1.deref r).Key = k)) = some r →
        (tpls.foldl (InmemTuples.insertStep now) acc).1.deref r =
          { acc.1.deref r with lastseen := now }) ∧
    (acc.2.1.m.keys.length + (tpls.foldl (InmemTuples.insertStep now) acc).2.2 =
      (tpls.foldl (InmemTuples.insertStep now) acc).2.1.m.keys.length + acc.2.2) := by
  induction tpls generalizing acc with
  | nil =>
    refine ⟨fun k r h => h, fun r _ => rfl, fun k h => ⟨by simpa using h, by simp⟩, rfl⟩
  | cons t ts ih =>
    have hvt : acc.1.valid t := hv t (List.mem_cons_self _ _)
    have hv' : ∀ r ∈ ts, (InmemTuples.insertStep now acc t).1.valid r := fun r hr =>
      (insertStep_frame now acc t r).2.2.2.2 (hv r (List.mem_cons_of_mem _ hr))
    obtain ⟨i2, i2', i3, i4⟩ := ih (InmemTuples.insertStep now acc t) hv'
    have hpred : ∀ k, ts.find? (fun r => decide (((InmemTuples.insertStep now acc t).1.deref r).Key = k))
        = ts.find? (fun r => decide ((acc.1.deref r).Key = k)) := by
      intro k
      congr 1
      funext r
      rw [(insertStep_frame now acc t r).1]
    simp only [List.foldl_cons]
    refine ⟨?_, ?_, ?_, ?_⟩
    · intro k r h
      exact i2 k r (insertStep_present now acc t k r h)
    · intro r h
      have hs := insertStep_deref_keyed now acc t r h
      rw [i2' r, hs]
      rw [(insertStep_frame now acc t r).1]
      cases hl : acc.2.1.m.lookup (acc.1.deref r).Key with
      | none => exact absurd hl h
      | some v =>
        rw [insertStep_present now acc t _ v hl]
        simp
    · intro k h
      have s := insertStep_absent now acc t hvt k h
      by_cases e : (acc.1.deref t).Key = k
      · have s1 := s.1 e
        rw [List.find?_cons_of_pos _ (by simpa using e)]
        refine ⟨i2 k t s1.1, ?_⟩
        intro r hr
        cases hr
        rw [i2' t, s1.2]
        rw [(insertStep_frame now acc t t).1, e, s1.1]
        simp
      · have s2 := s.2 e
        have := i3 k s2
        rw [List.find?_cons_of_neg _ (by simpa using e), ← hpred k]
        refine ⟨this.1, ?_⟩
        intro r hr
        rw [this.2 r hr]
        have hfr := insertStep_frame now acc t r
        cases hd : (InmemTuples.insertStep now acc t).1.deref r
        cases hd' : acc.1.deref r
        rw [hd, hd'] at hfr
        simp only at hfr
        simp [hfr.1, hfr.2.1, hfr.2.2.1]
    · have := insertStep_size now acc t
      omega

/-- Inserting a single tuple `tpl` (allocated, carrying key `key`) into a store
satisfying the invariant: the invariant is kept, a key that was present keeps
its pointer and object, and if `key` was absent it now maps to `tpl`, stamped
with `now`. -/
theorem Insert_one (tuples : InmemTuples) (heap : Heap) (now : Int) (tpl : Ref) (key : Bytes)
    (hwf : tuples.WF heap) (hv : heap.valid tpl) (hkey : (heap.deref tpl).Key = key) :
    (tuples.Insert heap now [tpl]).2.1.WF (tuples.Insert heap now [tpl]).1 ∧
    (∀ k r, tuples.m.lookup k = some r →
      (tuples.Insert heap now [tpl]).2.1.m.lookup k = some r ∧
      (tuples.Insert heap now [tpl]).1.deref r = heap.deref r) ∧
    (tuples.m.lookup key = none →
      (tuples.Insert heap now [tpl]).2.1.get (tuples.Insert heap now [tpl]).1 key =
        some { heap.deref tpl with lastseen := now }) := by
  have hv1 : ∀ r ∈ [tpl], heap.valid r := by
    intro r hr
    rw [List.mem_singleton.1 hr]
    exact hv
  obtain ⟨f2, f2', f3, -⟩ := insertFold_spec now [tpl] (heap, tuples, 0) hv1
  refine ⟨insertFold_WF now [tpl] (heap, tuples, 0) hwf hv1, ?_, ?_⟩
  · intro k r hr
    refine ⟨f2 k r hr, f2' r ?_⟩
    simp only []
    rw [(WF_lookup hwf hr).2, hr]
    simp
  · intro hn
    have hfind : [tpl].find? (fun r => decide ((heap.deref r).Key = key)) = some tpl :=
      List.find?_cons_of_pos _ (by simpa using hkey)
    have := f3 key hn
    unfold InmemTuples.get InmemTuples.Insert
    rw [this.1, hfind]
    simp only [Option.map_some']
    rw [this.2 tpl hfind]

/-- C1: `Insert(tpls...)` with pointers to allocated tuples, for every store
and heap. A key already present keeps its pointer, and Key, Host and heartbeats
of its tuple are what they were (skip, no overwrite). A key that is absent ends
up mapped to the first tuple of the call carrying that key (so it stays absent
when no tuple carries it, and later tuples with the same key are skipped); that
tuple is stored with its Key and Host as passed and `lastseen = now`. The
returned count is the number of entries added to the map. On a store satisfying
the invariant (no tuple object is shared between keys) the tuple of a present
key is unchanged altogether and the invariant is kept. -/
theorem Insert_first_insert_wins (tuples : InmemTuples) (heap : Heap) (now : Int)
    (tpls : List Ref) (hv : ∀ r ∈ tpls, heap.valid r) :
    (∀ k r, tuples.m.lookup k = some r →
      (tuples.Insert heap now tpls).2.1.m.lookup k = some r ∧
      ((tuples.Insert heap now tpls).1.deref r).Key = (heap.deref r).Key ∧
      ((tuples.Insert heap now tpls).1.deref r).Host = (heap.deref r).Host ∧
      ((tuples.Insert heap now tpls).1.deref r).heartbeats = (heap.deref r).heartbeats) ∧
    (∀ k, tuples.m.lookup k = none →
      (tuples.Insert heap now tpls).2.1.m.lookup k =
        tpls.find? (fun r => decide ((heap.deref r).Key = k))) ∧
    (∀ k r, tuples.m.lookup k = none →
      tpls.find? (fun r => decide ((heap.deref r).Key = k)) = some r →
      (tuples.Insert heap now tpls).2.1.get (tuples.Insert heap now tpls).1 k =
        some { heap.deref r with lastseen := now } ∧ (heap.deref r).Key = k) ∧
    (tuples.m.keys.length + (tuples.Insert heap now tpls).2.2 =
      (tuples.Insert heap now tpls).2.1.m.keys.length) ∧
    (tuples.WF heap →
      (∀ k r, tuples.m.lookup k = some r →
        (tuples.Insert heap now tpls).1.deref r = heap.deref r) ∧
      (tuples.Insert heap now tpls).2.1.WF (tuples.Insert heap now tpls).1) := by
  obtain ⟨f2, f2', f3, f4⟩ := insertFold_spec now tpls (heap, tuples, 0) hv
  obtain hfr := insertFold_frame now tpls (heap, tuples, 0)
  refine ⟨?_, fun k h => (f3 k h).1, ?_, f4, ?_⟩
  · intro k r h
    exact ⟨f2 k r h, (hfr r).1, (hfr r).2.1, (hfr r).2.2.1⟩
  · intro k r h hr
    have := f3 k h
    refine ⟨?_, by simpa using List.find?_some hr⟩
    unfold InmemTuples.get InmemTuples.Insert
    rw [this.1, hr]
    simp only [Option.map_some']
    rw [this.2 r hr]
  · intro hwf
    refine ⟨?_, insertFold_WF now tpls (heap, tuples, 0) hwf hv⟩
    intro k r hr
    apply f2' r
    simp only []
    rw [(WF_lookup hwf hr).2, hr]
    simp

/-- C1 at the empty store with the first three test tuples: three are stored,
`foo` with the host it was passed with. -/
theorem Insert_first_insert_wins_witness :
    NewInmemTuples.WF testHeap ∧ (∀ r ∈ [0, 1, 2], testHeap.valid r) ∧
    (NewInmemTuples.Insert testHeap testNow [0, 1, 2]).2.1.get
        (NewInmemTuples.Insert testHeap testNow [0, 1, 2]).1 (bytesOf "foo") =
      some { testHeap.deref 0 with lastseen := testNow } ∧
    (NewInmemTuples.Insert testHeap testNow [0, 1, 2]).2.2 = 3 :=
  ⟨by decide, by decide,
    ((Insert_first_insert_wins NewInmemTuples testHeap testNow [0, 1, 2]
      (by decide)).2.2.1 (bytesOf "foo") 0 (by decide) (by decide)).1,
    by decide⟩

/-! ## Lookup and Clone -/

/-- For every store and key `Lookup` hands out the stored pointer itself. -/
theorem Lookup_returns_stored_pointer (tuples : InmemTuples) (heap : Heap) (key : Bytes) :
    tuples.Lookup heap key = tuples.m.lookup key :=
  Lookup_eq_lookup tuples heap key

/-- C2 fails on the code: `Clone` returns its receiver. At the store of three
test tuples `Lookup("foo")` returns the stored pointer (address 0); writing
`Key[0] = 'x'` or a new `Host` through the returned pointer changes the tuple
the store holds for `foo`; and a `Ping("foo")` on the store raises the
heartbeats of the tuple that was returned earlier from 0 to 1. -/
theorem Lookup_exposes_internal_tuple :
    testInserted.2.1.Lookup testInserted.1 (bytesOf "foo") = some 0 ∧
    testInserted.2.1.m.lookup (bytesOf "foo") = some 0 ∧
    testInserted.2.1.get testInserted.1 (bytesOf "foo") =
      some ⟨bytesOf "foo", "127.0.0.1:8902", 0, testNow⟩ ∧
    testInserted.2.1.get
        (testInserted.1.store 0
          { testInserted.1.deref 0 with Key := (testInserted.1.deref 0).Key.set 0 120 })
        (bytesOf "foo") =
      some ⟨bytesOf "xoo", "127.0.0.1:8902", 0, testNow⟩ ∧
    testInserted.2.1.get
        (testInserted.1.store 0 { testInserted.1.deref 0 with Host := "10.0.0.1:1" })
        (bytesOf "foo") =
      some ⟨bytesOf "foo", "10.0.0.1:1", 0, testNow⟩ ∧
    (testInserted.1.deref 0).heartbeats = 0 ∧
    ((testInserted.2.1.Ping testInserted.1 (testNow + 5) [bytesOf "foo"]).1.deref 0).heartbeats
      = 1 := by
  decide

/-! ## lookupGroup -/

theorem SetBytes_foldl (buf : Bytes) (acc : Nat) :
    buf.foldl (fun acc b => acc * 256 + b.val) acc = acc * 256 ^ buf.length + bigEndianValue buf := by
  induction buf generalizing acc with
  | nil => simp [bigEndianValue]
  | cons b bs ih =>
    rw [List.foldl_cons, ih, bigEndianValue, List.length_cons]
    ring

/-- The value `SetBytes` computes is its argument read as an unsigned big-endian integer. -/
theorem SetBytes_eq_bigEndianValue (buf : Bytes) : SetBytes buf = bigEndianValue buf := by
  unfold SetBytes
  rw [SetBytes_foldl]
  simp

/-- C6: for a modulus `0 < k` (an `int64`) and a hash object fresh from the
constructor `H`, `lookupGroup(key, k, H())` returns, without panicking, the
digest `H(key)` read as an unsigned big-endian integer modulo `k`; the result is
at least 0 and below `k`. The right-hand side mentions `key`, `k` and `H` only. -/
theorem lookupGroup_eq_digest_mod (key : Bytes) (k : Int) (H : HashFunc)
    (hk : 0 < k) (hk64 : k ≤ maxInt64) :
    lookupGroup key k H.new = some ((bigEndianValue (H key) : Int) % k) ∧
    0 ≤ (bigEndianValue (H key) : Int) % k ∧ (bigEndianValue (H key) : Int) % k < k := by
  have h0 : 0 ≤ (bigEndianValue (H key) : Int) % k := Int.emod_nonneg _ (by omega)
  have h1 : (bigEndianValue (H key) : Int) % k < k := Int.emod_lt_of_pos _ hk
  refine ⟨?_, h0, h1⟩
  have hne : k ≠ 0 := by omega
  have hw : wrapInt64 ((bigEndianValue (H key) : Int) % k) = (bigEndianValue (H key) : Int) % k := by
    apply wrapInt64_of_isInt64
    unfold isInt64 minInt64
    unfold maxInt64 at hk64 ⊢
    constructor <;> omega
  unfold lookupGroup
  simp only [Hash.Write, Hash.Sum, HashFunc.new, List.nil_append, if_neg hne,
    SetBytes_eq_bigEndianValue]
  rw [hw]

/-- C6 at `key = "foo"`, `k = 3` and the byte-sum digest: group 2. -/
theorem lookupGroup_eq_digest_mod_witness :
    (0 : Int) < 3 ∧ (3 : Int) ≤ maxInt64 ∧
    lookupGroup (bytesOf "foo") 3 sumHash.new =
      some ((bigEndianValue (sumHash (bytesOf "foo")) : Int) % 3) ∧
    lookupGroup (bytesOf "foo") 3 sumHash.new = some 2 :=
  ⟨by decide, by decide,
    (lookupGroup_eq_digest_mod (bytesOf "foo") 3 sumHash (by decide) (by decide)).1,
    by decide⟩

/-! ## Home group: Lookup -/

theorem get_eq_some_iff (tuples : InmemTuples) (heap : Heap) (key : Bytes) (t : Tuple) :
    tuples.get heap key = some t ↔ ∃ r, tuples.m.lookup key = some r ∧ heap.deref r = t := by
  unfold InmemTuples.get
  cases tuples.m.lookup key <;> simp

theorem get_eq_none_iff (tuples : InmemTuples) (heap : Heap) (key : Bytes) :
    tuples.get heap key = none ↔ tuples.m.lookup key = none := by
  unfold InmemTuples.get
  cases tuples.m.lookup key <;> simp

/-- When the map holds the requested key, the home group's `Lookup` answers
with the host read through the stored pointer. -/
theorem home_Lookup_of_lookup (group : affinityGroup) (heap : Heap) (rt : Runtime)
    (req : Request) (r : Ref) (h : group.tuples.m.lookup req.Key = some r) :
    group.Lookup heap rt req = some (((heap.deref r).Host, none), []) := by
  unfold affinityGroup.Lookup
  rw [Lookup_eq_lookup, h]

/-- C4: in the home group's `Lookup`, a request whose key the tuple store holds
is answered with the stored Host and a nil error, for every TTL, with no
transport call; a request whose key is absent and whose TTL is 0 fails with
`errReqTTLReached` and no transport call. Neither answer depends on the contact
directory, the transport or the runtime's choices. -/
theorem home_Lookup_hit_or_TTL_reached (group : affinityGroup) (heap : Heap) (rt : Runtime)
    (req : Request) :
    (∀ t, group.tuples.get heap req.Key = some t →
      group.Lookup heap rt req = some ((t.Host, none), [])) ∧
    (group.tuples.get heap req.Key = none → req.TTL = 0 →
      group.Lookup heap rt req = some (("", some errReqTTLReached), [])) := by
  constructor
  · intro t ht
    obtain ⟨r, hr, hd⟩ := (get_eq_some_iff _ _ _ _).1 ht
    rw [home_Lookup_of_lookup group heap rt req r hr, hd]
  · intro hn httl
    rw [get_eq_none_iff] at hn
    unfold affinityGroup.Lookup
    rw [Lookup_eq_lookup, hn]
    simp [httl]

/-! ## Home group: Insert -/

theorem alloc_deref_old (heap : Heap) (t : Tuple) (r : Ref) (h : heap.valid r) :
    (heap.alloc t).1.deref r = heap.deref r := by
  unfold Heap.valid at h
  simp [Heap.alloc, Heap.deref, List.getD_eq_getElem?_getD, List.getElem?_append_left h]

theorem alloc_deref_new (heap : Heap) (t : Tuple) :
    (heap.alloc t).1.deref (heap.alloc t).2 = t := by
  simp [Heap.alloc, Heap.deref, List.getD_eq_getElem?_getD]

theorem alloc_valid_old (heap : Heap) (t : Tuple) (r : Ref) (h : heap.valid r) :
    (heap.alloc t).1.valid r := by
  unfold Heap.valid at h ⊢
  simp only [Heap.alloc, List.length_append, List.length_singleton]
  exact Nat.lt_succ_of_lt h

theorem alloc_valid_new (heap : Heap) (t : Tuple) : (heap.alloc t).1.valid (heap.alloc t).2 := by
  simp [Heap.alloc, Heap.valid]

theorem WF_alloc {tuples : InmemTuples} {heap : Heap} (hwf : tuples.WF heap) (t : Tuple) :
    tuples.WF (heap.alloc t).1 := by
  intro e he
  obtain ⟨hv, hk⟩ := hwf e he
  exact ⟨alloc_valid_old _ _ _ hv, by rw [alloc_deref_old _ _ _ hv]; exact hk⟩

/-- Selector `GetRandom` fails exactly on a directory that lists no peer and
otherwise returns one of the listed peers. -/
theorem GetRandom_spec (cs : ContactStorage) (rt : Runtime) :
    (cs.List rt.order = [] → cs.GetRandom rt = (none, false)) ∧
    (cs.List rt.order ≠ [] → ∃ p ∈ cs.List rt.order, cs.GetRandom rt = (some p, true)) := by
  cases cs with
  | inmem c =>
    simp only [ContactStorage.List, ContactStorage.GetRandom, inmemContacts.List,
      inmemContacts.GetRandom]
    cases h : rt.order.visit c.peers.entries with
    | nil => simp
    | cons e es => simp
  | gossip g =>
    simp only [ContactStorage.List, ContactStorage.GetRandom, gossipContactStorage.GetRandom]
    constructor
    · intro h
      simp [h]
    · intro h
      have hpos : 0 < g.List.length := List.length_pos.2 h
      have hlt : rt.rnd % g.List.length < g.List.length := Nat.mod_lt _ hpos
      refine ⟨g.List[rt.rnd % g.List.length], List.getElem_mem _, ?_⟩
      rw [if_neg (by omega), List.getElem?_eq_getElem hlt]

/-- What `Insert` of the home group does once `GetRandom` has returned the peer
`p`. -/
theorem home_Insert_of_random (group : affinityGroup) (heap : Heap) (rt : Runtime)
    (now : Int) (key : Bytes) (p : Peer) (hwf : group.tuples.WF heap)
    (hr : group.contacts.GetRandom rt = (some p, true)) :
    ∃ heap1 tuples1,
      group.Insert heap rt now key =
        some (heap1, { group with tuples := tuples1 }, (p.Address, none), []) ∧
      tuples1.WF heap1 ∧
      (∀ t, group.tuples.get heap key = some t → tuples1.get heap1 key = some t) ∧
      (group.tuples.get heap key = none →
        tuples1.get heap1 key =
          some { Key := key, Host := p.Address, heartbeats := 0, lastseen := now }) := by
  let fresh : Tuple := { Key := key, Host := p.Address, heartbeats := 0, lastseen := 0 }
  have hkey : ((heap.alloc fresh).1.deref (heap.alloc fresh).2).Key = key := by
    rw [alloc_deref_new]
  obtain ⟨i1, i2, i3⟩ := Insert_one group.tuples (heap.alloc fresh).1 now (heap.alloc fresh).2
    key (WF_alloc hwf fresh) (alloc_valid_new _ _) hkey
  refine ⟨(group.tuples.Insert (heap.alloc fresh).1 now [(heap.alloc fresh).2]).1,
    (group.tuples.Insert (heap.alloc fresh).1 now [(heap.alloc fresh).2]).2.1, ?_, i1, ?_, ?_⟩
  · unfold affinityGroup.Insert
    rw [hr]
  · intro t ht
    obtain ⟨r, hr1, hd⟩ := (get_eq_some_iff _ _ _ _).1 ht
    have := i2 key r hr1
    rw [get_eq_some_iff]
    refine ⟨r, this.1, ?_⟩
    rw [this.2, alloc_deref_old _ _ _ (WF_lookup hwf hr1).1]
    exact hd
  · intro hn
    rw [get_eq_none_iff] at hn
    rw [i3 hn, alloc_deref_new]

/-! ## Node: Insert followed by Lookup -/

/-- C3, as stated, fails when the key is already stored. On the node built by
`New` with one group (so that `foo` belongs to the home group, group 0) and a
second home contact, a first `Insert("foo")` returns and stores
`127.0.0.1:9001`; a second `Insert("foo")` succeeds returning `127.0.0.1:9000`
and does not overwrite; the `Lookup` with TTL 0 that follows returns
`127.0.0.1:9001`, with no error and no transport call. -/
theorem Insert_then_Lookup_counterexample :
    lookupGroup (bytesOf "foo") 1 sumHash.new = some 0 ∧
    testNodePeered.map (fun n => n.id) = some 0 ∧
    testNodePeered.map (fun n => n.groups.map AffinityGroup.IsLocal) = some [true] ∧
    testFirstInsert.map (fun r => r.2.2) = some (("127.0.0.1:9001", none), []) ∧
    testSecondInsert.map (fun r => r.2.2) = some (("127.0.0.1:9000", none), []) ∧
    testLookupAfter.map (fun r => r.2.2) = some (("127.0.0.1:9001", none), []) := by
  decide

theorem group_setGroup (klp : Kelips) (idx : Int) (g0 g : AffinityGroup)
    (h : klp.group idx = some g0) : (klp.setGroup idx g).group idx = some g := by
  unfold Kelips.group at h ⊢
  by_cases hneg : idx < 0
  · simp [hneg] at h
  · rw [if_neg hneg] at h ⊢
    have hlt : idx.toNat < klp.groups.length := by
      by_contra hge
      rw [List.getElem?_eq_none (Nat.le_of_not_lt hge)] at h
      cases h
    simp [Kelips.setGroup, List.getElem?_set, hlt]

theorem setGroup_self (klp : Kelips) (idx : Int) (g : AffinityGroup)
    (h : klp.group idx = some g) : klp.setGroup idx g = klp := by
  unfold Kelips.group at h
  by_cases hneg : idx < 0
  · simp [hneg] at h
  · rw [if_neg hneg] at h
    unfold Kelips.setGroup
    have : klp.groups.set idx.toNat g = klp.groups := by
      apply List.ext_getElem?
      intro n
      rw [List.getElem?_set]
      by_cases hn : idx.toNat = n
      · subst hn
        rw [if_pos rfl, h]
        have hlt : idx.toNat < klp.groups.length := by
          by_contra hge
          rw [List.getElem?_eq_none (Nat.le_of_not_lt hge)] at h
          cases h
        simp [hlt]
      · rw [if_neg hn]
    rw [this]

/-- Node-level `Insert` for a key of the home group, in terms of the group's `Insert`. -/
theorem Kelips_Insert_home (klp : Kelips) (heap : Heap) (rt : Runtime) (now : Int) (key : Bytes)
    (idx : Int) (g : affinityGroup)
    (hidx : lookupGroup key klp.k klp.hasher.new = some idx)
    (hg : klp.group idx = some (.home g)) :
    klp.Insert heap rt now key =
      (g.Insert heap rt now key).bind (fun r =>
        match r.2.2.1.2 with
        | none => some (r.1, klp.setGroup idx (.home r.2.1), (r.2.2.1.1, none), r.2.2.2)
        | some err =>
          some (r.1, klp.setGroup idx (.home r.2.1),
            ("", some (.wrap err ("group " ++ toString idx))), r.2.2.2)) := by
  unfold Kelips.Insert
  simp only [hidx, hg, Option.bind_eq_bind, Option.some_bind, AffinityGroup.Insert]
  cases g.Insert heap rt now key with
  | none => rfl
  | some r => rfl

/-- Node-level `Lookup` for a key of the home group, in terms of the group's `Lookup`. -/
theorem Kelips_Lookup_home (klp : Kelips) (heap : Heap) (rt : Runtime) (req : Request)
    (idx : Int) (g : affinityGroup)
    (hidx : lookupGroup req.Key klp.k klp.hasher.new = some idx)
    (hg : klp.group idx = some (.home g)) :
    klp.Lookup heap rt req = (g.Lookup heap rt req).map (fun r => (klp, req, r)) := by
  unfold Kelips.Lookup
  simp only [hidx, hg, Option.bind_eq_bind, Option.some_bind, AffinityGroup.Lookup]
  cases g.Lookup heap rt req with
  | none => rfl
  | some r =>
    simp only [Option.map_some', Option.some_bind]
    rw [setGroup_self klp idx _ hg]

/-- C3 (amended): on a node whose group for `key` is the home group (store
satisfying the invariant), after `Insert(key)` succeeds returning host `H` (it
makes no transport call), every `Lookup` of `key`, whatever its TTL and
originator, returns with a nil error and no transport call, leaving node and
request as they are: `H` when the store did not hold `key` before the insert,
and the host stored before (not necessarily `H`) when it did. -/
theorem Insert_then_Lookup_returns_stored (klp : Kelips) (heap : Heap) (rt : Runtime) (now : Int)
    (key : Bytes) (idx : Int) (g : affinityGroup)
    (hidx : lookupGroup key klp.k klp.hasher.new = some idx)
    (hg : klp.group idx = some (.home g)) (hwf : g.tuples.WF heap)
    (heap1 : Heap) (klp1 : Kelips) (H : String) (calls : List TransportCall)
    (hins : klp.Insert heap rt now key = some (heap1, klp1, (H, none), calls))
    (rt1 : Runtime) (req : Request) (hkey : req.Key = key) :
    calls = [] ∧
    (g.tuples.get heap key = none →
      klp1.Lookup heap1 rt1 req = some (klp1, req, (H, none), [])) ∧
    (∀ t, g.tuples.get heap key = some t →
      klp1.Lookup heap1 rt1 req = some (klp1, req, (t.Host, none), [])) := by
  rw [Kelips_Insert_home klp heap rt now key idx g hidx hg] at hins
  have hcases : (∃ p, g.contacts.GetRandom rt = (some p, true)) ∨
      g.Insert heap rt now key = none ∨
      g.Insert heap rt now key = some (heap, g, ("", some errNoContacts), []) := by
    unfold affinityGroup.Insert
    rcases hgr : g.contacts.GetRandom rt with ⟨_ | p, _ | _⟩
    · exact Or.inr (Or.inr rfl)
    · exact Or.inr (Or.inl rfl)
    · exact Or.inr (Or.inr rfl)
    · exact Or.inl ⟨p, rfl⟩
  rcases hcases with ⟨p, hr⟩ | hnone | herr
  · obtain ⟨heap2, tuples2, hgi, _, hpres, habs⟩ :=
      home_Insert_of_random g heap rt now key p hwf hr
    rw [hgi] at hins
    simp only [Option.some_bind, Option.some.injEq, Prod.mk.injEq] at hins
    obtain ⟨rfl, rfl, ⟨rfl, -⟩, rfl⟩ := hins
    have hidx1 : lookupGroup req.Key (klp.setGroup idx (.home { g with tuples := tuples2 })).k
        (klp.setGroup idx (.home { g with tuples := tuples2 })).hasher.new = some idx := by
      rw [hkey]; exact hidx
    have hg1 := group_setGroup klp idx _ (.home { g with tuples := tuples2 }) hg
    have hlk := Kelips_Lookup_home _ heap2 rt1 req idx _ hidx1 hg1
    refine ⟨rfl, ?_, ?_⟩
    · intro hn
      obtain ⟨r, hr1, hd⟩ := (get_eq_some_iff _ _ _ _).1 (habs hn)
      rw [hlk, home_Lookup_of_lookup _ heap2 rt1 req r (by rw [hkey]; exact hr1), hd]
      rfl
    · intro t ht
      obtain ⟨r, hr1, hd⟩ := (get_eq_some_iff _ _ _ _).1 (hpres t ht)
      rw [hlk, home_Lookup_of_lookup _ heap2 rt1 req r (by rw [hkey]; exact hr1), hd]
      rfl
  · rw [hnone] at hins
    simp at hins
  · rw [herr] at hins
    simp at hins

/-- C3 (amended) on the peered sample node, which is what `New` followed by
`AddPeer` builds: `Insert("foo")` on the empty store returns `127.0.0.1:9001`
and the `Lookup` with TTL 0 returns it. -/
theorem Insert_then_Lookup_returns_stored_witness :
    testNodePeered = some testKlp ∧
    lookupGroup (bytesOf "foo") testKlp.k testKlp.hasher.new = some 0 ∧
    testKlp.group 0 = some (.home testHome) ∧
    testHome.tuples.WF ⟨[]⟩ ∧
    testHome.tuples.get ⟨[]⟩ (bytesOf "foo") = none ∧
    testKlpInserted.2.Lookup testKlpInserted.1 ⟨RangeOrder.stored, 0⟩ testRequest =
      some (testKlpInserted.2, testRequest, ("127.0.0.1:9001", none), []) :=
  ⟨rfl, by decide, rfl, by decide, by decide,
    (Insert_then_Lookup_returns_stored testKlp ⟨[]⟩ ⟨RangeOrder.stored, 0⟩ testNow
      (bytesOf "foo") 0 testHome (by decide) rfl (by decide) testKlpInserted.1
      testKlpInserted.2 "127.0.0.1:9001" [] rfl ⟨RangeOrder.stored, 0⟩ testRequest rfl).2.1
      (by decide)⟩

/-- C4 on the home group of the peered sample node, whose store is empty: the
request `{Key: "foo", TTL: 0}` fails with `errReqTTLReached`, no transport call. -/
theorem home_Lookup_hit_or_TTL_reached_witness :
    testHome.tuples.get ⟨[]⟩ testRequest.Key = none ∧ testRequest.TTL = 0 ∧
    testHome.Lookup ⟨[]⟩ ⟨RangeOrder.stored, 0⟩ testRequest =
      some (("", some errReqTTLReached), []) :=
  ⟨by decide, by decide,
    (home_Lookup_hit_or_TTL_reached testHome ⟨[]⟩ ⟨RangeOrder.stored, 0⟩ testRequest).2
      (by decide) (by decide)⟩

/-- C9 at the store of three test tuples: `ExpireHost("127.0.0.1:3741")`
removes the one tuple of that host, returning 1, and keeps `foo`. -/
theorem ExpireHost_removes_exactly_host_witness :
    testInserted.2.1.m.lookup (bytesOf "foo") = some 0 ∧
    (testInserted.1.deref 0).Host ≠ "127.0.0.1:3741" ∧
    (testInserted.2.1.ExpireHost testInserted.1 "127.0.0.1:3741").1.m.lookup (bytesOf "foo")
      = some 0 ∧
    (testInserted.2.1.ExpireHost testInserted.1 "127.0.0.1:3741").2 = 1 :=
  ⟨by decide, by decide,
    ((ExpireHost_removes_exactly_host testInserted.2.1 testInserted.1 "127.0.0.1:3741").2.2.1
      (bytesOf "foo") 0 (by decide) (by decide)).1,
    by decide⟩

/-- C10 at the store of three test tuples: `Delete("foo", "foo")` returns 1 and
a `Lookup("foo")` afterwards returns nil. -/
theorem Delete_removes_exactly_listed_witness :
    bytesOf "foo" ∈ [bytesOf "foo", bytesOf "foo"] ∧
    (testInserted.2.1.Delete [bytesOf "foo", bytesOf "foo"]).1.Lookup testInserted.1
      (bytesOf "foo") = none ∧
    (testInserted.2.1.Delete [bytesOf "foo", bytesOf "foo"]).2 = 1 :=
  ⟨by decide,
    (Delete_removes_exactly_listed testInserted.2.1 testInserted.1
      [bytesOf "foo", bytesOf "foo"]).1 (bytesOf "foo") (by decide),
    by decide⟩

/-! ## Contact directories -/

/-- What `Remove` of the in-memory directory does, for every directory and
peer: a peer that is present is kept and `errContactNotFound` is returned; for
a peer that is absent the (ineffective) delete is run and nil is returned. -/
theorem inmem_Remove_inverted (c : inmemContacts) (p : PeerContact) :
    (p.Address ∈ c.peers → c.Remove p = (c, some errContactNotFound)) ∧
    (p.Address ∉ c.peers → (c.Remove p).2 = none ∧
      ∀ a, (c.Remove p).1.peers.lookup a = c.peers.lookup a) := by
  constructor
  · intro h
    rw [← AList.lookup_isSome] at h
    cases hl : c.peers.lookup p.Address with
    | none => rw [hl] at h; cases h
    | some v => simp only [inmemContacts.Remove, hl]
  · intro h
    have hl := AList.lookup_eq_none.2 h
    simp only [inmemContacts.Remove, hl]
    refine ⟨trivial, ?_⟩
    intro a
    by_cases ha : a = p.Address
    · rw [ha, AList.lookup_erase, hl]
    · exact AList.lookup_erase_ne ha

/-- C13 fails on the code: the presence test of `Remove` is inverted. On the
directory holding `127.0.0.1:9000` and `127.0.0.1:9001`, `Remove` of the present
peer `127.0.0.1:9001` returns `errContactNotFound` and keeps it, and `Remove` of
the absent peer `127.0.0.1:9002` returns nil; `Add` of `127.0.0.1:9002` followed
by its `Remove` fails with `errContactNotFound` and leaves the peer in. -/
theorem inmem_Remove_present_fails :
    testContacts.peers.keys = ["127.0.0.1:9001", "127.0.0.1:9000"] ∧
    (testContacts.Remove ⟨"127.0.0.1:9001", 0, 0⟩).2 = some errContactNotFound ∧
    (testContacts.Remove ⟨"127.0.0.1:9001", 0, 0⟩).1.peers.keys =
      ["127.0.0.1:9001", "127.0.0.1:9000"] ∧
    (testContacts.Remove ⟨"127.0.0.1:9002", 0, 0⟩).2 = none ∧
    (testContacts.Add ⟨"127.0.0.1:9002", 0, 0⟩).2 = none ∧
    ((testContacts.Add ⟨"127.0.0.1:9002", 0, 0⟩).1.Remove ⟨"127.0.0.1:9002", 0, 0⟩).2 =
      some errContactNotFound ∧
    ((testContacts.Add ⟨"127.0.0.1:9002", 0, 0⟩).1.Remove ⟨"127.0.0.1:9002", 0, 0⟩).1.peers.keys =
      ["127.0.0.1:9002", "127.0.0.1:9001", "127.0.0.1:9000"] := by
  decide

theorem inmem_Add_absent (c : inmemContacts) (p : PeerContact) (h : p.Address ∉ c.peers) :
    c.Add p = ({ c with peers := c.peers.insert p.Address ⟨p.Address, 0, 0⟩ }, none) := by
  simp only [inmemContacts.Add, AList.lookup_eq_none.2 h]

theorem inmem_Add_present (c : inmemContacts) (p : PeerContact) (h : p.Address ∈ c.peers) :
    c.Add p = (c, some errContactExists) := by
  rw [← AList.lookup_isSome] at h
  cases hl : c.peers.lookup p.Address with
  | none => rw [hl] at h; cases h
  | some v => simp only [inmemContacts.Add, hl]

theorem gossip_Add_absent (g : gossipContactStorage) (p : PeerContact)
    (h : p.Address ∉ g.contacts) :
    g.Add p = ({ g with contacts := g.contacts ++ [p.Address] }, none) := by
  simp only [gossipContactStorage.Add, if_neg h]

theorem gossip_Add_present (g : gossipContactStorage) (p : PeerContact)
    (h : p.Address ∈ g.contacts) : g.Add p = (g, some errContactExists) := by
  simp only [gossipContactStorage.Add, if_pos h]

/-- Keys of a map after inserting under a key that was absent. -/
theorem keys_insert_absent {α : Type} [DecidableEq α] {β : α → Type} (s : AList β) (k : α)
    (b : β k) (h : k ∉ s) : (s.insert k b).keys = k :: s.keys := by
  rw [AList.keys_insert, List.erase_of_not_mem (AList.mem_keys.not.1 h)]

theorem inmem_Add_Keyed (c : inmemContacts) (p : PeerContact) (hk : c.Keyed) :
    (c.Add p).1.Keyed := by
  by_cases h : p.Address ∈ c.peers
  · rw [inmem_Add_present c p h]; exact hk
  · rw [inmem_Add_absent c p h]
    intro e he
    simp only [AList.insert_entries_of_neg h, List.mem_cons] at he
    rcases he with rfl | he
    · rfl
    · exact hk e he

/-- Under the invariant the peers `List()` returns carry exactly the keys of
the map as addresses, each once. -/
theorem inmem_List_addresses (c : inmemContacts) (order : RangeOrder) (hk : c.Keyed) :
    ((c.List order).map Peer.Address).Perm c.peers.keys := by
  unfold inmemContacts.List
  rw [List.map_map]
  have h1 : ((order.visit c.peers.entries).map (Peer.Address ∘ fun e => e.2)).Perm
      (c.peers.entries.map (Peer.Address ∘ fun e => e.2)) := (order.perm _).map _
  have h2 : c.peers.entries.map (Peer.Address ∘ fun e => e.2) = c.peers.keys := by
    unfold AList.keys List.keys
    apply List.map_congr_left
    intro e he
    exact hk e he
  rw [← h2]
  exact h1

theorem mem_addresses_Add (cs : ContactStorage) (p : PeerContact) (a : String)
    (h : a ∈ (cs.Add p).1.addresses) : a = p.Address ∨ a ∈ cs.addresses := by
  cases cs with
  | inmem c =>
    simp only [ContactStorage.Add, ContactStorage.addresses] at h ⊢
    by_cases hp : p.Address ∈ c.peers
    · rw [inmem_Add_present c p hp] at h; exact Or.inr h
    · rw [inmem_Add_absent c p hp] at h
      simp only [keys_insert_absent _ _ _ hp, List.mem_cons] at h
      exact h
  | gossip g =>
    simp only [ContactStorage.Add, ContactStorage.addresses] at h ⊢
    by_cases hp : p.Address ∈ g.contacts
    · rw [gossip_Add_present g p hp] at h; exact Or.inr h
    · rw [gossip_Add_absent g p hp] at h
      simp only [List.mem_append, List.mem_singleton] at h
      exact h.symm

/-- C14: `Add(p)` on a contact directory, in-memory or gossip-backed. When the
directory does not hold `p`'s address it returns nil and the directory then
holds that address in addition to the ones it held; when it holds the address
it fails with `errContactExists` and the directory is unchanged. The invariant
of the directory is kept, and under it no address is held twice, before and
after, nor listed twice by the in-memory `List()`. -/
theorem Add_inserts_once (cs : ContactStorage) (p : PeerContact) (order : RangeOrder) :
    (p.Address ∉ cs.addresses →
      (cs.Add p).2 = none ∧ (cs.Add p).1.addresses.Perm (p.Address :: cs.addresses)) ∧
    (p.Address ∈ cs.addresses → cs.Add p = (cs, some errContactExists)) ∧
    (cs.Sound →
      (cs.Add p).1.Sound ∧ cs.addresses.Nodup ∧ (cs.Add p).1.addresses.Nodup ∧
      ∀ c, (cs.Add p).1 = .inmem c → ((c.List order).map Peer.Address).Nodup) := by
  cases cs with
  | inmem c =>
    simp only [ContactStorage.Add, ContactStorage.addresses, ContactStorage.Sound]
    refine ⟨?_, ?_, ?_⟩
    · intro h
      have h' : p.Address ∉ c.peers := AList.mem_keys.not.2 h
      rw [inmem_Add_absent c p h']
      exact ⟨rfl, by rw [keys_insert_absent _ _ _ h']⟩
    · intro h
      rw [inmem_Add_present c p (AList.mem_keys.2 h)]
    · intro hk
      refine ⟨inmem_Add_Keyed c p hk, c.peers.keys_nodup, (c.Add p).1.peers.keys_nodup, ?_⟩
      intro c1 hc1
      cases hc1
      exact (inmem_List_addresses _ order (inmem_Add_Keyed c p hk)).nodup_iff.2
        (c.Add p).1.peers.keys_nodup
  | gossip g =>
    simp only [ContactStorage.Add, ContactStorage.addresses, ContactStorage.Sound]
    refine ⟨?_, ?_, ?_⟩
    · intro h
      rw [gossip_Add_absent g p h]
      exact ⟨rfl, List.perm_append_singleton _ _⟩
    · intro h
      rw [gossip_Add_present g p h]
    · intro hn
      have hafter : (g.Add p).1.contacts.Nodup := by
        by_cases h : p.Address ∈ g.contacts
        · rw [gossip_Add_present g p h]; exact hn
        · rw [gossip_Add_absent g p h]
          refine List.Nodup.append hn (List.nodup_singleton _) ?_
          intro a ha hb
          rw [List.mem_singleton.1 hb] at ha
          exact h ha
      refine ⟨hafter, hn, hafter, ?_⟩
      intro c1 hc1
      cases hc1

/-- C14 on the sample directories: adding the absent `127.0.0.1:9002` succeeds
and adding the present `127.0.0.1:9001` fails with `errContactExists`. -/
theorem Add_inserts_once_witness :
    "127.0.0.1:9002" ∉ (ContactStorage.gossip testGossipContacts).addresses ∧
    ((ContactStorage.gossip testGossipContacts).Add ⟨"127.0.0.1:9002", 0, 0⟩).1.addresses.Perm
      ("127.0.0.1:9002" :: (ContactStorage.gossip testGossipContacts).addresses) ∧
    "127.0.0.1:9001" ∈ (ContactStorage.inmem testContacts).addresses ∧
    (ContactStorage.inmem testContacts).Add ⟨"127.0.0.1:9001", 0, 0⟩ =
      (ContactStorage.inmem testContacts, some errContactExists) :=
  ⟨by decide,
    ((Add_inserts_once (.gossip testGossipContacts) ⟨"127.0.0.1:9002", 0, 0⟩
      RangeOrder.stored).1 (by decide)).2,
    by decide,
    (Add_inserts_once (.inmem testContacts) ⟨"127.0.0.1:9001", 0, 0⟩
      RangeOrder.stored).2.1 (by decide)⟩

/-- Cutting a list at the first index of `a` removes the first occurrence of
`a`; there is no index exactly when `a` does not occur. -/
theorem indexOf?_cut {α : Type} [DecidableEq α] (a : α) (l : List α) :
    (∀ i, l.indexOf? a = some i → a ∈ l ∧ l.take i ++ l.drop (i + 1) = l.erase a) ∧
    (l.indexOf? a = none → a ∉ l) := by
  induction l with
  | nil => simp [List.indexOf?]
  | cons x xs ih =>
    unfold List.indexOf? at ih ⊢
    simp only [List.findIdx?_cons, List.findIdx?_succ]
    by_cases hx : x = a
    · subst hx
      simp
    · have hx' : (x == a) = false := by simpa using hx
      simp only [hx', Bool.false_eq_true, if_false]
      constructor
      · intro i hi
        cases hf : List.findIdx? (fun y => y == a) xs 0 with
        | none => rw [hf] at hi; cases hi
        | some j =>
          rw [hf] at hi
          simp only [Option.map_some', Option.some.injEq] at hi
          subst hi
          obtain ⟨hm, hc⟩ := ih.1 j hf
          refine ⟨List.mem_cons_of_mem _ hm, ?_⟩
          rw [List.erase_cons_tail (by simpa using hx)]
          simp only [List.take_succ_cons, List.drop_succ_cons, List.cons_append]
          rw [hc]
      · intro hn
        cases hf : List.findIdx? (fun y => y == a) xs 0 with
        | none =>
          have := ih.2 hf
          simp only [List.mem_cons, not_or]
          exact ⟨fun e => hx e.symm, this⟩
        | some j => rw [hf] at hn; cases hn

theorem gossip_Remove_present (g : gossipContactStorage) (p : PeerContact)
    (h : p.Address ∈ g.contacts) :
    g.Remove p = ({ g with contacts := g.contacts.erase p.Address }, none) := by
  obtain ⟨h1, h2⟩ := indexOf?_cut p.Address g.contacts
  unfold gossipContactStorage.Remove
  cases hi : g.contacts.indexOf? p.Address with
  | none => exact absurd h (h2 hi)
  | some i =>
    simp only []
    rw [(h1 i hi).2]

theorem gossip_Remove_absent (g : gossipContactStorage) (p : PeerContact)
    (h : p.Address ∉ g.contacts) : g.Remove p = (g, some errContactNotFound) := by
  obtain ⟨h1, h2⟩ := indexOf?_cut p.Address g.contacts
  unfold gossipContactStorage.Remove
  cases hi : g.contacts.indexOf? p.Address with
  | none => rfl
  | some i => exact absurd (h1 i hi).1 h

theorem mem_addresses_Remove (cs : ContactStorage) (p : PeerContact) (a : String)
    (h : a ∈ (cs.Remove p).1.addresses) : a ∈ cs.addresses := by
  cases cs with
  | inmem c =>
    simp only [ContactStorage.Remove, ContactStorage.addresses] at h ⊢
    by_cases hp : p.Address ∈ c.peers
    · rw [(inmem_Remove_inverted c p).1 hp] at h; exact h
    · have := ((inmem_Remove_inverted c p).2 hp).2 a
      rw [← AList.mem_keys, ← AList.lookup_isSome] at h ⊢
      rw [← this]; exact h
  | gossip g =>
    simp only [ContactStorage.Remove, ContactStorage.addresses] at h ⊢
    by_cases hp : p.Address ∈ g.contacts
    · rw [gossip_Remove_present g p hp] at h
      exact List.mem_of_mem_erase h
    · rw [gossip_Remove_absent g p hp] at h; exact h

/-- C15: `Remove(p)` on a gossip-backed directory. When `p`'s address is in
the contact list it returns nil and the list loses the first occurrence of the
address, nothing else of the directory changing; the list holding no address
twice (which `Add` guarantees), the address is gone and the list is the old
one filtered of it, so the other addresses keep their relative order. When
the address is not in the list it fails with `errContactNotFound` and the
directory is unchanged. -/
theorem gossip_Remove_deletes_address (g : gossipContactStorage) (p : PeerContact) :
    (p.Address ∈ g.contacts →
      g.Remove p = ({ g with contacts := g.contacts.erase p.Address }, none) ∧
      (g.contacts.Nodup →
        p.Address ∉ (g.Remove p).1.contacts ∧
        (g.Remove p).1.contacts = g.contacts.filter (fun a => decide (a ≠ p.Address)) ∧
        (g.Remove p).1.contacts.Nodup)) ∧
    (p.Address ∉ g.contacts → g.Remove p = (g, some errContactNotFound)) := by
  refine ⟨?_, gossip_Remove_absent g p⟩
  intro h
  refine ⟨gossip_Remove_present g p h, ?_⟩
  intro hn
  rw [gossip_Remove_present g p h]
  simp only []
  refine ⟨?_, ?_, hn.erase _⟩
  · exact fun hm => (List.Nodup.mem_erase_iff hn).1 hm |>.1 rfl
  · rw [List.Nodup.erase_eq_filter hn]
    apply List.filter_congr
    intro a _
    by_cases ha : a = p.Address <;> simp [ha]

/-- C15 on the sample gossip-backed directory: removing `127.0.0.1:9000`
leaves `127.0.0.1:9001`, and removing the absent `127.0.0.1:9002` fails. -/
theorem gossip_Remove_deletes_address_witness :
    "127.0.0.1:9000" ∈ testGossipContacts.contacts ∧
    (testGossipContacts.Remove ⟨"127.0.0.1:9000", 0, 0⟩).1.contacts = ["127.0.0.1:9001"] ∧
    (testGossipContacts.Remove ⟨"127.0.0.1:9000", 0, 0⟩).2 = none ∧
    "127.0.0.1:9002" ∉ testGossipContacts.contacts ∧
    testGossipContacts.Remove ⟨"127.0.0.1:9002", 0, 0⟩ =
      (testGossipContacts, some errContactNotFound) :=
  ⟨by decide, by decide, by decide, by decide,
    (gossip_Remove_deletes_address testGossipContacts ⟨"127.0.0.1:9002", 0, 0⟩).2 (by decide)⟩

/-- C16: `GetClosest` of the in-memory directory, for every directory and every
order of map iteration. Whatever it returns with `true` is a listed peer whose
address is not the local host; it does so whenever the directory lists such a
peer; and when every listed peer is the local host, or none is listed, it
returns `(nil, false)`. -/
theorem inmem_GetClosest_skips_local (c : inmemContacts) (order : RangeOrder) :
    (∀ p ok, c.GetClosest order = (some p, ok) →
      ok = true ∧ p ∈ c.List order ∧ p.Address ≠ c.host) ∧
    ((∃ p ∈ c.List order, p.Address ≠ c.host) →
      ∃ p ∈ c.List order, p.Address ≠ c.host ∧ c.GetClosest order = (some p, true)) ∧
    ((∀ p ∈ c.List order, p.Address = c.host) → c.GetClosest order = (none, false)) := by
  unfold inmemContacts.GetClosest inmemContacts.List
  cases hf : (order.visit c.peers.entries).find? (fun e => decide (e.2.Address ≠ c.host)) with
  | none =>
    refine ⟨?_, ?_, ?_⟩
    · intro p ok h
      cases h
    · rintro ⟨p, hp, hne⟩
      obtain ⟨e, he, rfl⟩ := List.mem_map.1 hp
      have := List.find?_eq_none.1 hf e he
      simp at this
      exact absurd this hne
    · intro _
      rfl
  | some e =>
    have hmem : e ∈ order.visit c.peers.entries := List.mem_of_find?_eq_some hf
    have hne : e.2.Address ≠ c.host := by simpa using List.find?_some hf
    have hlist : e.2 ∈ (order.visit c.peers.entries).map (fun e => e.2) :=
      List.mem_map.2 ⟨e, hmem, rfl⟩
    refine ⟨?_, ?_, ?_⟩
    · intro p ok h
      simp only [Prod.mk.injEq, Option.some.injEq] at h
      obtain ⟨rfl, rfl⟩ := h
      exact ⟨rfl, hlist, hne⟩
    · intro _
      exact ⟨e.2, hlist, hne, rfl⟩
    · intro hall
      exact absurd (hall e.2 hlist) hne

/-- C16 on sample directories: with the local host and one more peer the other
peer is returned; with the local host alone the answer is `(nil, false)`. -/
theorem inmem_GetClosest_skips_local_witness :
    (∃ p ∈ testContacts.List RangeOrder.stored, p.Address ≠ testContacts.host) ∧
    (∃ p ∈ testContacts.List RangeOrder.stored, p.Address ≠ testContacts.host ∧
      testContacts.GetClosest RangeOrder.stored = (some p, true)) ∧
    testContacts.GetClosest RangeOrder.stored = (some ⟨"127.0.0.1:9001", 0, 0⟩, true) ∧
    ((⟨0, "127.0.0.1:9000", ∅⟩ : inmemContacts).Add ⟨"127.0.0.1:9000", 0, 0⟩).1.GetClosest
      RangeOrder.reversed = (none, false) :=
  ⟨⟨⟨"127.0.0.1:9001", 0, 0⟩, by decide, by decide⟩,
    (inmem_GetClosest_skips_local testContacts RangeOrder.stored).2.1
      ⟨⟨"127.0.0.1:9001", 0, 0⟩, by decide, by decide⟩,
    by decide, by decide⟩

/-! ## Node: Insert delegates and wraps -/

/-- C19: `Kelips.Insert(key)` with `idx = lookupGroup(key, K)` and `groups[idx]`
in place. It makes the calls, and the changes to heap and group, of that
group's `Insert`; when the group returns host `h` with a nil error it returns
`h` and nil; when the group returns an error `err` it returns the empty host
and an error whose message is `group <idx>: ` followed by the message of `err`,
which for `errNoContacts` reads `group <idx>: no contacts`; a panic of the
group is a panic of the node. -/
theorem Kelips_Insert_delegates_and_wraps (klp : Kelips) (heap : Heap) (rt : Runtime)
    (now : Int) (key : Bytes) (idx : Int) (group : AffinityGroup)
    (hidx : lookupGroup key klp.k klp.hasher.new = some idx)
    (hg : klp.group idx = some group) :
    (∀ heap1 group1 host calls,
      group.Insert heap rt now key = some (heap1, group1, (host, none), calls) →
      klp.Insert heap rt now key = some (heap1, klp.setGroup idx group1, (host, none), calls)) ∧
    (∀ heap1 group1 host err calls,
      group.Insert heap rt now key = some (heap1, group1, (host, some err), calls) →
      ∃ e, klp.Insert heap rt now key =
          some (heap1, klp.setGroup idx group1, ("", some e), calls) ∧
        e.message = "group " ++ toString idx ++ ": " ++ err.message ∧
        (err = errNoContacts → e.message = "group " ++ toString idx ++ ": " ++ "no contacts")) ∧
    (group.Insert heap rt now key = none → klp.Insert heap rt now key = none) := by
  refine ⟨?_, ?_, ?_⟩
  · intro heap1 group1 host calls h
    unfold Kelips.Insert
    simp only [hidx, hg, h, Option.bind_eq_bind, Option.some_bind]
  · intro heap1 group1 host err calls h
    refine ⟨.wrap err ("group " ++ toString idx), ?_, rfl, ?_⟩
    · unfold Kelips.Insert
      simp only [hidx, hg, h, Option.bind_eq_bind, Option.some_bind]
    · intro he
      rw [he]
      rfl
  · intro h
    unfold Kelips.Insert
    simp only [hidx, hg, h, Option.bind_eq_bind, Option.some_bind, Option.none_bind]

/-- C19 on the sample node with two groups, which is what `New` builds: the key
`bar` belongs to group 1, a remote group without contacts, and `Insert` fails
with the message `group 1: no contacts`. -/
theorem Kelips_Insert_delegates_and_wraps_witness :
    testNode2 = some testKlp2 ∧
    lookupGroup (bytesOf "bar") testKlp2.k testKlp2.hasher.new = some 1 ∧
    testKlp2.group 1 = some (.remote testRemote) ∧
    (AffinityGroup.remote testRemote).Insert ⟨[]⟩ ⟨RangeOrder.stored, 0⟩ testNow (bytesOf "bar") =
      some (⟨[]⟩, .remote testRemote, ("", some errNoContacts), []) ∧
    ∃ e, testKlp2.Insert ⟨[]⟩ ⟨RangeOrder.stored, 0⟩ testNow (bytesOf "bar") =
        some (⟨[]⟩, testKlp2.setGroup 1 (.remote testRemote), ("", some e), []) ∧
      e.message = "group " ++ toString (1 : Int) ++ ": " ++ errNoContacts.message ∧
      (errNoContacts = errNoContacts →
        e.message = "group " ++ toString (1 : Int) ++ ": " ++ "no contacts") :=
  ⟨rfl, by decide, rfl, rfl,
    (Kelips_Insert_delegates_and_wraps testKlp2 ⟨[]⟩ ⟨RangeOrder.stored, 0⟩ testNow
      (bytesOf "bar") 1 (.remote testRemote) (by decide) rfl).2.1 ⟨[]⟩ (.remote testRemote) ""
      errNoContacts [] rfl⟩

/-! ## The tuple frame codec -/

/-- The loop of `readTuples` allocates, in order and at the end of the heap, the
tuples the frame parses to; what they are depends on the frame only. -/
theorem readTuplesLoop_eq_parse (net : Net) (fuel : Nat) (buf : Bytes) (heap : Heap)
    (out : List Ref) :
    readTuplesLoop net fuel buf heap out =
      (parseTuplesLoop net fuel buf).map (fun r =>
        (⟨heap.objs ++ r.1⟩, out ++ List.range' heap.objs.length r.1.length, r.2)) := by
  induction fuel generalizing buf heap out with
  | zero => simp [readTuplesLoop, parseTuplesLoop]
  | succ fuel ih =>
    cases buf with
    | nil => simp [readTuplesLoop, parseTuplesLoop]
    | cons n rest =>
      simp only [readTuplesLoop, parseTuplesLoop]
      by_cases h1 : rest.length < n.val
      · simp [h1]
      · simp only [h1, if_false]
        by_cases h2 : (rest.take n.val).length < 18
        · simp only [h2, if_true, Option.map_none']
        · simp only [h2, if_false]
          cases hostBytesToString net ((rest.take n.val).take 18) with
          | none => rfl
          | some host =>
            simp only [ih, Heap.alloc, Option.map_map]
            congr 1
            funext r
            simp only [Function.comp, List.length_cons, List.append_assoc, List.singleton_append,
              List.length_append, List.length_singleton, Prod.mk.injEq, and_true, true_and]
            rfl

/-- Reading the addresses just allocated gives the allocated values. -/
theorem map_deref_appended (objs vals : List Tuple) :
    (List.range' objs.length vals.length).map (Heap.deref ⟨objs ++ vals⟩) = vals := by
  apply List.ext_getElem
  · simp
  · intro i h1 h2
    simp only [List.getElem_map, List.getElem_range', Heap.deref, Nat.one_mul]
    rw [List.getD_eq_getElem?_getD, List.getElem?_append_right (Nat.le_add_right _ _)]
    simp [h2]

theorem host_roundtrip (net : Net) (host : String) (h : net.isIPPort host) :
    ∃ hb, hostStringToBytes net host = some hb ∧ hb.length = 18 ∧
      hostBytesToString net hb = some host := by
  unfold Net.isIPPort at h
  unfold hostStringToBytes
  cases hr : net.ResolveTCPAddr host with
  | none => rw [hr] at h; exact h.elim
  | some r =>
    obtain ⟨ip, port⟩ := r
    rw [hr] at h
    obtain ⟨hlen, hport, hs⟩ := h
    refine ⟨_, rfl, by simp [hlen], ?_⟩
    unfold hostBytesToString
    have hl : ¬ (ip ++ [(Fin.ofNat (port % 65536 / 256) : Byte),
        Fin.ofNat (port % 65536 % 256)]).length < 18 := by simp [hlen]
    rw [if_neg hl]
    have htake : (ip ++ [(Fin.ofNat (port % 65536 / 256) : Byte),
        Fin.ofNat (port % 65536 % 256)]).take 16 = ip := by
      rw [List.take_append_of_le_length (by omega), List.take_of_length_le (by omega)]
    have h16 : (ip ++ [(Fin.ofNat (port % 65536 / 256) : Byte),
        Fin.ofNat (port % 65536 % 256)]).getD 16 0 = Fin.ofNat (port % 65536 / 256) := by
      rw [List.getD_eq_getElem?_getD, List.getElem?_append_right (by omega)]
      simp [hlen]
    have h17 : (ip ++ [(Fin.ofNat (port % 65536 / 256) : Byte),
        Fin.ofNat (port % 65536 % 256)]).getD 17 0 = Fin.ofNat (port % 65536 % 256) := by
      rw [List.getD_eq_getElem?_getD, List.getElem?_append_right (by omega)]
      simp [hlen]
    simp only [htake, h16, h17]
    have hp : (Fin.ofNat (port % 65536 / 256) : Byte).val * 256 +
        (Fin.ofNat (port % 65536 % 256) : Byte).val = port := by
      simp only [Fin.ofNat, Nat.reduceAdd]
      omega
    rw [hp, hs]

/-- One record whose line is 18 host bytes followed by a key of at most 237
bytes parses to the tuple of that key and host, and the loop goes on with the
rest. -/
theorem parse_record (net : Net) (fuel : Nat) (hb key rest : Bytes) (host : String)
    (hlen : hb.length = 18) (hkey : key.length ≤ 237)
    (hhost : hostBytesToString net hb = some host) :
    parseTuplesLoop net (fuel + 1) ((Fin.ofNat (hb ++ key).length :: (hb ++ key)) ++ rest) =
      (parseTuplesLoop net fuel rest).map (fun r =>
        ({ Key := key, Host := host, heartbeats := 0, lastseen := 0 } :: r.1, r.2)) := by
  have hn : (Fin.ofNat (hb ++ key).length : Byte).val = (hb ++ key).length := by
    simp only [Fin.ofNat, Nat.reduceAdd, List.length_append, hlen]
    omega
  have hll : (hb ++ key).length = 18 + key.length := by simp [hlen]
  simp only [List.cons_append, parseTuplesLoop, hn]
  have h1 : ¬ ((hb ++ key) ++ rest).length < (hb ++ key).length := by simp
  have htake : ((hb ++ key) ++ rest).take (hb ++ key).length = hb ++ key := by
    exact List.take_left' rfl
  have hdrop : ((hb ++ key) ++ rest).drop (hb ++ key).length = rest := by
    exact List.drop_left' rfl
  have h2 : ¬ (hb ++ key).length < 18 := by omega
  have htake18 : (hb ++ key).take 18 = hb := List.take_left' hlen
  have hdrop18 : (hb ++ key).drop 18 = key := List.drop_left' hlen
  simp only [List.append_eq, h1, if_false, htake, hdrop, h2, htake18, hdrop18, hhost]

/-- Under the conditions of the round trip `writeTuples` appends a frame that
parses back, with any bound above its length, to the tuples written, counters
zero, and a nil error. -/
theorem write_then_parse (net : Net) (heap : Heap) (tuples : List Ref) (w : Bytes)
    (h : ∀ t ∈ tuples, (heap.deref t).Key.length ≤ 237 ∧ net.isIPPort (heap.deref t).Host) :
    ∃ frame, writeTuplesLoop net heap tuples w = some (w ++ frame) ∧
      (tuples = [] → frame = []) ∧
      ∀ fuel, frame.length < fuel →
        parseTuplesLoop net fuel frame =
          some (tuples.map (fun t =>
            { Key := (heap.deref t).Key, Host := (heap.deref t).Host, heartbeats := 0,
              lastseen := 0 }), none) := by
  induction tuples generalizing w with
  | nil =>
    refine ⟨[], by simp [writeTuplesLoop], fun _ => rfl, ?_⟩
    intro fuel hf
    cases fuel with
    | zero => rfl
    | succ f => rfl
  | cons t ts ih =>
    obtain ⟨hkey, hip⟩ := h t (List.mem_cons_self _ _)
    obtain ⟨hb, hw, hlen, hr⟩ := host_roundtrip net _ hip
    obtain ⟨frame, hwf, -, hpf⟩ := ih
      (w ++ (Fin.ofNat (hb ++ (heap.deref t).Key).length :: (hb ++ (heap.deref t).Key)))
      (fun t' ht' => h t' (List.mem_cons_of_mem _ ht'))
    refine ⟨(Fin.ofNat (hb ++ (heap.deref t).Key).length :: (hb ++ (heap.deref t).Key)) ++ frame,
      ?_, ?_, ?_⟩
    · simp only [writeTuplesLoop, hw, hwf, List.append_assoc]
    · intro hnil
      cases hnil
    · intro fuel hf
      cases fuel with
      | zero => simp at hf
      | succ f =>
        rw [parse_record net f hb _ frame _ hlen hkey hr, hpf f]
        · rfl
        · simp only [List.cons_append, List.length_cons] at hf
          simp only [List.length_append] at hf
          omega

/-- C20: for tuples whose keys have at most 237 bytes and whose hosts are
`ip:port` addresses (hosts that resolve to a 16-byte IP and a port and print
back to themselves), `writeTuples` produces a buffer without panicking and
`readTuples` on that buffer returns, with a nil error, newly allocated tuples
with the same Key and Host in the same order and with heartbeats and lastseen
zero. An empty list gives an empty buffer, which reads back as no tuple. -/
theorem readTuples_writeTuples_roundtrip (net : Net) (heap heap0 : Heap) (tuples : List Ref)
    (h : ∀ t ∈ tuples, (heap.deref t).Key.length ≤ 237 ∧ net.isIPPort (heap.deref t).Host) :
    ∃ buf heap1 out,
      writeTuples net heap tuples = some buf ∧
      readTuples net heap0 buf = some (heap1, out, none) ∧
      out.map heap1.deref = tuples.map (fun t =>
        { Key := (heap.deref t).Key, Host := (heap.deref t).Host, heartbeats := 0,
          lastseen := 0 }) ∧
      (∀ r, heap0.valid r → heap1.deref r = heap0.deref r) ∧
      (tuples = [] → buf = [] ∧ out = []) := by
  obtain ⟨frame, hw, hnil, hp⟩ := write_then_parse net heap tuples [] h
  have hwrite : writeTuples net heap tuples = some frame := by
    unfold writeTuples
    by_cases h0 : tuples.length = 0
    · have : tuples = [] := List.length_eq_zero.1 h0
      rw [if_pos h0, hnil this]
    · rw [if_neg h0, hw, List.nil_append]
  have hread := readTuplesLoop_eq_parse net (frame.length + 1) frame heap0 []
  rw [hp (frame.length + 1) (Nat.lt_succ_self _)] at hread
  simp only [Option.map_some', List.nil_append, List.length_map] at hread
  refine ⟨frame, _, _, hwrite, hread, ?_, ?_, ?_⟩
  · have := map_deref_appended heap0.objs
      (tuples.map (fun t => (⟨(heap.deref t).Key, (heap.deref t).Host, 0, 0⟩ : Tuple)))
    rw [List.length_map] at this
    exact this
  · intro r hr
    unfold Heap.valid at hr
    simp [Heap.deref, List.getD_eq_getElem?_getD, List.getElem?_append_left hr]
  · intro hn
    subst hn
    exact ⟨hnil rfl, rfl⟩

/-- C20 on the first two test tuples, with the `net` package on IPv4 literals:
the buffer `writeTuples` produces has 64 bytes and reads back as `foo` at
`127.0.0.1:8902` and `parent/child/grandchild` at `127.0.0.1:65432`. -/
theorem readTuples_writeTuples_roundtrip_witness :
    (∀ t ∈ [0, 1], (testHeap.deref t).Key.length ≤ 237 ∧
      testNet.isIPPort (testHeap.deref t).Host) ∧
    (writeTuples testNet testHeap [0, 1]).map List.length = some 64 ∧
    ((writeTuples testNet testHeap [0, 1]).bind (fun b => readTuples testNet ⟨[]⟩ b)).map
        (fun r => (r.1.objs, r.2)) =
      some ([⟨bytesOf "foo", "127.0.0.1:8902", 0, 0⟩,
        ⟨bytesOf "parent/child/grandchild", "127.0.0.1:65432", 0, 0⟩], [0, 1], none) ∧
    ∃ buf heap1 out,
      writeTuples testNet testHeap [0, 1] = some buf ∧
      readTuples testNet ⟨[]⟩ buf = some (heap1, out, none) ∧
      out.map heap1.deref = [0, 1].map (fun t =>
        { Key := (testHeap.deref t).Key, Host := (testHeap.deref t).Host, heartbeats := 0,
          lastseen := 0 }) ∧
      (∀ r, Heap.valid ⟨[]⟩ r → heap1.deref r = Heap.deref ⟨[]⟩ r) ∧
      (([0, 1] : List Ref) = [] → buf = [] ∧ out = []) :=
  ⟨by decide, by decide, by decide,
    readTuples_writeTuples_roundtrip testNet testHeap ⟨[]⟩ [0, 1] (by decide)⟩

/-- With more iterations allowed than the frame has bytes the parse does not
depend on the bound: the loop ends before the bound is reached. -/
theorem parseTuplesLoop_fuel (net : Net) (f1 f2 : Nat) (buf : Bytes)
    (h1 : buf.length < f1) (h2 : buf.length < f2) :
    parseTuplesLoop net f1 buf = parseTuplesLoop net f2 buf := by
  induction f1 generalizing f2 buf with
  | zero => omega
  | succ f1 ih =>
    cases f2 with
    | zero => omega
    | succ f2 =>
      cases buf with
      | nil => rfl
      | cons n rest =>
        simp only [parseTuplesLoop]
        simp only [List.length_cons] at h1 h2
        have hd : (rest.drop n.val).length ≤ rest.length := by simp
        rw [ih f2 (rest.drop n.val) (by omega) (by omega)]

/-! ## Insert twice -/

theorem deref_append_old (heap : Heap) (vals : List Tuple) (r : Ref) (h : heap.valid r) :
    Heap.deref ⟨heap.objs ++ vals⟩ r = heap.deref r := by
  unfold Heap.valid at h
  simp [Heap.deref, List.getD_eq_getElem?_getD, List.getElem?_append_left h]

theorem deref_append_new (objs vals : List Tuple) (i : Nat) (h : i < vals.length) :
    Heap.deref ⟨objs ++ vals⟩ (objs.length + i) = vals[i] := by
  simp only [Heap.deref, List.getD_eq_getElem?_getD]
  rw [List.getElem?_append_right (Nat.le_add_right _ _)]
  simp [h]

theorem WF_append {tuples : InmemTuples} {heap : Heap} (hwf : tuples.WF heap)
    (vals : List Tuple) : tuples.WF ⟨heap.objs ++ vals⟩ := by
  intro e he
  obtain ⟨hv, hk⟩ := hwf e he
  refine ⟨?_, by rw [deref_append_old _ _ _ hv]; exact hk⟩
  unfold Heap.valid at hv ⊢
  simp only [List.length_append]
  exact Nat.lt_add_right _ hv

theorem insertFold_length (now : Int) (tpls : List Ref) (acc : Heap × InmemTuples × Nat) :
    (tpls.foldl (InmemTuples.insertStep now) acc).1.objs.length = acc.1.objs.length := by
  induction tpls generalizing acc with
  | nil => rfl
  | cons t ts ih =>
    rw [List.foldl_cons, ih]
    cases h : acc.2.1.m.lookup (acc.1.deref t).Key with
    | some v => rw [insertStep_of_some now acc t v h]
    | none =>
      rw [insertStep_of_none now acc t h]
      simp [Heap.store]

/-- After the loop of `Insert` the key of every tuple passed is in the map. -/
theorem insertFold_keys_present (now : Int) (tpls : List Ref) (acc : Heap × InmemTuples × Nat)
    (hv : ∀ r ∈ tpls, acc.1.valid r) (r : Ref) (hr : r ∈ tpls) :
    (tpls.foldl (InmemTuples.insertStep now) acc).2.1.m.lookup (acc.1.deref r).Key ≠ none := by
  obtain ⟨f2, -, f3, -⟩ := insertFold_spec now tpls acc hv
  cases hl : acc.2.1.m.lookup (acc.1.deref r).Key with
  | some v => rw [f2 _ v hl]; simp
  | none =>
    rw [(f3 _ hl).1]
    intro hnone
    have := List.find?_eq_none.1 hnone r hr
    simp at this

/-- When the key of every tuple passed is in the map already, the loop of
`Insert` changes nothing and counts nothing. -/
theorem insertFold_noop (now : Int) (tpls : List Ref) (acc : Heap × InmemTuples × Nat)
    (h : ∀ r ∈ tpls, acc.2.1.m.lookup (acc.1.deref r).Key ≠ none) :
    tpls.foldl (InmemTuples.insertStep now) acc = acc := by
  induction tpls with
  | nil => rfl
  | cons t ts ih =>
    rw [List.foldl_cons]
    cases hl : acc.2.1.m.lookup (acc.1.deref t).Key with
    | none => exact absurd hl (h t (List.mem_cons_self _ _))
    | some v =>
      rw [insertStep_of_some now acc t v hl]
      exact ih (fun r hr => h r (List.mem_cons_of_mem _ hr))

/-- The answer of `NotifyMsg` in terms of the parse of the frame: nothing but
allocation on a parse error, the store's `Insert` of the allocated tuples
otherwise. -/
theorem NotifyMsg_of_parse (g : tuplesGossipDelegate) (net : Net) (heap : Heap) (now : Int)
    (msg : Bytes) :
    g.NotifyMsg net heap now msg =
      if msg.length < 18 then none
      else
        match hostBytesToString net (msg.take 18) with
        | none => none
        | some _ =>
          match parseTuplesLoop net ((msg.drop 18).length + 1) (msg.drop 18) with
          | none => none
          | some (vals, some _) => some (⟨heap.objs ++ vals⟩, g)
          | some (vals, none) =>
            some ((g.tuples.Insert ⟨heap.objs ++ vals⟩ now
                (List.range' heap.objs.length vals.length)).1,
              { g with tuples := (g.tuples.Insert ⟨heap.objs ++ vals⟩ now
                (List.range' heap.objs.length vals.length)).2.1 }) := by
  unfold tuplesGossipDelegate.NotifyMsg readTuples
  rw [readTuplesLoop_eq_parse]
  by_cases h : msg.length < 18
  · rw [if_pos h, if_pos h]
  · rw [if_neg h, if_neg h]
    cases hostBytesToString net (msg.take 18) with
    | none => rfl
    | some host =>
      simp only []
      cases parseTuplesLoop net ((msg.drop 18).length + 1) (msg.drop 18) with
      | none => rfl
      | some r =>
        obtain ⟨vals, err⟩ := r
        cases err with
        | none => simp
        | some e => simp

/-- A second delivery of a frame whose tuples are all stored already: the loop
of `Insert` over freshly allocated copies changes nothing. -/
theorem Insert_appended_noop (tuples1 : InmemTuples) (heapA heap1 : Heap) (objs : List Tuple)
    (vals : List Tuple) (now : Int)
    (hA : heapA = ⟨objs ++ vals⟩)
    (hpres : ∀ r ∈ List.range' objs.length vals.length,
      tuples1.m.lookup (heapA.deref r).Key ≠ none) :
    tuples1.Insert ⟨heap1.objs ++ vals⟩ now (List.range' heap1.objs.length vals.length) =
      (⟨heap1.objs ++ vals⟩, tuples1, 0) := by
  unfold InmemTuples.Insert
  apply insertFold_noop
  intro r hr
  obtain ⟨h1, h2⟩ := List.mem_range'_1.1 hr
  obtain ⟨i, rfl⟩ := Nat.exists_eq_add_of_le h1
  have hi : i < vals.length := by omega
  simp only []
  rw [deref_append_new heap1.objs vals i hi]
  have := hpres (objs.length + i) (List.mem_range'_1.2 ⟨Nat.le_add_right _ _, by omega⟩)
  rw [hA, deref_append_new objs vals i hi] at this
  exact this

theorem get_append (tuples : InmemTuples) (heap : Heap) (hwf : tuples.WF heap)
    (vals : List Tuple) (k : Bytes) :
    tuples.get ⟨heap.objs ++ vals⟩ k = tuples.get heap k := by
  unfold InmemTuples.get
  cases hl : tuples.m.lookup k with
  | none => rfl
  | some r =>
    simp only [Option.map_some']
    rw [deref_append_old heap vals r (WF_lookup hwf hl).1]

/-- C11. `InmemTuples.Insert` is idempotent. Inserting a tuple and then a tuple
with the same key, at any later clock reading, returns 0 the second time and
leaves the map and every tuple object as the first insertion left them (the
first counts 1 when the key was absent). Hence a second delivery to
`NotifyMsg` of a message whose first delivery was applied leaves the delegate
as it was: the same map, every object that existed unchanged, so every key
reads the same stored tuple. -/
theorem Insert_idempotent :
    (∀ (tuples : InmemTuples) (heap : Heap) (now1 now2 : Int) (tpl tpl2 : Ref),
      heap.valid tpl → heap.valid tpl2 → (heap.deref tpl2).Key = (heap.deref tpl).Key →
      (tuples.m.lookup (heap.deref tpl).Key = none → (tuples.Insert heap now1 [tpl]).2.2 = 1) ∧
      (tuples.Insert heap now1 [tpl]).2.1.Insert (tuples.Insert heap now1 [tpl]).1 now2 [tpl2] =
        ((tuples.Insert heap now1 [tpl]).1, (tuples.Insert heap now1 [tpl]).2.1, 0)) ∧
    (∀ (g g1 : tuplesGossipDelegate) (net : Net) (heap heap1 : Heap) (now1 now2 : Int)
      (msg : Bytes),
      g.tuples.WF heap → g.NotifyMsg net heap now1 msg = some (heap1, g1) →
      ∃ heap2, g1.NotifyMsg net heap1 now2 msg = some (heap2, g1) ∧
        (∀ r, heap1.valid r → heap2.deref r = heap1.deref r) ∧
        (∀ k, g1.tuples.get heap2 k = g1.tuples.get heap1 k)) := by
  constructor
  · intro tuples heap now1 now2 tpl tpl2 hv hv2 hkey
    have hv1 : ∀ r ∈ [tpl], heap.valid r := by
      intro r hr
      rw [List.mem_singleton.1 hr]
      exact hv
    constructor
    · intro habs
      unfold InmemTuples.Insert
      simp only [List.foldl_cons, List.foldl_nil]
      rw [insertStep_of_none now1 (heap, tuples, 0) tpl habs]
    · have hp := insertFold_keys_present now1 [tpl] (heap, tuples, 0) hv1 tpl
        (List.mem_singleton.2 rfl)
      have hf := (insertFold_frame now1 [tpl] (heap, tuples, 0) tpl2).1
      unfold InmemTuples.Insert at hp hf ⊢
      apply insertFold_noop
      intro r hr
      rw [List.mem_singleton.1 hr]
      simp only [] at hp hf ⊢
      rw [hf, hkey]
      exact hp
  · intro g g1 net heap heap1 now1 now2 msg hwf hfirst
    rw [NotifyMsg_of_parse] at hfirst
    rw [NotifyMsg_of_parse]
    by_cases hlen : msg.length < 18
    · rw [if_pos hlen] at hfirst
      exact absurd hfirst (by simp)
    · rw [if_neg hlen] at hfirst
      rw [if_neg hlen]
      cases hh : hostBytesToString net (msg.take 18) with
      | none =>
        rw [hh] at hfirst
        exact absurd hfirst (by simp)
      | some host =>
        rw [hh] at hfirst
        simp only [] at hfirst ⊢
        cases hp : parseTuplesLoop net ((msg.drop 18).length + 1) (msg.drop 18) with
        | none =>
          rw [hp] at hfirst
          exact absurd hfirst (by simp)
        | some res =>
          obtain ⟨vals, err⟩ := res
          rw [hp] at hfirst
          cases err with
          | some e =>
            simp only [Option.some.injEq, Prod.mk.injEq] at hfirst
            obtain ⟨h1, h2⟩ := hfirst
            subst h2
            have hwf1 : g.tuples.WF heap1 := by
              rw [← h1]
              exact WF_append hwf vals
            exact ⟨⟨heap1.objs ++ vals⟩, rfl, fun r hr => deref_append_old heap1 vals r hr,
              fun k => get_append g.tuples heap1 hwf1 vals k⟩
          | none =>
            simp only [Option.some.injEq, Prod.mk.injEq] at hfirst
            obtain ⟨h1, h2⟩ := hfirst
            have hvA : ∀ r ∈ List.range' heap.objs.length vals.length,
                (⟨heap.objs ++ vals⟩ : Heap).valid r := by
              intro r hr
              have := (List.mem_range'_1.1 hr).2
              simpa [Heap.valid] using this
            have hwfA : g.tuples.WF ⟨heap.objs ++ vals⟩ := WF_append hwf vals
            have hwf1 : g1.tuples.WF heap1 := by
              rw [← h1, ← h2]
              exact insertFold_WF now1 _ (⟨heap.objs ++ vals⟩, g.tuples, 0) hwfA hvA
            have hpres : ∀ r ∈ List.range' heap.objs.length vals.length,
                g1.tuples.m.lookup ((⟨heap.objs ++ vals⟩ : Heap).deref r).Key ≠ none := by
              intro r hr
              rw [← h2]
              exact insertFold_keys_present now1 _ (⟨heap.objs ++ vals⟩, g.tuples, 0) hvA r hr
            have hno := Insert_appended_noop g1.tuples ⟨heap.objs ++ vals⟩ heap1 heap.objs vals
              now2 rfl hpres
            refine ⟨⟨heap1.objs ++ vals⟩, ?_, fun r hr => deref_append_old heap1 vals r hr,
              fun k => get_append g1.tuples heap1 hwf1 vals k⟩
            simp only []
            rw [hno]

theorem Insert_idempotent_witness :
    (NewInmemTuples.Insert testHeap testNow [0]).2.2 = 1 ∧
    (NewInmemTuples.Insert testHeap testNow [0]).2.1.Insert
        (NewInmemTuples.Insert testHeap testNow [0]).1 (testNow + 5) [0] =
      ((NewInmemTuples.Insert testHeap testNow [0]).1,
        (NewInmemTuples.Insert testHeap testNow [0]).2.1, 0) ∧
    testFrame.length = 82 ∧
    (testDelegate.NotifyMsg testNet ⟨[]⟩ testNow testFrame).map
        (fun r => (r.1, r.2.tuples.m.keys)) =
      some (⟨[⟨bytesOf "foo", "127.0.0.1:8902", 0, testNow⟩,
          ⟨bytesOf "parent/child/grandchild", "127.0.0.1:65432", 0, testNow⟩]⟩,
        [bytesOf "parent/child/grandchild", bytesOf "foo"]) ∧
    ∃ heap1 g1 heap2,
      testDelegate.NotifyMsg testNet ⟨[]⟩ testNow testFrame = some (heap1, g1) ∧
      g1.NotifyMsg testNet heap1 (testNow + 5) testFrame = some (heap2, g1) ∧
      (∀ r, heap1.valid r → heap2.deref r = heap1.deref r) ∧
      (∀ k, g1.tuples.get heap2 k = g1.tuples.get heap1 k) := by
  have hA := Insert_idempotent.1 NewInmemTuples testHeap testNow (testNow + 5) 0 0
    (by decide) (by decide) rfl
  obtain ⟨r, hr⟩ : ∃ r, testDelegate.NotifyMsg testNet ⟨[]⟩ testNow testFrame = some r :=
    Option.isSome_iff_exists.1 (by decide)
  obtain ⟨heap2, h2⟩ := Insert_idempotent.2 testDelegate r.2 testNet ⟨[]⟩ r.1 testNow
    (testNow + 5) testFrame (WF_empty _) hr
  exact ⟨hA.1 (by decide), hA.2, by decide, by decide, r.1, r.2, heap2, hr, h2⟩

/-! ## Heartbeats of an inserted tuple -/

/-- C12, as stated, fails: `Insert` writes `lastseen` only. A tuple object that
carries a heartbeat count keeps it: after `Ping("foo")`, `Lookup("foo")`,
`Delete("foo")` and `Insert` of the tuple `Lookup` returned, the key was absent
(one tuple is counted as new) and the tuple stored has heartbeats 1. The same
holds for an object that carries 7 on entry. -/
theorem Insert_keeps_heartbeats_counterexample :
    (testInserted.2.1.Ping testInserted.1 (testNow + 1) [bytesOf "foo"]).2 = 1 ∧
    ((testInserted.2.1.Delete [bytesOf "foo"]).1).m.lookup (bytesOf "foo") = none ∧
    testReinserted.2.2 = 1 ∧
    testReinserted.2.1.Lookup testReinserted.1 (bytesOf "foo") = some 0 ∧
    testReinserted.2.1.get testReinserted.1 (bytesOf "foo") =
      some ⟨bytesOf "foo", "127.0.0.1:8902", 1, testNow + 2⟩ ∧
    (NewInmemTuples.Insert ⟨[⟨bytesOf "foo", "127.0.0.1:8902", 7, 3⟩]⟩ testNow [0]).2.1.get
        (NewInmemTuples.Insert ⟨[⟨bytesOf "foo", "127.0.0.1:8902", 7, 3⟩]⟩ testNow [0]).1
        (bytesOf "foo") =
      some ⟨bytesOf "foo", "127.0.0.1:8902", 7, testNow⟩ := by
  decide

/-- C12, amended. For every key absent from the store and carried by a tuple
passed to `Insert`, a `Lookup` right after the insert returns a tuple (not
nil): the first one passed with that key. Its `lastseen` is the time of the
insert, whatever it carried; its heartbeats are the ones the object carried on
entry, so they are 0 when the object carried 0, as a tuple built with Key and
Host only (in `affinityGroup.Insert` and `readTuples`) does. -/
theorem Insert_stamps_lastseen_keeps_heartbeats (tuples : InmemTuples) (heap : Heap)
    (now : Int) (tpls : List Ref) (k : Bytes) (tpl : Ref)
    (hv : ∀ r ∈ tpls, heap.valid r) (habs : tuples.m.lookup k = none)
    (hmem : tpl ∈ tpls) (hkey : (heap.deref tpl).Key = k) :
    ∃ r ∈ tpls, (heap.deref r).Key = k ∧
      (tuples.Insert heap now tpls).2.1.Lookup (tuples.Insert heap now tpls).1 k = some r ∧
      ((tuples.Insert heap now tpls).1.deref r).lastseen = now ∧
      ((tuples.Insert heap now tpls).1.deref r).heartbeats = (heap.deref r).heartbeats ∧
      ((heap.deref r).heartbeats = 0 →
        ((tuples.Insert heap now tpls).1.deref r).heartbeats = 0) := by
  obtain ⟨-, -, f3, -⟩ := insertFold_spec now tpls (heap, tuples, 0) hv
  obtain ⟨h1, h2⟩ := f3 k habs
  cases hf : tpls.find? (fun r => decide ((heap.deref r).Key = k)) with
  | none =>
    have := List.find?_eq_none.1 hf tpl hmem
    simp [hkey] at this
  | some r =>
    have hd := h2 r hf
    have hk : (heap.deref r).Key = k := by simpa using List.find?_some hf
    refine ⟨r, List.mem_of_find?_eq_some hf, hk, ?_, ?_, ?_, ?_⟩
    · rw [Lookup_eq_lookup]
      unfold InmemTuples.Insert
      rw [h1]
      exact hf
    · unfold InmemTuples.Insert
      rw [hd]
    · unfold InmemTuples.Insert
      rw [hd]
    · intro h0
      unfold InmemTuples.Insert
      rw [hd]
      exact h0

theorem Insert_stamps_lastseen_keeps_heartbeats_witness :
    (∀ r ∈ [0, 1, 2], testHeap.valid r) ∧
    NewInmemTuples.m.lookup (bytesOf "foo") = none ∧
    ∃ r ∈ [0, 1, 2], (testHeap.deref r).Key = bytesOf "foo" ∧
      testInserted.2.1.Lookup testInserted.1 (bytesOf "foo") = some r ∧
      (testInserted.1.deref r).lastseen = testNow ∧
      (testInserted.1.deref r).heartbeats = (testHeap.deref r).heartbeats ∧
      ((testHeap.deref r).heartbeats = 0 → (testInserted.1.deref r).heartbeats = 0) :=
  ⟨by decide, by decide,
    Insert_stamps_lastseen_keeps_heartbeats NewInmemTuples testHeap testNow [0, 1, 2]
      (bytesOf "foo") 0 (by decide) (by decide) (by decide) (by decide)⟩

/-! ## New -/

theorem Validate_fields (sha256 : HashFunc) (conf : Config) :
    (conf.Validate sha256).K = conf.K ∧
    (conf.Validate sha256).Transport = conf.Transport ∧
    (conf.Validate sha256).Contacts = conf.Contacts ∧
    (conf.Validate sha256).HashFunc = some (conf.HashFunc.getD sha256) ∧
    (conf.Validate sha256).Tuples = some (conf.Tuples.getD NewInmemTuples) := by
  obtain ⟨K, H, ttl, emin, emax, tr, tu, co⟩ := conf
  unfold Config.Validate
  cases H <;> cases tu <;> simp only [] <;> split_ifs <;> simp_all

/-- The group index of a key, for a positive number of groups that fits
`int64`: defined and within `[0, k)`. -/
theorem lookupGroup_range (key : Bytes) (k : Int) (H : HashFunc)
    (hk : 0 < k) (hk64 : k ≤ maxInt64) :
    ∃ i, lookupGroup key k H.new = some i ∧ 0 ≤ i ∧ i < k := by
  have h0 : 0 ≤ (bigEndianValue (H key) : Int) % k := Int.emod_nonneg _ (by omega)
  have h1 : (bigEndianValue (H key) : Int) % k < k := Int.emod_lt_of_pos _ hk
  refine ⟨(bigEndianValue (H key) : Int) % k, ?_, h0, h1⟩
  have hne : k ≠ 0 := by omega
  have hw : wrapInt64 ((bigEndianValue (H key) : Int) % k) =
      (bigEndianValue (H key) : Int) % k := by
    apply wrapInt64_of_isInt64
    unfold isInt64 minInt64
    unfold maxInt64 at hk64 ⊢
    constructor <;> omega
  unfold lookupGroup
  simp only [Hash.Write, Hash.Sum, HashFunc.new, List.nil_append, if_neg hne,
    SetBytes_eq_bigEndianValue]
  rw [hw]

/-- New without a transport panics. -/
theorem New_nil_transport (sha256 : HashFunc) (host : String) (conf : Config)
    (h : conf.Transport = none) : New sha256 host conf = none := by
  have hv := (Validate_fields sha256 conf).2.1
  rw [h] at hv
  unfold New
  simp only [hv, (Validate_fields sha256 conf).2.2.2.1, (Validate_fields sha256 conf).2.2.2.2,
    bind, Option.bind]

/-- The loop variable of `New` runs over `0 .. K-1` as `int64`. -/
theorem range_cast (n : Nat) :
    (do let a ← List.range n; pure (a : Int) : List Int) =
      List.map (fun a : Nat => (a : Int)) (List.range n) := by
  induction List.range n with
  | nil => rfl
  | cons a l ih =>
    simp [List.pure_def] at ih ⊢
    exact ih

theorem newGroups_eq (host : String) (conf : Config) (id : Int) (trans : Transport)
    (fac : ContactStorageFactory) (tuples : InmemTuples) :
    newGroups host conf id trans fac tuples =
      (List.range conf.K.toNat).map (fun i : Nat =>
        if id = (i : Int) then
          AffinityGroup.home (newAffinityGroup ⟨(i : Int), host⟩ trans fac tuples conf)
        else AffinityGroup.remote (newRemoteAffinityGroup ⟨(i : Int), host⟩ trans fac)) := by
  unfold newGroups
  rw [range_cast, List.map_map]
  rfl

/-- The node `New` returns, written out. -/
theorem New_eq (sha256 : HashFunc) (host : String) (conf : Config) (trans : Transport)
    (id : Int) (htr : conf.Transport = some trans) (hK : 0 < conf.K)
    (hid : lookupGroup (bytesOf host) conf.K (conf.HashFunc.getD sha256).new = some id)
    (h0 : 0 ≤ id) (h1 : id < conf.K) :
    ∃ home, (newGroups host (conf.Validate sha256) id trans
        (conf.Contacts.getD (.inmemContactsFac host))
        (conf.Tuples.getD NewInmemTuples))[id.toNat]? = some home ∧
      New sha256 host conf = some
        { id := id, k := conf.K, hasher := conf.HashFunc.getD sha256,
          groups := (newGroups host (conf.Validate sha256) id trans
            (conf.Contacts.getD (.inmemContactsFac host))
            (conf.Tuples.getD NewInmemTuples)).set id.toNat (home.AddPeer ⟨host, 0, 0⟩).1,
          trans := trans } := by
  obtain ⟨v1, v2, v3, v4, v5⟩ := Validate_fields sha256 conf
  have hlen : id.toNat < (newGroups host (conf.Validate sha256) id trans
        (conf.Contacts.getD (.inmemContactsFac host))
        (conf.Tuples.getD NewInmemTuples)).length := by
    have h1v : id < (conf.Validate sha256).K := by rw [v1]; exact h1
    rw [newGroups_eq, List.length_map, List.length_range]
    exact (Int.toNat_lt_toNat (lt_of_le_of_lt h0 h1v)).2 h1v
  have hget := List.getElem?_eq_getElem hlen
  refine ⟨_, hget, ?_⟩
  have hneg : ¬ (conf.Validate sha256).K < 0 := by rw [v1]; omega
  have hnn : ¬ id < 0 := by omega
  have hid2 : lookupGroup (bytesOf host) (conf.Validate sha256).K
      (conf.HashFunc.getD sha256).new = some id := by rw [v1]; exact hid
  unfold New
  simp only [v2, v3, v4, v5, htr, Option.bind_eq_bind, Option.some_bind, if_neg hneg, hid2,
    Option.pure_def]
  change (Kelips.group ⟨id, (conf.Validate sha256).K, conf.HashFunc.getD sha256,
      newGroups host (conf.Validate sha256) id trans
        (conf.Contacts.getD (.inmemContactsFac host))
        (conf.Tuples.getD NewInmemTuples), trans⟩ id).bind _ = _
  simp only [Kelips.group, if_neg hnn, hget, Option.some_bind, Kelips.setGroup,
    Option.some.injEq, Kelips.mk.injEq, true_and, and_true]
  exact ⟨v1, rfl⟩

/-- In a list where exactly the element at index `j` satisfies `p`, one
element satisfies `p` and all the others do not. -/
theorem filter_single {α : Type} (l : List α) (p : α → Bool) (j : Nat) (hj : j < l.length)
    (h : ∀ i (hi : i < l.length), p (l.get ⟨i, hi⟩) = decide (i = j)) :
    (l.filter p).length = 1 ∧ (l.filter (fun a => !p a)).length = l.length - 1 := by
  have hm : l.map p = (List.range l.length).map (fun i => decide (i = j)) := by
    apply List.ext_getElem
    · simp
    · intro i h1 h2
      simp only [List.length_map] at h1
      have := h i h1
      simp only [List.get_eq_getElem] at this
      simp [this]
  have h1 : (l.filter p).length = 1 := by
    have hc : l.countP p = (l.map p).countP id := by
      rw [List.countP_map]; rfl
    rw [← List.countP_eq_length_filter, hc, hm, List.countP_map]
    have : (List.range l.length).countP (id ∘ fun i => decide (i = j)) =
        (List.range l.length).count j := by
      rw [List.count]
      apply List.countP_congr
      intro i _
      simp
    rw [this]
    exact List.count_eq_one_of_mem (List.nodup_range _) (List.mem_range.2 hj)
  refine ⟨h1, ?_⟩
  have := List.length_eq_countP_add_countP p l
  rw [List.countP_eq_length_filter, List.countP_eq_length_filter, h1] at this
  have he : (l.filter (fun a => !p a)) = l.filter (fun a => decide ¬ p a = true) := by
    congr 1
    funext a
    cases p a <;> rfl
  rw [he]
  omega

theorem AddPeer_shape (g : AffinityGroup) (p : PeerContact) :
    (g.AddPeer p).1.Contact = g.Contact ∧ (g.AddPeer p).1.IsLocal = g.IsLocal ∧
    (g.AddPeer p).1.contacts = (g.contacts.Add p).1 ∧ (g.AddPeer p).2 = (g.contacts.Add p).2 := by
  cases g <;> exact ⟨rfl, rfl, rfl, rfl⟩

theorem RemovePeer_shape (g : AffinityGroup) (p : PeerContact) :
    (g.RemovePeer p).1.Contact = g.Contact ∧ (g.RemovePeer p).1.IsLocal = g.IsLocal ∧
    (g.RemovePeer p).1.contacts = (g.contacts.Remove p).1 ∧
    (g.RemovePeer p).2 = (g.contacts.Remove p).2 := by
  cases g <;> exact ⟨rfl, rfl, rfl, rfl⟩

/-- The group the loop of `New` builds at index `i`. -/
theorem newGroups_get (host : String) (conf : Config) (id : Int) (trans : Transport)
    (fac : ContactStorageFactory) (tuples : InmemTuples) (i : Nat) (hi : i < conf.K.toNat) :
    ∃ g, (newGroups host conf id trans fac tuples)[i]? = some g ∧
      g.Contact = ⟨(i : Int), host⟩ ∧ g.IsLocal = decide ((i : Int) = id) ∧
      g.contacts = fac.New (i : Int) g.IsLocal := by
  rw [newGroups_eq, List.getElem?_map, List.getElem?_range hi]
  simp only [Option.map_some']
  by_cases h : id = (i : Int)
  · rw [if_pos h]
    exact ⟨_, rfl, rfl, by simp [AffinityGroup.IsLocal, affinityGroup.IsLocal, h], rfl⟩
  · rw [if_neg h]
    refine ⟨_, rfl, rfl, ?_, rfl⟩
    simp only [AffinityGroup.IsLocal, remoteAffinityGroup.IsLocal]
    exact (decide_eq_false (fun h2 => h h2.symm)).symm

/-- A directory a factory has just created holds no address and satisfies the
directory invariant. -/
theorem factory_New_empty (fac : ContactStorageFactory) (id : Int) (b : Bool) :
    (fac.New id b).addresses = [] ∧ (fac.New id b).Sound := by
  cases fac with
  | inmemContactsFac host =>
    refine ⟨rfl, ?_⟩
    intro e he
    cases he
  | Gossip inter home => exact ⟨rfl, List.nodup_nil⟩

/-- After adding to a directory that does not hold the address, it does. -/
theorem mem_addresses_after_Add (cs : ContactStorage) (p : PeerContact) :
    p.Address ∈ (cs.Add p).1.addresses := by
  cases cs with
  | inmem c =>
    simp only [ContactStorage.Add, ContactStorage.addresses]
    by_cases hp : p.Address ∈ c.peers
    · rw [inmem_Add_present c p hp]; exact AList.mem_keys.1 hp
    · rw [inmem_Add_absent c p hp, keys_insert_absent _ _ _ hp]
      exact List.mem_cons_self _ _
  | gossip g =>
    simp only [ContactStorage.Add, ContactStorage.addresses]
    by_cases hp : p.Address ∈ g.contacts
    · rw [gossip_Add_present g p hp]; exact hp
    · rw [gossip_Add_absent g p hp]
      exact List.mem_append_right _ (List.mem_singleton.2 rfl)

/-- C17, as stated, fails for a config that has no transport: `DefaultConfig()`
with `K = 3` is a config with `K > 0`, and `New` panics on it, in
`newAffinityGroup`, which calls `Register` on the nil transport. -/
theorem New_nil_transport_counterexample :
    (0 : Int) < ({ DefaultConfig sumHash with K := 3 } : Config).K ∧
    ({ DefaultConfig sumHash with K := 3 } : Config).Transport = none ∧
    ((New sumHash "127.0.0.1:9999" { DefaultConfig sumHash with K := 3 }).map
      (fun klp => klp.groups.length)) = none ∧
    (New sumHash "127.0.0.1:9999" { DefaultConfig sumHash with K := 3 }).isSome = false := by
  have h := New_nil_transport sumHash "127.0.0.1:9999" { DefaultConfig sumHash with K := 3 } rfl
  refine ⟨by decide, rfl, ?_, ?_⟩
  · rw [h]; rfl
  · rw [h]; rfl

/-- C17, amended. For every host and every config with `K > 0` (an `int64`) and
a transport, `New(host, conf)` returns a node with `k = K`, `id =
lookupGroup(host, K)` under the config's hash function (SHA-256 when it has
none), and exactly `K` groups; the group at index `i` has contact `(i, host)`
and reports `IsLocal()` exactly when `i = id`, so one group is local and the
other `K - 1` are remote; the home group's directory contains `host`. -/
theorem New_builds_groups_one_home (sha256 : HashFunc) (host : String) (conf : Config)
    (trans : Transport) (hK : 0 < conf.K) (hK64 : conf.K ≤ maxInt64)
    (htr : conf.Transport = some trans) :
    ∃ klp, New sha256 host conf = some klp ∧
      lookupGroup (bytesOf host) conf.K (conf.HashFunc.getD sha256).new = some klp.id ∧
      0 ≤ klp.id ∧ klp.id < conf.K ∧ klp.k = conf.K ∧
      klp.groups.length = conf.K.toNat ∧
      (∀ i : Nat, i < conf.K.toNat → ∃ g, klp.groups[i]? = some g ∧
        g.Contact = ⟨(i : Int), host⟩ ∧ (g.IsLocal = true ↔ (i : Int) = klp.id)) ∧
      (klp.groups.filter AffinityGroup.IsLocal).length = 1 ∧
      (klp.groups.filter (fun g => !g.IsLocal)).length = conf.K.toNat - 1 ∧
      ∃ home, klp.group klp.id = some home ∧ home.IsLocal = true ∧
        host ∈ home.contacts.addresses := by
  obtain ⟨id, hid, h0, h1⟩ := lookupGroup_range (bytesOf host) conf.K
    (conf.HashFunc.getD sha256) hK hK64
  obtain ⟨home, hhome, hnew⟩ := New_eq sha256 host conf trans id htr hK hid h0 h1
  have v1 := (Validate_fields sha256 conf).1
  have hidn : id.toNat < conf.K.toNat := (Int.toNat_lt_toNat hK).2 h1
  have hcast : ((id.toNat : Nat) : Int) = id := Int.toNat_of_nonneg h0
  have hlen0 : (newGroups host (conf.Validate sha256) id trans
      (conf.Contacts.getD (.inmemContactsFac host))
      (conf.Tuples.getD NewInmemTuples)).length = conf.K.toNat := by
    rw [newGroups_eq, List.length_map, List.length_range, v1]
  obtain ⟨g0, hg0, hc0, hl0, -⟩ := newGroups_get host (conf.Validate sha256) id trans
    (conf.Contacts.getD (.inmemContactsFac host)) (conf.Tuples.getD NewInmemTuples)
    id.toNat (by rw [v1]; exact hidn)
  rw [hhome] at hg0
  cases hg0
  have hhl : home.IsLocal = true := by rw [hl0, hcast]; simp
  have hidx : ∀ i : Nat, i < conf.K.toNat →
      ∃ g, ((newGroups host (conf.Validate sha256) id trans
          (conf.Contacts.getD (.inmemContactsFac host))
          (conf.Tuples.getD NewInmemTuples)).set id.toNat
            (home.AddPeer ⟨host, 0, 0⟩).1)[i]? = some g ∧
        g.Contact = ⟨(i : Int), host⟩ ∧ g.IsLocal = decide ((i : Int) = id) := by
    intro i hi
    by_cases hij : id.toNat = i
    · subst hij
      refine ⟨(home.AddPeer ⟨host, 0, 0⟩).1, ?_, ?_, ?_⟩
      · rw [List.getElem?_set_self (by rw [hlen0]; exact hi)]
      · rw [(AddPeer_shape home _).1, hc0]
      · rw [(AddPeer_shape home _).2.1, hl0]
    · obtain ⟨g, hg, hc, hl, -⟩ := newGroups_get host (conf.Validate sha256) id trans
        (conf.Contacts.getD (.inmemContactsFac host)) (conf.Tuples.getD NewInmemTuples)
        i (by rw [v1]; exact hi)
      exact ⟨g, by rw [List.getElem?_set_ne hij]; exact hg, hc, hl⟩
  have hlen : ((newGroups host (conf.Validate sha256) id trans
      (conf.Contacts.getD (.inmemContactsFac host))
      (conf.Tuples.getD NewInmemTuples)).set id.toNat
        (home.AddPeer ⟨host, 0, 0⟩).1).length = conf.K.toNat := by
    rw [List.length_set, hlen0]
  have hfil := filter_single _ AffinityGroup.IsLocal id.toNat (by rw [hlen]; exact hidn)
    (by
      intro i hi
      obtain ⟨g, hg, -, hl⟩ := hidx i (by rw [← hlen]; exact hi)
      rw [List.getElem?_eq_getElem hi] at hg
      cases hg
      rw [List.get_eq_getElem, hl]
      by_cases hij : i = id.toNat
      · subst hij; simp [hcast]
      · have : ¬ (i : Int) = id := fun h => hij (by rw [← h]; rfl)
        simp [hij, this])
  refine ⟨_, hnew, hid, h0, h1, rfl, hlen, ?_, hfil.1, ?_, ?_⟩
  · intro i hi
    obtain ⟨g, hg, hc, hl⟩ := hidx i hi
    exact ⟨g, hg, hc, by rw [hl]; simp⟩
  · rw [← hlen]; exact hfil.2
  · refine ⟨(home.AddPeer ⟨host, 0, 0⟩).1, ?_, ?_, ?_⟩
    · simp only [Kelips.group, if_neg (not_lt.2 h0)]
      rw [List.getElem?_set_self (by rw [hlen0]; exact hidn)]
    · rw [(AddPeer_shape home _).2.1]; exact hhl
    · rw [(AddPeer_shape home _).2.2.1]
      exact mem_addresses_after_Add home.contacts ⟨host, 0, 0⟩

/-- C17 at `K = 3`, host `127.0.0.1:9000` and the byte-sum digest: the home
group is group 1. -/
theorem New_builds_groups_one_home_witness :
    (0 : Int) < (testConf 3).K ∧ (testConf 3).K ≤ maxInt64 ∧
    (testConf 3).Transport = some testTransport ∧
    (New sumHash "127.0.0.1:9000" (testConf 3)).map (fun klp =>
        (klp.id, klp.groups.map AffinityGroup.IsLocal, klp.groups.map AffinityGroup.Contact,
          klp.groups.map (fun g => g.contacts.addresses))) =
      some (1, [false, true, false],
        [⟨0, "127.0.0.1:9000"⟩, ⟨1, "127.0.0.1:9000"⟩, ⟨2, "127.0.0.1:9000"⟩],
        [[], ["127.0.0.1:9000"], []]) ∧
    ∃ klp, New sumHash "127.0.0.1:9000" (testConf 3) = some klp ∧
      lookupGroup (bytesOf "127.0.0.1:9000") (testConf 3).K
        ((testConf 3).HashFunc.getD sumHash).new = some klp.id ∧
      0 ≤ klp.id ∧ klp.id < (testConf 3).K ∧ klp.k = (testConf 3).K ∧
      klp.groups.length = (testConf 3).K.toNat ∧
      (∀ i : Nat, i < (testConf 3).K.toNat → ∃ g, klp.groups[i]? = some g ∧
        g.Contact = ⟨(i : Int), "127.0.0.1:9000"⟩ ∧ (g.IsLocal = true ↔ (i : Int) = klp.id)) ∧
      (klp.groups.filter AffinityGroup.IsLocal).length = 1 ∧
      (klp.groups.filter (fun g => !g.IsLocal)).length = (testConf 3).K.toNat - 1 ∧
      ∃ home, klp.group klp.id = some home ∧ home.IsLocal = true ∧
        "127.0.0.1:9000" ∈ home.contacts.addresses :=
  ⟨by decide, by decide, rfl, by decide,
    New_builds_groups_one_home sumHash "127.0.0.1:9000" (testConf 3) testTransport
      (by decide) (by decide) rfl⟩

/-! ## AddPeer and RemovePeer of the node -/

theorem withContacts_shape (g : AffinityGroup) (cs : ContactStorage) :
    (g.withContacts cs).contacts = cs ∧ (g.withContacts cs).Contact = g.Contact ∧
    (g.withContacts cs).IsLocal = g.IsLocal := by
  cases g <;> exact ⟨rfl, rfl, rfl⟩

theorem AddPeer_eq_withContacts (g : AffinityGroup) (p : PeerContact) :
    g.AddPeer p = (g.withContacts (g.contacts.Add p).1, (g.contacts.Add p).2) := by
  cases g <;> rfl

theorem RemovePeer_eq_withContacts (g : AffinityGroup) (p : PeerContact) :
    g.RemovePeer p = (g.withContacts (g.contacts.Remove p).1, (g.contacts.Remove p).2) := by
  cases g <;> rfl

theorem group_setGroup_ne (klp : Kelips) (idx j : Int) (g : AffinityGroup)
    (h0 : 0 ≤ idx) (hne : j ≠ idx) : (klp.setGroup idx g).group j = klp.group j := by
  unfold Kelips.group
  by_cases hneg : j < 0
  · rw [if_pos hneg, if_pos hneg]
  · rw [if_neg hneg, if_neg hneg]
    have hn : idx.toNat ≠ j.toNat := by
      intro h
      apply hne
      have h1 := Int.toNat_of_nonneg h0
      have h2 := Int.toNat_of_nonneg (not_lt.1 hneg)
      rw [← h1, ← h2, h]
    simp only [Kelips.setGroup]
    rw [List.getElem?_set_ne hn]

/-- On a node of the right shape every index `lookupGroup` returns addresses a
group. -/
theorem Shaped_group (klp : Kelips) (hs : klp.Shaped) (key : Bytes) :
    ∃ idx g, lookupGroup key klp.k klp.hasher.new = some idx ∧ 0 ≤ idx ∧ idx < klp.k ∧
      klp.group idx = some g := by
  obtain ⟨h1, h2, h3⟩ := hs
  obtain ⟨idx, hidx, h0, hlt⟩ := lookupGroup_range key klp.k klp.hasher h1 h2
  have hn : idx.toNat < klp.groups.length := by
    rw [h3]
    exact (Int.toNat_lt_toNat h1).2 hlt
  refine ⟨idx, klp.groups[idx.toNat], hidx, h0, hlt, ?_⟩
  unfold Kelips.group
  rw [if_neg (not_lt.2 h0), List.getElem?_eq_getElem hn]

theorem Kelips_AddPeer_eq (klp : Kelips) (p : PeerContact) (idx : Int) (g : AffinityGroup)
    (hidx : lookupGroup (bytesOf p.Address) klp.k klp.hasher.new = some idx)
    (hg : klp.group idx = some g) :
    klp.AddPeer p =
      some (klp.setGroup idx (g.withContacts (g.contacts.Add p).1), idx,
        (g.contacts.Add p).2) := by
  unfold Kelips.AddPeer
  simp only [hidx, hg, Option.bind_eq_bind, Option.some_bind, AddPeer_eq_withContacts]

theorem Kelips_RemovePeer_eq (klp : Kelips) (p : PeerContact) (idx : Int) (g : AffinityGroup)
    (hidx : lookupGroup (bytesOf p.Address) klp.k klp.hasher.new = some idx)
    (hg : klp.group idx = some g) :
    klp.RemovePeer p =
      some (klp.setGroup idx (g.withContacts (g.contacts.Remove p).1), idx,
        (g.contacts.Remove p).2) := by
  unfold Kelips.RemovePeer
  simp only [hidx, hg, Option.bind_eq_bind, Option.some_bind, RemovePeer_eq_withContacts]

theorem Shaped_setGroup (klp : Kelips) (idx : Int) (g : AffinityGroup) (hs : klp.Shaped) :
    (klp.setGroup idx g).Shaped := by
  obtain ⟨h1, h2, h3⟩ := hs
  refine ⟨h1, h2, ?_⟩
  simp only [Kelips.setGroup, List.length_set]
  exact h3

/-- Replacing the directory of `groups[idx]` by one whose addresses all belong
to group `idx` keeps the placement. -/
theorem Placed_setGroup (klp : Kelips) (idx : Int) (g : AffinityGroup) (cs : ContactStorage)
    (hp : klp.Placed) (h0 : 0 ≤ idx) (hg : klp.group idx = some g)
    (hcs : ∀ a ∈ cs.addresses, lookupGroup (bytesOf a) klp.k klp.hasher.new = some idx) :
    (klp.setGroup idx (g.withContacts cs)).Placed := by
  intro i gi a hgi ha
  by_cases hi : i = idx
  · subst hi
    rw [group_setGroup klp i g _ hg] at hgi
    cases hgi
    rw [(withContacts_shape g cs).1] at ha
    exact hcs a ha
  · rw [group_setGroup_ne klp idx i _ h0 hi] at hgi
    exact hp i gi a hgi ha

/-- One call of `AddPeer` or `RemovePeer` on a node of the right shape whose
contacts are placed: it returns, and the node it leaves has the same shape and
its contacts placed. -/
theorem applyPeerOp_inv (klp : Kelips) (op : PeerOp) (hs : klp.Shaped) (hp : klp.Placed) :
    ∃ r, klp.applyPeerOp op = some r ∧ r.1.Shaped ∧ r.1.Placed ∧ r.1.k = klp.k ∧
      r.1.hasher = klp.hasher ∧ r.1.id = klp.id := by
  cases op with
  | AddPeer p =>
    obtain ⟨idx, g, hidx, h0, -, hg⟩ := Shaped_group klp hs (bytesOf p.Address)
    refine ⟨_, Kelips_AddPeer_eq klp p idx g hidx hg, Shaped_setGroup klp idx _ hs, ?_,
      rfl, rfl, rfl⟩
    apply Placed_setGroup klp idx g _ hp h0 hg
    intro a ha
    rcases mem_addresses_Add g.contacts p a ha with rfl | h
    · exact hidx
    · exact hp idx g a hg h
  | RemovePeer p =>
    obtain ⟨idx, g, hidx, h0, -, hg⟩ := Shaped_group klp hs (bytesOf p.Address)
    refine ⟨_, Kelips_RemovePeer_eq klp p idx g hidx hg, Shaped_setGroup klp idx _ hs, ?_,
      rfl, rfl, rfl⟩
    apply Placed_setGroup klp idx g _ hp h0 hg
    intro a ha
    exact hp idx g a hg (mem_addresses_Remove g.contacts p a ha)

theorem applyPeerOps_inv (ops : List PeerOp) (klp : Kelips) (hs : klp.Shaped)
    (hp : klp.Placed) :
    ∃ klp1, applyPeerOps klp ops = some klp1 ∧ klp1.Shaped ∧ klp1.Placed ∧ klp1.k = klp.k ∧
      klp1.hasher = klp.hasher ∧ klp1.id = klp.id := by
  induction ops generalizing klp with
  | nil => exact ⟨klp, rfl, hs, hp, rfl, rfl, rfl⟩
  | cons op ops ih =>
    obtain ⟨r, hr, hs1, hp1, hk1, hh1, hi1⟩ := applyPeerOp_inv klp op hs hp
    obtain ⟨klp2, h2, hs2, hp2, hk2, hh2, hi2⟩ := ih r.1 hs1 hp1
    refine ⟨klp2, ?_, hs2, hp2, hk2.trans hk1, hh2.trans hh1, hi2.trans hi1⟩
    simp only [applyPeerOps, hr]
    exact h2

/-- The node `New` returns has the right shape and its one contact, the local
host in the home group, is placed. -/
theorem New_Shaped_Placed (sha256 : HashFunc) (host : String) (conf : Config)
    (trans : Transport) (hK : 0 < conf.K) (hK64 : conf.K ≤ maxInt64)
    (htr : conf.Transport = some trans) :
    ∃ klp, New sha256 host conf = some klp ∧ klp.Shaped ∧ klp.Placed ∧ klp.k = conf.K ∧
      klp.hasher = conf.HashFunc.getD sha256 := by
  obtain ⟨id, hid, h0, h1⟩ := lookupGroup_range (bytesOf host) conf.K
    (conf.HashFunc.getD sha256) hK hK64
  obtain ⟨home, hhome, hnew⟩ := New_eq sha256 host conf trans id htr hK hid h0 h1
  have v1 := (Validate_fields sha256 conf).1
  have hlen0 : (newGroups host (conf.Validate sha256) id trans
      (conf.Contacts.getD (.inmemContactsFac host))
      (conf.Tuples.getD NewInmemTuples)).length = conf.K.toNat := by
    rw [newGroups_eq, List.length_map, List.length_range, v1]
  refine ⟨_, hnew, ⟨hK, hK64, ?_⟩, ?_, rfl, rfl⟩
  · simp only [List.length_set]
    exact hlen0
  · intro i g a hgi ha
    simp only [Kelips.group] at hgi
    by_cases hneg : i < 0
    · rw [if_pos hneg] at hgi
      cases hgi
    · rw [if_neg hneg] at hgi
      have hi0 : 0 ≤ i := not_lt.1 hneg
      have hlt : i.toNat < conf.K.toNat := by
        by_contra hge
        rw [List.getElem?_eq_none (by rw [List.length_set, hlen0]; exact Nat.le_of_not_lt hge)]
          at hgi
        cases hgi
      obtain ⟨g0, hg0, -, -, hcs⟩ := newGroups_get host (conf.Validate sha256) id trans
        (conf.Contacts.getD (.inmemContactsFac host)) (conf.Tuples.getD NewInmemTuples)
        i.toNat (by rw [v1]; exact hlt)
      by_cases hij : id.toNat = i.toNat
      · rw [hij] at hgi hhome
        rw [List.getElem?_set_self (by rw [hlen0]; exact hlt)] at hgi
        cases hgi
        rw [hhome] at hg0
        cases hg0
        rw [(AddPeer_shape home _).2.2.1] at ha
        have hi : i = id := by
          rw [← Int.toNat_of_nonneg hi0, ← Int.toNat_of_nonneg h0, hij]
        rcases mem_addresses_Add home.contacts ⟨host, 0, 0⟩ a ha with rfl | h
        · rw [hi]
          exact hid
        · rw [hcs, (factory_New_empty _ _ _).1] at h
          cases h
      · rw [List.getElem?_set_ne hij, hg0] at hgi
        cases hgi
        rw [hcs, (factory_New_empty _ _ _).1] at ha
        cases ha

/-- C18. On the node `New` builds (`K > 0`, an `int64`, and a transport) every
sequence of `AddPeer` and `RemovePeer` calls returns, and on the node it
leaves: a call of either on a peer `p` returns `idx = lookupGroup(p.Address(),
K)` with the error of the directory of `groups[idx]`, replaces that directory by
what its `Add` or `Remove` leaves and changes no other group; every address
held in the directory of `groups[i]` has `lookupGroup(address, K) = i`; and no
address is held in the directories of two different groups. -/
theorem peers_placed_by_lookupGroup (sha256 : HashFunc) (host : String) (conf : Config)
    (trans : Transport) (ops : List PeerOp) (hK : 0 < conf.K) (hK64 : conf.K ≤ maxInt64)
    (htr : conf.Transport = some trans) :
    ∃ klp0 klp, New sha256 host conf = some klp0 ∧ applyPeerOps klp0 ops = some klp ∧
      klp.k = conf.K ∧ klp.hasher = conf.HashFunc.getD sha256 ∧
      (∀ p : PeerContact, ∃ idx g,
        lookupGroup (bytesOf p.Address) conf.K (conf.HashFunc.getD sha256).new = some idx ∧
        klp.group idx = some g ∧
        klp.AddPeer p = some (klp.setGroup idx (g.withContacts (g.contacts.Add p).1), idx,
          (g.contacts.Add p).2) ∧
        klp.RemovePeer p = some (klp.setGroup idx (g.withContacts (g.contacts.Remove p).1),
          idx, (g.contacts.Remove p).2) ∧
        ∀ j gnew, j ≠ idx → (klp.setGroup idx gnew).group j = klp.group j) ∧
      (∀ i g a, klp.group i = some g → a ∈ g.contacts.addresses →
        lookupGroup (bytesOf a) conf.K (conf.HashFunc.getD sha256).new = some i) ∧
      (∀ i j gi gj a, klp.group i = some gi → klp.group j = some gj →
        a ∈ gi.contacts.addresses → a ∈ gj.contacts.addresses → i = j) := by
  obtain ⟨klp0, hnew, hs0, hp0, hk0, hh0⟩ :=
    New_Shaped_Placed sha256 host conf trans hK hK64 htr
  obtain ⟨klp, hops, hs, hp, hk, hh, -⟩ := applyPeerOps_inv ops klp0 hs0 hp0
  have hk1 : klp.k = conf.K := hk.trans hk0
  have hh1 : klp.hasher = conf.HashFunc.getD sha256 := hh.trans hh0
  have hp1 : ∀ i g a, klp.group i = some g → a ∈ g.contacts.addresses →
      lookupGroup (bytesOf a) conf.K (conf.HashFunc.getD sha256).new = some i := by
    intro i g a hg ha
    rw [← hk1, ← hh1]
    exact hp i g a hg ha
  refine ⟨klp0, klp, hnew, hops, hk1, hh1, ?_, hp1, ?_⟩
  · intro p
    obtain ⟨idx, g, hidx, h0, -, hg⟩ := Shaped_group klp hs (bytesOf p.Address)
    refine ⟨idx, g, by rw [← hk1, ← hh1]; exact hidx, hg,
      Kelips_AddPeer_eq klp p idx g hidx hg, Kelips_RemovePeer_eq klp p idx g hidx hg, ?_⟩
    intro j gnew hj
    exact group_setGroup_ne klp idx j gnew h0 hj
  · intro i j gi gj a hgi hgj hai haj
    have h1 := hp1 i gi a hgi hai
    have h2 := hp1 j gj a hgj haj
    rw [h1] at h2
    exact Option.some.inj h2

/-- C18 on the node with two groups at `127.0.0.1:9000`: after the sample
calls group 0 holds `9002` and the local host, group 1 holds `9003` and `9001`;
`AddPeer` of `9005` then returns 1. -/
theorem peers_placed_by_lookupGroup_witness :
    (0 : Int) < (testConf 2).K ∧ (testConf 2).K ≤ maxInt64 ∧
    (testConf 2).Transport = some testTransport ∧
    (testNode2.bind (fun k => applyPeerOps k testPeerOps)).map
        (fun klp => klp.groups.map (fun g => g.contacts.addresses)) =
      some [["127.0.0.1:9002", "127.0.0.1:9000"], ["127.0.0.1:9003", "127.0.0.1:9001"]] ∧
    ((testNode2.bind (fun k => applyPeerOps k testPeerOps)).bind
        (fun klp => klp.AddPeer ⟨"127.0.0.1:9005", 0, 0⟩)).map (fun r => r.2.1) = some 1 ∧
    ∃ klp0 klp, New sumHash "127.0.0.1:9000" (testConf 2) = some klp0 ∧
      applyPeerOps klp0 testPeerOps = some klp ∧
      klp.k = (testConf 2).K ∧ klp.hasher = (testConf 2).HashFunc.getD sumHash ∧
      (∀ p : PeerContact, ∃ idx g,
        lookupGroup (bytesOf p.Address) (testConf 2).K
          ((testConf 2).HashFunc.getD sumHash).new = some idx ∧
        klp.group idx = some g ∧
        klp.AddPeer p = some (klp.setGroup idx (g.withContacts (g.contacts.Add p).1), idx,
          (g.contacts.Add p).2) ∧
        klp.RemovePeer p = some (klp.setGroup idx (g.withContacts (g.contacts.Remove p).1),
          idx, (g.contacts.Remove p).2) ∧
        ∀ j gnew, j ≠ idx → (klp.setGroup idx gnew).group j = klp.group j) ∧
      (∀ i g a, klp.group i = some g → a ∈ g.contacts.addresses →
        lookupGroup (bytesOf a) (testConf 2).K ((testConf 2).HashFunc.getD sumHash).new =
          some i) ∧
      (∀ i j gi gj a, klp.group i = some gi → klp.group j = some gj →
        a ∈ gi.contacts.addresses → a ∈ gj.contacts.addresses → i = j) :=
  ⟨by decide, by decide, rfl, by decide, by decide,
    peers_placed_by_lookupGroup sumHash "127.0.0.1:9000" (testConf 2) testTransport
      testPeerOps (by decide) (by decide) rfl⟩

/-! ## Remote group: Insert and Lookup -/

/-- A directory holding no address has no closest peer. -/
theorem GetClosest_of_empty (cs : ContactStorage) (rt : Runtime) (he : cs.addresses = [])
    (hl : cs.Lawful) : cs.GetClosest rt = (none, false) := by
  cases cs with
  | inmem c =>
    simp only [ContactStorage.addresses] at he
    have hent : c.peers.entries = [] := by
      have : c.peers.entries.map Sigma.fst = [] := he
      exact List.map_eq_nil_iff.1 this
    have hv : rt.order.visit c.peers.entries = [] := by
      rw [hent]
      exact List.length_eq_zero.1 (rt.order.perm []).length_eq
    simp only [ContactStorage.GetClosest, inmemContacts.GetClosest, hv, List.find?_nil]
  | gossip g =>
    simp only [ContactStorage.addresses] at he
    obtain ⟨h1, h2⟩ := hl
    have hlen : (g.peers.sortClosest (g.peers.GetByAddress g.contacts)).length = 0 := by
      rw [(h2 _).length_eq, h1, he]
      rfl
    simp only [ContactStorage.GetClosest, gossipContactStorage.GetClosest,
      List.length_eq_zero.1 hlen]

/-- An in-memory directory that lists a peer other than the local host has a
closest peer, one of those. -/
theorem inmem_GetClosest_of_nonlocal (c : inmemContacts) (order : RangeOrder)
    (h : ∃ e ∈ c.peers.entries, e.2.Address ≠ c.host) :
    ∃ p ∈ c.List order, p.Address ≠ c.host ∧ c.GetClosest order = (some p, true) := by
  obtain ⟨e, he, hne⟩ := h
  unfold inmemContacts.GetClosest inmemContacts.List
  cases hf : (order.visit c.peers.entries).find? (fun e => decide (e.2.Address ≠ c.host)) with
  | none =>
    have := List.find?_eq_none.1 hf e ((order.perm _).mem_iff.2 he)
    simp at this
    exact absurd this hne
  | some e1 =>
    refine ⟨e1.2, List.mem_map.2 ⟨e1, List.mem_of_find?_eq_some hf, rfl⟩, ?_, rfl⟩
    simpa using List.find?_some hf

theorem beat_shape (group : remoteAffinityGroup) :
    group.beat.heartbeats = wrapInt64 (group.heartbeats + 1) ∧
    group.beat.toGroupContact = group.toGroupContact ∧
    group.beat.contacts = group.contacts ∧ group.beat.trans = group.trans :=
  ⟨rfl, rfl, rfl, rfl⟩

/-- C22: `Insert(key)` of a remote group. When `GetClosest` finds no peer, as
it does on an empty directory, it fails with `errNoContacts`, calls nothing and
leaves the group as it is. When `GetClosest` returns a peer it makes one
transport call, `Insert(GroupContact{ID: group.ID, Host: peer.Address()}, key)`,
returns the transport's host and error unchanged, and the heartbeat counter goes
up by one (an `int64` increment) exactly when the error is nil, nothing else of
the group changing; an in-memory directory that lists a peer other than the
local host does return one. The memory of tuples is not touched: a remote group
has no tuple store. -/
theorem remote_Insert_forwards_once (group : remoteAffinityGroup) (rt : Runtime)
    (key : Bytes) :
    (∀ x, group.contacts.GetClosest rt = (x, false) →
      group.Insert rt key = some (group, ("", some errNoContacts), [])) ∧
    (group.contacts.addresses = [] → group.contacts.Lawful →
      group.Insert rt key = some (group, ("", some errNoContacts), [])) ∧
    (∀ peer, group.contacts.GetClosest rt = (some peer, true) →
      ∃ group1, group.Insert rt key =
          some (group1, group.trans.Insert ⟨group.ID, peer.Address⟩ key,
            [TransportCall.Insert ⟨group.ID, peer.Address⟩ key]) ∧
        group1.toGroupContact = group.toGroupContact ∧ group1.contacts = group.contacts ∧
        group1.trans = group.trans ∧
        ((group.trans.Insert ⟨group.ID, peer.Address⟩ key).2 = none →
          group1.heartbeats = wrapInt64 (group.heartbeats + 1) ∧
          (isInt64 (group.heartbeats + 1) → group1.heartbeats = group.heartbeats + 1)) ∧
        ((group.trans.Insert ⟨group.ID, peer.Address⟩ key).2 ≠ none →
          group1 = group)) ∧
    (∀ c, group.contacts = .inmem c → (∃ e ∈ c.peers.entries, e.2.Address ≠ c.host) →
      ∃ p ∈ c.List rt.order, p.Address ≠ c.host ∧
        group.contacts.GetClosest rt = (some p, true)) ∧
    (∀ (heap : Heap) (now : Int),
      (AffinityGroup.remote group).Insert heap rt now key =
        (group.Insert rt key).map (fun r => (heap, .remote r.1, r.2))) := by
  have hno : ∀ x, group.contacts.GetClosest rt = (x, false) →
      group.Insert rt key = some (group, ("", some errNoContacts), []) := by
    intro x hx
    simp only [remoteAffinityGroup.Insert, hx]
  refine ⟨hno, ?_, ?_, ?_, fun heap now => rfl⟩
  · intro he hl
    exact hno none (GetClosest_of_empty group.contacts rt he hl)
  · intro peer hp
    by_cases herr : (group.trans.Insert ⟨group.ID, peer.Address⟩ key).2 = none
    · refine ⟨group.beat, ?_, rfl, rfl, rfl, ?_, fun h => absurd herr h⟩
      · simp only [remoteAffinityGroup.Insert, hp, herr, if_true]
      · intro _
        exact ⟨rfl, fun h64 => wrapInt64_of_isInt64 _ h64⟩
    · refine ⟨group, ?_, rfl, rfl, rfl, fun h => absurd h herr, fun _ => rfl⟩
      simp only [remoteAffinityGroup.Insert, hp, herr, if_false]
  · intro c hc hex
    obtain ⟨p, hp, hne, hg⟩ := inmem_GetClosest_of_nonlocal c rt.order hex
    refine ⟨p, hp, hne, ?_⟩
    rw [hc]
    exact hg

/-- C22 on group 1 of the sample node: without contacts `Insert("bar")` fails
with `errNoContacts`; knowing the peer `127.0.0.1:9001`, over a transport that
answers, it calls the transport once and the heartbeats go from 0 to 1. -/
theorem remote_Insert_forwards_once_witness :
    testRemote.contacts.addresses = [] ∧ testRemote.contacts.Lawful ∧
    testRemote.Insert ⟨RangeOrder.stored, 0⟩ (bytesOf "bar") =
      some (testRemote, ("", some errNoContacts), []) ∧
    testRemotePeered.contacts.GetClosest ⟨RangeOrder.stored, 0⟩ =
      (some ⟨"127.0.0.1:9001", 0, 0⟩, true) ∧
    (testRemotePeered.Insert ⟨RangeOrder.stored, 0⟩ (bytesOf "bar")).map
        (fun r => (r.1.heartbeats, r.2)) =
      some (1, ("127.0.0.1:9001", none),
        [TransportCall.Insert ⟨1, "127.0.0.1:9001"⟩ (bytesOf "bar")]) ∧
    ∃ group1, testRemotePeered.Insert ⟨RangeOrder.stored, 0⟩ (bytesOf "bar") =
        some (group1, testRemotePeered.trans.Insert ⟨testRemotePeered.ID, "127.0.0.1:9001"⟩
            (bytesOf "bar"),
          [TransportCall.Insert ⟨testRemotePeered.ID, "127.0.0.1:9001"⟩ (bytesOf "bar")]) :=
  ⟨rfl, trivial,
    (remote_Insert_forwards_once testRemote ⟨RangeOrder.stored, 0⟩ (bytesOf "bar")).2.1 rfl
      trivial,
    by decide, by decide,
    by
      obtain ⟨g1, h1, -⟩ :=
        (remote_Insert_forwards_once testRemotePeered ⟨RangeOrder.stored, 0⟩
          (bytesOf "bar")).2.2.1 ⟨"127.0.0.1:9001", 0, 0⟩ (by decide)
      exact ⟨g1, h1⟩⟩

/-- The key of a forwarded request: `make([]byte, len(key))` followed by `copy`
gives the bytes of the key. -/
theorem copy_replicate (src : Bytes) : copy (List.replicate src.length 0) src = src := by
  simp [copy]

/-- An in-memory directory listing no peer other than the local host has no
closest peer. -/
theorem inmem_GetClosest_of_all_local (c : inmemContacts) (order : RangeOrder)
    (h : ∀ e ∈ c.peers.entries, e.2.Address = c.host) :
    c.GetClosest order = (none, false) := by
  unfold inmemContacts.GetClosest
  have : (order.visit c.peers.entries).find? (fun e => decide (e.2.Address ≠ c.host)) = none := by
    apply List.find?_eq_none.2
    intro e he
    have := h e ((order.perm _).mem_iff.1 he)
    simp [this]
  rw [this]

/-! ## Home group: forwarding a Lookup -/

/-- C28: `Lookup` of the home group for a request whose key the tuple store does
not hold and whose TTL is not 0. When `GetClosest` finds no peer (for the
in-memory directory: when no listed peer differs from the local host) it fails
with `errNoContacts` and makes no transport call. When `GetClosest` returns a
peer it makes one transport call, `Lookup` on `GroupContact{ID: group.ID, Host:
peer.Address()}` with a new request whose Key is the bytes of `req.Key`, whose
TTL is `req.TTL - 1` (in `int`) and whose Originator is the group's contact,
and returns the transport's result unchanged. The caller's request is not
written. -/
theorem home_Lookup_forwards_with_TTL_decremented (group : affinityGroup) (heap : Heap)
    (rt : Runtime) (req : Request) (hmiss : group.tuples.get heap req.Key = none)
    (httl : req.TTL ≠ 0) :
    (∀ x, group.contacts.GetClosest rt = (x, false) →
      group.Lookup heap rt req = some (("", some errNoContacts), [])) ∧
    (∀ c, group.contacts = .inmem c → (∀ e ∈ c.peers.entries, e.2.Address = c.host) →
      group.Lookup heap rt req = some (("", some errNoContacts), [])) ∧
    (∀ c, group.contacts = .inmem c → (∃ e ∈ c.peers.entries, e.2.Address ≠ c.host) →
      ∃ p ∈ c.List rt.order, p.Address ≠ c.host ∧
        group.contacts.GetClosest rt = (some p, true)) ∧
    (∀ p, group.contacts.GetClosest rt = (some p, true) →
      ∃ nreq : Request,
        group.Lookup heap rt req =
          some (group.trans.Lookup ⟨group.ID, p.Address⟩ nreq,
            [TransportCall.Lookup ⟨group.ID, p.Address⟩ nreq]) ∧
        nreq.Key = req.Key ∧ nreq.TTL = wrapInt64 (req.TTL - 1) ∧
        (isInt64 (req.TTL - 1) → nreq.TTL = req.TTL - 1) ∧
        nreq.Originator = group.toGroupContact) ∧
    (AffinityGroup.home group).Lookup heap rt req =
      (group.Lookup heap rt req).map (fun r => (.home group, req, r)) := by
  have hl : group.tuples.Lookup heap req.Key = none := by
    rw [Lookup_eq_lookup]
    exact (get_eq_none_iff _ _ _).1 hmiss
  have hno : ∀ x, group.contacts.GetClosest rt = (x, false) →
      group.Lookup heap rt req = some (("", some errNoContacts), []) := by
    intro x hx
    simp only [affinityGroup.Lookup, hl, if_neg httl, hx]
  refine ⟨hno, ?_, ?_, ?_, rfl⟩
  · intro c hc hall
    apply hno none
    rw [hc]
    exact inmem_GetClosest_of_all_local c rt.order hall
  · intro c hc hex
    obtain ⟨p, hp, hne, hg⟩ := inmem_GetClosest_of_nonlocal c rt.order hex
    exact ⟨p, hp, hne, by rw [hc]; exact hg⟩
  · intro p hp
    refine ⟨⟨copy (List.replicate req.Key.length 0) req.Key, wrapInt64 (req.TTL - 1),
      group.toGroupContact⟩, ?_, copy_replicate req.Key, rfl,
      fun h => wrapInt64_of_isInt64 _ h, rfl⟩
    simp only [affinityGroup.Lookup, hl, if_neg httl, hp]

/-- C28 on the home group of the peered sample node (empty store) with the
request `{Key: "foo", TTL: 1}`: the peer `127.0.0.1:9001` is asked with TTL 0
and the group's contact as originator. -/
theorem home_Lookup_forwards_with_TTL_decremented_witness :
    testHomeEcho.tuples.get ⟨[]⟩ testRequest1.Key = none ∧ testRequest1.TTL ≠ 0 ∧
    testHomeEcho.Lookup ⟨[]⟩ ⟨RangeOrder.stored, 0⟩ testRequest1 =
      some (("127.0.0.1:9001", none),
        [TransportCall.Lookup ⟨0, "127.0.0.1:9001"⟩
          ⟨bytesOf "foo", 0, ⟨0, "127.0.0.1:9000"⟩⟩]) ∧
    ∃ nreq : Request,
      testHomeEcho.Lookup ⟨[]⟩ ⟨RangeOrder.stored, 0⟩ testRequest1 =
        some (testHomeEcho.trans.Lookup ⟨testHomeEcho.ID, "127.0.0.1:9001"⟩ nreq,
          [TransportCall.Lookup ⟨testHomeEcho.ID, "127.0.0.1:9001"⟩ nreq]) ∧
      nreq.Key = testRequest1.Key ∧ nreq.TTL = wrapInt64 (testRequest1.TTL - 1) ∧
      (isInt64 (testRequest1.TTL - 1) → nreq.TTL = testRequest1.TTL - 1) ∧
      nreq.Originator = testHomeEcho.toGroupContact :=
  ⟨by decide, by decide, by decide,
    (home_Lookup_forwards_with_TTL_decremented testHomeEcho ⟨[]⟩ ⟨RangeOrder.stored, 0⟩
      testRequest1 (by decide) (by decide)).2.2.2.1 ⟨"127.0.0.1:9001", 0, 0⟩ (by decide)⟩

/-- C29: `Lookup` of a remote group. When `GetClosest` finds no peer, as it does
on an empty directory, it fails with `errNoContacts`, calls nothing and leaves
group and request as they are. When `GetClosest` returns a peer it makes one
transport call, `Lookup` on `GroupContact{ID: group.ID, Host: peer.Address()}`,
with the caller's request, in which only `Originator` has been set to the
group's contact (Key and TTL as the caller gave them), and returns the
transport's host and error unchanged; the heartbeat counter goes up when the
error is nil. -/
theorem remote_Lookup_forwards_same_TTL (group : remoteAffinityGroup) (rt : Runtime)
    (req : Request) :
    (∀ x, group.contacts.GetClosest rt = (x, false) →
      group.Lookup rt req = some (group, req, ("", some errNoContacts), [])) ∧
    (group.contacts.addresses = [] → group.contacts.Lawful →
      group.Lookup rt req = some (group, req, ("", some errNoContacts), [])) ∧
    (∀ peer, group.contacts.GetClosest rt = (some peer, true) →
      ∃ group1 req1, group.Lookup rt req =
          some (group1, req1, group.trans.Lookup ⟨group.ID, peer.Address⟩ req1,
            [TransportCall.Lookup ⟨group.ID, peer.Address⟩ req1]) ∧
        req1.Key = req.Key ∧ req1.TTL = req.TTL ∧ req1.Originator = group.toGroupContact ∧
        group1.toGroupContact = group.toGroupContact ∧ group1.contacts = group.contacts ∧
        group1.trans = group.trans ∧
        group1.heartbeats =
          (if (group.trans.Lookup ⟨group.ID, peer.Address⟩ req1).2 = none then
            wrapInt64 (group.heartbeats + 1) else group.heartbeats)) := by
  have hno : ∀ x, group.contacts.GetClosest rt = (x, false) →
      group.Lookup rt req = some (group, req, ("", some errNoContacts), []) := by
    intro x hx
    simp only [remoteAffinityGroup.Lookup, hx]
  refine ⟨hno, ?_, ?_⟩
  · intro he hl
    exact hno none (GetClosest_of_empty group.contacts rt he hl)
  · intro peer hp
    by_cases herr : (group.trans.Lookup ⟨group.ID, peer.Address⟩
        { req with Originator := group.toGroupContact }).2 = none
    · refine ⟨group.beat, { req with Originator := group.toGroupContact }, ?_, rfl, rfl, rfl,
        rfl, rfl, rfl, ?_⟩
      · simp only [remoteAffinityGroup.Lookup, hp, herr, if_true]
      · rw [if_pos herr]
        rfl
    · refine ⟨group, { req with Originator := group.toGroupContact }, ?_, rfl, rfl, rfl,
        rfl, rfl, rfl, ?_⟩
      · simp only [remoteAffinityGroup.Lookup, hp, herr, if_false]
      · rw [if_neg herr]

/-- C29 on group 1 of the sample node: without contacts `Lookup` fails with
`errNoContacts`; knowing `127.0.0.1:9001` it hands over the request with TTL 1
still and its own contact as originator. -/
theorem remote_Lookup_forwards_same_TTL_witness :
    testRemote.contacts.addresses = [] ∧ testRemote.contacts.Lawful ∧
    testRemote.Lookup ⟨RangeOrder.stored, 0⟩ testRequest1 =
      some (testRemote, testRequest1, ("", some errNoContacts), []) ∧
    (testRemotePeered.Lookup ⟨RangeOrder.stored, 0⟩ testRequest1).map (fun r => r.2) =
      some (⟨bytesOf "foo", 1, ⟨1, "127.0.0.1:9000"⟩⟩, ("127.0.0.1:9001", none),
        [TransportCall.Lookup ⟨1, "127.0.0.1:9001"⟩
          ⟨bytesOf "foo", 1, ⟨1, "127.0.0.1:9000"⟩⟩]) :=
  ⟨rfl, trivial,
    (remote_Lookup_forwards_same_TTL testRemote ⟨RangeOrder.stored, 0⟩ testRequest1).2.1 rfl
      trivial,
    by decide⟩

/-! ## Node: Lookup returns the group's error as it is -/

/-- C30, as stated, fails: `Kelips.Lookup` returns what the group returns and
wraps nothing. On the sample node with two groups the key `bar` belongs to
group 1, a remote group without contacts: `Lookup` fails with `errNoContacts`
itself, message `no contacts`, while `Insert` of the same key fails with the
message `group 1: no contacts`. -/
theorem Kelips_Lookup_unwrapped_counterexample :
    lookupGroup (bytesOf "bar") testKlp2.k testKlp2.hasher.new = some 1 ∧
    (testKlp2.Lookup ⟨[]⟩ ⟨RangeOrder.stored, 0⟩ ⟨bytesOf "bar", 1, ⟨0, ""⟩⟩).map
        (fun r => r.2.2.1) = some ("", some errNoContacts) ∧
    (testKlp2.Lookup ⟨[]⟩ ⟨RangeOrder.stored, 0⟩ ⟨bytesOf "bar", 1, ⟨0, ""⟩⟩).map
        (fun r => r.2.2.1.2.map Error.message) = some (some "no contacts") ∧
    (testKlp2.Insert ⟨[]⟩ ⟨RangeOrder.stored, 0⟩ testNow (bytesOf "bar")).map
        (fun r => r.2.2.1.2.map Error.message) = some (some "group 1: no contacts") := by
  decide

/-- C30, amended. For every node and request, with `idx = lookupGroup(req.Key,
K)` and `groups[idx]` in place, `Kelips.Lookup` makes the calls of that group's
`Lookup` and returns its host and error unchanged: a failure of the group
(`errNoContacts`, `errReqTTLReached`, a transport error) reaches the caller as
the same error, with the same message and without the `group <idx>` context
that `Kelips.Insert` adds. -/
theorem Kelips_Lookup_returns_group_error (klp : Kelips) (heap : Heap) (rt : Runtime)
    (req : Request) (idx : Int) (group : AffinityGroup)
    (hidx : lookupGroup req.Key klp.k klp.hasher.new = some idx)
    (hg : klp.group idx = some group) :
    klp.Lookup heap rt req =
      (group.Lookup heap rt req).map (fun r => (klp.setGroup idx r.1, r.2)) ∧
    (∀ group1 req1 host err calls,
      group.Lookup heap rt req = some (group1, req1, (host, err), calls) →
      klp.Lookup heap rt req = some (klp.setGroup idx group1, req1, (host, err), calls)) ∧
    (∀ group1 req1 host err calls,
      group.Lookup heap rt req = some (group1, req1, (host, some err), calls) →
      ∃ e, (klp.Lookup heap rt req).map (fun r => r.2.2.1) = some (host, some e) ∧
        e = err ∧ e.message = err.message) := by
  have h : klp.Lookup heap rt req =
      (group.Lookup heap rt req).map (fun r => (klp.setGroup idx r.1, r.2)) := by
    unfold Kelips.Lookup
    simp only [hidx, hg, Option.bind_eq_bind, Option.some_bind]
    cases group.Lookup heap rt req <;> rfl
  refine ⟨h, ?_, ?_⟩
  · intro group1 req1 host err calls hl
    rw [h, hl]
    rfl
  · intro group1 req1 host err calls hl
    refine ⟨err, ?_, rfl, rfl⟩
    rw [h, hl]
    rfl

/-- C30 (amended) on the sample node with two groups and the key `bar`. -/
theorem Kelips_Lookup_returns_group_error_witness :
    lookupGroup (bytesOf "bar") testKlp2.k testKlp2.hasher.new = some 1 ∧
    testKlp2.group 1 = some (.remote testRemote) ∧
    (AffinityGroup.remote testRemote).Lookup ⟨[]⟩ ⟨RangeOrder.stored, 0⟩
        ⟨bytesOf "bar", 1, ⟨0, ""⟩⟩ =
      some (.remote testRemote, ⟨bytesOf "bar", 1, ⟨0, ""⟩⟩, ("", some errNoContacts), []) ∧
    ∃ e, (testKlp2.Lookup ⟨[]⟩ ⟨RangeOrder.stored, 0⟩ ⟨bytesOf "bar", 1, ⟨0, ""⟩⟩).map
        (fun r => r.2.2.1) = some ("", some e) ∧
      e = errNoContacts ∧ e.message = errNoContacts.message :=
  ⟨by decide, rfl, rfl,
    (Kelips_Lookup_returns_group_error testKlp2 ⟨[]⟩ ⟨RangeOrder.stored, 0⟩
      ⟨bytesOf "bar", 1, ⟨0, ""⟩⟩ 1 (.remote testRemote) (by decide) rfl).2.2
      (.remote testRemote) ⟨bytesOf "bar", 1, ⟨0, ""⟩⟩ "" errNoContacts [] rfl⟩

/-! ## Config -/

/-- Validate leaves the durations of a config alone when all three are set. -/
theorem Validate_durations_set (sha256 : HashFunc) (conf : Config)
    (h1 : conf.TupleTTL ≠ 0) (h2 : conf.TupleExpireMinInt ≠ 0)
    (h3 : conf.TupleExpireMaxInt ≠ 0) :
    (conf.Validate sha256).TupleTTL = conf.TupleTTL ∧
    (conf.Validate sha256).TupleExpireMinInt = conf.TupleExpireMinInt ∧
    (conf.Validate sha256).TupleExpireMaxInt = conf.TupleExpireMaxInt := by
  obtain ⟨K, H, ttl, emin, emax, tr, tu, co⟩ := conf
  simp only at h1 h2 h3
  unfold Config.Validate
  cases H <;> cases tu <;> simp [h1, h2, h3]

/-- C25 fails on the code: `Validate` has no error result and checks nothing.
For every config it returns with `K` as it was (and with the durations as they
were when all three are set, whatever their order). `New` then panics for `K =
0`, where it evaluates `lookupGroup` with `k = 0`, and for `K = -1`; and from a
config with expire minimum 5 s, maximum 2 s and TTL 1 s it builds a node whose
home group carries these durations. -/
theorem Validate_reports_no_error :
    (∀ (sha256 : HashFunc) (conf : Config), (conf.Validate sha256).K = conf.K) ∧
    ((testConf 0).Validate sumHash).K = 0 ∧
    lookupGroup (bytesOf "127.0.0.1:9000") ((testConf 0).Validate sumHash).K sumHash.new =
      none ∧
    (New sumHash "127.0.0.1:9000" (testConf 0)).isSome = false ∧
    (New sumHash "127.0.0.1:9000" (testConf (-1))).isSome = false ∧
    testConfInconsistent.TupleExpireMinInt ≥ testConfInconsistent.TupleExpireMaxInt ∧
    testConfInconsistent.TupleTTL ≤ testConfInconsistent.TupleExpireMaxInt ∧
    (New sumHash "127.0.0.1:9000" testConfInconsistent).isSome = true ∧
    (New sumHash "127.0.0.1:9000" testConfInconsistent).map (fun klp =>
        klp.groups.filterMap (fun g =>
          match g with
          | .home h => some (h.tupleTTL, h.tupleExpMin, h.tupleExpMax)
          | .remote _ => none)) =
      some [(1 * Second, 5 * Second, 2 * Second)] := by
  refine ⟨fun sha256 conf => (Validate_fields sha256 conf).1,
    by decide, by decide, by decide, by decide, by decide, by decide, by decide, by decide⟩

/-- C26, as stated, fails: with the three durations unset `Validate` sets
`TupleTTL` to 30 s, not 45 s (45 s is the value `DefaultConfig` starts from),
so the TTL equals the expire maximum instead of exceeding it. -/
theorem Validate_default_TTL_counterexample :
    testConfUnset.TupleTTL = 0 ∧ testConfUnset.TupleExpireMinInt = 0 ∧
    testConfUnset.TupleExpireMaxInt = 0 ∧
    (testConfUnset.Validate sumHash).TupleTTL = 30 * Second ∧
    (testConfUnset.Validate sumHash).TupleTTL ≠ 45 * Second ∧
    (testConfUnset.Validate sumHash).TupleExpireMaxInt = 30 * Second ∧
    ¬ (testConfUnset.Validate sumHash).TupleExpireMaxInt <
        (testConfUnset.Validate sumHash).TupleTTL ∧
    (DefaultConfig sumHash).TupleTTL = 45 * Second := by
  decide

/-- C26, amended. For every config whose three durations are unset (zero),
`Validate` fills in `TupleTTL` = 30 s, `TupleExpireMinInt` = 20 s and
`TupleExpireMaxInt` = 30 s: the expire minimum is below the maximum, and the
TTL equals the maximum, it does not exceed it. -/
theorem Validate_defaults_when_unset (sha256 : HashFunc) (conf : Config)
    (h1 : conf.TupleTTL = 0) (h2 : conf.TupleExpireMinInt = 0)
    (h3 : conf.TupleExpireMaxInt = 0) :
    (conf.Validate sha256).TupleTTL = 30 * Second ∧
    (conf.Validate sha256).TupleExpireMinInt = 20 * Second ∧
    (conf.Validate sha256).TupleExpireMaxInt = 30 * Second ∧
    (conf.Validate sha256).TupleExpireMinInt < (conf.Validate sha256).TupleExpireMaxInt ∧
    (conf.Validate sha256).TupleTTL = (conf.Validate sha256).TupleExpireMaxInt := by
  obtain ⟨K, H, ttl, emin, emax, tr, tu, co⟩ := conf
  simp only at h1 h2 h3
  subst h1 h2 h3
  unfold Config.Validate
  cases H <;> cases tu <;> simp [Second]

theorem Validate_defaults_when_unset_witness :
    testConfUnset.TupleTTL = 0 ∧ testConfUnset.TupleExpireMinInt = 0 ∧
    testConfUnset.TupleExpireMaxInt = 0 ∧
    (testConfUnset.Validate sumHash).TupleTTL = 30 * Second ∧
    (testConfUnset.Validate sumHash).TupleExpireMinInt = 20 * Second ∧
    (testConfUnset.Validate sumHash).TupleExpireMaxInt = 30 * Second ∧
    (testConfUnset.Validate sumHash).TupleExpireMinInt <
      (testConfUnset.Validate sumHash).TupleExpireMaxInt ∧
    (testConfUnset.Validate sumHash).TupleTTL =
      (testConfUnset.Validate sumHash).TupleExpireMaxInt :=
  ⟨rfl, rfl, rfl, Validate_defaults_when_unset sumHash testConfUnset rfl rfl rfl⟩

/-! ## Keys that do not fit a record -/

/-- A record written for a tuple: the length of host and key through `uint8`,
then host and key, whatever the length of the key. -/
theorem writeTuples_one (net : Net) (heap : Heap) (t : Ref) (hb : Bytes)
    (h : hostStringToBytes net (heap.deref t).Host = some hb) :
    writeTuples net heap [t] =
      some (Fin.ofNat (hb ++ (heap.deref t).Key).length :: (hb ++ (heap.deref t).Key)) := by
  simp [writeTuples, writeTuplesLoop, h]

set_option maxRecDepth 100000 in
/-- C21 fails on the code: neither producer checks the length of a key. For the
tuple with a key of 238 bytes and host `127.0.0.1:8902`, `writeTuples` returns
no error and emits a record of 1 + 256 bytes whose length byte is 0, although
host and key take 256 bytes; `readTuples` panics on it. The frame builder of
`gossipTupleStorage.Insert` stores the tuple, emits the same record after the
18 bytes of the local address and broadcasts it; `NotifyMsg` panics on that
message. -/
theorem writeTuples_long_key_not_rejected :
    (testHeapLongKey.deref 0).Key.length = 238 ∧
    (writeTuples testNet testHeapLongKey [0]).map
        (fun b => (b.length, b.head?, (b.drop 19).length)) = some (257, some 0, 238) ∧
    (writeTuples testNet testHeapLongKey [0]).bind
        (fun b => readTuples testNet ⟨[]⟩ b) = none ∧
    (testGossipTuples.Insert testNet testHeapLongKey testNow [0]).map
        (fun r => (r.2.2.1, r.2.2.2.length, r.2.2.2.get? 18)) = some (1, 275, some 0) ∧
    ((testGossipTuples.Insert testNet testHeapLongKey testNow [0]).bind
        (fun r => testDelegate.NotifyMsg testNet ⟨[]⟩ testNow r.2.2.2)).isSome = false := by
  decide

/-! ## Decimal digits -/

theorem digitChar_lt_ten (k : Nat) (hk : k < 10) :
    (Nat.digitChar k).isDigit = true ∧ (Nat.digitChar k).toNat - 48 = k := by
  interval_cases k <;> exact ⟨by decide, by decide⟩

theorem toDigitsCore_isDigit (fuel n : Nat) (ds : List Char)
    (h : ∀ c ∈ ds, c.isDigit = true) :
    ∀ c ∈ Nat.toDigitsCore 10 fuel n ds, c.isDigit = true := by
  induction fuel generalizing n ds with
  | zero => exact h
  | succ fuel ih =>
    have hd : ∀ c ∈ Nat.digitChar (n % 10) :: ds, c.isDigit = true := by
      intro c hc
      rcases List.mem_cons.1 hc with rfl | hc
      · exact (digitChar_lt_ten (n % 10) (Nat.mod_lt _ (by decide))).1
      · exact h c hc
    simp only [Nat.toDigitsCore]
    split
    · exact hd
    · exact ih (n / 10) _ hd

theorem toDigitsCore_ne_nil (fuel n : Nat) (ds : List Char) (h : ds ≠ []) :
    Nat.toDigitsCore 10 fuel n ds ≠ [] := by
  induction fuel generalizing n ds with
  | zero => exact h
  | succ fuel ih =>
    simp only [Nat.toDigitsCore]
    split
    · exact List.cons_ne_nil _ _
    · exact ih (n / 10) _ (List.cons_ne_nil _ _)

theorem toDigits_ne_nil (n : Nat) : Nat.toDigits 10 n ≠ [] := by
  simp only [Nat.toDigits, Nat.toDigitsCore]
  split
  · exact List.cons_ne_nil _ _
  · exact toDigitsCore_ne_nil _ _ _ (List.cons_ne_nil _ _)

/-- The value of the digits printed for `n` is `n`. -/
theorem toDigitsCore_value (fuel n : Nat) (ds : List Char) (h : n < fuel) :
    (Nat.toDigitsCore 10 fuel n ds).foldl (fun a c => a * 10 + (c.toNat - 48)) 0 =
      ds.foldl (fun a c => a * 10 + (c.toNat - 48)) n := by
  induction fuel generalizing n ds with
  | zero => omega
  | succ fuel ih =>
    have hd := (digitChar_lt_ten (n % 10) (Nat.mod_lt _ (by decide))).2
    simp only [Nat.toDigitsCore]
    split
    · rename_i h0
      simp only [List.foldl_cons, hd, Nat.zero_mul, Nat.zero_add]
      have : n % 10 = n := by omega
      rw [this]
    · rename_i h0
      rw [ih (n / 10) _ (by omega)]
      simp only [List.foldl_cons, hd]
      have : n / 10 * 10 + n % 10 = n := by omega
      rw [this]

theorem foldl_digits_le (ds : List Char) (acc : Nat) :
    acc ≤ ds.foldl (fun a c => a * 10 + (c.toNat - 48)) acc := by
  induction ds generalizing acc with
  | nil => exact Nat.le_refl _
  | cons c cs ih =>
    simp only [List.foldl_cons]
    exact Nat.le_trans (by omega) (ih _)

/-- On digits whose value fits `uint64` the loop of `ParseUint` returns the
value. -/
theorem atoiLoop_of_digits (ds : List Char) (acc : Nat) (h : ∀ c ∈ ds, c.isDigit = true)
    (hv : ds.foldl (fun a c => a * 10 + (c.toNat - 48)) acc < 2 ^ 64) :
    atoiLoop ds acc = .ok (ds.foldl (fun a c => a * 10 + (c.toNat - 48)) acc) := by
  induction ds generalizing acc with
  | nil => rfl
  | cons c cs ih =>
    simp only [List.foldl_cons] at hv ⊢
    have hle := foldl_digits_le cs (acc * 10 + (c.toNat - 48))
    simp only [atoiLoop, h c (List.mem_cons_self _ _), if_true]
    rw [if_pos (by omega)]
    exact ih _ (fun c hc => h c (List.mem_cons_of_mem _ hc)) hv

theorem atoiLoop_toDigits (n : Nat) (h : n < 2 ^ 64) :
    atoiLoop (Nat.toDigits 10 n) 0 = .ok n := by
  have hv := toDigitsCore_value (n + 1) n [] (Nat.lt_succ_self n)
  simp only [List.foldl_nil] at hv
  have := atoiLoop_of_digits (Nat.toDigits 10 n) 0
    (toDigitsCore_isDigit _ _ _ (fun c hc => by cases hc)) (by
      unfold Nat.toDigits
      rw [hv]
      exact h)
  rw [this]
  unfold Nat.toDigits
  rw [hv]

theorem Itoa_toList (i : Int) :
    (Itoa i).toList =
      if 0 ≤ i then Nat.toDigits 10 i.toNat else '-' :: Nat.toDigits 10 (-i).toNat := by
  cases i with
  | ofNat m => rfl
  | negSucc m => rfl

theorem head_toDigits (n : Nat) :
    ∃ c, (Nat.toDigits 10 n).head? = some c ∧ c.isDigit = true := by
  cases h : Nat.toDigits 10 n with
  | nil => exact absurd h (toDigits_ne_nil n)
  | cons c cs =>
    refine ⟨c, rfl, ?_⟩
    have := toDigitsCore_isDigit (n + 1) n [] (fun c hc => by cases hc) c
    unfold Nat.toDigits at h
    rw [h] at this
    exact this (List.mem_cons_self _ _)

/-- Atoi reads back what Itoa prints for an `int`. -/
theorem Atoi_Itoa (i : Int) (h : isInt64 i) : Atoi (Itoa i) = .ok i := by
  unfold isInt64 minInt64 maxInt64 at h
  unfold Atoi
  rw [Itoa_toList]
  by_cases h0 : 0 ≤ i
  · rw [if_pos h0]
    obtain ⟨c, hc, hd⟩ := head_toDigits i.toNat
    have hm : c ≠ '-' := by intro e; rw [e] at hd; exact absurd hd (by decide)
    have hp : c ≠ '+' := by intro e; rw [e] at hd; exact absurd hd (by decide)
    have hlt : i.toNat < 2 ^ 63 := by omega
    simp only [hc, Option.some.injEq, hm, hp, or_self, if_false, toDigits_ne_nil,
      atoiLoop_toDigits i.toNat (by omega), decide_False, Bool.false_eq_true, hlt, if_true]
    rw [Int.toNat_of_nonneg h0]
  · rw [if_neg h0]
    have hle : (-i).toNat ≤ 2 ^ 63 := by omega
    simp only [List.head?_cons, true_or, if_true, List.drop_one, List.tail_cons,
      toDigits_ne_nil, if_false, atoiLoop_toDigits (-i).toNat (by omega), decide_True, hle]
    rw [Int.toNat_of_nonneg (by omega)]
    simp

/-! ## GroupContact: String and parseGroupContact -/

theorem lastIndexOf_none (c : Char) (l : List Char) (h : c ∉ l) : lastIndexOf c l = none := by
  induction l with
  | nil => rfl
  | cons x xs ih =>
    have hx : x ≠ c := fun e => h (by rw [e]; exact List.mem_cons_self _ _)
    simp only [lastIndexOf, ih (fun hm => h (List.mem_cons_of_mem _ hm)), if_neg hx]

theorem lastIndexOf_append (c : Char) (l d : List Char) (h : c ∉ d) :
    lastIndexOf c (l ++ c :: d) = some l.length := by
  induction l with
  | nil => simp only [List.nil_append, lastIndexOf, lastIndexOf_none c d h, if_true,
      List.length_nil]
  | cons x xs ih =>
    simp only [List.cons_append, lastIndexOf, List.append_eq, ih, List.length_cons]

/-- No `/` among the characters Itoa prints. -/
theorem slash_not_mem_Itoa (i : Int) : '/' ∉ (Itoa i).toList := by
  rw [Itoa_toList]
  have hd : ∀ n, '/' ∉ Nat.toDigits 10 n := by
    intro n hm
    have := toDigitsCore_isDigit (n + 1) n [] (fun c hc => by cases hc) '/' hm
    exact absurd this (by decide)
  split
  · exact hd _
  · intro hm
    rcases List.mem_cons.1 hm with h | h
    · exact absurd h (by decide)
    · exact hd _ h

theorem String_toList (gc : GroupContact) :
    gc.String.toList = gc.Host.toList ++ '/' :: (Itoa gc.ID).toList := by
  simp [GroupContact.String, String.toList]

/-- C27: `gc.String()` is the host, a `/` and the decimal ID (with a minus sign
when negative). For every host, also one that contains `/`, and every ID in the
range of `int`, `parseGroupContact(gc.String())` returns `gc` and a nil error;
for a string without `/` it returns the whole string as host, ID 0 and a nil
error. -/
theorem parseGroupContact_String_roundtrip (gc : GroupContact) (s : String) :
    gc.String = gc.Host ++ "/" ++ Itoa gc.ID ∧
    (Itoa gc.ID).toList =
      (if 0 ≤ gc.ID then Nat.toDigits 10 gc.ID.toNat
       else '-' :: Nat.toDigits 10 (-gc.ID).toNat) ∧
    (isInt64 gc.ID → parseGroupContact gc.String = (gc, none)) ∧
    ('/' ∉ s.toList → parseGroupContact s = (⟨0, s⟩, none)) := by
  refine ⟨rfl, Itoa_toList gc.ID, ?_, ?_⟩
  · intro h
    unfold parseGroupContact
    rw [String_toList, lastIndexOf_append '/' _ _ (slash_not_mem_Itoa gc.ID)]
    have hd : List.drop (gc.Host.toList.length + 1)
        (gc.Host.toList ++ '/' :: (Itoa gc.ID).toList) = (Itoa gc.ID).toList := by
      rw [List.drop_append]
      rfl
    have ht : List.take gc.Host.toList.length
        (gc.Host.toList ++ '/' :: (Itoa gc.ID).toList) = gc.Host.toList := List.take_left' rfl
    have h1 : String.mk gc.Host.toList = gc.Host := rfl
    have h2 : String.mk (Itoa gc.ID).toList = Itoa gc.ID := rfl
    simp only [hd, ht, h1, h2, Atoi_Itoa gc.ID h]
  · intro h
    unfold parseGroupContact
    rw [lastIndexOf_none '/' _ h]

/-- C27 on the contact of group -7 at the host `a/b:1`, and on the string
`127.0.0.1:9000`. -/
theorem parseGroupContact_String_roundtrip_witness :
    isInt64 (-7) ∧ '/' ∉ "127.0.0.1:9000".toList ∧
    (⟨-7, "a/b:1"⟩ : GroupContact).String = "a/b:1/-7" ∧
    (⟨3, "127.0.0.1:9000"⟩ : GroupContact).String = "127.0.0.1:9000/3" ∧
    parseGroupContact "a/b:1/x" = (⟨0, "a/b:1"⟩, some .ErrSyntax) ∧
    parseGroupContact (⟨-7, "a/b:1"⟩ : GroupContact).String = (⟨-7, "a/b:1"⟩, none) ∧
    parseGroupContact "127.0.0.1:9000" = (⟨0, "127.0.0.1:9000"⟩, none) :=
  ⟨by decide, by decide, by decide, by decide, by decide,
    (parseGroupContact_String_roundtrip ⟨-7, "a/b:1"⟩ "127.0.0.1:9000").2.2.1 (by decide),
    (parseGroupContact_String_roundtrip ⟨-7, "a/b:1"⟩ "127.0.0.1:9000").2.2.2 (by decide)⟩

/-! ## Forwarded lookups -/

/-- What a `Lookup` that made exactly one transport call did: the home group
missed, had a TTL other than 0 and sent a new request with the same key, the
TTL lowered by one and itself as originator; a remote group sent the caller's
request with itself as originator. In both cases it returned what the
transport returned. -/
theorem Lookup_one_call (group : AffinityGroup) (heap : Heap) (rt : Runtime) (req : Request)
    (group1 : AffinityGroup) (req1 nreq : Request) (res : Result) (c : GroupContact)
    (h : group.Lookup heap rt req = some (group1, req1, res, [TransportCall.Lookup c nreq])) :
    nreq.Key = req.Key ∧ c.ID = group.Contact.ID ∧ nreq.Originator = group.Contact ∧
    ((∃ g, group = .home g ∧ g.tuples.get heap req.Key = none ∧ req.TTL ≠ 0 ∧
        nreq.TTL = wrapInt64 (req.TTL - 1) ∧ res = g.trans.Lookup c nreq ∧ req1 = req) ∨
     (∃ g, group = .remote g ∧ nreq.TTL = req.TTL ∧ res = g.trans.Lookup c nreq ∧
        req1 = nreq)) := by
  cases group with
  | home g =>
    simp only [AffinityGroup.Lookup, affinityGroup.Lookup] at h
    cases hl : g.tuples.Lookup heap req.Key with
    | some tuple =>
      rw [hl] at h
      simp at h
    | none =>
      rw [hl] at h
      by_cases httl : req.TTL = 0
      · simp [httl] at h
      · simp only [if_neg httl] at h
        cases hc : g.contacts.GetClosest rt with
        | mk p ok =>
          rw [hc] at h
          cases ok with
          | false => simp at h
          | true =>
            cases p with
            | none => simp at h
            | some p =>
              simp only [Option.map_some', Option.some.injEq, Prod.mk.injEq, List.cons.injEq,
                TransportCall.Lookup.injEq, and_true] at h
              obtain ⟨-, h2, h3, h4, h5⟩ := h
              subst h4 h5 h2
              have hmiss : g.tuples.get heap req.Key = none := by
                rw [get_eq_none_iff, ← Lookup_eq_lookup]
                exact hl
              exact ⟨copy_replicate req.Key, rfl, rfl,
                Or.inl ⟨g, rfl, hmiss, httl, rfl, h3.symm, rfl⟩⟩
  | remote g =>
    simp only [AffinityGroup.Lookup, remoteAffinityGroup.Lookup] at h
    cases hc : g.contacts.GetClosest rt with
    | mk p ok =>
      rw [hc] at h
      cases ok with
      | false => simp at h
      | true =>
        cases p with
        | none => simp at h
        | some p =>
          simp only [Option.map_some', Option.some.injEq, Prod.mk.injEq, List.cons.injEq,
            TransportCall.Lookup.injEq, and_true] at h
          obtain ⟨-, h2, h3, h4, h5⟩ := h
          subst h4 h5
          exact ⟨rfl, rfl, rfl, Or.inr ⟨g, rfl, rfl, h3.symm, h2.symm⟩⟩

/-- A home group whose store holds the key answers with the stored host. -/
theorem home_Lookup_hit (g : affinityGroup) (heap : Heap) (rt : Runtime) (req : Request)
    (t : Tuple) (h : g.tuples.get heap req.Key = some t) :
    (AffinityGroup.home g).Lookup heap rt req = some (.home g, req, (t.Host, none), []) := by
  obtain ⟨r, hr, hd⟩ := (get_eq_some_iff _ _ _ _).1 h
  simp only [AffinityGroup.Lookup, home_Lookup_of_lookup g heap rt req r hr, hd,
    Option.map_some']

/-- C23: a request forwarded exactly `n` times (`n ≥ 0`) through `Lookup` of
remote and home groups, over a transport that delivers each call and answers
it with the receiving group's result, and found in the tuple store of the last
receiver: the last receiver was asked for the key of the original request, and
the first `Lookup`, hence `Kelips.Lookup` on the node it was called through,
returns the Host stored for the key on the last receiver, with a nil error.
That each forwarding group hands back what its transport call returned is
shown from `Lookup` of the home and of the remote group, not assumed. -/
theorem forwarded_Lookup_returns_terminal_host (n : Nat) (r rT : Receiver)
    (req reqT : Request) (g : affinityGroup) (t : Tuple)
    (hchain : LookupChain n r req rT reqT) (hT : rT.group = .home g)
    (hhit : g.tuples.get rT.heap reqT.Key = some t) :
    reqT.Key = req.Key ∧
    (∃ group1 req1 calls,
      r.group.Lookup r.heap r.rt req = some (group1, req1, (t.Host, none), calls) ∧
      calls.length = min n 1) ∧
    (∀ (klp : Kelips) (idx : Int), lookupGroup req.Key klp.k klp.hasher.new = some idx →
      klp.group idx = some r.group →
      ∃ klp1 req1 calls,
        klp.Lookup r.heap r.rt req = some (klp1, req1, (t.Host, none), calls)) := by
  have main : reqT.Key = req.Key ∧
      ∃ group1 req1 calls,
        r.group.Lookup r.heap r.rt req = some (group1, req1, (t.Host, none), calls) ∧
        calls.length = min n 1 := by
    induction hchain with
    | stop r req =>
      refine ⟨rfl, .home g, req, [], ?_, rfl⟩
      rw [hT]
      exact home_Lookup_hit g r.heap r.rt req t hhit
    | forward n r r2 rT req nreq reqT c x2 hcall haddr hserved hverb hrest ih =>
      obtain ⟨hk, g2, q2, calls2, hres, -⟩ := ih hT hhit
      obtain ⟨⟨group1, req1, res, calls⟩, hL, hcalls⟩ := Option.map_eq_some'.1 hcall
      simp only at hcalls
      subst hcalls
      obtain ⟨hkey, -, -, hsent⟩ :=
        Lookup_one_call r.group r.heap r.rt req group1 req1 nreq res c hL
      have hres1 : res = r.group.trans.Lookup c nreq := by
        rcases hsent with ⟨g1, hg1, -, -, -, hr, -⟩ | ⟨g1, hg1, -, hr, -⟩
        · rw [hr, hg1]; rfl
        · rw [hr, hg1]; rfl
      rw [hserved] at hres
      have hx : x2.2.2.1 = (t.Host, none) := by
        cases hres
        rfl
      refine ⟨hk.trans hkey, group1, req1, [TransportCall.Lookup c nreq], ?_, ?_⟩
      · rw [hL, hres1, hverb, hx]
      · simp
  refine ⟨main.1, main.2, ?_⟩
  intro klp idx hidx hg
  obtain ⟨group1, req1, calls, hl, -⟩ := main.2
  refine ⟨klp.setGroup idx group1, req1, calls, ?_⟩
  unfold Kelips.Lookup
  simp only [hidx, hg, hl, Option.bind_eq_bind, Option.some_bind]

/-- C23 on a chain of two forwards: the remote group of node `127.0.0.1:9002`
forwards `{Key: "foo", TTL: 1}` to the home group of `127.0.0.1:9000`, which
misses and forwards with TTL 0 to the home group of `127.0.0.1:9001`, whose
store holds `foo` under `127.0.0.1:8902`; that host comes back. -/
theorem forwarded_Lookup_returns_terminal_host_witness :
    LookupChain 2 testFirst testRequest1 testTerminal
      ⟨bytesOf "foo", 0, ⟨0, "127.0.0.1:9000"⟩⟩ ∧
    testInserted.2.1.get testTerminal.heap (bytesOf "foo") =
      some ⟨bytesOf "foo", "127.0.0.1:8902", 0, testNow⟩ ∧
    (testFirst.group.Lookup testFirst.heap testFirst.rt testRequest1).map (fun x => x.2.2) =
      some (("127.0.0.1:8902", none),
        [TransportCall.Lookup ⟨0, "127.0.0.1:9000"⟩
          ⟨bytesOf "foo", 1, ⟨0, "127.0.0.1:9002"⟩⟩]) ∧
    ∃ group1 req1 calls,
      testFirst.group.Lookup testFirst.heap testFirst.rt testRequest1 =
        some (group1, req1, ("127.0.0.1:8902", none), calls) ∧
      calls.length = min 2 1 := by
  have hchain : LookupChain 2 testFirst testRequest1 testTerminal
      ⟨bytesOf "foo", 0, ⟨0, "127.0.0.1:9000"⟩⟩ :=
    LookupChain.forward 1 testFirst testMiddle testTerminal testRequest1
      ⟨bytesOf "foo", 1, ⟨0, "127.0.0.1:9002"⟩⟩ ⟨bytesOf "foo", 0, ⟨0, "127.0.0.1:9000"⟩⟩
      ⟨0, "127.0.0.1:9000"⟩ _ rfl rfl rfl rfl
      (LookupChain.forward 0 testMiddle testTerminal testTerminal
        ⟨bytesOf "foo", 1, ⟨0, "127.0.0.1:9002"⟩⟩ ⟨bytesOf "foo", 0, ⟨0, "127.0.0.1:9000"⟩⟩
        ⟨bytesOf "foo", 0, ⟨0, "127.0.0.1:9000"⟩⟩
        ⟨0, "127.0.0.1:9001"⟩ _ rfl rfl rfl rfl
        (LookupChain.stop testTerminal ⟨bytesOf "foo", 0, ⟨0, "127.0.0.1:9000"⟩⟩))
  exact ⟨hchain, by decide, by decide,
    (forwarded_Lookup_returns_terminal_host 2 testFirst testTerminal testRequest1
      ⟨bytesOf "foo", 0, ⟨0, "127.0.0.1:9000"⟩⟩
      { testHome with Host := "127.0.0.1:9001", tuples := testInserted.2.1 }
      ⟨bytesOf "foo", "127.0.0.1:8902", 0, testNow⟩ hchain rfl (by decide)).2.1⟩

/-! ## Networks: what the nodes know -/

theorem GroupInv_mono {H : HashFunc} {K : Int} {host : String} {S S1 : List String}
    {T T1 : InmemTuples → Prop} {id g : Int} {grp : AffinityGroup}
    (h : GroupInv H K host S T id g grp) (hS : ∀ a, a ∈ S1 ↔ a ∈ S)
    (hT : ∀ s, T s → T1 s) : GroupInv H K host S1 T1 id g grp := by
  obtain ⟨h1, h2, ⟨c, hc, hh, hk, hm⟩, h4⟩ := h
  refine ⟨h1, h2, ⟨c, hc, hh, hk, ?_⟩, fun h hg => hT _ (h4 h hg)⟩
  intro a
  rw [hm a, hS a]

theorem NodeInv_mono {H : HashFunc} {K : Int} {host : String} {S S1 : List String}
    {T T1 : InmemTuples → Prop} {klp : Kelips}
    (h : NodeInv H K host S T klp) (hS : ∀ a, a ∈ S1 ↔ a ∈ S)
    (hT : ∀ s, T s → T1 s) : NodeInv H K host S1 T1 klp := by
  obtain ⟨h1, h2, h3, h4, h5⟩ := h
  exact ⟨h1, h2, h3, h4, fun g grp hg => GroupInv_mono (h5 g grp hg) hS hT⟩

theorem withContacts_home (grp : AffinityGroup) (cs : ContactStorage) (h : affinityGroup)
    (hh : grp.withContacts cs = .home h) :
    ∃ h0, grp = .home h0 ∧ h.tuples = h0.tuples := by
  cases grp with
  | home h0 =>
    simp only [AffinityGroup.withContacts, AffinityGroup.home.injEq] at hh
    exact ⟨h0, rfl, by rw [← hh]⟩
  | remote r => simp [AffinityGroup.withContacts] at hh

/-- The keys of an in-memory directory after `Add`. -/
theorem inmem_Add_keys (c : inmemContacts) (p : PeerContact) (a : String) :
    a ∈ (c.Add p).1.peers.keys ↔ (a = p.Address ∨ a ∈ c.peers.keys) := by
  by_cases hp : p.Address ∈ c.peers
  · rw [inmem_Add_present c p hp]
    constructor
    · exact Or.inr
    · rintro (rfl | h)
      · exact AList.mem_keys.1 hp
      · exact h
  · rw [inmem_Add_absent c p hp]
    simp only [keys_insert_absent _ _ _ hp, List.mem_cons]

theorem inmem_Add_host (c : inmemContacts) (p : PeerContact) : (c.Add p).1.host = c.host := by
  by_cases hp : p.Address ∈ c.peers
  · rw [inmem_Add_present c p hp]
  · rw [inmem_Add_absent c p hp]

/-- One `AddPeer` on a node: it returns, and the node then knows the address
added as well. -/
theorem AddPeer_NodeInv {H : HashFunc} {K : Int} {host : String} {S : List String}
    {T : InmemTuples → Prop} (klp : Kelips) (p : PeerContact)
    (h : NodeInv H K host S T klp) :
    ∃ r, klp.AddPeer p = some r ∧ NodeInv H K host (p.Address :: S) T r.1 := by
  obtain ⟨hk, hh, hs, hid, hg⟩ := h
  obtain ⟨idx, grp, hidx, h0, -, hgrp⟩ := Shaped_group klp hs (bytesOf p.Address)
  refine ⟨_, Kelips_AddPeer_eq klp p idx grp hidx hgrp, hk, hh, Shaped_setGroup klp idx _ hs,
    hid, ?_⟩
  rw [hk, hh] at hidx
  intro g grp1 hg1
  by_cases hgi : g = idx
  · subst hgi
    simp only [] at hg1
    rw [group_setGroup klp g grp _ hgrp] at hg1
    cases hg1
    obtain ⟨i1, i2, ⟨c, hc, hch, hck, hcm⟩, i4⟩ := hg g grp hgrp
    obtain ⟨w1, w2, w3⟩ := withContacts_shape grp (grp.contacts.Add p).1
    refine ⟨by rw [w2]; exact i1, by rw [w3]; exact i2, ⟨(c.Add p).1, ?_, ?_, ?_, ?_⟩, ?_⟩
    · rw [w1, hc]
      rfl
    · rw [inmem_Add_host]
      exact hch
    · exact inmem_Add_Keyed c p hck
    · intro a
      rw [inmem_Add_keys, hcm a, List.mem_cons]
      constructor
      · rintro (rfl | ⟨h1, h2⟩)
        · exact ⟨Or.inl rfl, hidx⟩
        · exact ⟨Or.inr h1, h2⟩
      · rintro ⟨rfl | h1, h2⟩
        · exact Or.inl rfl
        · exact Or.inr ⟨h1, h2⟩
    · intro h hhome
      obtain ⟨h0', hg0, ht⟩ := withContacts_home grp _ h hhome
      rw [ht]
      exact i4 h0' hg0
  · simp only [] at hg1
    rw [group_setGroup_ne klp idx g _ h0 hgi] at hg1
    obtain ⟨i1, i2, ⟨c, hc, hch, hck, hcm⟩, i4⟩ := hg g grp1 hg1
    refine ⟨i1, i2, ⟨c, hc, hch, hck, ?_⟩, i4⟩
    intro a
    rw [hcm a, List.mem_cons]
    constructor
    · rintro ⟨h1, h2⟩
      exact ⟨Or.inr h1, h2⟩
    · rintro ⟨rfl | h1, h2⟩
      · rw [hidx] at h2
        exact absurd (Option.some.inj h2).symm hgi
      · exact ⟨h1, h2⟩

/-- A sequence of `AddPeer` calls on a node: it returns, and the node then
knows the addresses added as well. -/
theorem AddPeers_NodeInv {H : HashFunc} {K : Int} {host : String} {T : InmemTuples → Prop}
    (l : List String) (S : List String) (klp : Kelips) (h : NodeInv H K host S T klp) :
    ∃ klp1, applyPeerOps klp (l.map (fun a => PeerOp.AddPeer ⟨a, 0, 0⟩)) = some klp1 ∧
      NodeInv H K host (l.reverse ++ S) T klp1 := by
  induction l generalizing S klp with
  | nil => exact ⟨klp, rfl, h⟩
  | cons a l ih =>
    obtain ⟨r, hr, hinv⟩ := AddPeer_NodeInv klp ⟨a, 0, 0⟩ h
    obtain ⟨klp1, h1, hinv1⟩ := ih (a :: S) r.1 hinv
    refine ⟨klp1, ?_, ?_⟩
    · simp only [List.map_cons, applyPeerOps, Kelips.applyPeerOp, hr]
      exact h1
    · rw [List.reverse_cons, List.append_assoc]
      exact hinv1

/-- The groups the loop of `New` builds with the default contact factory and
the default tuple store, before the local host is added: no address known. -/
theorem newGroups_NodeInv (sha256 : HashFunc) (host : String) (conf : Config) (id : Int)
    (trans : Transport) (hK : 0 < conf.K) (hK64 : conf.K ≤ maxInt64)
    (hid : lookupGroup (bytesOf host) conf.K (conf.HashFunc.getD sha256).new = some id) :
    NodeInv (conf.HashFunc.getD sha256) conf.K host [] (fun s => s = NewInmemTuples)
      { id := id, k := conf.K, hasher := conf.HashFunc.getD sha256,
        groups := newGroups host (conf.Validate sha256) id trans (.inmemContactsFac host)
          NewInmemTuples,
        trans := trans } := by
  have v1 := (Validate_fields sha256 conf).1
  refine ⟨rfl, rfl, ⟨hK, hK64, ?_⟩, hid, ?_⟩
  · simp only [newGroups_eq, List.length_map, List.length_range, v1]
  · intro g grp hg
    simp only [Kelips.group] at hg
    by_cases hneg : g < 0
    · rw [if_pos hneg] at hg
      cases hg
    · rw [if_neg hneg] at hg
      have hg0 : 0 ≤ g := not_lt.1 hneg
      have hcast : ((g.toNat : Nat) : Int) = g := Int.toNat_of_nonneg hg0
      have hlt : g.toNat < (conf.Validate sha256).K.toNat := by
        by_contra hge
        rw [List.getElem?_eq_none (by
          simp only [newGroups_eq, List.length_map, List.length_range]
          exact Nat.le_of_not_lt hge)] at hg
        cases hg
      rw [newGroups_eq, List.getElem?_map, List.getElem?_range hlt, Option.map_some', hcast]
        at hg
      by_cases hi : id = g
      · rw [if_pos hi] at hg
        cases hg
        refine ⟨rfl, ⟨fun _ => hi.symm, fun _ => rfl⟩, ⟨⟨g, host, ∅⟩, rfl, rfl, ?_, ?_⟩, ?_⟩
        · intro e he
          cases he
        · intro a
          simp
        · intro h hh
          cases hh
          rfl
      · rw [if_neg hi] at hg
        cases hg
        refine ⟨rfl, ⟨fun h => (by cases h), fun h => absurd h.symm hi⟩,
          ⟨⟨g, host, ∅⟩, rfl, rfl, ?_, ?_⟩, ?_⟩
        · intro e he
          cases he
        · intro a
          simp
        · intro h hh
          cases hh

/-- The node `New` builds from a config with `K > 0`, a transport, the default
contact factory and the default tuple store knows its own address, and its
store is empty. -/
theorem New_NodeInv (sha256 : HashFunc) (host : String) (conf : Config) (trans : Transport)
    (hK : 0 < conf.K) (hK64 : conf.K ≤ maxInt64) (htr : conf.Transport = some trans)
    (hT : conf.Tuples = none) (hC : conf.Contacts = none) :
    ∃ klp, New sha256 host conf = some klp ∧
      NodeInv (conf.HashFunc.getD sha256) conf.K host [host] (fun s => s = NewInmemTuples)
        klp := by
  obtain ⟨id, hid, h0, h1⟩ := lookupGroup_range (bytesOf host) conf.K
    (conf.HashFunc.getD sha256) hK hK64
  obtain ⟨home, hhome, hnew⟩ := New_eq sha256 host conf trans id htr hK hid h0 h1
  rw [hT, hC] at hhome hnew
  simp only [Option.getD_none] at hhome hnew
  have hinv := newGroups_NodeInv sha256 host conf id trans hK hK64 hid
  obtain ⟨r, hr, hinv1⟩ := AddPeer_NodeInv _ ⟨host, 0, 0⟩ hinv
  have hg : Kelips.group
      { id := id, k := conf.K, hasher := conf.HashFunc.getD sha256,
        groups := newGroups host (conf.Validate sha256) id trans (.inmemContactsFac host)
          NewInmemTuples,
        trans := trans } id = some home := by
    simp only [Kelips.group, if_neg (not_lt.2 h0)]
    exact hhome
  rw [Kelips_AddPeer_eq
    { id := id, k := conf.K, hasher := conf.HashFunc.getD sha256,
      groups := newGroups host (conf.Validate sha256) id trans (.inmemContactsFac host)
        NewInmemTuples,
      trans := trans } ⟨host, 0, 0⟩ id home hid hg] at hr
  cases hr
  refine ⟨_, hnew, ?_⟩
  rw [AddPeer_eq_withContacts]
  exact hinv1

theorem mem_eraseIdx_or (l : List String) (i : Nat) (a host : String)
    (hi : l[i]? = some host) : (a ∈ l.eraseIdx i ∨ a = host) ↔ a ∈ l := by
  constructor
  · rintro (h | rfl)
    · exact (List.eraseIdx_sublist l i).subset h
    · obtain ⟨hlt, hget⟩ := List.getElem?_eq_some_iff.1 hi
      rw [← hget]
      exact List.getElem_mem _
  · intro h
    obtain ⟨j, hj, rfl⟩ := List.getElem_of_mem h
    by_cases hji : j = i
    · subst hji
      rw [List.getElem?_eq_getElem hj] at hi
      exact Or.inr (Option.some.inj hi)
    · exact Or.inl (List.mem_eraseIdx_iff_getElem.2 ⟨j, hj, hji, rfl⟩)

/-- Every node of the network built for `hosts` exists and knows every
address; its store is empty. -/
theorem buildNode_NodeInv (sha256 : HashFunc) (conf : Config) (trans : Transport)
    (hosts : List String) (i : Nat) (host : String)
    (hK : 0 < conf.K) (hK64 : conf.K ≤ maxInt64) (htr : conf.Transport = some trans)
    (hT : conf.Tuples = none) (hC : conf.Contacts = none) (hi : hosts[i]? = some host) :
    ∃ klp, buildNode sha256 conf hosts i = some ⟨klp, ⟨[]⟩⟩ ∧
      NodeInv (conf.HashFunc.getD sha256) conf.K host hosts (fun s => s = NewInmemTuples)
        klp := by
  obtain ⟨klp0, hnew, hinv0⟩ := New_NodeInv sha256 host conf trans hK hK64 htr hT hC
  obtain ⟨klp1, hops, hinv1⟩ := AddPeers_NodeInv (hosts.eraseIdx i) [host] klp0 hinv0
  refine ⟨klp1, ?_, NodeInv_mono hinv1 ?_ (fun s hs => hs)⟩
  · simp only [buildNode, hi, hnew, hops]
  · intro a
    rw [List.mem_append, List.mem_reverse, List.mem_singleton]
    exact (mem_eraseIdx_or hosts i a host hi).symm

theorem allNodes_map {α : Type} (F : α → Option NetNode) (l : List α)
    (h : ∀ x ∈ l, ∃ n, F x = some n) :
    ∃ ns, allNodes (l.map F) = some ns ∧ ns.length = l.length ∧
      ∀ (i : Nat) (n : NetNode), ns[i]? = some n → ∃ x, l[i]? = some x ∧ F x = some n := by
  induction l with
  | nil =>
    refine ⟨[], rfl, rfl, ?_⟩
    intro i n hn
    simp at hn
  | cons a l ih =>
    obtain ⟨n0, hn0⟩ := h a (List.mem_cons_self _ _)
    obtain ⟨ns, h1, h2, h3⟩ := ih (fun x hx => h x (List.mem_cons_of_mem _ hx))
    refine ⟨n0 :: ns, ?_, ?_, ?_⟩
    · simp only [List.map_cons, hn0, allNodes, h1]
    · simp only [List.length_cons, h2]
    · intro i n hn
      cases i with
      | zero =>
        simp only [List.getElem?_cons_zero, Option.some.injEq] at hn
        subst hn
        exact ⟨a, List.getElem?_cons_zero, hn0⟩
      | succ i =>
        simp only [List.getElem?_cons_succ] at hn ⊢
        exact h3 i n hn

/-- The network built for `hosts`: every node exists, has an empty memory and
an empty store, and knows every address. -/
theorem makeNetwork_spec (sha256 : HashFunc) (conf : Config) (trans : Transport)
    (hosts : List String) (hK : 0 < conf.K) (hK64 : conf.K ≤ maxInt64)
    (htr : conf.Transport = some trans) (hT : conf.Tuples = none)
    (hC : conf.Contacts = none) :
    ∃ nodes, makeNetwork sha256 conf hosts = some nodes ∧ nodes.length = hosts.length ∧
      ∀ (i : Nat) (n : NetNode) (host : String), nodes[i]? = some n → hosts[i]? = some host →
        n.heap = ⟨[]⟩ ∧
        NodeInv (conf.HashFunc.getD sha256) conf.K host hosts (fun s => s = NewInmemTuples)
          n.klp := by
  obtain ⟨ns, h1, h2, h3⟩ := allNodes_map (buildNode sha256 conf hosts)
    (List.range hosts.length) (by
      intro i hi
      have hlt : i < hosts.length := List.mem_range.1 hi
      obtain ⟨klp, hb, -⟩ := buildNode_NodeInv sha256 conf trans hosts i hosts[i] hK hK64 htr
        hT hC (List.getElem?_eq_getElem hlt)
      exact ⟨_, hb⟩)
  refine ⟨ns, h1, by rw [h2, List.length_range], ?_⟩
  intro i n host hn hh
  obtain ⟨x, hx, hF⟩ := h3 i n hn
  have hlt : i < hosts.length := (List.getElem?_eq_some_iff.1 hh).1
  rw [List.getElem?_range hlt] at hx
  cases hx
  obtain ⟨klp, hb, hinv⟩ := buildNode_NodeInv sha256 conf trans hosts i host hK hK64 htr
    hT hC hh
  rw [hb] at hF
  cases hF
  exact ⟨rfl, hinv⟩

/-! ## Networks: one node per group -/

/-- With as many nodes as groups and no two nodes in one group, every group has
a node. -/
theorem owner_exists (H : HashFunc) (K : Int) (hosts : List String) (hK : 0 < K)
    (hK64 : K ≤ maxInt64) (hlen : hosts.length = K.toNat)
    (hdist : (hosts.map (fun h => lookupGroup (bytesOf h) K H.new)).Nodup)
    (idx : Int) (h0 : 0 ≤ idx) (h1 : idx < K) :
    ∃ (b : Nat) (host : String),
      hosts[b]? = some host ∧ lookupGroup (bytesOf host) K H.new = some idx := by
  have hsub : hosts.map (fun h => lookupGroup (bytesOf h) K H.new) ⊆
      (List.range K.toNat).map (fun i : Nat => some (i : Int)) := by
    intro x hx
    obtain ⟨h, -, rfl⟩ := List.mem_map.1 hx
    obtain ⟨i, hi, hi0, hi1⟩ := lookupGroup_range (bytesOf h) K H hK hK64
    rw [hi]
    refine List.mem_map.2 ⟨i.toNat, List.mem_range.2 ((Int.toNat_lt_toNat hK).2 hi1), ?_⟩
    rw [Int.toNat_of_nonneg hi0]
  have hperm := (List.subperm_of_subset hdist hsub).perm_of_length_le (by
    simp only [List.length_map, List.length_range, hlen]
    exact Nat.le_refl _)
  have hmem : some idx ∈ (List.range K.toNat).map (fun i : Nat => some (i : Int)) := by
    refine List.mem_map.2 ⟨idx.toNat, List.mem_range.2 ((Int.toNat_lt_toNat hK).2 h1), ?_⟩
    rw [Int.toNat_of_nonneg h0]
  obtain ⟨host, hh, hl⟩ := List.mem_map.1 (hperm.mem_iff.2 hmem)
  obtain ⟨b, hb, rfl⟩ := List.getElem_of_mem hh
  exact ⟨b, hosts[b], List.getElem?_eq_getElem hb, hl⟩

/-- No two nodes in one group: nodes of the same group are the same node. -/
theorem owner_unique (H : HashFunc) (K : Int) (hosts : List String)
    (hdist : (hosts.map (fun h => lookupGroup (bytesOf h) K H.new)).Nodup)
    (b1 b2 : Nat) (host1 host2 : String) (hb1 : hosts[b1]? = some host1)
    (hb2 : hosts[b2]? = some host2)
    (heq : lookupGroup (bytesOf host1) K H.new = lookupGroup (bytesOf host2) K H.new) :
    b1 = b2 ∧ host1 = host2 := by
  obtain ⟨hl1, hg1⟩ := List.getElem?_eq_some_iff.1 hb1
  obtain ⟨hl2, hg2⟩ := List.getElem?_eq_some_iff.1 hb2
  have hb : b1 = b2 := by
    have hm1 : b1 < (hosts.map (fun h => lookupGroup (bytesOf h) K H.new)).length := by
      simpa using hl1
    have hm2 : b2 < (hosts.map (fun h => lookupGroup (bytesOf h) K H.new)).length := by
      simpa using hl2
    have := (@List.Nodup.getElem_inj_iff _ _ hdist b1 hm1 b2 hm2).1 (by
        simp only [List.getElem_map, hg1, hg2]
        exact heq)
    exact this
  subst hb
  rw [hb1] at hb2
  exact ⟨rfl, Option.some.inj hb2⟩

/-- In a group's directory of a node that knows every address, the only
address is that of the node of the group. -/
theorem directory_only_owner {H : HashFunc} {K : Int} {hosts : List String} {host : String}
    {T : InmemTuples → Prop} {id g : Int} {grp : AffinityGroup}
    (hdist : (hosts.map (fun h => lookupGroup (bytesOf h) K H.new)).Nodup)
    (hinv : GroupInv H K host hosts T id g grp) (b : Nat) (hostB : String)
    (hb : hosts[b]? = some hostB) (hown : lookupGroup (bytesOf hostB) K H.new = some g) :
    ∃ c, grp.contacts = .inmem c ∧ c.host = host ∧ c.Keyed ∧
      (∀ e ∈ c.peers.entries, e.2.Address = hostB) ∧
      ∃ e ∈ c.peers.entries, e.2.Address = hostB := by
  obtain ⟨-, -, ⟨c, hc, hch, hck, hcm⟩, -⟩ := hinv
  have hmemB : hostB ∈ hosts := by
    obtain ⟨hl, hg⟩ := List.getElem?_eq_some_iff.1 hb
    rw [← hg]
    exact List.getElem_mem _
  refine ⟨c, hc, hch, hck, ?_, ?_⟩
  · intro e he
    have hk : e.1 ∈ c.peers.keys := List.mem_map.2 ⟨e, he, rfl⟩
    obtain ⟨hm, hl⟩ := (hcm e.1).1 hk
    obtain ⟨j, hj, hje⟩ := List.getElem_of_mem hm
    have := (owner_unique H K hosts hdist j b e.1 hostB
      (by rw [List.getElem?_eq_getElem hj, hje]) hb (by rw [hl, hown])).2
    rw [hck e he]
    exact this
  · have hk : hostB ∈ c.peers.keys := (hcm hostB).2 ⟨hmemB, hown⟩
    obtain ⟨e, he, hee⟩ := List.mem_map.1 hk
    refine ⟨e, he, ?_⟩
    rw [hck e he]
    exact hee

/-! ## Networks: nodes over the delivering transport -/

theorem withTrans_group (klp : Kelips) (t : Transport) (g : Int) :
    (klp.withTrans t).group g = (klp.group g).map (fun grp => grp.withTrans t) := by
  unfold Kelips.group Kelips.withTrans
  by_cases h : g < 0
  · simp [h]
  · simp only [if_neg h, List.getElem?_map]

theorem withTrans_shape (grp : AffinityGroup) (t : Transport) :
    (grp.withTrans t).Contact = grp.Contact ∧ (grp.withTrans t).IsLocal = grp.IsLocal ∧
    (grp.withTrans t).contacts = grp.contacts ∧
    (∀ h, grp.withTrans t = .home h → ∃ h0, grp = .home h0 ∧ h = { h0 with trans := t }) := by
  cases grp with
  | home h0 =>
    refine ⟨rfl, rfl, rfl, ?_⟩
    intro h hh
    simp only [AffinityGroup.withTrans, AffinityGroup.home.injEq] at hh
    exact ⟨h0, rfl, hh.symm⟩
  | remote r =>
    refine ⟨rfl, rfl, rfl, ?_⟩
    intro h hh
    simp [AffinityGroup.withTrans] at hh

theorem GroupInv_withTrans {H : HashFunc} {K : Int} {host : String} {S : List String}
    {T : InmemTuples → Prop} {id g : Int} {grp : AffinityGroup} (t : Transport)
    (h : GroupInv H K host S T id g grp) : GroupInv H K host S T id g (grp.withTrans t) := by
  obtain ⟨h1, h2, h3, h4⟩ := h
  obtain ⟨w1, w2, w3, w4⟩ := withTrans_shape grp t
  refine ⟨by rw [w1]; exact h1, by rw [w2]; exact h2, by rw [w3]; exact h3, ?_⟩
  intro h hh
  obtain ⟨h0, hg, rfl⟩ := w4 h hh
  exact h4 h0 hg

theorem NodeInv_withTrans {H : HashFunc} {K : Int} {host : String} {S : List String}
    {T : InmemTuples → Prop} {klp : Kelips} (t : Transport)
    (h : NodeInv H K host S T klp) : NodeInv H K host S T (klp.withTrans t) := by
  obtain ⟨h1, h2, h3, h4, h5⟩ := h
  refine ⟨h1, h2, ⟨h3.1, h3.2.1, ?_⟩, h4, ?_⟩
  · simp only [Kelips.withTrans, List.length_map]
    exact h3.2.2
  · intro g grp hg
    rw [withTrans_group] at hg
    cases hk : klp.group g with
    | none => rw [hk] at hg; cases hg
    | some grp0 =>
      rw [hk] at hg
      cases hg
      exact GroupInv_withTrans t (h5 g grp0 hk)

/-- A home group is found at the home index only. -/
theorem GroupInv_home_index {H : HashFunc} {K : Int} {host : String} {S : List String}
    {T : InmemTuples → Prop} {id g : Int} {h : affinityGroup}
    (hinv : GroupInv H K host S T id g (.home h)) : g = id :=
  hinv.2.1.1 rfl

/-- Replacing a group of a node by one that satisfies the group's invariant. -/
theorem NodeInv_setGroup {H : HashFunc} {K : Int} {host : String} {S : List String}
    {T T1 : InmemTuples → Prop} {klp : Kelips} (idx : Int) (old new : AffinityGroup)
    (h : NodeInv H K host S T klp) (hold : klp.group idx = some old)
    (hnew : GroupInv H K host S T1 klp.id idx new)
    (hT : idx = klp.id ∨ ∀ s, T s → T1 s) :
    NodeInv H K host S T1 (klp.setGroup idx new) := by
  obtain ⟨h1, h2, h3, h4, h5⟩ := h
  have h0 : 0 ≤ idx := by
    by_contra hneg
    simp only [Kelips.group, if_pos (not_le.1 hneg)] at hold
    cases hold
  refine ⟨h1, h2, Shaped_setGroup klp idx new h3, h4, ?_⟩
  intro g grp hg
  by_cases hgi : g = idx
  · subst hgi
    rw [group_setGroup klp g old new hold] at hg
    cases hg
    exact hnew
  · rw [group_setGroup_ne klp idx g new h0 hgi] at hg
    have hold1 := h5 g grp hg
    rcases hT with hid | hmono
    · refine ⟨hold1.1, hold1.2.1, hold1.2.2.1, ?_⟩
      intro h hh
      subst hh
      exact absurd ((GroupInv_home_index hold1).trans hid.symm) hgi
    · exact GroupInv_mono hold1 (fun a => Iff.rfl) hmono

/-- The home group of a node, as its invariant gives it. -/
theorem NodeInv_home {H : HashFunc} {K : Int} {host : String} {S : List String}
    {T : InmemTuples → Prop} {n : NetNode} (h : NodeInv H K host S T n.klp) :
    ∃ g, n.klp.group n.klp.id = some (.home g) ∧ n.home = some g ∧
      g.toGroupContact = ⟨n.klp.id, host⟩ ∧ T g.tuples ∧
      GroupInv H K host S T n.klp.id n.klp.id (.home g) := by
  obtain ⟨h1, h2, h3, h4, h5⟩ := h
  obtain ⟨idx, grp, hidx, -, -, hgrp⟩ := Shaped_group n.klp h3 (bytesOf host)
  rw [h1, h2, h4] at hidx
  cases hidx
  have hinv := h5 _ grp hgrp
  cases grp with
  | remote r =>
    have := hinv.2.1.2 rfl
    cases this
  | home g =>
    refine ⟨g, hgrp, ?_, hinv.1, hinv.2.2.2 g rfl, hinv⟩
    simp only [NetNode.home, hgrp]

/-- In a directory whose only address is `hostB`, `GetRandom` returns the peer
at `hostB`. -/
theorem GetRandom_only (c : inmemContacts) (rt : Runtime) (hostB : String)
    (hall : ∀ e ∈ c.peers.entries, e.2.Address = hostB)
    (hex : ∃ e ∈ c.peers.entries, e.2.Address = hostB) :
    ∃ p, (ContactStorage.inmem c).GetRandom rt = (some p, true) ∧ p.Address = hostB := by
  obtain ⟨e, he, -⟩ := hex
  have hne : (ContactStorage.inmem c).List rt.order ≠ [] := by
    simp only [ContactStorage.List, inmemContacts.List]
    intro h
    have hm : e ∈ rt.order.visit c.peers.entries := (rt.order.perm _).mem_iff.2 he
    have : e.2 ∈ (rt.order.visit c.peers.entries).map (fun e => e.2) :=
      List.mem_map.2 ⟨e, hm, rfl⟩
    rw [h] at this
    cases this
  obtain ⟨p, hp, hr⟩ := (GetRandom_spec (.inmem c) rt).2 hne
  refine ⟨p, hr, ?_⟩
  simp only [ContactStorage.List, inmemContacts.List] at hp
  obtain ⟨e1, he1, rfl⟩ := List.mem_map.1 hp
  exact hall e1 ((rt.order.perm _).mem_iff.1 he1)

/-- In a directory of another host whose only address is `hostB`, `GetClosest`
returns the peer at `hostB`. -/
theorem GetClosest_only (c : inmemContacts) (rt : Runtime) (hostB : String)
    (hall : ∀ e ∈ c.peers.entries, e.2.Address = hostB)
    (hex : ∃ e ∈ c.peers.entries, e.2.Address = hostB) (hne : hostB ≠ c.host) :
    ∃ p, (ContactStorage.inmem c).GetClosest rt = (some p, true) ∧ p.Address = hostB := by
  obtain ⟨e, he, hee⟩ := hex
  obtain ⟨p, hp, -, hg⟩ := inmem_GetClosest_of_nonlocal c rt.order
    ⟨e, he, by rw [hee]; exact hne⟩
  refine ⟨p, hg, ?_⟩
  simp only [inmemContacts.List] at hp
  obtain ⟨e1, he1, rfl⟩ := List.mem_map.1 hp
  exact hall e1 ((rt.order.perm _).mem_iff.1 he1)

/-- The first element satisfying `p` in a list where only the element at index
`b` does. -/
theorem find?_unique {α : Type} (p : α → Bool) (l : List α) (b : Nat) (x : α)
    (hb : l[b]? = some x) (hp : p x = true)
    (huniq : ∀ (m : Nat) (y : α), l[m]? = some y → p y = true → m = b) :
    l.find? p = some x := by
  cases hf : l.find? p with
  | none =>
    have hx : x ∈ l := by
      obtain ⟨hl, hg⟩ := List.getElem?_eq_some_iff.1 hb
      rw [← hg]
      exact List.getElem_mem _
    have := List.find?_eq_none.1 hf x hx
    exact absurd hp this
  | some y =>
    have hy : y ∈ l := List.mem_of_find?_eq_some hf
    obtain ⟨m, hm, rfl⟩ := List.getElem_of_mem hy
    have hmb := huniq m l[m] (List.getElem?_eq_getElem hm) (List.find?_some hf)
    subst hmb
    rw [List.getElem?_eq_getElem hm] at hb
    exact hb

/-- Delivery of an `Insert` when only the node at index `b` serves the
contact: that node handles it. -/
theorem deliverInsert_unique (rt : Runtime) (now : Int) (c : GroupContact) (key : Bytes)
    (nodes : List NetNode) (b : Nat) (nb : NetNode) (hb : nodes[b]? = some nb)
    (hp : nb.serves c = true)
    (huniq : ∀ (m : Nat) (y : NetNode), nodes[m]? = some y → y.serves c = true → m = b) :
    deliverInsert rt now c key nodes = nodes.set b (nb.handleInsert rt now key) := by
  induction nodes generalizing b with
  | nil => simp at hb
  | cons n ns ih =>
    cases b with
    | zero =>
      simp only [List.getElem?_cons_zero, Option.some.injEq] at hb
      subst hb
      simp only [deliverInsert, hp, if_true, List.set_cons_zero]
    | succ b =>
      simp only [List.getElem?_cons_succ] at hb
      have hn : n.serves c ≠ true := by
        intro h
        have := huniq 0 n List.getElem?_cons_zero h
        cases this
      have hn1 : n.serves c = false := by
        cases hs : n.serves c with
        | false => rfl
        | true => exact absurd hs hn
      have hrec := ih b hb (fun m y hm hy => by
        have := huniq (m + 1) y (by simpa using hm) hy
        omega)
      simp only [deliverInsert, hn1, Bool.false_eq_true, if_false, List.set_cons_succ, hrec]

theorem NetInv_set {H : HashFunc} {K : Int} {hosts : List String} {nodes : List NetNode}
    (h : NetInv H K hosts nodes) (i : Nat) (host : String) (n1 : NetNode)
    (hi : hosts[i]? = some host)
    (hn : NodeInv H K host hosts (fun s => s.WF n1.heap) n1.klp) :
    NetInv H K hosts (nodes.set i n1) := by
  obtain ⟨hl, hall⟩ := h
  refine ⟨by rw [List.length_set]; exact hl, ?_⟩
  intro m n host1 hm hh
  rw [List.getElem?_set] at hm
  by_cases hmi : i = m
  · subst hmi
    rw [if_pos rfl] at hm
    split at hm
    · cases hm
      rw [hi] at hh
      cases hh
      exact hn
    · cases hm
  · rw [if_neg hmi] at hm
    exact hall m n host1 hm hh

/-- In a network where every node knows every address, the call addressed to
the node of a group and to that group arrives at that node and at no other. -/
theorem serves_iff_owner {H : HashFunc} {K : Int} {hosts : List String}
    {nodes : List NetNode} (hinv : NetInv H K hosts nodes)
    (hdist : (hosts.map (fun h => lookupGroup (bytesOf h) K H.new)).Nodup)
    (b : Nat) (hostB : String) (idx : Int) (hb : hosts[b]? = some hostB)
    (hown : lookupGroup (bytesOf hostB) K H.new = some idx)
    (m : Nat) (n : NetNode) (hm : nodes[m]? = some n) :
    n.serves ⟨idx, hostB⟩ = true ↔ m = b := by
  have hml : m < hosts.length := by
    rw [← hinv.1]
    exact (List.getElem?_eq_some_iff.1 hm).1
  have hninv := hinv.2 m n hosts[m] hm (List.getElem?_eq_getElem hml)
  obtain ⟨g, -, hhome, hgc, -, -⟩ := NodeInv_home hninv
  have hgH : g.Host = hosts[m] := by rw [hgc]
  have hgI : g.ID = n.klp.id := by rw [hgc]
  simp only [NetNode.serves, hhome, decide_eq_true_eq, hgH, hgI]
  constructor
  · rintro ⟨h1, h2⟩
    exact (owner_unique H K hosts hdist m b hosts[m] hostB (List.getElem?_eq_getElem hml) hb
      (by rw [h1])).1
  · intro hmb
    subst hmb
    rw [List.getElem?_eq_getElem hml] at hb
    have hh : hosts[m] = hostB := Option.some.inj hb
    refine ⟨hh, ?_⟩
    have := hninv.2.2.2.1
    rw [hh, hown] at this
    exact (Option.some.inj this).symm

/-! ## Networks: Insert -/

/-- The home group's `Insert` does not use the transport. -/
theorem home_Insert_withTrans (h : affinityGroup) (t : Transport) (heap : Heap) (rt : Runtime)
    (now : Int) (key : Bytes) :
    ({ h with trans := t } : affinityGroup).Insert heap rt now key =
      (h.Insert heap rt now key).map (fun r => (r.1, { r.2.1 with trans := t }, r.2.2)) := by
  unfold affinityGroup.Insert
  cases hc : h.contacts.GetRandom rt with
  | mk p ok => cases ok <;> cases p <;> rfl

/-- The node of a group handles `Insert(key)` for a key of its group: its home
group picks the node itself, stores the key under the node's address unless the
key is stored already, and returns the address. -/
theorem owner_home_Insert {H : HashFunc} {K : Int} {hosts : List String}
    (hdist : (hosts.map (fun h => lookupGroup (bytesOf h) K H.new)).Nodup)
    (nb : NetNode) (b : Nat) (hostB : String) (hb : hosts[b]? = some hostB)
    (hinv : NodeInv H K hostB hosts (fun s => s.WF nb.heap) nb.klp)
    (rt : Runtime) (now : Int) (key : Bytes) :
    ∃ h heap1 tuples1, nb.home = some h ∧ nb.klp.group nb.klp.id = some (.home h) ∧
      h.toGroupContact = ⟨nb.klp.id, hostB⟩ ∧
      h.Insert nb.heap rt now key =
        some (heap1, { h with tuples := tuples1 }, (hostB, none), []) ∧
      tuples1.WF heap1 ∧
      (h.tuples.get nb.heap key = none →
        tuples1.get heap1 key =
          some { Key := key, Host := hostB, heartbeats := 0, lastseen := now }) ∧
      (∀ tp, h.tuples.get nb.heap key = some tp → tuples1.get heap1 key = some tp) ∧
      GroupInv H K hostB hosts (fun s => s.WF heap1) nb.klp.id nb.klp.id
        (.home { h with tuples := tuples1 }) := by
  obtain ⟨h, hgrp, hhome, hgc, hwf, hginv⟩ := NodeInv_home hinv
  obtain ⟨c, hc, hch, hck, hall, hex⟩ := directory_only_owner hdist hginv b hostB hb
    hinv.2.2.2.1
  have hc' : h.contacts = .inmem c := hc
  obtain ⟨p, hp, hpa⟩ := GetRandom_only c rt hostB hall hex
  rw [← hc'] at hp
  obtain ⟨heap1, tuples1, hins, hwf1, hpres, habs⟩ :=
    home_Insert_of_random h nb.heap rt now key p hwf hp
  rw [hpa] at hins habs
  refine ⟨h, heap1, tuples1, hhome, hgrp, hgc, hins, hwf1, habs, hpres, ?_⟩
  obtain ⟨i1, i2, i3, -⟩ := hginv
  refine ⟨i1, i2, i3, ?_⟩
  intro h2 hh2
  cases hh2
  exact hwf1

/-- A node's group for another node's group is a remote group whose
`GetClosest` picks that node. -/
theorem remote_picks_owner {H : HashFunc} {K : Int} {hosts : List String}
    (hdist : (hosts.map (fun h => lookupGroup (bytesOf h) K H.new)).Nodup)
    (klp : Kelips) (hostA : String) (T : InmemTuples → Prop)
    (hinv : NodeInv H K hostA hosts T klp)
    (b : Nat) (hostB : String) (idx : Int) (hb : hosts[b]? = some hostB)
    (hown : lookupGroup (bytesOf hostB) K H.new = some idx) (hne : hostB ≠ hostA)
    (hidne : idx ≠ klp.id)
    (grp : AffinityGroup) (hgrp : klp.group idx = some grp) (rt : Runtime) :
    ∃ r p, grp = .remote r ∧ r.toGroupContact = ⟨idx, hostA⟩ ∧
      r.contacts.GetClosest rt = (some p, true) ∧ p.Address = hostB := by
  have hginv := hinv.2.2.2.2 idx grp hgrp
  obtain ⟨c, hc, hch, hck, hall, hex⟩ := directory_only_owner hdist hginv b hostB hb hown
  cases grp with
  | home h => exact absurd (GroupInv_home_index hginv) hidne
  | remote r =>
    have hc' : r.contacts = .inmem c := hc
    obtain ⟨p, hp, hpa⟩ := GetClosest_only c rt hostB hall hex (by rw [hch]; exact hne)
    refine ⟨r, p, rfl, hginv.1, ?_, hpa⟩
    rw [hc']
    exact hp

/-- The delivering transport brings `Insert` to the node of the group. -/
theorem netTransport_Insert {H : HashFunc} {K : Int} {hosts : List String}
    {nodes : List NetNode} (hinv : NetInv H K hosts nodes)
    (hdist : (hosts.map (fun h => lookupGroup (bytesOf h) K H.new)).Nodup)
    (b : Nat) (hostB : String) (idx : Int) (hb : hosts[b]? = some hostB)
    (hown : lookupGroup (bytesOf hostB) K H.new = some idx)
    (nb : NetNode) (hnb : nodes[b]? = some nb) (h : affinityGroup) (hhome : nb.home = some h)
    (rt : Runtime) (now : Int) (d : Nat) (key : Bytes)
    (r : Heap × affinityGroup × Result × List TransportCall)
    (hr : h.Insert nb.heap rt now key = some r) :
    (netTransport nodes rt now (d + 1)).Insert ⟨idx, hostB⟩ key = r.2.2.1 := by
  have hfind : nodes.find? (fun n => n.serves ⟨idx, hostB⟩) = some nb :=
    find?_unique _ nodes b nb hnb
      ((serves_iff_owner hinv hdist b hostB idx hb hown b nb hnb).2 rfl)
      (fun m y hm hy => (serves_iff_owner hinv hdist b hostB idx hb hown m y hm).1 hy)
  simp only [netTransport, hfind, hhome, hr]

/-- The delivering transport brings `Lookup` to the node of the group. -/
theorem netTransport_Lookup {H : HashFunc} {K : Int} {hosts : List String}
    {nodes : List NetNode} (hinv : NetInv H K hosts nodes)
    (hdist : (hosts.map (fun h => lookupGroup (bytesOf h) K H.new)).Nodup)
    (b : Nat) (hostB : String) (idx : Int) (hb : hosts[b]? = some hostB)
    (hown : lookupGroup (bytesOf hostB) K H.new = some idx)
    (nb : NetNode) (hnb : nodes[b]? = some nb) (h : affinityGroup) (hhome : nb.home = some h)
    (rt : Runtime) (now : Int) (d : Nat) (req : Request)
    (r : Result × List TransportCall)
    (hr : ({ h with trans := netTransport nodes rt now d } : affinityGroup).Lookup
      nb.heap rt req = some r) :
    (netTransport nodes rt now (d + 1)).Lookup ⟨idx, hostB⟩ req = r.1 := by
  have hfind : nodes.find? (fun n => n.serves ⟨idx, hostB⟩) = some nb :=
    find?_unique _ nodes b nb hnb
      ((serves_iff_owner hinv hdist b hostB idx hb hown b nb hnb).2 rfl)
      (fun m y hm hy => (serves_iff_owner hinv hdist b hostB idx hb hown m y hm).1 hy)
  simp only [netTransport, hfind, hhome, hr]

theorem home_withTrans (n : NetNode) (t : Transport) :
    NetNode.home ⟨n.klp.withTrans t, n.heap⟩ =
      n.home.map (fun h => ({ h with trans := t } : affinityGroup)) := by
  simp only [NetNode.home, withTrans_group]
  have : (n.klp.withTrans t).id = n.klp.id := rfl
  rw [this]
  cases n.klp.group n.klp.id with
  | none => rfl
  | some grp => cases grp <;> rfl

theorem withTrans_remote (grp : AffinityGroup) (t : Transport) (r : remoteAffinityGroup)
    (h : grp.withTrans t = .remote r) : r.trans = t := by
  cases grp with
  | home h0 => simp [AffinityGroup.withTrans] at h
  | remote r0 =>
    simp only [AffinityGroup.withTrans, AffinityGroup.remote.injEq] at h
    rw [← h]

theorem GroupInv_beat {H : HashFunc} {K : Int} {host : String} {S : List String}
    {T T1 : InmemTuples → Prop} {id g : Int} {r : remoteAffinityGroup}
    (h : GroupInv H K host S T id g (.remote r)) :
    GroupInv H K host S T1 id g (.remote r.beat) ∧ GroupInv H K host S T1 id g (.remote r) := by
  obtain ⟨h1, h2, h3, -⟩ := h
  exact ⟨⟨h1, h2, h3, fun h hh => by cases hh⟩, ⟨h1, h2, h3, fun h hh => by cases hh⟩⟩

/-- What handling `Insert(key)` leaves of the node of the key's group: the node
keeps knowing every address, and its store holds the key, under the node's
address if the key was not stored. The same is what `Insert(key)` called on
that node itself does. -/
theorem handleInsert_spec {H : HashFunc} {K : Int} {hosts : List String}
    (hdist : (hosts.map (fun h => lookupGroup (bytesOf h) K H.new)).Nodup)
    (n : NetNode) (b : Nat) (hostB : String) (hb : hosts[b]? = some hostB)
    (hinv : NodeInv H K hostB hosts (fun s => s.WF n.heap) n.klp)
    (rt : Runtime) (now : Int) (key : Bytes) :
    ∃ hB hB1, n.home = some hB ∧ (n.handleInsert rt now key).home = some hB1 ∧
      hB.Insert n.heap rt now key =
        some ((n.handleInsert rt now key).heap, hB1, (hostB, none), []) ∧
      NodeInv H K hostB hosts (fun s => s.WF (n.handleInsert rt now key).heap)
        (n.handleInsert rt now key).klp ∧
      (hB.tuples.get n.heap key = none →
        hB1.tuples.get (n.handleInsert rt now key).heap key =
          some { Key := key, Host := hostB, heartbeats := 0, lastseen := now }) ∧
      (∀ tp, hB.tuples.get n.heap key = some tp →
        hB1.tuples.get (n.handleInsert rt now key).heap key = some tp) ∧
      (lookupGroup key K H.new = some n.klp.id →
        n.klp.Insert n.heap rt now key =
          some ((n.handleInsert rt now key).heap, (n.handleInsert rt now key).klp,
            (hostB, none), [])) := by
  obtain ⟨h, heap1, tuples1, hhome, hgrp, hgc, hins, hwf1, habs, hpres, hginv⟩ :=
    owner_home_Insert hdist n b hostB hb hinv rt now key
  have hh : n.handleInsert rt now key =
      ⟨n.klp.setGroup n.klp.id (.home { h with tuples := tuples1 }), heap1⟩ := by
    simp only [NetNode.handleInsert, hhome, hins]
  rw [hh]
  refine ⟨h, { h with tuples := tuples1 }, hhome, ?_, hins, ?_, habs, hpres, ?_⟩
  · simp only [NetNode.home]
    have : (n.klp.setGroup n.klp.id (.home { h with tuples := tuples1 })).id = n.klp.id := rfl
    rw [this, group_setGroup n.klp n.klp.id _ _ hgrp]
  · exact NodeInv_setGroup n.klp.id _ _ hinv hgrp hginv (Or.inl rfl)
  · intro hidx
    have hidx' : lookupGroup key n.klp.k n.klp.hasher.new = some n.klp.id := by
      rw [hinv.1, hinv.2.1]
      exact hidx
    rw [Kelips_Insert_home n.klp n.heap rt now key n.klp.id h hidx' hgrp, hins]
    rfl

/-- `Insert(key)` on node `i` of a network in which every node knows every
address and no two nodes share a group: it returns the address of the node of
the key's group, and afterwards that node's store holds the key, under this
address if the key was not stored there before; the nodes still know every
address. -/
theorem networkInsert_spec {H : HashFunc} {K : Int} {hosts : List String}
    {nodes : List NetNode} (hinv : NetInv H K hosts nodes)
    (hdist : (hosts.map (fun h => lookupGroup (bytesOf h) K H.new)).Nodup)
    (key : Bytes) (idx : Int) (hidx : lookupGroup key K H.new = some idx)
    (b : Nat) (hostB : String) (hb : hosts[b]? = some hostB)
    (hown : lookupGroup (bytesOf hostB) K H.new = some idx)
    (i : Nat) (hi : i < hosts.length) (rt rtS : Runtime) (now nowS : Int) (d : Nat) :
    ∃ nodes1 nb nb1 hB hB1 now1,
      networkInsert nodes i rt rtS now nowS (d + 1) key = some (nodes1, (hostB, none)) ∧
      NetInv H K hosts nodes1 ∧
      nodes[b]? = some nb ∧ nb.home = some hB ∧
      nodes1[b]? = some nb1 ∧ nb1.home = some hB1 ∧
      (hB.tuples.get nb.heap key = none →
        hB1.tuples.get nb1.heap key =
          some { Key := key, Host := hostB, heartbeats := 0, lastseen := now1 }) ∧
      (∀ tp, hB.tuples.get nb.heap key = some tp → hB1.tuples.get nb1.heap key = some tp) := by
  have hil : i < nodes.length := by rw [hinv.1]; exact hi
  have hbl : b < nodes.length := by
    rw [hinv.1]
    exact (List.getElem?_eq_some_iff.1 hb).1
  have hnA : nodes[i]? = some nodes[i] := List.getElem?_eq_getElem hil
  have hhA : hosts[i]? = some hosts[i] := List.getElem?_eq_getElem hi
  have hinvA := hinv.2 i nodes[i] hosts[i] hnA hhA
  have hinvT := NodeInv_withTrans (netTransport nodes rtS nowS (d + 1)) hinvA
  have hidxT : lookupGroup key (nodes[i].klp.withTrans (netTransport nodes rtS nowS (d + 1))).k
      (nodes[i].klp.withTrans (netTransport nodes rtS nowS (d + 1))).hasher.new = some idx := by
    rw [hinvT.1, hinvT.2.1]
    exact hidx
  by_cases hib : i = b
  · subst hib
    rw [hhA] at hb
    have hhost : hosts[i] = hostB := Option.some.inj hb
    rw [hhost] at hinvA hinvT hhA
    have hid : idx = nodes[i].klp.id := by
      have := hinvA.2.2.2.1
      rw [hown] at this
      exact Option.some.inj this
    obtain ⟨hB, hB1, hhome, hhome1, -, hinv1, habs, hpres, hins⟩ :=
      handleInsert_spec hdist ⟨nodes[i].klp.withTrans (netTransport nodes rtS nowS (d + 1)),
        nodes[i].heap⟩ i hostB hhA hinvT rt now key
    have hins1 := hins (by rw [hidx, hid]; rfl)
    obtain ⟨hB0, -, hhome0, -⟩ := NodeInv_home hinvA
    rw [home_withTrans, hhome0] at hhome
    simp only [Option.map_some', Option.some.injEq] at hhome
    subst hhome
    refine ⟨nodes.set i (NetNode.handleInsert
        ⟨nodes[i].klp.withTrans (netTransport nodes rtS nowS (d + 1)), nodes[i].heap⟩ rt now key),
      nodes[i], _, hB0, hB1, now, ?_, ?_, hnA, hhome0, ?_, hhome1, habs, hpres⟩
    · simp only [networkInsert, hnA, hins1, List.foldl_nil]
    · exact NetInv_set hinv i hostB _ hhA hinv1
    · rw [List.getElem?_set_self hil]
  · have hnB : nodes[b]? = some nodes[b] := List.getElem?_eq_getElem hbl
    have hinvB := hinv.2 b nodes[b] hostB hnB hb
    have hne : hostB ≠ hosts[i] := by
      intro h
      exact hib (owner_unique H K hosts hdist i b hosts[i] hostB hhA hb (by rw [h])).1
    have hidne : idx ≠ nodes[i].klp.id := by
      intro h
      have := hinvA.2.2.2.1
      rw [← h, ← hown] at this
      exact hib (owner_unique H K hosts hdist i b hosts[i] hostB hhA hb this).1
    obtain ⟨idx', grp, hidx', -, -, hgrp⟩ := Shaped_group _ hinvT.2.2.1 key
    rw [hidxT] at hidx'
    cases hidx'
    obtain ⟨r, p, hr, hrc, hclosest, hpa⟩ := remote_picks_owner hdist _ hosts[i] _ hinvT
      b hostB idx hb hown hne hidne grp hgrp rt
    subst hr
    have hrt : r.trans = netTransport nodes rtS nowS (d + 1) := by
      rw [withTrans_group] at hgrp
      cases hk : nodes[i].klp.group idx with
      | none => rw [hk] at hgrp; cases hgrp
      | some grp0 =>
        rw [hk] at hgrp
        exact withTrans_remote grp0 _ r (Option.some.inj hgrp)
    have hrid : r.ID = idx := by rw [hrc]
    obtain ⟨hB, hB1, hhome, hhome1, hinsB, hinv1, habs, hpres, -⟩ :=
      handleInsert_spec hdist nodes[b] b hostB hb hinvB rtS nowS key
    have htr := netTransport_Insert hinv hdist b hostB idx hb hown nodes[b] hnB hB hhome
      rtS nowS d key _ hinsB
    simp only [] at htr
    have hcall : (nodes[i].klp.withTrans (netTransport nodes rtS nowS (d + 1))).Insert
        nodes[i].heap rt now key =
        some (nodes[i].heap,
          (nodes[i].klp.withTrans (netTransport nodes rtS nowS (d + 1))).setGroup idx
            (.remote r.beat), (hostB, none), [TransportCall.Insert ⟨idx, hostB⟩ key]) := by
      unfold Kelips.Insert
      simp only [hidxT, hgrp, Option.bind_eq_bind, Option.some_bind, AffinityGroup.Insert,
        remoteAffinityGroup.Insert, hclosest, hpa, hrid, hrt, htr, if_true, Option.map_some']
    have hinvA1 : NodeInv H K hosts[i] hosts (fun s => s.WF nodes[i].heap)
        ((nodes[i].klp.withTrans (netTransport nodes rtS nowS (d + 1))).setGroup idx
          (.remote r.beat)) :=
      NodeInv_setGroup idx _ _ hinvT hgrp (GroupInv_beat (hinvT.2.2.2.2 idx _ hgrp)).1
        (Or.inr (fun s hs => hs))
    have hinv' := NetInv_set hinv i hosts[i]
      ⟨(nodes[i].klp.withTrans (netTransport nodes rtS nowS (d + 1))).setGroup idx
        (.remote r.beat), nodes[i].heap⟩ hhA hinvA1
    have hnB' : (nodes.set i
        ⟨(nodes[i].klp.withTrans (netTransport nodes rtS nowS (d + 1))).setGroup idx
          (.remote r.beat), nodes[i].heap⟩)[b]? = some nodes[b] := by
      rw [List.getElem?_set_ne hib]
      exact hnB
    have hdel := deliverInsert_unique rtS nowS ⟨idx, hostB⟩ key _ b nodes[b] hnB'
      ((serves_iff_owner hinv' hdist b hostB idx hb hown b nodes[b] hnB').2 rfl)
      (fun m y hm hy => (serves_iff_owner hinv' hdist b hostB idx hb hown m y hm).1 hy)
    refine ⟨(nodes.set i
        ⟨(nodes[i].klp.withTrans (netTransport nodes rtS nowS (d + 1))).setGroup idx
          (.remote r.beat), nodes[i].heap⟩).set b (nodes[b].handleInsert rtS nowS key),
      nodes[b], nodes[b].handleInsert rtS nowS key, hB, hB1, nowS, ?_, ?_, hnB, hhome,
      ?_, hhome1, habs, hpres⟩
    · simp only [networkInsert, hnA, hcall, List.foldl_cons, List.foldl_nil, deliverCall, hdel]
    · exact NetInv_set hinv' b hostB _ hb hinv1
    · rw [List.getElem?_set_self (by rw [List.length_set]; exact hbl)]

/-! ## Networks: Lookup -/

/-- The node's `Lookup` is the `Lookup` of the key's group. -/
theorem Kelips_Lookup_group (klp : Kelips) (heap : Heap) (rt : Runtime) (req : Request)
    (idx : Int) (group : AffinityGroup)
    (hidx : lookupGroup req.Key klp.k klp.hasher.new = some idx)
    (hg : klp.group idx = some group) :
    klp.Lookup heap rt req =
      (group.Lookup heap rt req).map (fun r => (klp.setGroup idx r.1, r.2)) := by
  unfold Kelips.Lookup
  simp only [hidx, hg, Option.bind_eq_bind, Option.some_bind]
  cases group.Lookup heap rt req <;> rfl

theorem exists_of_map_result {α β γ : Type} (o : Option (α × β × γ)) (z : γ)
    (h : o.map (fun x => x.2.2) = some z) : ∃ a b, o = some (a, b, z) := by
  cases o with
  | none => cases h
  | some x =>
    simp only [Option.map_some', Option.some.injEq] at h
    exact ⟨x.1, x.2.1, by rw [← h]⟩

/-- `Lookup` on node `j` of a network in which every node knows every address
and no two nodes share a group, for a key that the node of the key's group
stores: it returns the stored host, with a nil error, whatever the TTL. -/
theorem networkLookup_spec {H : HashFunc} {K : Int} {hosts : List String}
    {nodes : List NetNode} (hinv : NetInv H K hosts nodes)
    (hdist : (hosts.map (fun h => lookupGroup (bytesOf h) K H.new)).Nodup)
    (req : Request) (idx : Int) (hidx : lookupGroup req.Key K H.new = some idx)
    (b : Nat) (hostB : String) (hb : hosts[b]? = some hostB)
    (hown : lookupGroup (bytesOf hostB) K H.new = some idx)
    (nb : NetNode) (hB : affinityGroup) (tp : Tuple) (hnb : nodes[b]? = some nb)
    (hhome : nb.home = some hB) (hstored : hB.tuples.get nb.heap req.Key = some tp)
    (j : Nat) (hj : j < hosts.length) (rt rtS : Runtime) (nowS : Int) (d : Nat) :
    ∃ nodes2 req2,
      networkLookup nodes j rt rtS nowS (d + 1) req = some (nodes2, req2, (tp.Host, none)) := by
  have hjl : j < nodes.length := by rw [hinv.1]; exact hj
  have hnJ : nodes[j]? = some nodes[j] := List.getElem?_eq_getElem hjl
  have hhJ : hosts[j]? = some hosts[j] := List.getElem?_eq_getElem hj
  have hinvJ := hinv.2 j nodes[j] hosts[j] hnJ hhJ
  have hinvT := NodeInv_withTrans (netTransport nodes rtS nowS (d + 1)) hinvJ
  have hidxT : lookupGroup req.Key
      (nodes[j].klp.withTrans (netTransport nodes rtS nowS (d + 1))).k
      (nodes[j].klp.withTrans (netTransport nodes rtS nowS (d + 1))).hasher.new = some idx := by
    rw [hinvT.1, hinvT.2.1]
    exact hidx
  by_cases hjb : j = b
  · subst hjb
    rw [hhJ] at hb
    have hhost : hosts[j] = hostB := Option.some.inj hb
    rw [hnJ] at hnb
    cases hnb
    have hid : idx = nodes[j].klp.id := by
      have := hinvJ.2.2.2.1
      rw [hhost, hown] at this
      exact Option.some.inj this
    have hhomeT := home_withTrans nodes[j] (netTransport nodes rtS nowS (d + 1))
    rw [hhome] at hhomeT
    simp only [Option.map_some'] at hhomeT
    obtain ⟨g, hgrp, hhome2, -⟩ := NodeInv_home
      (n := ⟨nodes[j].klp.withTrans (netTransport nodes rtS nowS (d + 1)), nodes[j].heap⟩) hinvT
    rw [hhomeT] at hhome2
    cases hhome2
    simp only [] at hgrp
    have hgrp' : (nodes[j].klp.withTrans (netTransport nodes rtS nowS (d + 1))).group idx =
        some (.home { hB with trans := netTransport nodes rtS nowS (d + 1) }) := by
      rw [hid]
      exact hgrp
    have hl := Kelips_Lookup_group _ nodes[j].heap rt req idx _ hidxT hgrp'
    rw [home_Lookup_hit { hB with trans := netTransport nodes rtS nowS (d + 1) }
      nodes[j].heap rt req tp hstored] at hl
    apply exists_of_map_result
    simp only [networkLookup, hnJ, hl, Option.map_some']
  · have hinvB := hinv.2 b nb hostB hnb hb
    have hne : hostB ≠ hosts[j] := by
      intro h
      exact hjb (owner_unique H K hosts hdist j b hosts[j] hostB hhJ hb (by rw [h])).1
    have hidne : idx ≠ nodes[j].klp.id := by
      intro h
      have := hinvJ.2.2.2.1
      rw [← h, ← hown] at this
      exact hjb (owner_unique H K hosts hdist j b hosts[j] hostB hhJ hb this).1
    obtain ⟨idx', grp, hidx', -, -, hgrp⟩ := Shaped_group _ hinvT.2.2.1 req.Key
    rw [hidxT] at hidx'
    cases hidx'
    obtain ⟨r, p, hr, hrc, hclosest, hpa⟩ := remote_picks_owner hdist _ hosts[j] _ hinvT
      b hostB idx hb hown hne hidne grp hgrp rt
    subst hr
    have hrt : r.trans = netTransport nodes rtS nowS (d + 1) := by
      rw [withTrans_group] at hgrp
      cases hk : nodes[j].klp.group idx with
      | none => rw [hk] at hgrp; cases hgrp
      | some grp0 =>
        rw [hk] at hgrp
        exact withTrans_remote grp0 _ r (Option.some.inj hgrp)
    have hrid : r.ID = idx := by rw [hrc]
    have hserved : ({ hB with trans := netTransport nodes rtS nowS d } : affinityGroup).Lookup
        nb.heap rtS { req with Originator := r.toGroupContact } =
        some ((tp.Host, none), []) := by
      obtain ⟨ref, href, hd⟩ := (get_eq_some_iff _ _ _ _).1 hstored
      rw [home_Lookup_of_lookup { hB with trans := netTransport nodes rtS nowS d } nb.heap rtS
        { req with Originator := r.toGroupContact } ref href, hd]
    have htr := netTransport_Lookup hinv hdist b hostB idx hb hown nb hnb hB hhome
      rtS nowS d { req with Originator := r.toGroupContact } _ hserved
    simp only [] at htr
    have hl := Kelips_Lookup_group _ nodes[j].heap rt req idx _ hidxT hgrp
    have hgl : (AffinityGroup.remote r).Lookup nodes[j].heap rt req =
        some (.remote r.beat, { req with Originator := r.toGroupContact }, (tp.Host, none),
          [TransportCall.Lookup ⟨idx, hostB⟩ { req with Originator := r.toGroupContact }]) := by
      simp only [AffinityGroup.Lookup, remoteAffinityGroup.Lookup, hclosest, hpa, hrid, hrt,
        htr, if_true, Option.map_some']
    rw [hgl] at hl
    apply exists_of_map_result
    simp only [networkLookup, hnJ, hl, Option.map_some']

/-! ## Networks: Insert, then Lookup everywhere -/

/-- C24: for `K > 0` and addresses that hash to `K` distinct groups, the
network of the `K` nodes `New` builds at these addresses (default contact
directory and tuple store), every node having added every other node as a
peer, exists; in it every node knows every address and every store is empty.
On this network, and on every network of nodes that know every address (such as
the former after any inserts), over a transport that delivers each call to the
home group of the addressed node and returns its result verbatim: for a key not
yet stored anywhere, `Insert(key)` on any node `i` succeeds and returns a host,
the address of the node of the key's group; the nodes still know every address;
and afterwards `Lookup` of the key with TTL 1 on every node returns that host
with a nil error, whatever the runtimes choose. -/
theorem network_Insert_then_Lookup_same_host (sha256 : HashFunc) (conf : Config)
    (trans : Transport) (hosts : List String) (key : Bytes) (i : Nat) (rt rtS : Runtime)
    (now nowS : Int) (d : Nat)
    (hK : 0 < conf.K) (hK64 : conf.K ≤ maxInt64) (hlen : hosts.length = conf.K.toNat)
    (htr : conf.Transport = some trans) (hT : conf.Tuples = none) (hC : conf.Contacts = none)
    (hdist : (hosts.map (fun h =>
      lookupGroup (bytesOf h) conf.K (conf.HashFunc.getD sha256).new)).Nodup)
    (hi : i < hosts.length) :
    (∃ nodes0, makeNetwork sha256 conf hosts = some nodes0 ∧
      NetInv (conf.HashFunc.getD sha256) conf.K hosts nodes0 ∧
      ∀ (m : Nat) (nm : NetNode) (hm : affinityGroup), nodes0[m]? = some nm →
        nm.home = some hm → hm.tuples = NewInmemTuples) ∧
    ∀ nodes : List NetNode, NetInv (conf.HashFunc.getD sha256) conf.K hosts nodes →
      (∀ (m : Nat) (nm : NetNode) (hm : affinityGroup), nodes[m]? = some nm →
        nm.home = some hm → hm.tuples.get nm.heap key = none) →
      ∃ nodes1 host,
        networkInsert nodes i rt rtS now nowS (d + 1) key = some (nodes1, (host, none)) ∧
        host ∈ hosts ∧
        lookupGroup (bytesOf host) conf.K (conf.HashFunc.getD sha256).new =
          lookupGroup key conf.K (conf.HashFunc.getD sha256).new ∧
        NetInv (conf.HashFunc.getD sha256) conf.K hosts nodes1 ∧
        ∀ (j : Nat) (rt2 rtS2 : Runtime) (nowS2 : Int) (d2 : Nat) (orig : GroupContact),
          j < hosts.length →
          ∃ nodes2 req2,
            networkLookup nodes1 j rt2 rtS2 nowS2 (d2 + 1) ⟨key, 1, orig⟩ =
              some (nodes2, req2, (host, none)) := by
  constructor
  · obtain ⟨nodes, hmk, hnl, hspec⟩ :=
      makeNetwork_spec sha256 conf trans hosts hK hK64 htr hT hC
    refine ⟨nodes, hmk, ⟨hnl, ?_⟩, ?_⟩
    · intro m n host hm hh
      refine NodeInv_mono (hspec m n host hm hh).2 (fun a => Iff.rfl) ?_
      intro s hs
      rw [hs]
      exact WF_empty _
    · intro m nm hm hnm hhome
      have hml : m < hosts.length := by
        rw [← hnl]
        exact (List.getElem?_eq_some_iff.1 hnm).1
      obtain ⟨g, -, hg, -, hgt, -⟩ :=
        NodeInv_home (hspec m nm hosts[m] hnm (List.getElem?_eq_getElem hml)).2
      rw [hhome] at hg
      cases hg
      exact hgt
  · intro nodes hinv hfresh
    obtain ⟨idx, hidx, h0, h1⟩ :=
      lookupGroup_range key conf.K (conf.HashFunc.getD sha256) hK hK64
    obtain ⟨b, hostB, hb, hown⟩ := owner_exists (conf.HashFunc.getD sha256) conf.K hosts hK
      hK64 hlen hdist idx h0 h1
    obtain ⟨nodes1, nb, nb1, hB, hB1, now1, hins, hinv1, hnb, hhome, hnb1, hhome1, habs, -⟩ :=
      networkInsert_spec hinv hdist key idx hidx b hostB hb hown i hi rt rtS now nowS d
    have hstored := habs (hfresh b nb hB hnb hhome)
    have hmem : hostB ∈ hosts := by
      obtain ⟨hl, hg⟩ := List.getElem?_eq_some_iff.1 hb
      rw [← hg]
      exact List.getElem_mem _
    refine ⟨nodes1, hostB, hins, hmem, by rw [hown, hidx], hinv1, ?_⟩
    intro j rt2 rtS2 nowS2 d2 orig hj
    exact networkLookup_spec hinv1 hdist ⟨key, 1, orig⟩ idx hidx b hostB hb hown nb1 hB1 _
      hnb1 hhome1 hstored j hj rt2 rtS2 nowS2 d2

/-- C24 on the network of three nodes at `127.0.0.1:9000`, `:9001` and `:9002`:
`Insert("foo")` on the first node returns `127.0.0.1:9001`, the node of group 2,
and `Lookup` with TTL 1 on each of the three nodes returns it. -/
theorem network_Insert_then_Lookup_same_host_witness :
    (0 : Int) < (testConf 3).K ∧ (testConf 3).K ≤ maxInt64 ∧
    testHosts.length = (testConf 3).K.toNat ∧
    (testHosts.map (fun h => lookupGroup (bytesOf h) (testConf 3).K
      ((testConf 3).HashFunc.getD sumHash).new)) = [some 1, some 2, some 0] ∧
    testNetworkInserted.map (fun r => r.2) = some ("127.0.0.1:9001", none) ∧
    (List.range 3).map (fun j => (testNetworkInserted.bind (fun r =>
        networkLookup r.1 j ⟨RangeOrder.reversed, 0⟩ ⟨RangeOrder.stored, 0⟩ testNow 1
          ⟨bytesOf "foo", 1, ⟨0, ""⟩⟩)).map (fun x => x.2.2)) =
      [some ("127.0.0.1:9001", none), some ("127.0.0.1:9001", none),
        some ("127.0.0.1:9001", none)] ∧
    ∃ nodes0, makeNetwork sumHash (testConf 3) testHosts = some nodes0 ∧
      NetInv ((testConf 3).HashFunc.getD sumHash) (testConf 3).K testHosts nodes0 ∧
      ∀ (m : Nat) (nm : NetNode) (hm : affinityGroup), nodes0[m]? = some nm →
        nm.home = some hm → hm.tuples = NewInmemTuples :=
  ⟨by decide, by decide, by decide, by decide, by decide, by decide,
    (network_Insert_then_Lookup_same_host sumHash (testConf 3) testTransport testHosts
      (bytesOf "foo") 0 ⟨RangeOrder.stored, 0⟩ ⟨RangeOrder.stored, 0⟩ testNow testNow 0
      (by decide) (by decide) (by decide) rfl rfl rfl (by decide) (by decide)).1⟩

/-! ## Config: what Validate keeps -/

/-- C36, as stated, fails: a caller who sets only `TupleExpireMaxInt` (50 s)
gets 30 s after `Validate`, and a caller who sets only `TupleExpireMinInt` (5 s)
gets 20 s: both branches of `config.go` lines 49-55 assign both bounds. -/
theorem Validate_overwrites_set_bound_counterexample :
    testConfOnlyMax.TupleExpireMaxInt = 50 * Second ∧
    testConfOnlyMax.TupleExpireMaxInt ≠ 0 ∧
    (testConfOnlyMax.Validate sumHash).TupleExpireMaxInt = 30 * Second ∧
    (testConfOnlyMax.Validate sumHash).TupleExpireMaxInt ≠ testConfOnlyMax.TupleExpireMaxInt ∧
    testConfOnlyMin.TupleExpireMinInt = 5 * Second ∧
    testConfOnlyMin.TupleExpireMinInt ≠ 0 ∧
    (testConfOnlyMin.Validate sumHash).TupleExpireMinInt = 20 * Second ∧
    (testConfOnlyMin.Validate sumHash).TupleExpireMinInt ≠ testConfOnlyMin.TupleExpireMinInt := by
  decide

/-- C36, amended. For every config, `Validate` keeps a non-zero `TupleTTL` and
sets a zero one to 30 s; it keeps `TupleExpireMinInt` and `TupleExpireMaxInt`
when both are non-zero, and when either of them is zero it sets the pair to
20 s and 30 s, overwriting the one the caller may have set. `K`, the transport
and the contact factory are as they were, a set hash function and a set tuple
store are kept. -/
theorem Validate_keeps_set_pairs (sha256 : HashFunc) (conf : Config) :
    (conf.Validate sha256).TupleTTL =
      (if conf.TupleTTL = 0 then 30 * Second else conf.TupleTTL) ∧
    (conf.Validate sha256).TupleExpireMinInt =
      (if conf.TupleExpireMaxInt = 0 ∨ conf.TupleExpireMinInt = 0 then 20 * Second
       else conf.TupleExpireMinInt) ∧
    (conf.Validate sha256).TupleExpireMaxInt =
      (if conf.TupleExpireMaxInt = 0 ∨ conf.TupleExpireMinInt = 0 then 30 * Second
       else conf.TupleExpireMaxInt) ∧
    (conf.Validate sha256).K = conf.K ∧
    (conf.Validate sha256).Transport = conf.Transport ∧
    (conf.Validate sha256).Contacts = conf.Contacts ∧
    (conf.Validate sha256).HashFunc = some (conf.HashFunc.getD sha256) ∧
    (conf.Validate sha256).Tuples = some (conf.Tuples.getD NewInmemTuples) := by
  have hd : (conf.Validate sha256).TupleTTL =
        (if conf.TupleTTL = 0 then 30 * Second else conf.TupleTTL) ∧
      (conf.Validate sha256).TupleExpireMinInt =
        (if conf.TupleExpireMaxInt = 0 ∨ conf.TupleExpireMinInt = 0 then 20 * Second
         else conf.TupleExpireMinInt) ∧
      (conf.Validate sha256).TupleExpireMaxInt =
        (if conf.TupleExpireMaxInt = 0 ∨ conf.TupleExpireMinInt = 0 then 30 * Second
         else conf.TupleExpireMaxInt) := by
    obtain ⟨K, H, ttl, emin, emax, tr, tu, co⟩ := conf
    unfold Config.Validate
    by_cases h1 : ttl = 0 <;> by_cases h2 : emax = 0 <;> by_cases h3 : emin = 0 <;>
      cases H <;> cases tu <;> simp [h1, h2, h3]
  exact ⟨hd.1, hd.2.1, hd.2.2, Validate_fields sha256 conf⟩

/-! ## Gossip-backed directory: GetClosest -/

/-- C31 fails on the code: a gossip-backed directory whose contacts resolve to
one peer returns that peer with `true`, whoever it is (`case 1: return
lpeers[0], true`); the directory does not know the local host. So the home
directory that holds the local host only returns the local host, not `(nil,
false)`. -/
theorem gossip_GetClosest_returns_sole_contact (g : gossipContactStorage) (p : Peer)
    (hlaw : g.peers.Lawful) (hres : g.peers.GetByAddress g.contacts = [some p]) :
    g.GetClosest = (some p, true) ∧ g.GetClosest ≠ (none, false) := by
  have hperm := hlaw.2 (g.peers.GetByAddress g.contacts)
  rw [hres] at hperm
  have hs : g.peers.sortClosest [some p] = [some p] := List.perm_singleton.1 hperm
  have : g.GetClosest = (some p, true) := by
    simp only [gossipContactStorage.GetClosest, hres, hs]
  rw [this]
  exact ⟨rfl, by simp⟩

/-- C31 at the home group of node `127.0.0.1:9000` whose gossip-backed
directory, made by the factory for a home group, holds the node itself only:
`GetClosest` returns the node itself, and the group's `Lookup` of an absent key
calls the transport with the node's own contact. -/
theorem gossip_GetClosest_returns_sole_contact_witness :
    testHomeGossipContacts = .gossip ⟨0, testLibraryAll, ["127.0.0.1:9000"]⟩ ∧
    testHomeGossip.Host = "127.0.0.1:9000" ∧
    testHomeGossip.contacts.GetClosest ⟨RangeOrder.stored, 0⟩ =
      (some ⟨"127.0.0.1:9000", 0, 0⟩, true) ∧
    (testHomeGossip.Lookup ⟨[]⟩ ⟨RangeOrder.stored, 0⟩ testRequest1).map (fun r => r.2) =
      some [TransportCall.Lookup ⟨0, "127.0.0.1:9000"⟩
        ⟨bytesOf "foo", 0, ⟨0, "127.0.0.1:9000"⟩⟩] ∧
    (gossipContactStorage.GetClosest ⟨0, testLibraryAll, ["127.0.0.1:9000"]⟩ =
        (some ⟨"127.0.0.1:9000", 0, 0⟩, true) ∧
      gossipContactStorage.GetClosest ⟨0, testLibraryAll, ["127.0.0.1:9000"]⟩ ≠ (none, false)) :=
  ⟨rfl, rfl, rfl, rfl,
    gossip_GetClosest_returns_sole_contact ⟨0, testLibraryAll, ["127.0.0.1:9000"]⟩
      ⟨"127.0.0.1:9000", 0, 0⟩
      ⟨fun addrs => by simp [testLibraryAll], fun l => List.Perm.refl l⟩ rfl⟩

/-! ## Malformed frames -/

/-- A complete record of fewer than 18 bytes makes `readTuples` panic at
`line[18:]`. -/
theorem readTuples_short_record (net : Net) (heap : Heap) (n : Byte) (rest : Bytes)
    (hn : n.val < 18) (hrest : n.val ≤ rest.length) :
    readTuples net heap (n :: rest) = none := by
  unfold readTuples
  have h1 : ¬ rest.length < n.val := by omega
  have h2 : (rest.take n.val).length < 18 := by
    rw [List.length_take]
    omega
  simp only [List.length_cons, readTuplesLoop, h1, h2, if_false, if_true]

/-- A first record cut short makes `readTuples` return an error and no tuple;
nothing is allocated. -/
theorem readTuples_truncated_record (net : Net) (heap : Heap) (n : Byte) (rest : Bytes)
    (h : rest.length < n.val) :
    ∃ err, readTuples net heap (n :: rest) = some (heap, [], some err) := by
  unfold readTuples
  simp only [List.length_cons, readTuplesLoop, h, if_true]
  exact ⟨_, rfl⟩

/-- The host header of a message of at least 18 bytes converts. -/
theorem hostBytesToString_isSome (net : Net) (host : Bytes) (h : 18 ≤ host.length) :
    ∃ s, hostBytesToString net host = some s := by
  unfold hostBytesToString
  rw [if_neg (by omega)]
  exact ⟨_, rfl⟩

/-- C32 fails on the code. A frame whose first record has a length byte below
18 (and is complete) makes `readTuples` panic, and with it `MergeRemoteState`
(either value of `join`) and `NotifyMsg` given that frame after an 18-byte
header; a message shorter than the 18-byte header makes `NotifyMsg` panic at
`msg[:18]`. Only the truncated record is handled as the claim says: `readTuples`
returns an error, and `MergeRemoteState` and `NotifyMsg` return leaving store
and memory as they were. -/
theorem malformed_frame_panics (net : Net) (heap : Heap) (g : tuplesGossipDelegate) (now : Int)
    (remote : String) (join : Bool) (n n2 : Byte) (rest rest2 msg hdr : Bytes)
    (hn : n.val < 18) (hrest : n.val ≤ rest.length) (hmsg : msg.length < 18)
    (hhdr : hdr.length = 18) (htrunc : rest2.length < n2.val) :
    readTuples net heap (n :: rest) = none ∧
    g.MergeRemoteState net heap now remote (n :: rest) join = none ∧
    g.NotifyMsg net heap now (hdr ++ n :: rest) = none ∧
    g.NotifyMsg net heap now msg = none ∧
    (∃ err, readTuples net heap (n2 :: rest2) = some (heap, [], some err)) ∧
    g.MergeRemoteState net heap now remote (n2 :: rest2) join = some (heap, g) ∧
    g.NotifyMsg net heap now (hdr ++ n2 :: rest2) = some (heap, g) := by
  have hshort := readTuples_short_record net heap n rest hn hrest
  obtain ⟨err, herr⟩ := readTuples_truncated_record net heap n2 rest2 htrunc
  have htake : ∀ x : Bytes, (hdr ++ x).take 18 = hdr := fun x => List.take_left' hhdr
  have hdrop : ∀ x : Bytes, (hdr ++ x).drop 18 = x := fun x => List.drop_left' hhdr
  obtain ⟨s, hs⟩ := hostBytesToString_isSome net hdr (by omega)
  have hlen : ∀ x : Bytes, ¬ (hdr ++ x).length < 18 := by
    intro x
    rw [List.length_append]
    omega
  refine ⟨hshort, ?_, ?_, ?_, ⟨err, herr⟩, ?_, ?_⟩
  · unfold tuplesGossipDelegate.MergeRemoteState
    rw [if_neg (by simp), hshort]
  · unfold tuplesGossipDelegate.NotifyMsg
    rw [if_neg (hlen _), htake, hs, hdrop, hshort]
  · unfold tuplesGossipDelegate.NotifyMsg
    rw [if_pos hmsg]
  · unfold tuplesGossipDelegate.MergeRemoteState
    rw [if_neg (by simp), herr]
  · unfold tuplesGossipDelegate.NotifyMsg
    rw [if_neg (hlen _), htake, hs, hdrop, herr]

/-- C32 on concrete frames: the one-byte frame `[0]` (a record of length 0)
and the empty message panic; the frame `[20, 1]` (a record of 20 bytes of which
one is there) is dropped. -/
theorem malformed_frame_panics_witness :
    readTuples testNet testHeap [0] = none ∧
    testDelegate.MergeRemoteState testNet testHeap testNow "127.0.0.1:9001" [0] false = none ∧
    testDelegate.NotifyMsg testNet testHeap testNow (List.replicate 18 0 ++ [0]) = none ∧
    testDelegate.NotifyMsg testNet testHeap testNow [] = none ∧
    (∃ err, readTuples testNet testHeap [20, 1] = some (testHeap, [], some err)) ∧
    testDelegate.MergeRemoteState testNet testHeap testNow "127.0.0.1:9001" [20, 1] false =
      some (testHeap, testDelegate) ∧
    testDelegate.NotifyMsg testNet testHeap testNow (List.replicate 18 0 ++ [20, 1]) =
      some (testHeap, testDelegate) :=
  malformed_frame_panics testNet testHeap testDelegate testNow "127.0.0.1:9001" false 0 20 [] [1]
    [] (List.replicate 18 0) (by decide) (by decide) (by decide) (by decide) (by decide)

/-! ## State exchange: MergeRemoteState -/

/-- What `Ping` leaves of the tuple a key maps to, by the number of times the
key is listed. -/
theorem Ping_deref_mapped (tuples : InmemTuples) (heap : Heap) (now : Int) (keys : List Bytes)
    (hwf : tuples.WF heap) (k : Bytes) (r : Ref) (hr : tuples.m.lookup k = some r) :
    (tuples.Ping heap now keys).1.deref r =
      if keys.count k = 0 then heap.deref r
      else { heap.deref r with
             heartbeats := wrapInt64 ((heap.deref r).heartbeats + keys.count k)
             lastseen := now } := by
  have hc := WF_count_eq hwf hr keys
  by_cases h0 : keys.count k = 0
  · rw [if_pos h0]
    apply pingFold_deref_other
    intro k' hk' e
    have : k' = k := WF_injective hwf e hr
    subst this
    exact absurd (List.count_pos_iff.2 hk') (by omega)
  · rw [if_neg h0]
    have hpos : 0 < keys.countP (fun k' => decide (tuples.m.lookup k' = some r)) := by
      rw [hc]; omega
    have := pingFold_deref tuples now keys (heap, 0) r (WF_lookup hwf hr).1 hpos
    rw [hc] at this
    exact this

/-- The keys `pingRemoteTuples` collects: those of the tuples whose host is the
remote address, in order. -/
theorem remoteKeys_foldl (heap : Heap) (remote : String) (tuples : List Ref) (acc : List Bytes) :
    tuples.foldl
        (fun keys tuple =>
          if (heap.deref tuple).Host ≠ remote then keys
          else keys ++ [(heap.deref tuple).Key]) acc =
      acc ++ ((tuples.map heap.deref).filter (fun t => decide (t.Host = remote))).map
        (fun t => t.Key) := by
  induction tuples generalizing acc with
  | nil => simp
  | cons t ts ih =>
    rw [List.foldl_cons, ih]
    by_cases h : (heap.deref t).Host = remote
    · simp [h]
    · simp [h]

/-- The number of times a key is among the collected keys is the number of
records of that key whose host is the remote address. -/
theorem count_remoteKeys (recs : List Tuple) (remote : String) (k : Bytes) :
    ((recs.filter (fun t => decide (t.Host = remote))).map (fun t => t.Key)).count k =
      recs.countP (fun t => decide (t.Host = remote ∧ t.Key = k)) := by
  induction recs with
  | nil => rfl
  | cons t ts ih =>
    by_cases h1 : t.Host = remote
    · by_cases h2 : t.Key = k
      · simp [List.filter_cons, h1, h2, ih]
      · have h2' : ¬ k = t.Key := fun e => h2 e.symm
        simp [List.filter_cons, h1, h2, ih, List.count_cons, h2']
    · simp [List.filter_cons, h1, ih]

/-- MergeRemoteState without `join`, in terms of the parse of the buffer: the
records are allocated and the store is pinged with the keys of the records
whose host is the remote address. -/
theorem MergeRemoteState_of_parse (g : tuplesGossipDelegate) (net : Net) (heap : Heap)
    (now : Int) (remote : String) (buf : Bytes) (recs : List Tuple)
    (hne : buf ≠ [])
    (hbuf : parseTuplesLoop net (buf.length + 1) buf = some (recs, none)) :
    g.MergeRemoteState net heap now remote buf false =
      some ((g.tuples.Ping ⟨heap.objs ++ recs⟩ now
        ((recs.filter (fun t => decide (t.Host = remote))).map (fun t => t.Key))).1, g) := by
  unfold tuplesGossipDelegate.MergeRemoteState readTuples
  have hl : ¬ buf.length = 0 := fun h => hne (List.length_eq_zero.1 h)
  rw [if_neg hl, readTuplesLoop_eq_parse, hbuf]
  simp only [Option.map_some', List.nil_append, Bool.false_eq_true, if_false,
    tuplesGossipDelegate.pingRemoteTuples]
  rw [remoteKeys_foldl, map_deref_appended, List.nil_append]

/-- Ping keeps the store invariant. -/
theorem WF_Ping {tuples : InmemTuples} {heap : Heap} (hwf : tuples.WF heap) (now : Int)
    (keys : List Bytes) : tuples.WF (tuples.Ping heap now keys).1 := by
  apply WF_of_lookup
  intro k r hr
  refine ⟨(pingFold_valid tuples now keys (heap, 0) r).2 (WF_lookup hwf hr).1, ?_⟩
  rw [Ping_deref_mapped tuples heap now keys hwf k r hr]
  split_ifs
  · exact (WF_lookup hwf hr).2
  · exact (WF_lookup hwf hr).2

/-- C33: `MergeRemoteState(remote, buf, false)` on a store satisfying the
invariant, for a buffer that parses to the records `recs` with a nil error. It
returns with the delegate's store as it was: no key is added or removed. The
tuple stored under a key is pinged once per record of that key whose Host is
the remote address: with `n` such records, `n` not zero, its heartbeats are
incremented `n` times in `int64` (they are the old count plus `n` when that
fits) and its lastseen is `now`, Key and Host unchanged; with no such record
(the key does not occur, or only in records of other hosts) the tuple is
unchanged. Every object of the memory that no key maps to is unchanged, and
the invariant holds afterwards. -/
theorem MergeRemoteState_pings_attested (g : tuplesGossipDelegate) (net : Net) (heap : Heap)
    (now : Int) (remote : String) (buf : Bytes) (recs : List Tuple)
    (hwf : g.tuples.WF heap)
    (hbuf : parseTuplesLoop net (buf.length + 1) buf = some (recs, none)) :
    ∃ heap1,
      g.MergeRemoteState net heap now remote buf false = some (heap1, g) ∧
      (∀ k r, g.tuples.m.lookup k = some r →
        heap1.deref r =
          if recs.countP (fun t => decide (t.Host = remote ∧ t.Key = k)) = 0 then heap.deref r
          else { heap.deref r with
                 heartbeats := wrapInt64 ((heap.deref r).heartbeats +
                   recs.countP (fun t => decide (t.Host = remote ∧ t.Key = k)))
                 lastseen := now }) ∧
      (∀ k r, g.tuples.m.lookup k = some r →
        isInt64 ((heap.deref r).heartbeats +
          recs.countP (fun t => decide (t.Host = remote ∧ t.Key = k))) →
        (heap1.deref r).heartbeats = (heap.deref r).heartbeats +
          recs.countP (fun t => decide (t.Host = remote ∧ t.Key = k))) ∧
      (∀ r, heap.valid r → (∀ k, g.tuples.m.lookup k ≠ some r) →
        heap1.deref r = heap.deref r) ∧
      g.tuples.WF heap1 := by
  have hmain : ∃ heap1,
      g.MergeRemoteState net heap now remote buf false = some (heap1, g) ∧
      (∀ k r, g.tuples.m.lookup k = some r →
        heap1.deref r =
          if recs.countP (fun t => decide (t.Host = remote ∧ t.Key = k)) = 0 then heap.deref r
          else { heap.deref r with
                 heartbeats := wrapInt64 ((heap.deref r).heartbeats +
                   recs.countP (fun t => decide (t.Host = remote ∧ t.Key = k)))
                 lastseen := now }) ∧
      (∀ r, heap.valid r → (∀ k, g.tuples.m.lookup k ≠ some r) →
        heap1.deref r = heap.deref r) ∧
      g.tuples.WF heap1 := by
    by_cases hne : buf = []
    · subst hne
      have hrecs : recs = [] := by
        simp only [List.length_nil, parseTuplesLoop, Option.some.injEq, Prod.mk.injEq,
          and_true] at hbuf
        exact hbuf.symm
      subst hrecs
      refine ⟨heap, ?_, ?_, fun r _ _ => rfl, hwf⟩
      · simp [tuplesGossipDelegate.MergeRemoteState]
      · intro k r _
        simp
    · refine ⟨_, MergeRemoteState_of_parse g net heap now remote buf recs hne hbuf, ?_, ?_, ?_⟩
      · intro k r hr
        have hwf1 : g.tuples.WF ⟨heap.objs ++ recs⟩ := WF_append hwf recs
        rw [Ping_deref_mapped g.tuples _ now _ hwf1 k r hr, count_remoteKeys,
          deref_append_old heap recs r (WF_lookup hwf hr).1]
      · intro r hv hno
        have := pingFold_deref_other g.tuples now
          ((recs.filter (fun t => decide (t.Host = remote))).map (fun t => t.Key))
          (⟨heap.objs ++ recs⟩, 0) r (fun k _ => hno k)
        rw [← deref_append_old heap recs r hv]
        exact this
      · exact WF_Ping (WF_append hwf recs) now _
  obtain ⟨heap1, h1, h2, h3, h4⟩ := hmain
  refine ⟨heap1, h1, h2, ?_, h3, h4⟩
  intro k r hr hfit
  rw [h2 k r hr]
  split_ifs with h0
  · rw [h0]
    simp
  · exact wrapInt64_of_isInt64 _ hfit

/-- C33 on the store of the three test tuples and the buffer holding the
records of `foo` at `127.0.0.1:8902` and `parent/child/grandchild` at
`127.0.0.1:65432`, received from `127.0.0.1:8902`: the heartbeats of `foo` go
from 0 to 1 and its lastseen to the time of the exchange; the tuple of
`parent/child/grandchild`, attested by a node that does not own it, is
unchanged. -/
theorem MergeRemoteState_pings_attested_witness :
    testDelegateStored.tuples.WF testInserted.1 ∧
    parseTuplesLoop testNet (testStateFrame.length + 1) testStateFrame =
      some ([⟨bytesOf "foo", "127.0.0.1:8902", 0, 0⟩,
        ⟨bytesOf "parent/child/grandchild", "127.0.0.1:65432", 0, 0⟩], none) ∧
    (testDelegateStored.MergeRemoteState testNet testInserted.1 (testNow + 7)
        "127.0.0.1:8902" testStateFrame false).map
        (fun x => (x.1.deref 0, x.1.deref 1, x.2.tuples.m.keys.length)) =
      some (⟨bytesOf "foo", "127.0.0.1:8902", 1, testNow + 7⟩,
        ⟨bytesOf "parent/child/grandchild", "127.0.0.1:65432", 0, testNow⟩, 3) ∧
    ∃ heap1,
      testDelegateStored.MergeRemoteState testNet testInserted.1 (testNow + 7)
        "127.0.0.1:8902" testStateFrame false = some (heap1, testDelegateStored) ∧
      (heap1.deref 0).heartbeats = 1 ∧ heap1.deref 1 = testInserted.1.deref 1 := by
  have hwf : testDelegateStored.tuples.WF testInserted.1 := by decide
  have hbuf : parseTuplesLoop testNet (testStateFrame.length + 1) testStateFrame =
      some ([⟨bytesOf "foo", "127.0.0.1:8902", 0, 0⟩,
        ⟨bytesOf "parent/child/grandchild", "127.0.0.1:65432", 0, 0⟩], none) := by decide
  obtain ⟨heap1, h1, h2, h3, -, -⟩ := MergeRemoteState_pings_attested testDelegateStored testNet
    testInserted.1 (testNow + 7) "127.0.0.1:8902" testStateFrame _ hwf hbuf
  refine ⟨hwf, hbuf, by decide, heap1, h1, ?_, ?_⟩
  · have := h3 (bytesOf "foo") 0 (by decide) (by decide)
    rw [this]
    decide
  · have := h2 (bytesOf "parent/child/grandchild") 1 (by decide)
    rw [this]
    decide

/-! ## State exchange: LocalState -/

/-- The loop of `pingLocalTuples` collects the listed tuples whose host is the
local host, in order, and their keys. -/
theorem collectLocal_foldl (heap : Heap) (host : String) (all : List Ref)
    (acc : List Ref × List Bytes) :
    all.foldl
        (fun acc a =>
          if (heap.deref a).Host = host then (acc.1 ++ [a], acc.2 ++ [(heap.deref a).Key])
          else acc) acc =
      (acc.1 ++ all.filter (fun a => decide ((heap.deref a).Host = host)),
        acc.2 ++ (all.filter (fun a => decide ((heap.deref a).Host = host))).map
          (fun a => (heap.deref a).Key)) := by
  induction all generalizing acc with
  | nil => simp
  | cons a as ih =>
    rw [List.foldl_cons, ih]
    by_cases h : (heap.deref a).Host = host
    · simp [h]
    · simp [h]

theorem pingLocalTuples_eq (g : tuplesGossipDelegate) (heap : Heap) (now : Int) :
    g.pingLocalTuples heap now =
      ((g.tuples.Ping heap now
          (((g.tuples.List heap).filter (fun a => decide ((heap.deref a).Host = g.host))).map
            (fun a => (heap.deref a).Key))).1,
        (g.tuples.List heap).filter (fun a => decide ((heap.deref a).Host = g.host))) := by
  unfold tuplesGossipDelegate.pingLocalTuples
  simp only [collectLocal_foldl, List.nil_append]

/-- A listed tuple is the tuple some key maps to. -/
theorem mem_List_iff (tuples : InmemTuples) (heap : Heap) (r : Ref) :
    r ∈ tuples.List heap ↔ ∃ k, tuples.m.lookup k = some r := by
  unfold InmemTuples.List
  simp only [List.mem_map, Clone_eq]
  constructor
  · rintro ⟨e, he, rfl⟩
    exact ⟨e.1, AList.mem_lookup_iff.2 he⟩
  · rintro ⟨k, hk⟩
    exact ⟨⟨k, r⟩, AList.mem_lookup_iff.1 hk, rfl⟩

/-- Under the invariant the keys of the listed tuples are the keys of the map,
so no key is listed twice. -/
theorem List_keys_nodup (tuples : InmemTuples) (heap : Heap) (hwf : tuples.WF heap)
    (P : Ref → Bool) :
    (((tuples.List heap).filter P).map (fun a => (heap.deref a).Key)).Nodup := by
  have hkeys : (tuples.List heap).map (fun a => (heap.deref a).Key) = tuples.m.keys := by
    unfold InmemTuples.List AList.keys List.keys
    rw [List.map_map]
    apply List.map_congr_left
    intro e he
    exact (hwf e he).2
  have hsub : (((tuples.List heap).filter P).map (fun a => (heap.deref a).Key)).Sublist
      ((tuples.List heap).map (fun a => (heap.deref a).Key)) :=
    List.Sublist.map _ (List.filter_sublist _)
  rw [hkeys] at hsub
  exact List.Nodup.sublist hsub tuples.m.keys_nodup

/-- A member of a list without repetitions occurs in it once. -/
theorem count_eq_one_of_nodup {α : Type} [BEq α] [LawfulBEq α] {l : List α} {a : α}
    (hn : l.Nodup) (hm : a ∈ l) : l.count a = 1 := by
  induction l with
  | nil => cases hm
  | cons b bs ih =>
    rw [List.nodup_cons] at hn
    rw [List.count_cons]
    by_cases hab : b = a
    · subst hab
      have : bs.count b = 0 := List.count_eq_zero.2 hn.1
      simp [this]
    · have hmem : a ∈ bs := by
        cases hm with
        | head => exact absurd rfl hab
        | tail _ h => exact h
      simp [hab, ih hn.2 hmem]

/-- C34: `LocalState` on a store satisfying the invariant, at a node whose host
is an `ip:port` address and whose own tuples have keys of at most 237 bytes.
It returns bytes which `readTuples` decodes directly (there is no host header),
with a nil error, to one record per stored tuple whose Host is the local host,
in the order of `List()`, with the Key of that tuple and the local host as
Host (counters zero): no record twice, and no record for a tuple of another
host. Each stored tuple of the local host has been pinged once (heartbeats
incremented in `int64`, lastseen = now); the tuples of other hosts and every
object no key maps to are unchanged. Without a tuple of the local host no byte
is returned. -/
theorem LocalState_sends_local_pinged (g : tuplesGossipDelegate) (net : Net)
    (heap heapR : Heap) (now : Int) (join : Bool)
    (hwf : g.tuples.WF heap) (hhost : net.isIPPort g.host)
    (hkeys : ∀ k r, g.tuples.m.lookup k = some r → (heap.deref r).Host = g.host →
      k.length ≤ 237) :
    ∃ heap1 buf heapR1 out,
      g.LocalState net heap now join = some (heap1, buf) ∧
      readTuples net heapR buf = some (heapR1, out, none) ∧
      out.map heapR1.deref =
        ((g.tuples.List heap).filter (fun a => decide ((heap.deref a).Host = g.host))).map
          (fun a =>
            { Key := (heap.deref a).Key, Host := g.host, heartbeats := 0, lastseen := 0 }) ∧
      (out.map heapR1.deref).Nodup ∧
      (∀ t, t ∈ out.map heapR1.deref ↔
        ∃ k r, g.tuples.m.lookup k = some r ∧ (heap.deref r).Host = g.host ∧
          t = { Key := k, Host := g.host, heartbeats := 0, lastseen := 0 }) ∧
      (∀ k r, g.tuples.m.lookup k = some r → (heap.deref r).Host = g.host →
        heap1.deref r =
          { heap.deref r with
            heartbeats := wrapInt64 ((heap.deref r).heartbeats + 1), lastseen := now }) ∧
      (∀ k r, g.tuples.m.lookup k = some r → (heap.deref r).Host ≠ g.host →
        heap1.deref r = heap.deref r) ∧
      (∀ r, (∀ k, g.tuples.m.lookup k ≠ some r) → heap1.deref r = heap.deref r) ∧
      ((∀ k r, g.tuples.m.lookup k = some r → (heap.deref r).Host ≠ g.host) → buf = []) := by
  have hnodup := List_keys_nodup g.tuples heap hwf
    (fun a => decide ((heap.deref a).Host = g.host))
  have hmemL : ∀ r, r ∈ (g.tuples.List heap).filter
      (fun a => decide ((heap.deref a).Host = g.host)) ↔
      ∃ k, g.tuples.m.lookup k = some r ∧ (heap.deref r).Host = g.host := by
    intro r
    rw [List.mem_filter, mem_List_iff]
    simp only [decide_eq_true_eq]
    constructor
    · rintro ⟨⟨k, hk⟩, hh⟩
      exact ⟨k, hk, hh⟩
    · rintro ⟨k, hk, hh⟩
      exact ⟨⟨k, hk⟩, hh⟩
  have hcount1 : ∀ k r, g.tuples.m.lookup k = some r → (heap.deref r).Host = g.host →
      (((g.tuples.List heap).filter (fun a => decide ((heap.deref a).Host = g.host))).map
        (fun a => (heap.deref a).Key)).count k = 1 := by
    intro k r hr hh
    apply count_eq_one_of_nodup hnodup
    exact List.mem_map.2 ⟨r, (hmemL r).2 ⟨k, hr, hh⟩, (WF_lookup hwf hr).2⟩
  have hcount0 : ∀ k r, g.tuples.m.lookup k = some r → (heap.deref r).Host ≠ g.host →
      (((g.tuples.List heap).filter (fun a => decide ((heap.deref a).Host = g.host))).map
        (fun a => (heap.deref a).Key)).count k = 0 := by
    intro k r hr hh
    apply List.count_eq_zero.2
    intro hmem
    obtain ⟨a, ha, hka⟩ := List.mem_map.1 hmem
    obtain ⟨k', hk', hha⟩ := (hmemL a).1 ha
    have : k' = k := by rw [← (WF_lookup hwf hk').2]; exact hka
    subst this
    rw [hr] at hk'
    cases hk'
    exact hh hha
  have hpinged : ∀ k r, g.tuples.m.lookup k = some r → (heap.deref r).Host = g.host →
      (g.pingLocalTuples heap now).1.deref r =
        { heap.deref r with
          heartbeats := wrapInt64 ((heap.deref r).heartbeats + 1), lastseen := now } := by
    intro k r hr hh
    rw [pingLocalTuples_eq]
    simp only []
    rw [Ping_deref_mapped g.tuples heap now _ hwf k r hr, hcount1 k r hr hh]
    simp
  have hwritable : ∀ t ∈ (g.pingLocalTuples heap now).2,
      ((g.pingLocalTuples heap now).1.deref t).Key.length ≤ 237 ∧
      net.isIPPort ((g.pingLocalTuples heap now).1.deref t).Host := by
    intro t ht
    rw [pingLocalTuples_eq] at ht
    obtain ⟨k, hk, hh⟩ := (hmemL t).1 ht
    rw [hpinged k t hk hh]
    simp only [(WF_lookup hwf hk).2, hh]
    exact ⟨hkeys k t hk hh, hhost⟩
  obtain ⟨frame, hw, hnil, hp⟩ := write_then_parse net (g.pingLocalTuples heap now).1
    (g.pingLocalTuples heap now).2 [] hwritable
  have hwrite : writeTuples net (g.pingLocalTuples heap now).1 (g.pingLocalTuples heap now).2 =
      some frame := by
    unfold writeTuples
    by_cases h0 : (g.pingLocalTuples heap now).2.length = 0
    · have : (g.pingLocalTuples heap now).2 = [] := List.length_eq_zero.1 h0
      rw [if_pos h0, hnil this]
    · rw [if_neg h0, hw, List.nil_append]
  have hread := readTuplesLoop_eq_parse net (frame.length + 1) frame heapR []
  rw [hp (frame.length + 1) (Nat.lt_succ_self _)] at hread
  simp only [Option.map_some', List.nil_append, List.length_map] at hread
  have hsent : (g.pingLocalTuples heap now).2.map (fun t =>
        ({ Key := ((g.pingLocalTuples heap now).1.deref t).Key,
           Host := ((g.pingLocalTuples heap now).1.deref t).Host,
           heartbeats := 0, lastseen := 0 } : Tuple)) =
      ((g.tuples.List heap).filter (fun a => decide ((heap.deref a).Host = g.host))).map
        (fun a =>
          { Key := (heap.deref a).Key, Host := g.host, heartbeats := 0, lastseen := 0 }) := by
    have h2 : (g.pingLocalTuples heap now).2 =
        (g.tuples.List heap).filter (fun a => decide ((heap.deref a).Host = g.host)) := by
      rw [pingLocalTuples_eq]
    rw [h2]
    apply List.map_congr_left
    intro t ht
    obtain ⟨k, hk, hh⟩ := (hmemL t).1 ht
    rw [hpinged k t hk hh]
    simp only [hh]
  have hdecoded : (List.range' heapR.objs.length (g.pingLocalTuples heap now).2.length).map
        (Heap.deref ⟨heapR.objs ++ (g.pingLocalTuples heap now).2.map (fun t =>
          ({ Key := ((g.pingLocalTuples heap now).1.deref t).Key,
             Host := ((g.pingLocalTuples heap now).1.deref t).Host,
             heartbeats := 0, lastseen := 0 } : Tuple))⟩) =
      ((g.tuples.List heap).filter (fun a => decide ((heap.deref a).Host = g.host))).map
        (fun a =>
          { Key := (heap.deref a).Key, Host := g.host, heartbeats := 0, lastseen := 0 }) := by
    have := map_deref_appended heapR.objs ((g.pingLocalTuples heap now).2.map (fun t =>
      ({ Key := ((g.pingLocalTuples heap now).1.deref t).Key,
         Host := ((g.pingLocalTuples heap now).1.deref t).Host,
         heartbeats := 0, lastseen := 0 } : Tuple)))
    rw [List.length_map] at this
    rw [this, hsent]
  refine ⟨(g.pingLocalTuples heap now).1, frame, _, _, ?_, hread, hdecoded, ?_, ?_, hpinged,
    ?_, ?_, ?_⟩
  · unfold tuplesGossipDelegate.LocalState
    simp only [hwrite]
  · rw [hdecoded]
    have hinj : Function.Injective
        (fun k : Bytes => ({ Key := k, Host := g.host, heartbeats := 0, lastseen := 0 } : Tuple)) := by
      intro a b hab
      simp only [Tuple.mk.injEq, and_true] at hab
      exact hab
    have := List.Nodup.map hinj hnodup
    rw [List.map_map] at this
    exact this
  · intro t
    rw [hdecoded, List.mem_map]
    constructor
    · rintro ⟨a, ha, rfl⟩
      obtain ⟨k, hk, hh⟩ := (hmemL a).1 ha
      exact ⟨k, a, hk, hh, by rw [(WF_lookup hwf hk).2]⟩
    · rintro ⟨k, r, hk, hh, rfl⟩
      exact ⟨r, (hmemL r).2 ⟨k, hk, hh⟩, by rw [(WF_lookup hwf hk).2]⟩
  · intro k r hr hh
    rw [pingLocalTuples_eq]
    simp only []
    rw [Ping_deref_mapped g.tuples heap now _ hwf k r hr, hcount0 k r hr hh]
    simp
  · intro r hno
    rw [pingLocalTuples_eq]
    exact pingFold_deref_other g.tuples now _ (heap, 0) r (fun k _ => hno k)
  · intro hall
    apply hnil
    rw [pingLocalTuples_eq]
    simp only []
    apply List.eq_nil_iff_forall_not_mem.2
    intro a ha
    obtain ⟨k, hk, hh⟩ := (hmemL a).1 ha
    exact hall k a hk hh

/-- C34 at node `127.0.0.1:8902` over the store of the three test tuples:
`LocalState` returns the 22 bytes of the record of `foo`, which decode to `foo`
at `127.0.0.1:8902`; the stored `foo` has heartbeats 1 and the time of the call
as lastseen, the tuple of `127.0.0.1:65432` is as it was. -/
theorem LocalState_sends_local_pinged_witness :
    testDelegateLocal.tuples.WF testInserted.1 ∧ testNet.isIPPort testDelegateLocal.host ∧
    (testDelegateLocal.LocalState testNet testInserted.1 (testNow + 9) false).map
        (fun x => (x.1.deref 0, x.1.deref 1, x.2.length)) =
      some (⟨bytesOf "foo", "127.0.0.1:8902", 1, testNow + 9⟩,
        ⟨bytesOf "parent/child/grandchild", "127.0.0.1:65432", 0, testNow⟩, 22) ∧
    ((testDelegateLocal.LocalState testNet testInserted.1 (testNow + 9) false).bind
        (fun x => readTuples testNet ⟨[]⟩ x.2)).map (fun r => (r.1.objs, r.2.2)) =
      some ([⟨bytesOf "foo", "127.0.0.1:8902", 0, 0⟩], none) ∧
    ∃ heap1 buf heapR1 out,
      testDelegateLocal.LocalState testNet testInserted.1 (testNow + 9) false =
        some (heap1, buf) ∧
      readTuples testNet ⟨[]⟩ buf = some (heapR1, out, none) ∧
      out.map heapR1.deref = [⟨bytesOf "foo", "127.0.0.1:8902", 0, 0⟩] ∧
      (heap1.deref 0).heartbeats = 1 := by
  have hwf : testDelegateLocal.tuples.WF testInserted.1 := by decide
  have hhost : testNet.isIPPort testDelegateLocal.host := by decide
  have hent : ∀ e ∈ testDelegateLocal.tuples.m.entries, e.1.length ≤ 237 := by decide
  obtain ⟨heap1, buf, heapR1, out, h1, h2, h3, -, -, h4, -⟩ :=
    LocalState_sends_local_pinged testDelegateLocal testNet testInserted.1 ⟨[]⟩ (testNow + 9)
      false hwf hhost (fun k r hr _ => hent ⟨k, r⟩ (AList.mem_lookup_iff.1 hr))
  refine ⟨hwf, hhost, by decide, by decide, heap1, buf, heapR1, out, h1, h2, ?_, ?_⟩
  · rw [h3]
    decide
  · rw [h4 (bytesOf "foo") 0 (by decide) (by decide)]
    decide

/-! ## TTL as a bound on the number of forwards -/

/-- A home group makes no transport call for a request whose TTL is 0. -/
theorem home_Lookup_TTL_zero (group : affinityGroup) (heap : Heap) (rt : Runtime)
    (req : Request) (h : req.TTL = 0) :
    ∃ res, group.Lookup heap rt req = some (res, []) := by
  unfold affinityGroup.Lookup
  cases group.tuples.Lookup heap req.Key with
  | some tuple => exact ⟨_, rfl⟩
  | none =>
    simp only [h, if_true]
    exact ⟨_, rfl⟩

/-- The transport call of a home group's `Lookup` that made one carries the TTL
lowered by one, and the request it was made for had a TTL other than 0. -/
theorem home_Lookup_call (group : affinityGroup) (heap : Heap) (rt : Runtime) (req : Request)
    (res : Result) (c : GroupContact) (nreq : Request)
    (h : group.Lookup heap rt req = some (res, [TransportCall.Lookup c nreq])) :
    req.TTL ≠ 0 ∧ nreq.TTL = wrapInt64 (req.TTL - 1) := by
  have h2 : (AffinityGroup.home group).Lookup heap rt req =
      some (.home group, req, res, [TransportCall.Lookup c nreq]) := by
    simp only [AffinityGroup.Lookup, h, Option.map_some']
  obtain ⟨-, -, -, hcase⟩ := Lookup_one_call _ heap rt req _ _ _ _ _ h2
  rcases hcase with ⟨g, hg, -, httl, hn, -, -⟩ | ⟨g, hg, -⟩
  · exact ⟨httl, hn⟩
  · cases hg

/-- With a depth of at least the TTL the lookup does not depend on the depth:
the delivering transport never times out. -/
theorem homeLookup_depth (serve : GroupContact → HomeReceiver) (n : Nat) :
    ∀ (d1 d2 : Nat) (r : HomeReceiver) (req : Request), req.TTL = (n : Int) →
      (n : Int) ≤ maxInt64 → n ≤ d1 → n ≤ d2 →
      homeLookup serve d1 r req = homeLookup serve d2 r req := by
  induction n with
  | zero =>
    intro d1 d2 r req hreq _ _ _
    unfold homeLookup affinityGroup.Lookup
    simp only []
    cases r.group.tuples.Lookup r.heap req.Key with
    | some tuple => rfl
    | none =>
      have h0 : req.TTL = 0 := by simpa using hreq
      simp only [h0, if_true]
  | succ n ih =>
    intro d1 d2 r req hreq hmax h1 h2
    obtain ⟨e1, rfl⟩ : ∃ e1, d1 = e1 + 1 := ⟨d1 - 1, by omega⟩
    obtain ⟨e2, rfl⟩ : ∃ e2, d2 = e2 + 1 := ⟨d2 - 1, by omega⟩
    unfold homeLookup affinityGroup.Lookup
    simp only []
    cases r.group.tuples.Lookup r.heap req.Key with
    | some tuple => rfl
    | none =>
      have h0 : req.TTL ≠ 0 := by rw [hreq]; push_cast; omega
      simp only [if_neg h0]
      cases hc : r.group.contacts.GetClosest r.rt with
      | mk p ok =>
        cases ok with
        | false => cases p <;> rfl
        | true =>
          cases p with
          | none => rfl
          | some p =>
            simp only [homeTransport]
            have hw : wrapInt64 (req.TTL - 1) = (n : Int) := by
              rw [hreq]
              push_cast
              rw [Int.add_sub_cancel]
              apply wrapInt64_of_isInt64
              unfold isInt64 minInt64
              unfold maxInt64 at hmax ⊢
              push_cast at hmax
              constructor <;> omega
            have hmax' : (n : Int) ≤ maxInt64 := by
              unfold maxInt64 at hmax ⊢
              push_cast at hmax
              omega
            have := ih e1 e2 (serve ⟨r.group.ID, p.Address⟩)
              ⟨copy (List.replicate req.Key.length 0) req.Key, wrapInt64 (req.TTL - 1),
                r.group.toGroupContact⟩ hw hmax' (by omega) (by omega)
            unfold homeLookup at this
            rw [this]

theorem wrapInt64_pred (n : Nat) (hmax : (n : Int) ≤ maxInt64) :
    wrapInt64 ((n : Int) - 1) = (n : Int) - 1 := by
  apply wrapInt64_of_isInt64
  unfold isInt64 minInt64
  unfold maxInt64 at hmax ⊢
  constructor <;> omega

/-- The requests forwarded during a lookup that starts with TTL `n`: at most
`n`, the one forwarded at step `i` (counted from 0) carrying TTL `n - (i + 1)`,
whatever the depth the transport allows. -/
theorem forwardedRequests_spec (serve : GroupContact → HomeReceiver) (d : Nat) :
    ∀ (n : Nat) (r : HomeReceiver) (req : Request), req.TTL = (n : Int) →
      (n : Int) ≤ maxInt64 →
      (forwardedRequests serve d r req).length ≤ n ∧
      ∀ (i : Nat) (nreq : Request), (forwardedRequests serve d r req)[i]? = some nreq →
        nreq.TTL = (n : Int) - ((i : Int) + 1) := by
  induction d with
  | zero =>
    intro n r req hreq hmax
    rw [forwardedRequests]
    split
    · rename_i res c nreq heq
      obtain ⟨h0, hn⟩ := home_Lookup_call _ _ _ _ _ _ _ heq
      rw [hreq] at h0 hn
      have hpos : 0 < n := by
        rcases Nat.eq_zero_or_pos n with h | h
        · subst h; exact absurd rfl h0
        · exact h
      refine ⟨hpos, ?_⟩
      intro i x hx
      cases i with
      | zero =>
        simp only [List.getElem?_cons_zero, Option.some.injEq] at hx
        subst hx
        rw [hn, wrapInt64_pred n hmax]
        simp
      | succ i => simp at hx
    · exact ⟨Nat.zero_le _, fun i x hx => by simp at hx⟩
  | succ d ih =>
    intro n r req hreq hmax
    rw [forwardedRequests]
    split
    · rename_i res c nreq heq
      obtain ⟨h0, hn⟩ := home_Lookup_call _ _ _ _ _ _ _ heq
      rw [hreq] at h0 hn
      have hpos : 0 < n := by
        rcases Nat.eq_zero_or_pos n with h | h
        · subst h; exact absurd rfl h0
        · exact h
      obtain ⟨m, rfl⟩ : ∃ m, n = m + 1 := ⟨n - 1, by omega⟩
      have hm : nreq.TTL = (m : Int) := by
        rw [hn, wrapInt64_pred (m + 1) hmax]
        push_cast
        omega
      have hmax' : (m : Int) ≤ maxInt64 := by
        unfold maxInt64 at hmax ⊢
        push_cast at hmax
        omega
      obtain ⟨hlen, hidx⟩ := ih m (serve c) nreq hm hmax'
      refine ⟨by simp only [List.length_cons]; omega, ?_⟩
      intro i x hx
      cases i with
      | zero =>
        simp only [List.getElem?_cons_zero, Option.some.injEq] at hx
        subst hx
        rw [hm]
        push_cast
        omega
      | succ i =>
        simp only [List.getElem?_cons_succ] at hx
        rw [hidx i x hx]
        push_cast
        omega
    · exact ⟨Nat.zero_le _, fun i x hx => by simp at hx⟩

/-- C35: a request with TTL `t`, `0 <= t`, entering the `Lookup` of a home
group over a transport that delivers each forwarded request to the `Lookup` of
a home group. The lookup returns without the transport needing more than `t`
nested calls: with any depth of at least `t` allowed it gives what it gives
with depth `t`. Whatever depth is allowed at most `t` requests are forwarded,
and the request forwarded at step `i` (from 0) carries TTL `t - (i + 1)`: one
less at each forward. A home group given a request whose TTL is 0 makes no
transport call. -/
theorem Lookup_TTL_bounds_forwards (serve : GroupContact → HomeReceiver) (r : HomeReceiver)
    (req : Request) (t : Nat) (httl : req.TTL = (t : Int)) (hmax : req.TTL ≤ maxInt64) :
    (∀ d, t ≤ d → homeLookup serve d r req = homeLookup serve t r req) ∧
    (∀ d, (forwardedRequests serve d r req).length ≤ t) ∧
    (∀ (d i : Nat) (nreq : Request), (forwardedRequests serve d r req)[i]? = some nreq →
      nreq.TTL = req.TTL - ((i : Int) + 1)) ∧
    (∀ (group : affinityGroup) (heap : Heap) (rt : Runtime) (req0 : Request), req0.TTL = 0 →
      ∃ res, group.Lookup heap rt req0 = some (res, [])) := by
  have hmax' : (t : Int) ≤ maxInt64 := httl ▸ hmax
  refine ⟨?_, ?_, ?_, home_Lookup_TTL_zero⟩
  · intro d hd
    exact homeLookup_depth serve t d t r req httl hmax' hd (Nat.le_refl _)
  · intro d
    exact (forwardedRequests_spec serve d t r req httl hmax').1
  · intro d i nreq h
    rw [httl]
    exact (forwardedRequests_spec serve d t r req httl hmax').2 i nreq h

/-- C35 on two home groups with empty stores that forward to each other: the
lookup of `foo` with TTL 3 at `127.0.0.1:9000` forwards three requests, with
TTL 2, 1 and 0, and fails with `errReqTTLReached`, with depth 3 as with depth
10 allowed. -/
theorem Lookup_TTL_bounds_forwards_witness :
    testRequest3.TTL = ((3 : Nat) : Int) ∧
    (forwardedRequests testServe 10 (testServe ⟨0, "127.0.0.1:9000"⟩) testRequest3).map
        (fun q => (q.TTL, q.Originator.Host)) =
      [(2, "127.0.0.1:9000"), (1, "127.0.0.1:9001"), (0, "127.0.0.1:9000")] ∧
    (homeLookup testServe 3 (testServe ⟨0, "127.0.0.1:9000"⟩) testRequest3).map (fun x => x.1) =
      some ("", some errReqTTLReached) ∧
    homeLookup testServe 10 (testServe ⟨0, "127.0.0.1:9000"⟩) testRequest3 =
      homeLookup testServe 3 (testServe ⟨0, "127.0.0.1:9000"⟩) testRequest3 ∧
    (forwardedRequests testServe 10 (testServe ⟨0, "127.0.0.1:9000"⟩) testRequest3).length ≤ 3 :=
  ⟨by decide, by decide, by decide,
    (Lookup_TTL_bounds_forwards testServe (testServe ⟨0, "127.0.0.1:9000"⟩) testRequest3 3
      (by decide) (by decide)).1 10 (by decide),
    (Lookup_TTL_bounds_forwards testServe (testServe ⟨0, "127.0.0.1:9000"⟩) testRequest3 3
      (by decide) (by decide)).2.1 10⟩

/-! ## Home group: Insert picks a member of the directory -/

/-- The peers left of the slots the library returned, when each requested
address resolved to a peer at that address: one per address, in order. -/
theorem resolved_addresses (l : List (Option Peer)) (cs : List String)
    (h : l.map (Option.map Peer.Address) = cs.map some) :
    (peersToPeerContacts l).map Peer.Address = cs := by
  unfold peersToPeerContacts
  induction l generalizing cs with
  | nil =>
    cases cs with
    | nil => rfl
    | cons a as => simp at h
  | cons o os ih =>
    cases cs with
    | nil => simp at h
    | cons a as =>
      simp only [List.map_cons, List.cons.injEq] at h
      obtain ⟨h1, h2⟩ := h
      cases o with
      | none => simp at h1
      | some p =>
        simp only [Option.map_some', Option.some.injEq] at h1
        simp only [List.filterMap_cons, List.map_cons, h1, ih as h2]

/-- The peers a directory lists carry, as addresses, exactly the addresses the
directory holds, once its members are known under them. -/
theorem List_addresses (cs : ContactStorage) (order : RangeOrder) (h : cs.Resolved) :
    ((cs.List order).map Peer.Address).Perm cs.addresses := by
  cases cs with
  | inmem c => exact inmem_List_addresses c order h
  | gossip g =>
    simp only [ContactStorage.List, ContactStorage.addresses, gossipContactStorage.List]
    rw [resolved_addresses _ _ h]

/-- C5: `Insert(key)` on the home group, the store satisfying the invariant and
the members of the contact directory known under the addresses it holds (for
the in-memory directory: each peer stored under its own address; for the
gossip-backed one: the library resolves the addresses of the slice). With a
directory that holds no address it fails with `errNoContacts`, heap, store and
group unchanged. With a directory that holds an address it returns, with a nil
error and no transport call, the address of a peer the directory lists, which
is one of the addresses the directory holds, and changes only the heap and the
group's store; afterwards the store holds `key`: with the tuple it held before
when the key was present (no overwrite), and with a tuple for `key` whose Host
is the returned host when it was absent. -/
theorem home_Insert_picks_listed_peer (group : affinityGroup) (heap : Heap) (rt : Runtime)
    (now : Int) (key : Bytes) (hwf : group.tuples.WF heap) (hdir : group.contacts.Resolved) :
    (group.contacts.addresses = [] →
      group.Insert heap rt now key = some (heap, group, ("", some errNoContacts), [])) ∧
    (group.contacts.addresses ≠ [] →
      ∃ p ∈ group.contacts.List rt.order, p.Address ∈ group.contacts.addresses ∧
        ∃ heap1 tuples1,
          group.Insert heap rt now key =
            some (heap1, { group with tuples := tuples1 }, (p.Address, none), []) ∧
          tuples1.WF heap1 ∧
          (∀ t, group.tuples.get heap key = some t → tuples1.get heap1 key = some t) ∧
          (group.tuples.get heap key = none →
            tuples1.get heap1 key =
              some { Key := key, Host := p.Address, heartbeats := 0, lastseen := now })) := by
  obtain ⟨hempty, hsome⟩ := GetRandom_spec group.contacts rt
  have hperm := List_addresses group.contacts rt.order hdir
  constructor
  · intro h
    rw [h] at hperm
    have hnil : group.contacts.List rt.order = [] :=
      List.map_eq_nil_iff.1 (List.perm_nil.1 hperm)
    unfold affinityGroup.Insert
    rw [hempty hnil]
  · intro h
    have hne : group.contacts.List rt.order ≠ [] := by
      intro hnil
      rw [hnil] at hperm
      exact h (List.nil_perm.1 hperm)
    obtain ⟨p, hp, hr⟩ := hsome hne
    obtain ⟨heap1, tuples1, h1, h2, h3, h4⟩ :=
      home_Insert_of_random group heap rt now key p hwf hr
    exact ⟨p, hp, hperm.mem_iff.1 (List.mem_map_of_mem _ hp), heap1, tuples1, h1, h2, h3, h4⟩

/-- C5 on three home groups of node `127.0.0.1:9000` with an empty store. Over
the in-memory directory holding two peers `Insert("foo")` returns the address
of one of them and stores `foo` under it. Over the gossip-backed directory
holding the node itself and `127.0.0.1:9001`, with `rand.Int()` = 1, it returns
`127.0.0.1:9001`, an address the directory holds. Over the gossip-backed
directory that holds no address it fails with `errNoContacts`. -/
theorem home_Insert_picks_listed_peer_witness :
    testHome.tuples.WF ⟨[]⟩ ∧ testHome.contacts.Resolved ∧
    testHome.contacts.addresses ≠ [] ∧
    testHomeGossipPeered.contacts.Resolved ∧
    testHomeGossipPeered.contacts.addresses = ["127.0.0.1:9000", "127.0.0.1:9001"] ∧
    (testHomeGossipPeered.Insert ⟨[]⟩ ⟨RangeOrder.stored, 1⟩ testNow (bytesOf "foo")).map
        (fun r => (r.2.1.tuples.get r.1 (bytesOf "foo"), r.2.2)) =
      some (some ⟨bytesOf "foo", "127.0.0.1:9001", 0, testNow⟩,
        ("127.0.0.1:9001", none), []) ∧
    testHomeGossipEmpty.contacts.addresses = [] ∧
    testHomeGossipEmpty.Insert ⟨[]⟩ ⟨RangeOrder.stored, 1⟩ testNow (bytesOf "foo") =
      some (⟨[]⟩, testHomeGossipEmpty, ("", some errNoContacts), []) ∧
    (∃ p ∈ testHome.contacts.List RangeOrder.stored, p.Address ∈ testHome.contacts.addresses ∧
      ∃ heap1 tuples1,
        testHome.Insert ⟨[]⟩ ⟨RangeOrder.stored, 0⟩ testNow (bytesOf "foo") =
          some (heap1, { testHome with tuples := tuples1 }, (p.Address, none), []) ∧
        tuples1.WF heap1 ∧
        (∀ t, testHome.tuples.get ⟨[]⟩ (bytesOf "foo") = some t →
          tuples1.get heap1 (bytesOf "foo") = some t) ∧
        (testHome.tuples.get ⟨[]⟩ (bytesOf "foo") = none →
          tuples1.get heap1 (bytesOf "foo") =
            some { Key := bytesOf "foo", Host := p.Address, heartbeats := 0,
                   lastseen := testNow })) ∧
    (∃ p ∈ testHomeGossipPeered.contacts.List RangeOrder.stored,
      p.Address ∈ testHomeGossipPeered.contacts.addresses ∧
      ∃ heap1 tuples1,
        testHomeGossipPeered.Insert ⟨[]⟩ ⟨RangeOrder.stored, 1⟩ testNow (bytesOf "foo") =
          some (heap1, { testHomeGossipPeered with tuples := tuples1 },
            (p.Address, none), []) ∧
        tuples1.WF heap1 ∧
        (∀ t, testHomeGossipPeered.tuples.get ⟨[]⟩ (bytesOf "foo") = some t →
          tuples1.get heap1 (bytesOf "foo") = some t) ∧
        (testHomeGossipPeered.tuples.get ⟨[]⟩ (bytesOf "foo") = none →
          tuples1.get heap1 (bytesOf "foo") =
            some { Key := bytesOf "foo", Host := p.Address, heartbeats := 0,
                   lastseen := testNow })) :=
  ⟨by decide, by decide, by decide, by decide, by decide, by decide, by decide,
    (home_Insert_picks_listed_peer testHomeGossipEmpty ⟨[]⟩ ⟨RangeOrder.stored, 1⟩ testNow
      (bytesOf "foo") (by decide) (by decide)).1 (by decide),
    (home_Insert_picks_listed_peer testHome ⟨[]⟩ ⟨RangeOrder.stored, 0⟩ testNow
      (bytesOf "foo") (by decide) (by decide)).2 (by decide),
    (home_Insert_picks_listed_peer testHomeGossipPeered ⟨[]⟩ ⟨RangeOrder.stored, 1⟩ testNow
      (bytesOf "foo") (by decide) (by decide)).2 (by decide)⟩

end GoKelips
